import Mathlib


/-!
# HtmlParser: a shallow embedding of `parser.go` and `tag_ext.go`

Go strings are held as the list of their runes.  The parse loop keeps the
Go pointer `current` as the chain `current, current.Parent, ...`; see
`ParseState`.
-/

namespace HtmlParser

/-- A Go string, as the sequence of its runes. -/
abbrev Str := List Char

/-! ## Go standard library -/

/-- Go `unicode.IsSpace`: the runes that `strings.TrimSpace` strips. -/
def isSpace (r : Char) : Bool :=
  r = '\t' || r = '\n' || r = Char.ofNat 0x0B || r = Char.ofNat 0x0C || r = '\r' || r = ' '
    || r = Char.ofNat 0x85 || r = Char.ofNat 0xA0 || r = Char.ofNat 0x1680
    || (decide (0x2000 ≤ r.toNat) && decide (r.toNat ≤ 0x200A))
    || r = Char.ofNat 0x2028 || r = Char.ofNat 0x2029 || r = Char.ofNat 0x202F
    || r = Char.ofNat 0x205F || r = Char.ofNat 0x3000

/-- Go `strings.TrimSpace`: drop the leading and the trailing white space. -/
def TrimSpace (s : Str) : Str :=
  ((s.dropWhile isSpace).reverse.dropWhile isSpace).reverse

/-- Decimal digits of a number, as `%d` prints them. -/
def fmtInt (n : Nat) : Str := Nat.toDigits 10 n

/-- Order of `sort.Strings`: lexicographic on the runes (which is the byte order
of the UTF-8 encodings). -/
def strLe : Str → Str → Bool
  | [], _ => true
  | _ :: _, [] => false
  | a :: as, b :: bs => if a.toNat < b.toNat then true else if b.toNat < a.toNat then false else strLe as bs

/-- Insert a key in an ascending list of keys. -/
def insertKey (k : Str) : List Str → List Str
  | [] => [k]
  | x :: xs => if strLe k x then k :: x :: xs else x :: insertKey k xs

/-- Go `sort.Strings`, as an insertion sort. -/
def sortStrings : List Str → List Str
  | [] => []
  | k :: ks => insertKey k (sortStrings ks)

/-! ## parser.go: `isWhitespace` -/

/-- Go `isWhitespace` of parser.go. -/
def isWhitespace (r : Char) : Bool :=
  r = ' ' || r = '\t' || r = '\n' || r = '\r'

/-! ## The scanner -/

/-- Line and column after one more rune: a newline starts the next line at
column 1, any other rune moves one column on. -/
def bump (lc : Nat × Nat) (r : Char) : Nat × Nat :=
  if r = '\n' then (lc.1 + 1, 1) else (lc.1, lc.2 + 1)

/-- Modelled from the spec: the `Scanner` type, whose declaration and methods are
not among the sources.  It is a cursor (offset, line, column) over an immutable
buffer of runes. -/
structure Scanner where
  src : Str
  pos : Nat
  line : Nat
  column : Nat
deriving DecidableEq, Repr

/-- Modelled from the spec: the end-of-input sentinel that `Current` and
`PeekNext` return.  The parser compares these results only with markup runes and
tests `EOF` apart, so the value chosen is immaterial. -/
def eofRune : Char := Char.ofNat 0

namespace Scanner

/-- Modelled from the spec: `NewScanner`, a cursor at offset 0, line 1, column 1. -/
def New (html : Str) : Scanner := ⟨html, 0, 1, 1⟩

/-- The text from the cursor to the end of the buffer. -/
def rest (s : Scanner) : Str := s.src.drop s.pos

/-- Modelled from the spec: `EOF`. -/
def EOF (s : Scanner) : Bool := s.rest.isEmpty

/-- Modelled from the spec: `Current`, the rune at the cursor or the sentinel. -/
def Current (s : Scanner) : Char := s.rest.headD eofRune

/-- Modelled from the spec: `PeekNext`, the rune one past the cursor or the
sentinel. -/
def PeekNext (s : Scanner) : Char := (s.rest.drop 1).headD eofRune

/-- Modelled from the spec: `Position`, the offset of the cursor. -/
def Position (s : Scanner) : Nat := s.pos

/-- Modelled from the spec: `Len`, the length of the buffer. -/
def Len (s : Scanner) : Nat := s.src.length

/-- Modelled from the spec: `Line`. -/
def Line (s : Scanner) : Nat := s.line

/-- Modelled from the spec: `Column`. -/
def Column (s : Scanner) : Nat := s.column

/-- Move the cursor over `run`, the runes found at the cursor, with the line and
column bookkeeping of `take` for each of them. -/
def advance (s : Scanner) (run : Str) : Scanner :=
  { src := s.src
    pos := s.pos + run.length
    line := (run.foldl bump (s.line, s.column)).1
    column := (run.foldl bump (s.line, s.column)).2 }

/-- Modelled from the spec: `Take`, consume the current rune (nothing at the end
of input). -/
def Take (s : Scanner) : Scanner := s.advance (s.rest.take 1)

/-- Modelled from the spec: `Match`, consume one rune iff it equals `ch`. -/
def Match (s : Scanner) (ch : Char) : Bool × Scanner :=
  match s.rest with
  | [] => (false, s)
  | c :: _ => if c = ch then (true, s.advance [c]) else (false, s)

/-- Modelled from the spec: `MatchString`, consume the literal iff the buffer at
the cursor starts with it. -/
def MatchString (s : Scanner) (lit : Str) : Bool × Scanner :=
  if lit.isPrefixOf s.rest then (true, s.advance lit) else (false, s)

/-- Modelled from the spec: `ConsumeWhile`, consume and return the maximal run of
runes satisfying the predicate. -/
def ConsumeWhile (s : Scanner) (p : Char → Bool) : Str × Scanner :=
  (s.rest.takeWhile p, s.advance (s.rest.takeWhile p))

/-- Modelled from the spec: `ConsumeUntil`, consume up to (not including) the
first rune satisfying the predicate, or to the end of input. -/
def ConsumeUntil (s : Scanner) (p : Char → Bool) : Scanner :=
  s.advance (s.rest.takeWhile (fun r => !p r))

/-- The runes of `text` before the first place where `lit` starts (all of `text`
when `lit` does not occur). -/
def beforeLit (lit : Str) : Str → Str
  | [] => []
  | c :: cs => if lit.isPrefixOf (c :: cs) then [] else c :: beforeLit lit cs

/-- Modelled from the spec: `ConsumeUntilString`, consume until the literal is
found at the cursor (not consuming it), or to the end of input. -/
def ConsumeUntilString (s : Scanner) (lit : Str) : Scanner :=
  s.advance (beforeLit lit s.rest)

/-- Modelled from the spec: `SkipWhitespace`, consume a maximal run of space, tab,
newline and carriage return. -/
def SkipWhitespace (s : Scanner) : Scanner :=
  s.advance (s.rest.takeWhile isWhitespace)

/-- Modelled from the spec: `Slice`, the runes at offsets `start ≤ i < stop`. -/
def Slice (s : Scanner) (start stop : Nat) : Str :=
  (s.src.drop start).take (stop - start)

/-- Modelled from the spec: `SliceFrom`, the runes from `start` to the cursor. -/
def SliceFrom (s : Scanner) (start : Nat) : Str := s.Slice start s.pos

/-- Modelled from the spec: `Location`, the text `line:column`. -/
def Location (s : Scanner) : Str := fmtInt s.line ++ ":".toList ++ fmtInt s.column

/-- The least offset at most `k` runes beyond the cursor `(off, lc)` whose line
and column are `target`, if any. -/
def findOffset (target : Nat × Nat) : Str → Nat → Nat × Nat → Option Nat
  | [], off, lc => if lc = target then some off else none
  | c :: cs, off, lc => if lc = target then some off else findOffset target cs (off + 1) (bump lc c)

/-- Modelled from the spec: `SetLocation`, put the cursor back at a recorded line
and column and at the offset they correspond to (the cursor stays where it is
when no offset has that line and column). -/
def SetLocation (s : Scanner) (line column : Nat) : Scanner :=
  match findOffset (line, column) s.src 0 (1, 1) with
  | some off => { s with pos := off, line := line, column := column }
  | none => s

end Scanner

/-! ## The tree -/

/-- Modelled from the spec: the `HtmlAttribute` struct, whose declaration is not
among the sources, with the fields the sources use. -/
structure HtmlAttribute where
  Name : Str
  Value : Str
  IsValueExist : Bool
deriving DecidableEq, Repr

/-- Modelled from the spec: the `Position` struct, whose declaration is not among
the sources.  The sources set `Line` and `Column` only; the offset of the spec
keeps its zero value. -/
structure Position where
  Line : Nat
  Column : Nat
  Offset : Nat := 0
deriving DecidableEq, Repr

/-- Modelled from the spec: the `HtmlTag` struct, whose declaration is not among
the sources, with the fields the sources use.  `Attributes` (a Go map) is a list of
keys with their values in which a key occurs once; `Children` holds the child nodes
themselves, and the `Parent` of a node is the node whose `Children` hold it. -/
structure HtmlTag where
  Name : Str
  Attributes : List (Str × HtmlAttribute)
  Children : List HtmlTag
  InnerHtml : Str
  InnerContent : Str
  IsSelfClosing : Bool
  Pos : Position
  htmlStart : Nat
deriving Repr

/-- Go `m[key] = value` on a map: replace the value of a present key, add an absent
key. -/
def mapSet (m : List (Str × HtmlAttribute)) (key : Str) (value : HtmlAttribute) :
    List (Str × HtmlAttribute) :=
  match m with
  | [] => [(key, value)]
  | (k, v) :: rest => if k = key then (key, value) :: rest else (k, v) :: mapSet rest key value

/-- Go `m[key]` on a map: the value of the key, the zero value when absent. -/
def mapGet (m : List (Str × HtmlAttribute)) (key : Str) : HtmlAttribute :=
  match m with
  | [] => ⟨[], [], false⟩
  | (k, v) :: rest => if k = key then v else mapGet rest key

/-- What a call returns: a value, a Go `error` with its message, a nil-pointer
panic, or no answer within the iterations allowed. -/
inductive Outcome (α : Type) where
  | ok (a : α)
  | error (msg : Str)
  | nilDeref
  | outOfFuel
deriving Repr

/-- The `DefaultHtmlParser` struct: the registered handlers by tag name.  A handler
gets the scanner and returns a node and the scanner as it left it, or an error. -/
structure DefaultHtmlParser where
  customHandlers : Str → Option (Scanner → Outcome (HtmlTag × Scanner))

/-- Go `NewHtmlParser`: no handler registered. -/
def NewHtmlParser : DefaultHtmlParser := ⟨fun _ => none⟩

/-! ## parser.go: attributes and tags -/

/-- The predicate of the `ConsumeWhile` that reads an attribute name. -/
def attrNameRune (r : Char) : Bool := r != '=' && r != '>' && r != '/' && !isWhitespace r

/-- The predicate of the `ConsumeWhile` that reads an unquoted attribute value. -/
def unquotedRune (r : Char) : Bool := !isWhitespace r && r != '>' && r != '/'

/-- The predicate of the `ConsumeWhile` that reads the name of an opening tag. -/
def nameRune (r : Char) : Bool := r != '>' && r != '/' && !isWhitespace r

/-- The predicate of the `ConsumeWhile` that reads the name of a closing tag. -/
def closingNameRune (r : Char) : Bool :=
  r != '>' && r != ' ' && r != '\t' && r != '\n' && r != '\r'

/-- The predicate `r == ch` of a `ConsumeUntil`. -/
def isRune (ch r : Char) : Bool := r == ch

/-- Go `parseAttribute`. -/
def parseAttribute (s0 : Scanner) : Outcome (HtmlAttribute × Scanner) :=
  let s1 := s0.SkipWhitespace
  let (attrName, s2) := s1.ConsumeWhile attrNameRune
  if attrName = [] then
    .error ("empty attribute name at ".toList ++ s2.Location)
  else
    let s3 := s2.SkipWhitespace
    if s3.Current = '=' then
      let s4 := s3.Take.SkipWhitespace
      if s4.Current = '"' ∨ s4.Current = Char.ofNat 39 then
        let quote := s4.Current
        let s5 := s4.Take
        let valueStart := s5.Position
        let s6 := s5.ConsumeUntil (isRune quote)
        let value := TrimSpace (s6.SliceFrom valueStart)
        let (m, s7) := s6.Match quote
        if !m then
          .error ("unclosed attribute value at ".toList ++ s7.Location)
        else
          .ok (⟨attrName, value, true⟩, s7)
      else
        let (raw, s5) := s4.ConsumeWhile unquotedRune
        .ok (⟨attrName, TrimSpace raw, true⟩, s5)
    else
      .ok (⟨attrName, [], false⟩, s3)

/-- The loop `for scanner.Current() != '>' && !scanner.EOF() { scanner.Take() }`
of the style/script branch, run for at most `fuel` iterations. -/
def skipToTagEnd : Nat → Scanner → Scanner
  | 0, s => s
  | fuel + 1, s => if s.Current ≠ '>' ∧ s.EOF = false then skipToTagEnd fuel s.Take else s

/-- The attribute loop of `parsingOpenTag`, run for at most `fuel` iterations:
the attributes read so far and the scanner. -/
def attributeLoop : Nat → Scanner → List (Str × HtmlAttribute) →
    Outcome (List (Str × HtmlAttribute) × Scanner)
  | 0, _, _ => .outOfFuel
  | fuel + 1, s, attrs =>
    if s.EOF = false ∧ s.Current ≠ '>' ∧ s.Current ≠ '/' then
      match parseAttribute s with
      | .ok (attr, s1) => attributeLoop fuel s1.SkipWhitespace (mapSet attrs attr.Name attr)
      | .error msg => .error msg
      | .nilDeref => .nilDeref
      | .outOfFuel => .outOfFuel
    else
      .ok (attrs, s)

/-- Go `parsingOpenTag`.  Each of its two loops consumes at least one rune per
iteration, so the length of the buffer bounds their iterations. -/
def parsingOpenTag (parser : DefaultHtmlParser) (s0 : Scanner) : Outcome (HtmlTag × Scanner) :=
  let startLine := s0.Line
  let startColumn := s0.Column
  let (m1, s1) := s0.Match '<'
  if !m1 then
    .error ("expected '<' at ".toList ++ s1.Location)
  else
    let s2 := s1.SkipWhitespace
    let (tagName, s3) := s2.ConsumeWhile nameRune
    if tagName = [] then
      .error ("empty tag name at ".toList ++ s3.Location)
    else
      match parser.customHandlers tagName with
      | some handler => handler (s3.SetLocation startLine startColumn)
      | none =>
        if tagName = "style".toList ∨ tagName = "script".toList then
          let s4 := skipToTagEnd s3.Len s3
          let (m2, s5) := s4.Match '>'
          if !m2 then
            .error ("expected '>' at ".toList ++ s5.Location)
          else
            let contentStart := s5.Position
            let endTag := "</".toList ++ tagName ++ ">".toList
            let s6 := s5.ConsumeUntilString endTag
            let content := s6.Slice contentStart s6.Position
            let s7 := (s6.MatchString endTag).2
            .ok ({ Name := tagName, Attributes := [], Children := [], InnerHtml := content,
                   InnerContent := [], IsSelfClosing := true,
                   Pos := { Line := startLine, Column := startColumn }, htmlStart := 0 }, s7)
        else
          let s4 := s3.SkipWhitespace
          match attributeLoop (s4.Len + 1) s4 [] with
          | .error msg => .error msg
          | .nilDeref => .nilDeref
          | .outOfFuel => .outOfFuel
          | .ok (attrs, s5) =>
            let selfClosing : Bool := s5.Current = '/'
            let s6 := if s5.Current = '/' then s5.Take else s5
            let (m3, s7) := s6.Match '>'
            if !m3 then
              .error ("expected '>' at ".toList ++ s7.Location)
            else
              .ok ({ Name := tagName, Attributes := attrs, Children := [], InnerHtml := [],
                     InnerContent := [], IsSelfClosing := selfClosing,
                     Pos := { Line := startLine, Column := startColumn },
                     htmlStart := s7.Position }, s7)

/-- Go `parseClosingTag`. -/
def parseClosingTag (s0 : Scanner) : Outcome (Str × Scanner) :=
  let (m1, s1) := s0.Match '<'
  let (m2, s2) := if m1 then s1.Match '/' else (false, s1)
  if !(m1 && m2) then
    .error ("expected '</' at ".toList ++ s2.Location)
  else
    let s3 := s2.SkipWhitespace
    let (tagName, s4) := s3.ConsumeWhile closingNameRune
    if tagName = [] then
      .error ("empty tag name at ".toList ++ s4.Location)
    else
      let s5 := s4.SkipWhitespace
      let (m3, s6) := s5.Match '>'
      if !m3 then
        .error ("expected '>' at ".toList ++ s6.Location)
      else
        .ok (tagName, s6)

/-! ## parser.go: the document parser -/

/-- The variables of `ParseHtml` at the head of its loop.

* `closeStack` is the `Stack[string]` (missing from the sources, a plain stack per
  its use), top first.
* `current` is the Go pointer `current` together with the nodes it reaches through
  `Parent`: `[]` is `nil`, and `c :: ps` is the node `c` whose chain of parents is
  `ps`.  In Go a node is written into `Children` of its parent, or into `roots`
  when it has no parent, as soon as it is opened, and it stays the last entry there
  for as long as it is on this chain, since a node is only ever attached to the head
  of the chain (or to `roots` when the chain is empty).  Here a node on the chain is
  kept out of its parent and takes that last place when the chain leaves it;
  `rootsView` is Go's `roots`.
* `roots` holds the root nodes that are not on the chain. -/
structure ParseState where
  scanner : Scanner
  closeStack : List Str
  roots : List HtmlTag
  current : List HtmlTag

/-- Write `tag` as the last child of the node `current` points to, or as the last
root when `current` is nil. -/
def attach (tag : HtmlTag) (current roots : List HtmlTag) : List HtmlTag × List HtmlTag :=
  match current with
  | [] => ([], roots ++ [tag])
  | c :: ps => ({ c with Children := c.Children ++ [tag] } :: ps, roots)

/-- The root node above `c`, whose chain of parents is `ps`, with each node of the
chain as the last child of its parent. -/
def plug (c : HtmlTag) : List HtmlTag → HtmlTag
  | [] => c
  | p :: ps => plug { p with Children := p.Children ++ [c] } ps

/-- The root sequence with the nodes of the chain `current` in their places. -/
def unwind (current roots : List HtmlTag) : List HtmlTag :=
  match current with
  | [] => roots
  | c :: ps => roots ++ [plug c ps]

/-- Go's slice `roots` in a state. -/
def ParseState.rootsView (st : ParseState) : List HtmlTag := unwind st.current st.roots

/-- `current.InnerContent += content` (nothing when `current` is nil). -/
def appendContent (current : List HtmlTag) (content : Str) : List HtmlTag :=
  match current with
  | [] => []
  | c :: ps => { c with InnerContent := c.InnerContent ++ content } :: ps

/-- The back-fill of `current.InnerHtml` at a closing tag that starts at offset
`htmlEndPos`. -/
def backfill (c : HtmlTag) (sc : Scanner) (htmlEndPos : Nat) : HtmlTag :=
  if 0 < c.htmlStart ∧ c.htmlStart < htmlEndPos then
    { c with InnerHtml := TrimSpace (sc.Slice c.htmlStart htmlEndPos) }
  else c

/-- What one iteration of the loop of `ParseHtml` does. -/
inductive Step where
  | next (st : ParseState)
  | stop (st : ParseState)
  | fail (msg : Str)
  | nilDeref
  | outOfFuel

/-- The message of the mismatched closing tag error. -/
def mismatchMsg (closingTag expected loc : Str) : Str :=
  "Html parsing error: invalid closing tag '".toList ++ closingTag ++ "', expected '".toList
    ++ expected ++ "' at ".toList ++ loc

/-- The message of the unclosed tag error. -/
def unclosedMsg (unclosed : Str) : Str :=
  "Html parsing error: unclosed tag '".toList ++ unclosed ++ "'".toList

/-- The message of the superfluous closing tag error. -/
def superfluousMsg (loc : Str) : Str :=
  "Html parsing error: superfluous closing tag at ".toList ++ loc

/-- The body of the loop of `ParseHtml`, entered with `!scanner.EOF()`:
`next` is the end of the body or a `continue`, `stop` is the `break`. -/
def step (parser : DefaultHtmlParser) (st : ParseState) : Step :=
  let sc := st.scanner.SkipWhitespace
  if sc.EOF then
    .stop { st with scanner := sc }
  else if sc.Current = '<' then
    if sc.Position + 4 ≤ sc.Len ∧ sc.Slice sc.Position (sc.Position + 4) = "<!--".toList then
      let sc1 := sc.ConsumeUntilString "-->".toList
      let (m, sc2) := sc1.MatchString "-->".toList
      if !m then
        .fail ("Html parsing error: unclosed comment at ".toList ++ sc2.Location)
      else
        .next { st with scanner := sc2 }
    else if sc.Position + 9 ≤ sc.Len ∧
        sc.Slice sc.Position (sc.Position + 9) = "<!DOCTYPE".toList then
      let sc1 := sc.ConsumeUntil (isRune '>')
      let (m, sc2) := sc1.Match '>'
      if !m then
        .fail ("Html parsing error: unclosed DOCTYPE at ".toList ++ sc2.Location)
      else
        .next { st with scanner := sc2 }
    else if sc.PeekNext = '/' then
      if st.closeStack.isEmpty then
        .fail (superfluousMsg sc.Location)
      else
        let htmlEndPos := sc.Position
        match parseClosingTag sc with
        | .error msg => .fail msg
        | .nilDeref => .nilDeref
        | .outOfFuel => .outOfFuel
        | .ok (closingTag, sc1) =>
          match st.closeStack with
          | [] => .fail (mismatchMsg closingTag [] sc1.Location)
          | expected :: stack =>
            if expected ≠ closingTag then
              .fail (mismatchMsg closingTag expected sc1.Location)
            else
              match st.current with
              | [] => .nilDeref
              | c :: ps =>
                let c1 := backfill c sc1 htmlEndPos
                .next { scanner := sc1, closeStack := stack,
                        roots := (attach c1 ps st.roots).2, current := (attach c1 ps st.roots).1 }
    else
      match parsingOpenTag parser sc with
      | .error msg => .fail msg
      | .nilDeref => .nilDeref
      | .outOfFuel => .outOfFuel
      | .ok (tag, sc1) =>
        if tag.IsSelfClosing then
          .next { scanner := sc1, closeStack := st.closeStack,
                  roots := (attach tag st.current st.roots).2,
                  current := (attach tag st.current st.roots).1 }
        else
          .next { scanner := sc1, closeStack := tag.Name :: st.closeStack,
                  roots := st.roots, current := tag :: st.current }
  else
    let contentStart := sc.Position
    let sc1 := sc.ConsumeUntil (isRune '<')
    let content := TrimSpace (sc1.SliceFrom contentStart)
    .next { st with scanner := sc1,
                    current := if content ≠ [] then appendContent st.current content
                               else st.current }

/-- The end of `ParseHtml`, after its loop. -/
def finish (st : ParseState) : Outcome (List HtmlTag) :=
  match st.closeStack with
  | unclosed :: _ => .error (unclosedMsg unclosed)
  | [] => .ok st.rootsView

/-- The loop of `ParseHtml` run for at most `fuel` iterations, and the end of the
function. -/
def parseLoop (parser : DefaultHtmlParser) : Nat → ParseState → Outcome (List HtmlTag)
  | 0, _ => .outOfFuel
  | fuel + 1, st =>
    if st.scanner.EOF then finish st
    else
      match step parser st with
      | .next st1 => parseLoop parser fuel st1
      | .stop st1 => finish st1
      | .fail msg => .error msg
      | .nilDeref => .nilDeref
      | .outOfFuel => .outOfFuel

/-- The variables of `ParseHtml` before its loop. -/
def initState (html : Str) : ParseState :=
  { scanner := Scanner.New html, closeStack := [], roots := [], current := [] }

/-- Go `ParseHtml`, with as many iterations of its loop as the input has runes,
and one more for the test that ends the loop. -/
def ParseHtml (parser : DefaultHtmlParser) (html : Str) : Outcome (List HtmlTag) :=
  parseLoop parser (html.length + 1) (initState html)

/-! ## parser.go: the serializer -/

/-- What `renderTag` writes for one attribute. -/
def renderAttr (attr : HtmlAttribute) : Str :=
  if attr.IsValueExist then
    " ".toList ++ attr.Name ++ "=\"".toList ++ attr.Value ++ "\"".toList
  else
    " ".toList ++ attr.Name

/-- What `renderTag` writes for the attributes: the keys of the map, sorted, and for
each key the attribute it maps to. -/
def renderAttrs (attrs : List (Str × HtmlAttribute)) : Str :=
  ((sortStrings (attrs.map Prod.fst)).map (fun k => renderAttr (mapGet attrs k))).flatten

mutual
/-- Go `renderTag`: what it appends to the builder for a node. -/
def renderTag : HtmlTag → Str
  | ⟨name, attrs, children, _, innerContent, selfClosing, _, _⟩ =>
    if selfClosing then
      "<".toList ++ name ++ renderAttrs attrs ++ "/>".toList
    else
      "<".toList ++ name ++ renderAttrs attrs ++ ">".toList ++ innerContent
        ++ renderTags children ++ "</".toList ++ name ++ ">".toList
/-- The loop over the nodes in `RenderHtml` and over the children in `renderTag`. -/
def renderTags : List HtmlTag → Str
  | [] => []
  | t :: ts => renderTag t ++ renderTags ts
end

/-- Go `RenderHtml`. -/
def RenderHtml (tags : List HtmlTag) : Str := renderTags tags

/-! ## tag_ext.go: clones -/

/-- Decimal text of a Go `int`, as `%d` prints it. -/
def fmtIntZ (n : Int) : Str :=
  if n < 0 then "-".toList ++ fmtInt n.natAbs else fmtInt n.toNat

/-- The loop of `clone` that copies the attributes into a new map. -/
def copyAttributes (attrs : List (Str × HtmlAttribute)) : List (Str × HtmlAttribute) :=
  attrs.foldl (fun m kv => mapSet m kv.1 kv.2) []

mutual
/-- Go `clone`: the copy of a node down to layer `targetDepth`. -/
def HtmlTag.clone (currentLayer targetDepth : Int) : HtmlTag → HtmlTag
  | ⟨name, attrs, children, innerHtml, innerContent, selfClosing, pos, start⟩ =>
    { Name := name
      InnerHtml := innerHtml
      InnerContent := innerContent
      IsSelfClosing := selfClosing
      Pos := pos
      htmlStart := start
      Attributes := if 0 < attrs.length then copyAttributes attrs else []
      Children :=
        if 0 < children.length ∧ currentLayer < targetDepth then
          HtmlTag.cloneChildren (currentLayer + 1) targetDepth children
        else [] }
/-- The loop of `clone` over the children of a node. -/
def HtmlTag.cloneChildren (layer targetDepth : Int) : List HtmlTag → List HtmlTag
  | [] => []
  | child :: more =>
    HtmlTag.clone layer targetDepth child :: HtmlTag.cloneChildren layer targetDepth more
end

/-- Go `CloneDown`. -/
def HtmlTag.CloneDown (t : HtmlTag) (maxDepth : Int) : Outcome HtmlTag :=
  if maxDepth < 1 then
    .error ("Html tags clone down error: max depth is less than one : ".toList ++ fmtIntZ maxDepth)
  else
    .ok (t.clone 0 maxDepth)

/-! ## Notions used in the statements and proofs -/

/-- Line and column after the runes `pre`, counted from line 1, column 1. -/
def lineCol (pre : Str) : Nat × Nat := pre.foldl bump (1, 1)

/-- The scanner of a parse that has consumed `pre` and has `r` ahead. -/
def Scanner.cursor (pre r : Str) : Scanner :=
  ⟨pre ++ r, pre.length, (lineCol pre).1, (lineCol pre).2⟩

/-- A plain tag name: a name that `ParseHtml` reads as the name of an ordinary
element.  It is not empty, has no `>`, `/` or white space, is not `style` or
`script`, and does not start with `!--` or `!DOCTYPE` (with which `<` opens a
comment or a doctype declaration). -/
def PlainName (n : Str) : Prop :=
  n ≠ [] ∧ (∀ r ∈ n, nameRune r = true) ∧ n ≠ "style".toList ∧ n ≠ "script".toList
    ∧ "!--".toList.isPrefixOf n = false ∧ "!DOCTYPE".toList.isPrefixOf n = false

instance (n : Str) : Decidable (PlainName n) := by
  unfold PlainName
  infer_instance

/-- The node `parsingOpenTag` returns for `<name>` read at line and column `lc`,
when the `>` ends at offset `start`. -/
def openNode (name : Str) (lc : Nat × Nat) (start : Nat) : HtmlTag :=
  { Name := name, Attributes := [], Children := [], InnerHtml := [], InnerContent := [],
    IsSelfClosing := false, Pos := { Line := lc.1, Column := lc.2 }, htmlStart := start }

/-- The node `parsingOpenTag` returns for a `style` or `script` element read at
line and column `lc`, with its body. -/
def rawNode (name body : Str) (lc : Nat × Nat) : HtmlTag :=
  { Name := name, Attributes := [], Children := [], InnerHtml := body, InnerContent := [],
    IsSelfClosing := true, Pos := { Line := lc.1, Column := lc.2 }, htmlStart := 0 }

mutual
/-- A node and the nodes below it, parents before children. -/
def HtmlTag.nodes : HtmlTag → List HtmlTag
  | ⟨name, attrs, children, innerHtml, innerContent, selfClosing, pos, start⟩ =>
    ⟨name, attrs, children, innerHtml, innerContent, selfClosing, pos, start⟩
      :: HtmlTag.nodesOfList children
/-- The nodes of a sequence of trees. -/
def HtmlTag.nodesOfList : List HtmlTag → List HtmlTag
  | [] => []
  | t :: ts => HtmlTag.nodes t ++ HtmlTag.nodesOfList ts
end

/-- The attributes of every node of the tree are a Go map: no key occurs twice. -/
def HtmlTag.KeysUnique (t : HtmlTag) : Prop :=
  ∀ n ∈ t.nodes, (n.Attributes.map Prod.fst).Nodup

instance (t : HtmlTag) : Decidable t.KeysUnique := by
  unfold HtmlTag.KeysUnique
  infer_instance

mutual
/-- The node `c` is a copy of `o` cut at depth `n`: it has the name, attributes,
inner text, inner markup and self-closing flag of `o`; at depth 0 it has no
children, and at depth `k + 1` its children are, in order, copies of the children
of `o` cut at depth `k`. -/
def CopyToDepth : HtmlTag → Nat → HtmlTag → Prop
  | ⟨name, attrs, children, innerHtml, innerContent, selfClosing, _, _⟩, n, c =>
    c.Name = name ∧ c.Attributes = attrs ∧ c.InnerContent = innerContent
      ∧ c.InnerHtml = innerHtml ∧ c.IsSelfClosing = selfClosing
      ∧ match n with
        | 0 => c.Children = []
        | k + 1 => CopiesToDepth children k c.Children
/-- The nodes `cs` are, in order, copies of the nodes `os` cut at depth `n`. -/
def CopiesToDepth : List HtmlTag → Nat → List HtmlTag → Prop
  | [], _, cs => cs = []
  | o :: os, n, cs => ∃ c cs1, cs = c :: cs1 ∧ CopyToDepth o n c ∧ CopiesToDepth os n cs1
end

/-- The nodes of a tree at depth `d` below its root, from left to right: the root
itself at depth 0, and at depth `d + 1` the children of the nodes at depth `d`. -/
def HtmlTag.level : Nat → HtmlTag → List HtmlTag
  | 0, t => [t]
  | d + 1, t => (HtmlTag.level d t).flatMap (fun x => x.Children)

/-- The list `parents` is the chain of the ancestors of `t`, nearest first: `t` is a
child of the first entry, which is a child of the second one, and so on. -/
def AncestorChain : HtmlTag → List HtmlTag → Prop
  | _, [] => True
  | t, p :: ps => t ∈ p.Children ∧ AncestorChain p ps

/-- The node `c` of the tree that `ParseHtml` returns for `<a><b><c/></b></a>`. -/
def sampleLeaf : HtmlTag := ⟨"c".toList, [], [], [], [], true, ⟨1, 7, 0⟩, 10⟩

/-- The node `b` of that tree, the parent of `c`. -/
def sampleInner : HtmlTag :=
  ⟨"b".toList, [], [sampleLeaf], "<c/>".toList, [], false, ⟨1, 4, 0⟩, 6⟩

/-- The root `a` of that tree, the parent of `b`. -/
def sampleRoot : HtmlTag :=
  ⟨"a".toList, [], [sampleInner], "<b><c/></b>".toList, [], false, ⟨1, 1, 0⟩, 3⟩

/-- Every node of the tree satisfies `W`. -/
def AllNodes (W : HtmlTag → Prop) (t : HtmlTag) : Prop := ∀ n ∈ t.nodes, W n

/-- A node on the chain of `current`: it is not self-closing, it satisfies `W`, and
so does every node below it. -/
def OpenNode (W : HtmlTag → Prop) (c : HtmlTag) : Prop :=
  c.IsSelfClosing = false ∧ W c ∧ ∀ ch ∈ c.Children, AllNodes W ch

/-- The invariant of the loop of `ParseHtml` for a property `W` of nodes: every node
built so far satisfies `W`, no node on the chain of `current` is self-closing, and
the stack holds the names of the nodes on the chain of `current`, innermost first. -/
def Inv (W : HtmlTag → Prop) (st : ParseState) : Prop :=
  (∀ r ∈ st.roots, AllNodes W r) ∧ (∀ c ∈ st.current, OpenNode W c)
    ∧ st.closeStack = st.current.map (fun c => c.Name)

/-- A property of nodes that the parser establishes when it creates a node and
keeps when it adds a child, text or the inner markup to a node that is not
self-closing. -/
structure NodeLaw (W : HtmlTag → Prop) : Prop where
  opened : ∀ s tag s1, parsingOpenTag NewHtmlParser s = .ok (tag, s1) → W tag
  child : ∀ c child : HtmlTag, c.IsSelfClosing = false → W c →
    W { c with Children := c.Children ++ [child] }
  text : ∀ (c : HtmlTag) (x : Str), c.IsSelfClosing = false → W c → (∀ ch ∈ x, ch ≠ '<') →
    TrimSpace x ≠ [] → W { c with InnerContent := c.InnerContent ++ TrimSpace x }
  markup : ∀ (c : HtmlTag) (x : Str), W c → W { c with InnerHtml := x }

/-- A text that `strings.TrimSpace` leaves as it is. -/
def Trimmed (s : Str) : Prop := TrimSpace s = s

/-- An attribute as `parseAttribute` returns it: the name is not empty and has no
`=`, `>`, `/` or white space, the value has no white space at either end, and is
empty when there is none. -/
def AttrOK (a : HtmlAttribute) : Prop :=
  a.Name ≠ [] ∧ (∀ r ∈ a.Name, attrNameRune r = true) ∧ Trimmed a.Value
    ∧ (a.IsValueExist = false → a.Value = [])

/-- A map of attributes as `parsingOpenTag` builds it: no key occurs twice, and
each key is the name of a well-formed attribute it maps to. -/
def AttrsOK (m : List (Str × HtmlAttribute)) : Prop :=
  (m.map Prod.fst).Nodup ∧ ∀ kv ∈ m, kv.2.Name = kv.1 ∧ AttrOK kv.2

/-- A node as `ParseHtml` builds it: the name is not empty and has no `>`, `/` or
white space, the attributes are well formed, the inner text has no `<` and no white
space at either end, and a self-closing node has no children and no inner text. -/
def WellFormed (n : HtmlTag) : Prop :=
  n.Name ≠ [] ∧ (∀ r ∈ n.Name, nameRune r = true) ∧ AttrsOK n.Attributes
    ∧ (∀ ch ∈ n.InnerContent, ch ≠ '<') ∧ Trimmed n.InnerContent
    ∧ (n.IsSelfClosing = true → n.Children = [] ∧ n.InnerContent = [])

/-- A node whose rendering is read back as the same element: it is not named
`style` or `script`, its name does not start with `!--` or `!DOCTYPE`, and
no attribute value holds a double quote. -/
def RoundTripNode (n : HtmlTag) : Prop :=
  n.Name ≠ "style".toList ∧ n.Name ≠ "script".toList
    ∧ "!--".toList.isPrefixOf n.Name = false ∧ "!DOCTYPE".toList.isPrefixOf n.Name = false
    ∧ ∀ kv ∈ n.Attributes, '"' ∉ kv.2.Value

instance (n : HtmlTag) : Decidable (RoundTripNode n) := by
  unfold RoundTripNode
  infer_instance

instance (t : HtmlTag) : Decidable (AllNodes RoundTripNode t) := by
  unfold AllNodes
  infer_instance

/-- What `renderTag` writes for an attribute after the blank that leads it in. -/
def attrBody (a : HtmlAttribute) : Str :=
  if a.IsValueExist then a.Name ++ '=' :: '"' :: (a.Value ++ ['"']) else a.Name

/-- The attributes in the order in which `renderTag` writes them. -/
def sortedAttrs (attrs : List (Str × HtmlAttribute)) : List HtmlAttribute :=
  (sortStrings (attrs.map Prod.fst)).map (mapGet attrs)

/-- The map that `parsingOpenTag` builds when it reads the attributes in the order
in which `renderTag` writes them. -/
def normAttrs (attrs : List (Str × HtmlAttribute)) : List (Str × HtmlAttribute) :=
  (sortedAttrs attrs).map (fun a => (a.Name, a))

/-- The text of rendered attributes followed by `tail`, from the name of the
first attribute on (without the blank that leads it in). -/
def loopText : List HtmlAttribute → Str → Str
  | [], tail => tail
  | [a], tail => attrBody a ++ tail
  | a :: b :: rest, tail => attrBody a ++ ' ' :: loopText (b :: rest) tail

/-- The end of `parsingOpenTag`, after the attribute loop has left the scanner
`s5`: the `/` of a self-closing tag, the `>`, and the node. -/
def finishOpenTag (tagName : Str) (lc : Nat × Nat) (attrs : List (Str × HtmlAttribute))
    (s5 : Scanner) : Outcome (HtmlTag × Scanner) :=
  if (!((if s5.Current = '/' then s5.Take else s5).Match '>').1) = true then
    .error ("expected '>' at ".toList
      ++ ((if s5.Current = '/' then s5.Take else s5).Match '>').2.Location)
  else
    .ok ({ Name := tagName, Attributes := attrs, Children := [], InnerHtml := [],
           InnerContent := [], IsSelfClosing := decide (s5.Current = '/'),
           Pos := { Line := lc.1, Column := lc.2 },
           htmlStart := ((if s5.Current = '/' then s5.Take else s5).Match '>').2.Position },
      ((if s5.Current = '/' then s5.Take else s5).Match '>').2)

/-- Each key is at most the next one. -/
def Ascending : List Str → Prop
  | [] => True
  | [_] => True
  | a :: b :: rest => strLe a b = true ∧ Ascending (b :: rest)

/-- A node that `ParseHtml` builds and whose rendering is read back as the same
element. -/
def Renderable (n : HtmlTag) : Prop := WellFormed n ∧ RoundTripNode n

/-- The nodes `ts` attached one after the other. -/
def attachAll (ts : List HtmlTag) (current roots : List HtmlTag) :
    List HtmlTag × List HtmlTag :=
  ts.foldl (fun acc t => attach t acc.1 acc.2) (current, roots)

/-- From the state `st`, `k` iterations of the loop of `ParseHtml` lead to the head
of the loop in the state `st1`. -/
def Reaches (parser : DefaultHtmlParser) (k : Nat) (st st1 : ParseState) : Prop :=
  ∀ fuel, parseLoop parser (fuel + k) st = parseLoop parser fuel st1

/-! ## tag_ext.go: CloneUp -/

/-- The loop of `CloneUp`, `for depth < maxDepth`, at the node `root` whose chain of
parents (`root.Parent`, the parent of that, and so on) is `parents`: the node and the
depth at which the loop ends, or the error. -/
def cloneUpLoop (maxDepth : Int) (ignoreDepthLimit : Bool) :
    HtmlTag → List HtmlTag → Int → Outcome (HtmlTag × Int)
  | root, [], depth =>
    if depth < maxDepth then
      if ignoreDepthLimit then .ok (root, depth)
      else .error ("Html tags clone up error: maxDepth ".toList ++ fmtIntZ maxDepth
        ++ " exceeds available parents".toList)
    else .ok (root, depth)
  | root, p :: ps, depth =>
    if depth < maxDepth then cloneUpLoop maxDepth ignoreDepthLimit p ps (depth + 1)
    else .ok (root, depth)

/-- Go `CloneUp`, on the node `t` whose chain of parents is `parents`: the first
entry is `t.Parent`, the next one the parent of that, and the last one a root. -/
def HtmlTag.CloneUp (t : HtmlTag) (parents : List HtmlTag) (maxDepth : Int)
    (ignoreDepthLimit : Bool) : Outcome HtmlTag :=
  if maxDepth < 0 then
    .error ("Html tags clone up error: max depth is less than zero : ".toList
      ++ fmtIntZ maxDepth)
  else
    match cloneUpLoop maxDepth ignoreDepthLimit t parents 0 with
    | .ok (root, depth) => if depth = 0 then .ok (t.clone 0 0) else .ok (root.clone 0 depth)
    | .error msg => .error msg
    | .nilDeref => .nilDeref
    | .outOfFuel => .outOfFuel

/-! ## tag_ext.go: RemoveChild

`RemoveChild` finds the child by the identity of the pointer and writes to two
nodes, so here the nodes live in a heap: a pointer is `none` (Go `nil`) or the
address of a cell. -/

/-- Modelled from the spec: the `HtmlTag` struct as a cell of the heap, with the
pointers that Go holds in `Children` and `Parent`. -/
structure Cell where
  Name : Str
  Attributes : List (Str × HtmlAttribute)
  Children : List (Option Nat)
  InnerHtml : Str
  InnerContent : Str
  IsSelfClosing : Bool
  Parent : Option Nat
deriving DecidableEq, Repr

/-- The heap: the cell at each address. -/
abbrev Heap := Nat → Cell

/-- The heap after a write to the cell at `a`. -/
def Heap.set (h : Heap) (a : Nat) (c : Cell) : Heap := fun x => if x = a then c else h x

/-- The loop of `RemoveChild` over `t.Children`, at the entry that follows the
entries `before`. -/
def removeLoop (h : Heap) (t child : Nat) : List (Option Nat) → List (Option Nat) → Heap
  | _, [] => h
  | before, c :: after =>
    if c = some child then
      let h1 := h.set child { h child with Parent := none }
      h1.set t { h1 t with Children := before ++ after }
    else removeLoop h t child (before ++ [c]) after

/-- Go `RemoveChild`. -/
def RemoveChild (h : Heap) (t child : Option Nat) : Heap :=
  match t, child with
  | some a, some c =>
    if (h a).Children.length = 0 then h else removeLoop h a c [] (h a).Children
  | _, _ => h

/-! ## Notions used in the statements and proofs on the loop -/

/-- The state at the head of the loop of `ParseHtml` after `k` iterations, when the
loop gets that far. -/
def loopState (parser : DefaultHtmlParser) (html : Str) : Nat → Option ParseState
  | 0 => some (initState html)
  | k + 1 =>
    match loopState parser html k with
    | none => none
    | some st =>
      if st.scanner.EOF then none
      else
        match step parser st with
        | .next st1 => some st1
        | _ => none

/-- The scanner of a parse of `html` that has consumed the first `o` runes: it is at
offset `o`, at the line and column that follow these runes. -/
def Scanner.atOffset (html : Str) (o : Nat) : Scanner :=
  ⟨html, o, (lineCol (html.take o)).1, (lineCol (html.take o)).2⟩

/-- The line and column of the scanner are those of its offset. -/
def Scanner.Canon (s : Scanner) : Prop := s = Scanner.atOffset s.src s.pos

/-- The scanner `s1` is the scanner `s` moved on by at least `d` runes, within the
same buffer, with the line and column kept in step with the offset. -/
def Scanner.MovedBy (d : Nat) (s s1 : Scanner) : Prop :=
  s1.src = s.src ∧ s.pos + d ≤ s1.pos ∧ s1.pos ≤ s1.src.length ∧ (s.Canon → s1.Canon)

/-- A closing tag for `name` starts at offset `e` of `src`: `</`, white space if
any, and the name, read up to the next `>` or white space. -/
def ClosesAt (src name : Str) (e : Nat) : Prop :=
  ∃ tl, src.drop e = '<' :: '/' :: tl
    ∧ (tl.dropWhile isWhitespace).takeWhile closingNameRune = name

/-- The inner markup of the node `n` is the back-fill from `src`: when `n` is not
self-closing, `htmlStart` is the offset just after the `>` of its opening tag, and
`InnerHtml` is the trimmed text from there up to an offset `e`, not before it, at
which a closing tag for the name of `n` starts. -/
def BackFilled (src : Str) (n : HtmlTag) : Prop :=
  n.IsSelfClosing = false →
    ∃ e, 0 < n.htmlStart ∧ n.htmlStart ≤ e
      ∧ (src.drop (n.htmlStart - 1)).head? = some '>'
      ∧ ClosesAt src n.Name e
      ∧ n.InnerHtml = TrimSpace ((src.drop n.htmlStart).take (e - n.htmlStart))

/-- A node on the chain of `current` when the scanner is at offset `pos` of `src`:
it is not self-closing, its opening tag ends at `htmlStart`, at or before `pos`, its
inner markup is still empty, and the nodes below it are back-filled. -/
def OpenAt (src : Str) (pos : Nat) (c : HtmlTag) : Prop :=
  c.IsSelfClosing = false ∧ 0 < c.htmlStart ∧ c.htmlStart ≤ pos
    ∧ (src.drop (c.htmlStart - 1)).head? = some '>' ∧ c.InnerHtml = []
    ∧ ∀ ch ∈ c.Children, AllNodes (BackFilled src) ch

/-- The invariant of the loop of `ParseHtml` for the back-fill: the scanner is
within the input, the nodes that are closed are back-filled, the nodes on the chain
of `current` are open, and the stack holds their names. -/
def FillInv (src : Str) (st : ParseState) : Prop :=
  st.scanner.src = src ∧ st.scanner.pos ≤ src.length
    ∧ (∀ r ∈ st.roots, AllNodes (BackFilled src) r)
    ∧ (∀ c ∈ st.current, OpenAt src st.scanner.pos c)
    ∧ st.closeStack = st.current.map (fun c => c.Name)

/-! ## Documents of elements and text, for the statements on the inner text -/

/-- An element written with a tag name and no attribute: the name, the text run
after the opening tag, the child elements, and the text run after the closing tag
(up to the next tag). -/
inductive Elem where
  | mk (name : Str) (lead : Str) (kids : List Elem) (tail : Str)

/-- The tag name of an element. -/
def Elem.name : Elem → Str
  | .mk name _ _ _ => name

/-- The text run after the opening tag of an element. -/
def Elem.lead : Elem → Str
  | .mk _ lead _ _ => lead

/-- The child elements of an element. -/
def Elem.kids : Elem → List Elem
  | .mk _ _ kids _ => kids

/-- The text run after the closing tag of an element. -/
def Elem.tail : Elem → Str
  | .mk _ _ _ tail => tail

mutual
/-- The markup of an element, without the text run that follows it. -/
def Elem.markup : Elem → Str
  | .mk name lead kids _ =>
    "<".toList ++ name ++ ">".toList ++ lead ++ Elem.source kids
      ++ "</".toList ++ name ++ ">".toList
/-- The markup of a sequence of elements, each with the text run that follows it. -/
def Elem.source : List Elem → Str
  | [] => []
  | .mk name lead kids tail :: more =>
    Elem.markup (.mk name lead kids tail) ++ tail ++ Elem.source more
end

/-- The inner text of an element as the specification words it: the trimmed text runs that
lie directly inside the element, in source order, with no separator. -/
def Elem.innerText (e : Elem) : Str :=
  TrimSpace e.lead ++ (e.kids.map (fun k => TrimSpace k.tail)).flatten

mutual
/-- An element and the elements below it. -/
def Elem.elems : Elem → List Elem
  | .mk name lead kids tail => .mk name lead kids tail :: Elem.elemsOfList kids
/-- The elements of a sequence of elements, with the elements below them. -/
def Elem.elemsOfList : List Elem → List Elem
  | [] => []
  | e :: es => Elem.elems e ++ Elem.elemsOfList es
end

/-- An element made of plain tag names and of text runs without `<`. -/
def Elem.Plain (e : Elem) : Prop :=
  ∀ x ∈ e.elems, PlainName x.name ∧ '<' ∉ x.lead ∧ '<' ∉ x.tail

instance (e : Elem) : Decidable e.Plain := by
  unfold Elem.Plain
  infer_instance

mutual
/-- The node `n` is the element `e` read back: it has the name of `e` and is not
self-closing, its inner text is the inner text of `e`, and its children are, in
order, the child elements of `e` read back. -/
def Elem.ReadAs : Elem → HtmlTag → Prop
  | .mk name lead kids tail, n =>
    n.Name = name ∧ n.IsSelfClosing = false
      ∧ n.InnerContent = Elem.innerText (.mk name lead kids tail)
      ∧ Elem.ReadAsList kids n.Children
/-- The nodes `ns` are, in order, the elements `es` read back. -/
def Elem.ReadAsList : List Elem → List HtmlTag → Prop
  | [], ns => ns = []
  | e :: es, ns => ∃ n ns1, ns = n :: ns1 ∧ Elem.ReadAs e n ∧ Elem.ReadAsList es ns1
end

end HtmlParser


namespace HtmlParser

/-! ## Inputs as tags and text runs, for the statement on the inner text -/

/-- A piece of an input as the loop of `ParseHtml` reads it: a text run; a comment or
a doctype declaration, which makes no node; a self-closing tag or a `style` or
`script` element, which makes a node without inner text; or an element with its
opening tag, its content and its closing tag. -/
inductive Item where
  | text (t : Str)
  | markup (m : Str)
  | leaf (m : Str)
  | elem (opening : Str) (content : List Item) (closing : Str)

mutual
/-- The text of a piece of an input. -/
def Item.source : Item → Str
  | .text t => t
  | .markup m => m
  | .leaf m => m
  | .elem opening content closing => opening ++ Item.sourceList content ++ closing
/-- The text of a sequence of pieces. -/
def Item.sourceList : List Item → Str
  | [] => []
  | it :: more => Item.source it ++ Item.sourceList more
end

/-- The inner text as the specification words it: the text runs that lie directly in the
content of an element, each trimmed, in source order, with no separator. -/
def Item.directText : List Item → Str
  | [] => []
  | .text t :: more => TrimSpace t ++ Item.directText more
  | _ :: more => Item.directText more

/-- The runes of `src` at the offsets `a ≤ i < b`. -/
def between (src : Str) (a b : Nat) : Str := (src.drop a).take (b - a)

/-- The text `t` is the text run at offset `o` of `html`: all of the runes from `o` up
to the next `<` or to the end of the input, and at least one. -/
def TextRunAt (html : Str) (o : Nat) (t : Str) : Prop :=
  t ≠ [] ∧ t = (html.drop o).takeWhile (fun r => !isRune '<' r)

/-- The text `m` is the comment or the doctype declaration at offset `o` of `html`:
the input has `<!--` there, and `m` goes up to and including the first `-->` from the
`<` on; or it has the literal `<!DOCTYPE` there, and `m` goes up to and including the
next `>`. -/
def DeclAt (html : Str) (o : Nat) (m : Str) : Prop :=
  m <+: html.drop o
    ∧ (("<!--".toList <+: html.drop o
        ∧ m = Scanner.beforeLit "-->".toList (html.drop o) ++ "-->".toList)
      ∨ ("<!DOCTYPE".toList <+: html.drop o
        ∧ m = (html.drop o).takeWhile (fun r => !isRune '>' r) ++ ">".toList))

/-- At offset `o` of `html` there is a `<` that starts a tag: it is followed neither
by `!--` nor by the literal `!DOCTYPE` nor by `/`. -/
def TagStartAt (html : Str) (o : Nat) : Prop :=
  ∃ tl, html.drop o = '<' :: tl ∧ ¬ "!--".toList <+: tl ∧ ¬ "!DOCTYPE".toList <+: tl
    ∧ tl.head? ≠ some '/'

mutual
/-- The node `n` is the piece at offset `o` of `html` read back.  For a tag that
makes a node on its own: `parsingOpenTag` at `o` reads the text of the piece and
returns `n`, which is self-closing.  For an element: `parsingOpenTag` at `o` reads the
opening tag and returns a node that is not self-closing; the content that follows is
read back as the children; `parseClosingTag` reads the closing tag after the content
and finds the name of the node; and `n` is the node of the opening tag with the text
of the content, trimmed, as its inner markup, the text runs that lie directly in the
content as its inner text, and these children. -/
def Item.ReadAs (html : Str) (o : Nat) : Item → HtmlTag → Prop
  | .text _, _ => False
  | .markup _, _ => False
  | .leaf m, n =>
    TagStartAt html o ∧ m <+: html.drop o
      ∧ parsingOpenTag NewHtmlParser (Scanner.atOffset html o)
          = .ok (n, Scanner.atOffset html (o + m.length))
      ∧ n.IsSelfClosing = true
  | .elem opening content closing, n =>
    TagStartAt html o ∧ (opening ++ Item.sourceList content ++ closing) <+: html.drop o
      ∧ ∃ n0 kids,
        parsingOpenTag NewHtmlParser (Scanner.atOffset html o)
            = .ok (n0, Scanner.atOffset html (o + opening.length))
        ∧ n0.IsSelfClosing = false
        ∧ Item.ReadAsList html (o + opening.length) content kids
        ∧ parseClosingTag
              (Scanner.atOffset html (o + opening.length + (Item.sourceList content).length))
            = .ok (n0.Name, Scanner.atOffset html
                (o + opening.length + (Item.sourceList content).length + closing.length))
        ∧ n = { n0 with InnerHtml := TrimSpace (Item.sourceList content)
                        InnerContent := Item.directText content
                        Children := kids }
/-- The nodes `ns` are, in order, the pieces `items`, which follow one another from
offset `o` of `html` on, read back: a text run and a comment or doctype declaration
have no node. -/
def Item.ReadAsList (html : Str) : Nat → List Item → List HtmlTag → Prop
  | _, [], ns => ns = []
  | o, .text t :: more, ns => TextRunAt html o t ∧ Item.ReadAsList html (o + t.length) more ns
  | o, .markup m :: more, ns => DeclAt html o m ∧ Item.ReadAsList html (o + m.length) more ns
  | o, .leaf m :: more, ns =>
    ∃ n ns1, ns = n :: ns1 ∧ Item.ReadAs html o (.leaf m) n
      ∧ Item.ReadAsList html (o + m.length) more ns1
  | o, .elem opening content closing :: more, ns =>
    ∃ n ns1, ns = n :: ns1 ∧ Item.ReadAs html o (.elem opening content closing) n
      ∧ Item.ReadAsList html
          (o + (opening ++ Item.sourceList content ++ closing).length) more ns1
end

/-- The pieces read so far, along the chain of `current`: the pieces at the top,
and for each node of the chain, innermost first, its opening tag and the pieces of
its content. -/
def ghostSource (top : List Item) (frames : List (Str × List Item)) : Str :=
  Item.sourceList top ++ (frames.reverse.map (fun f => f.1 ++ Item.sourceList f.2)).flatten

/-- Add a piece to the content of the innermost open element, or at the top. -/
def pushItem (it : Item) (top : List Item) (frames : List (Str × List Item)) :
    List Item × List (Str × List Item) :=
  match frames with
  | [] => (top ++ [it], [])
  | f :: fs => (top, (f.1, f.2 ++ [it]) :: fs)

/-- The nodes on the chain of `current` are the open elements read so far: each is
the node that `parsingOpenTag` returned for its opening tag, with the text runs read
so far in its content as its inner text, and the pieces read so far in its content,
read back, as its children. -/
def FramesOk (html : Str) (top : List Item) :
    List (Str × List Item) → List HtmlTag → Prop
  | [], cur => cur = []
  | f :: fs, cur =>
    ∃ c ps n0 kids, cur = c :: ps
      ∧ TagStartAt html (ghostSource top fs).length
      ∧ parsingOpenTag NewHtmlParser (Scanner.atOffset html (ghostSource top fs).length)
          = .ok (n0, Scanner.atOffset html ((ghostSource top fs).length + f.1.length))
      ∧ n0.IsSelfClosing = false
      ∧ Item.ReadAsList html ((ghostSource top fs).length + f.1.length) f.2 kids
      ∧ c = { n0 with InnerContent := Item.directText f.2, Children := kids }
      ∧ FramesOk html top fs ps

/-- The invariant of the loop of `ParseHtml` for the inner text and the inner markup:
the line and column of the scanner are those of its offset, the input read so far is
made of the pieces `top` and `frames`, and the nodes built so far are these pieces
read back. -/
def TextInv (html : Str) (st : ParseState) : Prop :=
  FillInv html st ∧ st.scanner.Canon
    ∧ ∃ top frames, html.take st.scanner.pos = ghostSource top frames
        ∧ Item.ReadAsList html 0 top st.roots
        ∧ FramesOk html top frames st.current

end HtmlParser


namespace HtmlParser

/-! ## The scanner on a split buffer -/

namespace Scanner

/-! Any scanner, whatever its offset, line and column. -/

theorem rest_advance (s : Scanner) (run : Str) : (s.advance run).rest = s.rest.drop run.length := by
  simp [rest, advance, Nat.add_comm]

theorem rest_advance_takeWhile (s : Scanner) (p : Char → Bool) :
    (s.advance (s.rest.takeWhile p)).rest = s.rest.dropWhile p := by
  rw [rest_advance]
  have h := List.drop_left (s.rest.takeWhile p) (s.rest.dropWhile p)
  rwa [List.takeWhile_append_dropWhile] at h

theorem rest_SkipWhitespace (s : Scanner) :
    s.SkipWhitespace.rest = s.rest.dropWhile isWhitespace :=
  rest_advance_takeWhile s isWhitespace

theorem EOF_of_rest_cons (s : Scanner) (c : Char) (r : Str) (h : s.rest = c :: r) :
    s.EOF = false := by
  simp [EOF, h]

theorem EOF_SkipWhitespace (s : Scanner) (h : s.EOF = true) : s.SkipWhitespace.EOF = true := by
  simp only [EOF, List.isEmpty_iff] at h ⊢
  rw [rest_SkipWhitespace, h]
  rfl

theorem Current_of_rest_cons (s : Scanner) (c : Char) (r : Str) (h : s.rest = c :: r) :
    s.Current = c := by
  simp [Current, h]

theorem PeekNext_of_rest_cons (s : Scanner) (c d : Char) (r : Str) (h : s.rest = c :: d :: r) :
    s.PeekNext = d := by
  simp [PeekNext, h]

theorem Slice_Position (s : Scanner) (k : Nat) :
    s.Slice s.Position (s.Position + k) = s.rest.take k := by
  simp [Slice, Position, rest]

/-- The test `Slice(Position(), Position()+k) == lit` of a literal of `k` runes
fails when the text ahead does not start with the literal. -/
theorem literal_test_fails (s : Scanner) (lit : Str) (h : lit.isPrefixOf s.rest = false) :
    ¬ (s.Position + lit.length ≤ s.Len ∧ s.Slice s.Position (s.Position + lit.length) = lit) := by
  rintro ⟨-, h2⟩
  rw [Slice_Position] at h2
  have : lit <+: s.rest := by
    rw [← h2]
    exact List.take_prefix _ _
  rw [← List.isPrefixOf_iff_prefix, h] at this
  exact absurd this (by simp)

/-- The text between the offset where a `ConsumeUntil` starts and the cursor it
leaves is the run of runes before the first one that satisfies the predicate. -/
theorem SliceFrom_ConsumeUntil (s : Scanner) (p : Char → Bool) :
    (s.ConsumeUntil p).SliceFrom s.Position = s.rest.takeWhile (fun c => !p c) := by
  simp only [SliceFrom, ConsumeUntil, advance, Slice, Position, Nat.add_sub_cancel_left]
  have : s.rest.takeWhile (fun c => !p c) <+: s.rest := List.takeWhile_prefix _
  exact (List.prefix_iff_eq_take.mp this).symm

theorem ConsumeWhile_fst (s : Scanner) (p : Char → Bool) :
    (s.ConsumeWhile p).1 = s.rest.takeWhile p := rfl

theorem ConsumeWhile_fst_all (s : Scanner) (p : Char → Bool) :
    ∀ r ∈ (s.ConsumeWhile p).1, p r = true :=
  fun _ hr => List.mem_takeWhile_imp hr

/-! The scanner of a parse, with the runes it has consumed. -/

theorem New_eq_cursor (html : Str) : Scanner.New html = cursor [] html := by
  simp [Scanner.New, cursor, lineCol]

@[simp] theorem cursor_rest (pre r : Str) : (cursor pre r).rest = r := by
  simp [cursor, rest]

@[simp] theorem cursor_Position (pre r : Str) : (cursor pre r).Position = pre.length := rfl

@[simp] theorem cursor_Len (pre r : Str) : (cursor pre r).Len = pre.length + r.length := by
  simp [cursor, Len]

@[simp] theorem cursor_Line (pre r : Str) : (cursor pre r).Line = (lineCol pre).1 := rfl

@[simp] theorem cursor_Column (pre r : Str) : (cursor pre r).Column = (lineCol pre).2 := rfl

theorem cursor_Location (pre r : Str) :
    (cursor pre r).Location = fmtInt (lineCol pre).1 ++ ':' :: fmtInt (lineCol pre).2 := by
  simp [cursor, Location]

theorem cursor_advance (pre a r : Str) : (cursor pre (a ++ r)).advance a = cursor (pre ++ a) r := by
  simp [cursor, advance, lineCol, List.foldl_append]

@[simp] theorem cursor_EOF (pre r : Str) : (cursor pre r).EOF = r.isEmpty := by
  simp [EOF]

@[simp] theorem cursor_Current_cons (pre : Str) (c : Char) (r : Str) :
    (cursor pre (c :: r)).Current = c := by
  simp [Current]

@[simp] theorem cursor_Current_nil (pre : Str) : (cursor pre []).Current = eofRune := by
  simp [Current]

@[simp] theorem cursor_PeekNext_cons (pre : Str) (c d : Char) (r : Str) :
    (cursor pre (c :: d :: r)).PeekNext = d := by
  simp [PeekNext]

theorem cursor_Take_cons (pre : Str) (c : Char) (r : Str) :
    (cursor pre (c :: r)).Take = cursor (pre ++ [c]) r := by
  have := cursor_advance pre [c] r
  simpa [Take] using this

theorem cursor_Match_cons (pre : Str) (c : Char) (r : Str) :
    (cursor pre (c :: r)).Match c = (true, cursor (pre ++ [c]) r) := by
  have := cursor_advance pre [c] r
  simp [Match]
  simpa using this

theorem cursor_Match_ne (pre : Str) (c ch : Char) (r : Str) (h : c ≠ ch) :
    (cursor pre (c :: r)).Match ch = (false, cursor pre (c :: r)) := by
  simp [Match, h]

theorem cursor_Match_nil (pre : Str) (ch : Char) :
    (cursor pre []).Match ch = (false, cursor pre []) := by
  simp [Match]

theorem cursor_MatchString (pre lit r : Str) :
    (cursor pre (lit ++ r)).MatchString lit = (true, cursor (pre ++ lit) r) := by
  simp [MatchString, cursor_advance]

theorem cursor_ConsumeWhile (pre r : Str) (p : Char → Bool) :
    (cursor pre r).ConsumeWhile p
      = (r.takeWhile p, cursor (pre ++ r.takeWhile p) (r.dropWhile p)) := by
  have := cursor_advance pre (r.takeWhile p) (r.dropWhile p)
  rw [List.takeWhile_append_dropWhile] at this
  simp [ConsumeWhile, this]

theorem cursor_ConsumeUntil (pre r : Str) (p : Char → Bool) :
    (cursor pre r).ConsumeUntil p
      = cursor (pre ++ r.takeWhile (fun c => !p c)) (r.dropWhile (fun c => !p c)) := by
  have := cursor_advance pre (r.takeWhile (fun c => !p c)) (r.dropWhile (fun c => !p c))
  rw [List.takeWhile_append_dropWhile] at this
  simp [ConsumeUntil, this]

theorem cursor_SkipWhitespace (pre r : Str) :
    (cursor pre r).SkipWhitespace
      = cursor (pre ++ r.takeWhile isWhitespace) (r.dropWhile isWhitespace) := by
  have := cursor_advance pre (r.takeWhile isWhitespace) (r.dropWhile isWhitespace)
  rw [List.takeWhile_append_dropWhile] at this
  simp [SkipWhitespace, this]

theorem cursor_ConsumeWhile_stop (pre a : Str) (x : Char) (r : Str) (p : Char → Bool)
    (ha : ∀ c ∈ a, p c = true) (hx : p x = false) :
    (cursor pre (a ++ x :: r)).ConsumeWhile p = (a, cursor (pre ++ a) (x :: r)) := by
  rw [cursor_ConsumeWhile, List.takeWhile_append_of_pos ha, List.dropWhile_append_of_pos ha]
  simp [List.takeWhile, List.dropWhile, hx]

theorem cursor_ConsumeWhile_end (pre a : Str) (p : Char → Bool) (ha : ∀ c ∈ a, p c = true) :
    (cursor pre a).ConsumeWhile p = (a, cursor (pre ++ a) []) := by
  rw [cursor_ConsumeWhile, List.takeWhile_eq_self_iff.mpr ha]
  have : a.dropWhile p = [] := by simpa using ha
  rw [this]

theorem cursor_ConsumeUntil_stop (pre a : Str) (x : Char) (r : Str) (p : Char → Bool)
    (ha : ∀ c ∈ a, p c = false) (hx : p x = true) :
    (cursor pre (a ++ x :: r)).ConsumeUntil p = cursor (pre ++ a) (x :: r) := by
  have ha1 : ∀ c ∈ a, (fun c => !p c) c = true := by
    intro c hc
    simp [ha c hc]
  rw [cursor_ConsumeUntil, List.takeWhile_append_of_pos ha1, List.dropWhile_append_of_pos ha1]
  simp [List.takeWhile, List.dropWhile, hx]

theorem cursor_ConsumeUntil_end (pre a : Str) (p : Char → Bool) (ha : ∀ c ∈ a, p c = false) :
    (cursor pre a).ConsumeUntil p = cursor (pre ++ a) [] := by
  have ha1 : ∀ c ∈ a, (fun c => !p c) c = true := by
    intro c hc
    simp [ha c hc]
  rw [cursor_ConsumeUntil, List.takeWhile_eq_self_iff.mpr ha1]
  have : a.dropWhile (fun c => !p c) = [] := by simpa using ha
  rw [this]

theorem cursor_SkipWhitespace_stop (pre a : Str) (x : Char) (r : Str)
    (ha : ∀ c ∈ a, isWhitespace c = true) (hx : isWhitespace x = false) :
    (cursor pre (a ++ x :: r)).SkipWhitespace = cursor (pre ++ a) (x :: r) := by
  rw [cursor_SkipWhitespace, List.takeWhile_append_of_pos ha, List.dropWhile_append_of_pos ha]
  simp [List.takeWhile, List.dropWhile, hx]

theorem cursor_SkipWhitespace_none (pre : Str) (x : Char) (r : Str)
    (hx : isWhitespace x = false) :
    (cursor pre (x :: r)).SkipWhitespace = cursor pre (x :: r) := by
  simpa using cursor_SkipWhitespace_stop pre [] x r (by simp) hx

theorem cursor_SkipWhitespace_nil (pre : Str) :
    (cursor pre []).SkipWhitespace = cursor pre [] := by
  simp [cursor_SkipWhitespace]

theorem cursor_Slice (pre r : Str) (a b : Nat) :
    (cursor pre r).Slice a b = ((pre ++ r).drop a).take (b - a) := rfl

theorem cursor_Slice_mid (pre mid r : Str) :
    (cursor (pre ++ mid) r).Slice pre.length (pre.length + mid.length) = mid := by
  simp [cursor, Slice]

theorem cursor_Slice_eq (full r mid : Str) (a b : Nat) (pre post : Str)
    (hsrc : full ++ r = pre ++ (mid ++ post)) (ha : a = pre.length)
    (hb : b = pre.length + mid.length) :
    (cursor full r).Slice a b = mid := by
  subst ha hb
  simp [cursor, Slice, hsrc]

theorem cursor_SliceFrom (pre mid r : Str) :
    (cursor (pre ++ mid) r).SliceFrom pre.length = mid := by
  simp [cursor, SliceFrom, Slice]

theorem cursor_ConsumeUntilString (pre r lit : Str) :
    (cursor pre r).ConsumeUntilString lit
      = cursor (pre ++ beforeLit lit r) (r.drop (beforeLit lit r).length) := by
  have hsplit : ∀ t : Str, beforeLit lit t ++ t.drop (beforeLit lit t).length = t := by
    intro t
    induction t with
    | nil => simp [beforeLit]
    | cons c cs ih =>
      by_cases h : lit.isPrefixOf (c :: cs) = true
      · simp [beforeLit, h]
      · simp [beforeLit, h, ih]
  have := cursor_advance pre (beforeLit lit r) (r.drop (beforeLit lit r).length)
  rw [hsplit] at this
  simp [ConsumeUntilString, this]

theorem cursor_MatchString_not (pre lit r : Str) (h : lit.isPrefixOf r = false) :
    (cursor pre r).MatchString lit = (false, cursor pre r) := by
  simp [MatchString, h]

end Scanner

end HtmlParser


namespace HtmlParser

/-! ## Lists of runes -/

theorem takeWhile_stop {p : Char → Bool} (a : Str) (x : Char) (r : Str)
    (ha : ∀ c ∈ a, p c = true) (hx : p x = false) :
    (a ++ x :: r).takeWhile p = a := by
  rw [List.takeWhile_append_of_pos ha]
  simp [List.takeWhile, hx]

theorem dropWhile_stop {p : Char → Bool} (a : Str) (x : Char) (r : Str)
    (ha : ∀ c ∈ a, p c = true) (hx : p x = false) :
    (a ++ x :: r).dropWhile p = x :: r := by
  rw [List.dropWhile_append_of_pos ha]
  simp [List.dropWhile, hx]

theorem takeWhile_head_stop {p : Char → Bool} (x : Char) (r : Str) (hx : p x = false) :
    (x :: r).takeWhile p = [] := by
  simp [List.takeWhile, hx]

theorem dropWhile_head_stop {p : Char → Bool} (x : Char) (r : Str) (hx : p x = false) :
    (x :: r).dropWhile p = x :: r := by
  simp [List.dropWhile, hx]

/-- A literal that starts a text `a ++ x :: r`, where `x` is not in the literal,
starts `a`. -/
theorem isPrefixOf_append_stop (lit a : Str) (x : Char) (r : Str) (hx : x ∉ lit)
    (h : lit.isPrefixOf (a ++ x :: r) = true) : lit.isPrefixOf a = true := by
  induction lit generalizing a with
  | nil => simp
  | cons l ls ih =>
    cases a with
    | nil =>
      simp only [List.nil_append, List.isPrefixOf, Bool.and_eq_true, beq_iff_eq] at h
      exact absurd (List.mem_cons_self l ls) (h.1 ▸ hx)
    | cons c cs =>
      simp only [List.cons_append, List.isPrefixOf, Bool.and_eq_true, beq_iff_eq] at h ⊢
      exact ⟨h.1, ih cs (fun hm => hx (List.mem_cons_of_mem _ hm)) h.2⟩

/-- A literal whose last rune does not occur earlier in it cannot start inside
`body` and run into a following copy of itself. -/
theorem isPrefixOf_straddle (init : Str) (e : Char) (he : e ∉ init) (body post : Str)
    (hbody : body ≠ [])
    (h : (init ++ [e]).isPrefixOf (body ++ (init ++ [e]) ++ post) = true) :
    (init ++ [e]) <+: body := by
  rw [List.isPrefixOf_iff_prefix] at h
  rw [List.append_assoc] at h
  rcases Nat.lt_or_ge body.length (init ++ [e]).length with hlt | hge
  · exfalso
    -- body is a proper prefix of the literal
    have hb : body <+: init ++ [e] :=
      List.prefix_of_prefix_length_le (List.prefix_append _ _) h (Nat.le_of_lt hlt)
    obtain ⟨t, ht⟩ := hb
    have ht0 : t ≠ [] := by
      rintro rfl
      simp at ht
      simp [ht] at hlt
    -- t is a proper prefix of the literal as well
    rw [← ht, List.append_assoc, List.prefix_append_right_inj] at h
    have htlen : t.length < (init ++ [e]).length := by
      have := congrArg List.length ht
      have hb0 : 0 < body.length := List.length_pos.mpr hbody
      simp at this ⊢
      omega
    have h2 : t <+: init ++ [e] := by
      rw [← ht]
      exact List.prefix_of_prefix_length_le h
        (by rw [← List.append_assoc]; exact List.prefix_append _ _) (by simp)
    -- the last rune of t is e and t lies inside init
    have hlast : e ∈ t := by
      have : (body ++ t).getLast? = some e := by rw [ht]; simp
      rw [List.getLast?_append_of_ne_nil _ ht0] at this
      exact List.mem_of_getLast?_eq_some this
    have htinit : t <+: init := by
      rcases List.prefix_concat_iff.mp (by simpa using h2) with h3 | h3
      · exact absurd (congrArg List.length h3) (by simp at htlen ⊢; omega)
      · exact h3
    exact he (htinit.subset hlast)
  · exact List.prefix_of_prefix_length_le h (List.prefix_append _ _) hge

/-- In `body ++ lit ++ post` the literal is first found right after `body`, when
`body` does not contain it and its last rune does not occur earlier in it. -/
theorem beforeLit_body (init : Str) (e : Char) (he : e ∉ init) (body post : Str)
    (h : ¬ (init ++ [e]) <:+: body) :
    Scanner.beforeLit (init ++ [e]) (body ++ (init ++ [e]) ++ post) = body := by
  induction body with
  | nil =>
    have hp : (init ++ [e]).isPrefixOf ((init ++ [e]) ++ post) = true := by
      rw [List.isPrefixOf_iff_prefix]
      exact List.prefix_append _ _
    cases hi : init ++ [e] with
    | nil => simp at hi
    | cons x xs =>
      rw [hi] at hp
      simp only [List.nil_append, List.cons_append] at hp ⊢
      simp [Scanner.beforeLit, hp]
  | cons c b ih =>
    have hnot : (init ++ [e]).isPrefixOf ((c :: b) ++ (init ++ [e]) ++ post) = false := by
      by_contra hc
      have hc1 : (init ++ [e]).isPrefixOf ((c :: b) ++ (init ++ [e]) ++ post) = true := by
        simpa using hc
      exact h (isPrefixOf_straddle init e he (c :: b) post (by simp) hc1).isInfix
    have hb : ¬ (init ++ [e]) <:+: b := fun hb => h (List.infix_cons hb)
    have hnot1 : ¬ (init ++ [e]) <+: c :: (b ++ (init ++ e :: post)) := by
      intro hp
      rw [← List.isPrefixOf_iff_prefix] at hp
      simp [hp] at hnot
    simp only [List.cons_append]
    simp only [Scanner.beforeLit, List.isPrefixOf_iff_prefix, List.append_assoc,
      List.singleton_append, hnot1, if_false]
    congr 1
    simpa using ih hb

end HtmlParser


namespace HtmlParser

/-! The scanner is used through its lemmas only. -/

attribute [local irreducible] Scanner.cursor Scanner.rest Scanner.EOF Scanner.Current
  Scanner.PeekNext Scanner.Position Scanner.Len Scanner.Line Scanner.Column Scanner.advance
  Scanner.Take Scanner.Match Scanner.MatchString Scanner.ConsumeWhile Scanner.ConsumeUntil
  Scanner.ConsumeUntilString Scanner.SkipWhitespace Scanner.Slice Scanner.SliceFrom
  Scanner.Location

open Scanner

/-! ## The tests at the head of the loop body -/

/-- The test `Position()+k <= Len() && Slice(Position(), Position()+k) == lit` of a
literal of `k` runes holds iff the text ahead starts with the literal. -/
theorem literal_test (pre r lit : Str) :
    ((cursor pre r).Position + lit.length ≤ (cursor pre r).Len ∧
      (cursor pre r).Slice (cursor pre r).Position ((cursor pre r).Position + lit.length) = lit)
      ↔ lit.isPrefixOf r = true := by
  simp only [cursor_Position, cursor_Len, cursor_Slice, List.drop_left, Nat.add_sub_cancel_left,
    Nat.add_le_add_iff_left, List.isPrefixOf_iff_prefix]
  constructor
  · rintro ⟨_, h⟩
    exact List.prefix_iff_eq_take.mpr h.symm
  · intro h
    exact ⟨h.length_le, (List.prefix_iff_eq_take.mp h).symm⟩

theorem comment_test_false (pre r : Str) (h : "<!--".toList.isPrefixOf r = false) :
    ¬ ((cursor pre r).Position + 4 ≤ (cursor pre r).Len ∧
      (cursor pre r).Slice (cursor pre r).Position ((cursor pre r).Position + 4)
        = "<!--".toList) := by
  intro hc
  have := (literal_test pre r "<!--".toList).mp hc
  exact absurd (this.symm.trans h) (by simp)

theorem comment_test_true (pre r : Str) (h : "<!--".toList.isPrefixOf r = true) :
    (cursor pre r).Position + 4 ≤ (cursor pre r).Len ∧
      (cursor pre r).Slice (cursor pre r).Position ((cursor pre r).Position + 4)
        = "<!--".toList :=
  (literal_test pre r "<!--".toList).mpr h

theorem doctype_test_false (pre r : Str) (h : "<!DOCTYPE".toList.isPrefixOf r = false) :
    ¬ ((cursor pre r).Position + 9 ≤ (cursor pre r).Len ∧
      (cursor pre r).Slice (cursor pre r).Position ((cursor pre r).Position + 9)
        = "<!DOCTYPE".toList) := by
  intro hc
  have := (literal_test pre r "<!DOCTYPE".toList).mp hc
  exact absurd (this.symm.trans h) (by simp)

theorem doctype_test_true (pre r : Str) (h : "<!DOCTYPE".toList.isPrefixOf r = true) :
    (cursor pre r).Position + 9 ≤ (cursor pre r).Len ∧
      (cursor pre r).Slice (cursor pre r).Position ((cursor pre r).Position + 9)
        = "<!DOCTYPE".toList :=
  (literal_test pre r "<!DOCTYPE".toList).mpr h

theorem nameRune_not_ws {c : Char} (h : nameRune c = true) : isWhitespace c = false := by
  simp [nameRune] at h
  simpa using h.2

theorem nameRune_ne_gt {c : Char} (h : nameRune c = true) : c ≠ '>' := by
  simp [nameRune] at h
  exact h.1.1

theorem nameRune_ne_slash {c : Char} (h : nameRune c = true) : c ≠ '/' := by
  simp [nameRune] at h
  exact h.1.2

theorem PlainName.cons {n : Str} (h : PlainName n) :
    ∃ c cs, n = c :: cs ∧ nameRune c = true := by
  obtain ⟨h0, h1, -⟩ := h
  cases n with
  | nil => exact absurd rfl h0
  | cons c cs => exact ⟨c, cs, rfl, h1 c (List.mem_cons_self c cs)⟩

/-- A plain name followed by `>` does not continue `<` to `<!--`. -/
theorem PlainName.not_comment {n : Str} (h : PlainName n) (x : Char) (r : Str)
    (hx : x ∉ "!--".toList) :
    "<!--".toList.isPrefixOf ('<' :: (n ++ x :: r)) = false := by
  obtain ⟨-, -, -, -, h4, -⟩ := h
  by_contra hc
  have h1 : "!--".toList.isPrefixOf (n ++ x :: r) = true := by
    simpa [List.isPrefixOf] using hc
  have := isPrefixOf_append_stop _ n x r hx h1
  exact absurd (this.symm.trans h4) (by simp)

/-- A plain name followed by `>` does not continue `<` to `<!DOCTYPE`. -/
theorem PlainName.not_doctype {n : Str} (h : PlainName n) (x : Char) (r : Str)
    (hx : x ∉ "!DOCTYPE".toList) :
    "<!DOCTYPE".toList.isPrefixOf ('<' :: (n ++ x :: r)) = false := by
  obtain ⟨-, -, -, -, -, h5⟩ := h
  by_contra hc
  have h1 : "!DOCTYPE".toList.isPrefixOf (n ++ x :: r) = true := by
    simpa [List.isPrefixOf] using hc
  have := isPrefixOf_append_stop _ n x r hx h1
  exact absurd (this.symm.trans h5) (by simp)

/-! ## Opening and closing tags with a plain name -/

theorem attributeLoop_at_gt (fuel : Nat) (pre r : Str) (attrs : List (Str × HtmlAttribute)) :
    attributeLoop (fuel + 1) (cursor pre ('>' :: r)) attrs = .ok (attrs, cursor pre ('>' :: r)) := by
  simp [attributeLoop]

/-- `parsingOpenTag` on `<name>` with a plain name. -/
theorem parsingOpenTag_plain (pre a post : Str) (h : PlainName a) :
    parsingOpenTag NewHtmlParser (cursor pre ('<' :: (a ++ '>' :: post)))
      = .ok (openNode a (lineCol pre) (pre.length + (a.length + 2)),
             cursor (pre ++ '<' :: (a ++ ['>'])) post) := by
  obtain ⟨c, cs, rfl, hc⟩ := h.cons
  obtain ⟨hne, hall, hstyle, hscript, -, -⟩ := h
  have hgt : nameRune '>' = false := by simp [nameRune]
  have hws : isWhitespace '>' = false := by simp [isWhitespace]
  have e1 := cursor_SkipWhitespace_none (pre ++ ['<']) c (cs ++ '>' :: post) (nameRune_not_ws hc)
  have e2 := cursor_ConsumeWhile_stop (pre ++ ['<']) (c :: cs) '>' post nameRune hall hgt
  have e3 := cursor_SkipWhitespace_none (pre ++ ['<'] ++ c :: cs) '>' post hws
  have e5 := cursor_Match_cons (pre ++ ['<'] ++ c :: cs) '>' post
  simp only [List.cons_append, List.append_assoc, List.length_cons, List.length_append,
    List.nil_append, List.length_singleton, List.length_nil] at e1 e2 e3 e5
  simp only [parsingOpenTag, cursor_Match_cons, List.cons_append, List.append_assoc,
    List.nil_append, e1, e2, e3, NewHtmlParser, hstyle, hscript, cursor_Len, List.length_cons,
    List.length_append, List.length_singleton, attributeLoop_at_gt, e5, cursor_Current_cons, cursor_Line,
    cursor_Column, cursor_Position, Bool.not_true, Bool.false_eq_true, if_false, or_self,
    reduceCtorEq, openNode]
  simp [e5]

theorem nameRune_closing {c : Char} (h : nameRune c = true) : closingNameRune c = true := by
  simp [nameRune, isWhitespace] at h
  simp [closingNameRune, h]

/-- `parseClosingTag` on `</name>`. -/
theorem parseClosingTag_name (pre a post : Str) (hne : a ≠ [])
    (hall : ∀ r ∈ a, closingNameRune r = true) :
    parseClosingTag (cursor pre ('<' :: '/' :: (a ++ '>' :: post)))
      = .ok (a, cursor (pre ++ '<' :: '/' :: (a ++ ['>'])) post) := by
  obtain ⟨c, cs, rfl⟩ := List.exists_cons_of_ne_nil hne
  have hc : isWhitespace c = false := by
    have := hall c (List.mem_cons_self c cs)
    simp [closingNameRune] at this
    simp [isWhitespace, this]
  have hgt : closingNameRune '>' = false := by simp [closingNameRune]
  have hws : isWhitespace '>' = false := by simp [isWhitespace]
  have e0 := cursor_Match_cons (pre ++ ['<']) '/' (c :: cs ++ '>' :: post)
  have e1 := cursor_SkipWhitespace_none (pre ++ ['<'] ++ ['/']) c (cs ++ '>' :: post) hc
  have e2 := cursor_ConsumeWhile_stop (pre ++ ['<'] ++ ['/']) (c :: cs) '>' post closingNameRune
    hall hgt
  have e3 := cursor_SkipWhitespace_none (pre ++ ['<'] ++ ['/'] ++ c :: cs) '>' post hws
  have e5 := cursor_Match_cons (pre ++ ['<'] ++ ['/'] ++ c :: cs) '>' post
  simp only [List.cons_append, List.append_assoc, List.nil_append] at e0 e1 e2 e3 e5
  simp only [parseClosingTag, cursor_Match_cons, List.cons_append, List.append_assoc,
    List.nil_append, e0, e1, e2, e3, e5, if_true, Bool.and_self, Bool.not_true,
    Bool.false_eq_true, if_false, reduceCtorEq]

/-! ## Iterations of the loop -/

theorem parseLoop_eof (parser : DefaultHtmlParser) (fuel : Nat) (st : ParseState)
    (h : st.scanner.EOF = true) : parseLoop parser (fuel + 1) st = finish st := by
  simp [parseLoop, h]

theorem parseLoop_next (parser : DefaultHtmlParser) (fuel : Nat) (st st1 : ParseState)
    (h : st.scanner.EOF = false) (hs : step parser st = .next st1) :
    parseLoop parser (fuel + 1) st = parseLoop parser fuel st1 := by
  simp [parseLoop, h, hs]

theorem parseLoop_fail (parser : DefaultHtmlParser) (fuel : Nat) (st : ParseState) (msg : Str)
    (h : st.scanner.EOF = false) (hs : step parser st = .fail msg) :
    parseLoop parser (fuel + 1) st = .error msg := by
  simp [parseLoop, h, hs]

theorem parseLoop_stop (parser : DefaultHtmlParser) (fuel : Nat) (st st1 : ParseState)
    (h : st.scanner.EOF = false) (hs : step parser st = .stop st1) :
    parseLoop parser (fuel + 1) st = finish st1 := by
  simp [parseLoop, h, hs]

theorem initState_eq (html : Str) : initState html = ⟨cursor [] html, [], [], []⟩ := by
  rw [initState, New_eq_cursor]

theorem Reaches.zero (parser : DefaultHtmlParser) (st : ParseState) : Reaches parser 0 st st :=
  fun _ => rfl

theorem Reaches.one {parser : DefaultHtmlParser} {st st1 : ParseState}
    (h : st.scanner.EOF = false) (hs : step parser st = .next st1) : Reaches parser 1 st st1 :=
  fun fuel => parseLoop_next parser fuel st st1 h hs

theorem Reaches.trans {parser : DefaultHtmlParser} {k m : Nat} {st st1 st2 : ParseState}
    (h1 : Reaches parser k st st1) (h2 : Reaches parser m st1 st2) :
    Reaches parser (k + m) st st2 := by
  intro fuel
  have := h1 (fuel + m)
  rw [Nat.add_assoc, Nat.add_comm m k] at this
  rw [this, h2 fuel]

/-- A run of at most as many iterations as the input has runes that ends at the
end of input gives the result of `ParseHtml`. -/
theorem ParseHtml_of_reaches {parser : DefaultHtmlParser} {html : Str} {k : Nat}
    {st : ParseState} (h : Reaches parser k ⟨cursor [] html, [], [], []⟩ st)
    (hk : k ≤ html.length) (heof : st.scanner.EOF = true) :
    ParseHtml parser html = finish st := by
  obtain ⟨d, hd⟩ : ∃ d, html.length + 1 = (d + 1) + k := ⟨html.length - k, by omega⟩
  rw [ParseHtml, hd, initState_eq, h (d + 1), parseLoop_eof _ _ _ heof]

/-- A run of fewer iterations than the input has runes, followed by an iteration
that fails, gives the error of `ParseHtml`. -/
theorem ParseHtml_of_reaches_fail {parser : DefaultHtmlParser} {html : Str} {k : Nat}
    {st : ParseState} {msg : Str} (h : Reaches parser k ⟨cursor [] html, [], [], []⟩ st)
    (hk : k ≤ html.length) (heof : st.scanner.EOF = false) (hs : step parser st = .fail msg) :
    ParseHtml parser html = .error msg := by
  obtain ⟨d, hd⟩ : ∃ d, html.length + 1 = (d + 1) + k := ⟨html.length - k, by omega⟩
  rw [ParseHtml, hd, initState_eq, h (d + 1), parseLoop_fail _ _ _ _ heof hs]

/-- The loop body at `<name>` with a plain name: the node is pushed. -/
theorem step_open_plain (pre a post : Str) (stk : List Str) (roots cur : List HtmlTag)
    (h : PlainName a) :
    step NewHtmlParser ⟨cursor pre ('<' :: (a ++ '>' :: post)), stk, roots, cur⟩
      = .next ⟨cursor (pre ++ '<' :: (a ++ ['>'])) post, a :: stk, roots,
               openNode a (lineCol pre) (pre.length + (a.length + 2)) :: cur⟩ := by
  have hlt : isWhitespace '<' = false := by simp [isWhitespace]
  have e1 := cursor_SkipWhitespace_none pre '<' (a ++ '>' :: post) hlt
  have e2 := comment_test_false pre _ (h.not_comment '>' post (by simp))
  have e3 := doctype_test_false pre _ (h.not_doctype '>' post (by simp))
  have e4 := parsingOpenTag_plain pre a post h
  obtain ⟨c, cs, rfl, hc⟩ := h.cons
  have e5 : (cursor pre ('<' :: (c :: cs ++ '>' :: post))).PeekNext ≠ '/' := by
    simpa using nameRune_ne_slash hc
  simp only [step, e1, cursor_EOF, List.isEmpty_cons, Bool.false_eq_true, if_false,
    cursor_Current_cons, if_true, e2, e3, e5, e4, openNode]

theorem closing_not_comment (r : Str) : "<!--".toList.isPrefixOf ('<' :: '/' :: r) = false := by
  simp [List.isPrefixOf]

theorem closing_not_doctype (r : Str) :
    "<!DOCTYPE".toList.isPrefixOf ('<' :: '/' :: r) = false := by
  simp [List.isPrefixOf]

/-- The loop body at `</` with an empty stack: the superfluous closing tag error. -/
theorem step_close_empty (parser : DefaultHtmlParser) (pre r : Str) (roots cur : List HtmlTag) :
    step parser ⟨cursor pre ('<' :: '/' :: r), [], roots, cur⟩
      = .fail (superfluousMsg (cursor pre ('<' :: '/' :: r)).Location) := by
  have hlt : isWhitespace '<' = false := by simp [isWhitespace]
  have e1 := cursor_SkipWhitespace_none pre '<' ('/' :: r) hlt
  have e2 := comment_test_false pre _ (closing_not_comment r)
  have e3 := doctype_test_false pre _ (closing_not_doctype r)
  simp only [step, e1, cursor_EOF, List.isEmpty_cons, Bool.false_eq_true, if_false,
    cursor_Current_cons, if_true, e2, e3, cursor_PeekNext_cons, List.isEmpty_nil]

/-- The loop body at `</name>` when the top of the stack is another name: the
mismatched closing tag error. -/
theorem step_close_mismatch (parser : DefaultHtmlParser) (pre a post : Str) (e : Str)
    (stk : List Str) (roots cur : List HtmlTag) (hne : a ≠ [])
    (hall : ∀ r ∈ a, closingNameRune r = true) (hea : e ≠ a) :
    step parser ⟨cursor pre ('<' :: '/' :: (a ++ '>' :: post)), e :: stk, roots, cur⟩
      = .fail (mismatchMsg a e (cursor (pre ++ '<' :: '/' :: (a ++ ['>'])) post).Location) := by
  have hlt : isWhitespace '<' = false := by simp [isWhitespace]
  have e1 := cursor_SkipWhitespace_none pre '<' ('/' :: (a ++ '>' :: post)) hlt
  have e2 := comment_test_false pre _ (closing_not_comment (a ++ '>' :: post))
  have e3 := doctype_test_false pre _ (closing_not_doctype (a ++ '>' :: post))
  have e4 := parseClosingTag_name pre a post hne hall
  simp only [step, e1, cursor_EOF, List.isEmpty_cons, Bool.false_eq_true, if_false,
    cursor_Current_cons, if_true, e2, e3, cursor_PeekNext_cons, e4, ne_eq, hea, not_false_eq_true]

/-- The loop body at `</name>` when `name` is on top of the stack: the current
node gets its inner markup, takes its place and the insertion point moves up. -/
theorem step_close_match (parser : DefaultHtmlParser) (pre a post : Str)
    (stk : List Str) (roots : List HtmlTag) (c : HtmlTag) (ps : List HtmlTag) (hne : a ≠ [])
    (hall : ∀ r ∈ a, closingNameRune r = true) :
    step parser ⟨cursor pre ('<' :: '/' :: (a ++ '>' :: post)), a :: stk, roots, c :: ps⟩
      = .next ⟨cursor (pre ++ '<' :: '/' :: (a ++ ['>'])) post, stk,
          (attach (backfill c (cursor (pre ++ '<' :: '/' :: (a ++ ['>'])) post) pre.length)
            ps roots).2,
          (attach (backfill c (cursor (pre ++ '<' :: '/' :: (a ++ ['>'])) post) pre.length)
            ps roots).1⟩ := by
  have hlt : isWhitespace '<' = false := by simp [isWhitespace]
  have e1 := cursor_SkipWhitespace_none pre '<' ('/' :: (a ++ '>' :: post)) hlt
  have e2 := comment_test_false pre _ (closing_not_comment (a ++ '>' :: post))
  have e3 := doctype_test_false pre _ (closing_not_doctype (a ++ '>' :: post))
  have e4 := parseClosingTag_name pre a post hne hall
  simp only [step, e1, cursor_EOF, List.isEmpty_cons, Bool.false_eq_true, if_false,
    cursor_Current_cons, if_true, e2, e3, cursor_PeekNext_cons, e4, ne_eq, not_true_eq_false]
  simp only [cursor_Position]

/-- The loop body at a comment: it is consumed with its terminator. -/
theorem step_comment (parser : DefaultHtmlParser) (pre body post : Str) (stk : List Str)
    (roots cur : List HtmlTag) (h : ¬ ['-', '-', '>'] <:+: '<' :: '!' :: '-' :: '-' :: body) :
    step parser ⟨cursor pre ('<' :: '!' :: '-' :: '-' :: (body ++ '-' :: '-' :: '>' :: post)),
        stk, roots, cur⟩
      = .next ⟨cursor (pre ++ '<' :: '!' :: '-' :: '-' :: (body ++ ['-', '-', '>'])) post,
          stk, roots, cur⟩ := by
  have hlt : isWhitespace '<' = false := by simp [isWhitespace]
  have e1 := cursor_SkipWhitespace_none pre '<'
    ('!' :: '-' :: '-' :: (body ++ '-' :: '-' :: '>' :: post)) hlt
  have e2 := comment_test_true pre
    ('<' :: '!' :: '-' :: '-' :: (body ++ '-' :: '-' :: '>' :: post)) (by simp [List.isPrefixOf])
  have e3 := beforeLit_body ['-', '-'] '>' (by simp) ('<' :: '!' :: '-' :: '-' :: body) post h
  simp only [List.cons_append, List.nil_append, List.append_assoc] at e3
  have e4 := cursor_ConsumeUntilString pre
    ('<' :: '!' :: '-' :: '-' :: (body ++ '-' :: '-' :: '>' :: post)) ['-', '-', '>']
  rw [e3] at e4
  simp only [List.length_cons, List.drop_succ_cons, List.drop_left] at e4
  have e5 := cursor_MatchString (pre ++ '<' :: '!' :: '-' :: '-' :: body) ['-', '-', '>'] post
  simp only [List.cons_append, List.nil_append, List.append_assoc] at e5
  have hlit : "-->".toList = ['-', '-', '>'] := rfl
  simp only [step, e1, cursor_EOF, List.isEmpty_cons, Bool.false_eq_true, if_false,
    cursor_Current_cons, if_true, e2, and_self, hlit, e4, e5, Bool.not_true]

/-- The loop body at a doctype declaration: it is consumed up to its `>`. -/
theorem step_doctype (parser : DefaultHtmlParser) (pre decl post : Str) (stk : List Str)
    (roots cur : List HtmlTag) (h : ∀ c ∈ decl, c ≠ '>') :
    step parser ⟨cursor pre ("<!DOCTYPE".toList ++ (decl ++ '>' :: post)), stk, roots, cur⟩
      = .next ⟨cursor (pre ++ ("<!DOCTYPE".toList ++ (decl ++ ['>']))) post, stk, roots, cur⟩ := by
  have hlit : "<!DOCTYPE".toList = ['<', '!', 'D', 'O', 'C', 'T', 'Y', 'P', 'E'] := rfl
  have hlt : isWhitespace '<' = false := by simp [isWhitespace]
  have e1 := cursor_SkipWhitespace_none pre '<'
    ('!' :: 'D' :: 'O' :: 'C' :: 'T' :: 'Y' :: 'P' :: 'E' :: (decl ++ '>' :: post)) hlt
  have e2 := comment_test_false pre
    ('<' :: '!' :: 'D' :: 'O' :: 'C' :: 'T' :: 'Y' :: 'P' :: 'E' :: (decl ++ '>' :: post))
    (by simp [List.isPrefixOf])
  have e3 := doctype_test_true pre
    ('<' :: '!' :: 'D' :: 'O' :: 'C' :: 'T' :: 'Y' :: 'P' :: 'E' :: (decl ++ '>' :: post))
    (by simp [List.isPrefixOf])
  have e4 := cursor_ConsumeUntil_stop pre
    ('<' :: '!' :: 'D' :: 'O' :: 'C' :: 'T' :: 'Y' :: 'P' :: 'E' :: decl) '>' post (isRune '>')
    (by
      intro c hc
      simp only [List.mem_cons] at hc
      rcases hc with rfl | rfl | rfl | rfl | rfl | rfl | rfl | rfl | rfl | hc
      all_goals first
        | (simp [isRune]; done)
        | simpa [isRune] using h c hc)
    (by simp [isRune])
  have e5 := cursor_Match_cons
    (pre ++ '<' :: '!' :: 'D' :: 'O' :: 'C' :: 'T' :: 'Y' :: 'P' :: 'E' :: decl) '>' post
  simp only [List.cons_append, List.nil_append, List.append_assoc] at e4 e5
  simp only [hlit, List.cons_append, List.nil_append]
  simp only [step, e1, cursor_EOF, List.isEmpty_cons, Bool.false_eq_true, if_false,
    cursor_Current_cons, if_true, e2, e3, and_self, hlit, e4, e5, Bool.not_true]

/-- The loop body at a run of text that starts with no white space and ends at
a `<`: its trimmed runes are appended to the inner text of the current node. -/
theorem step_text (parser : DefaultHtmlParser) (pre : Str) (c : Char) (t post : Str)
    (stk : List Str) (roots cur : List HtmlTag) (hc : isWhitespace c = false)
    (ht : ∀ x ∈ c :: t, x ≠ '<') :
    step parser ⟨cursor pre (c :: (t ++ '<' :: post)), stk, roots, cur⟩
      = .next ⟨cursor (pre ++ c :: t) ('<' :: post), stk, roots,
          if TrimSpace (c :: t) ≠ [] then appendContent cur (TrimSpace (c :: t)) else cur⟩ := by
  have e1 := cursor_SkipWhitespace_none pre c (t ++ '<' :: post) hc
  have hc1 : c ≠ '<' := ht c (List.mem_cons_self c t)
  have e2 := cursor_ConsumeUntil_stop pre (c :: t) '<' post (isRune '<')
    (by intro x hx; simpa [isRune] using ht x hx) (by simp [isRune])
  have e3 := cursor_SliceFrom pre (c :: t) ('<' :: post)
  simp only [List.cons_append] at e2 e3 ⊢
  simp only [step, e1, cursor_EOF, List.isEmpty_cons, Bool.false_eq_true, if_false,
    cursor_Current_cons, hc1, e2, cursor_Position, e3]

theorem skipToTagEnd_at_gt (fuel : Nat) (pre r : Str) :
    skipToTagEnd fuel (cursor pre ('>' :: r)) = cursor pre ('>' :: r) := by
  cases fuel <;> simp [skipToTagEnd]

/-- `parsingOpenTag` on `<name>body</name>` for `style` and `script`, when the
body does not contain `</name>`. -/
theorem parsingOpenTag_raw (pre name body post : Str)
    (hn : name = "style".toList ∨ name = "script".toList)
    (hb : ¬ ('<' :: '/' :: name ++ ['>']) <:+: body) :
    parsingOpenTag NewHtmlParser
        (cursor pre ('<' :: (name ++ '>' :: (body ++ '<' :: '/' :: (name ++ '>' :: post)))))
      = .ok (rawNode name body (lineCol pre),
          cursor (pre ++ '<' :: (name ++ '>' :: (body ++ '<' :: '/' :: (name ++ ['>'])))) post) := by
  have hne : ∃ c cs, name = c :: cs ∧ isWhitespace c = false := by
    rcases hn with rfl | rfl
    · exact ⟨'s', "tyle".toList, rfl, by simp [isWhitespace]⟩
    · exact ⟨'s', "cript".toList, rfl, by simp [isWhitespace]⟩
  have hall : ∀ r ∈ name, nameRune r = true := by
    rcases hn with rfl | rfl <;> simp [nameRune, isWhitespace]
  have hgt0 : '>' ∉ '<' :: '/' :: name := by
    rcases hn with rfl | rfl <;> simp
  obtain ⟨c, cs, rfl, hc⟩ := hne
  have hgt : nameRune '>' = false := by simp [nameRune]
  have e1 := cursor_SkipWhitespace_none (pre ++ ['<']) c
    (cs ++ '>' :: (body ++ '<' :: '/' :: (c :: cs ++ '>' :: post))) hc
  have e2 := cursor_ConsumeWhile_stop (pre ++ ['<']) (c :: cs) '>'
    (body ++ '<' :: '/' :: (c :: cs ++ '>' :: post)) nameRune hall hgt
  have e5 := cursor_Match_cons (pre ++ ['<'] ++ c :: cs) '>'
    (body ++ '<' :: '/' :: (c :: cs ++ '>' :: post))
  have e6 := beforeLit_body ('<' :: '/' :: c :: cs) '>' hgt0 body post hb
  have e7 := cursor_ConsumeUntilString (pre ++ ['<'] ++ c :: cs ++ ['>'])
    (body ++ '<' :: '/' :: (c :: cs ++ '>' :: post)) ('<' :: '/' :: c :: cs ++ ['>'])
  simp only [List.cons_append, List.nil_append, List.append_assoc] at e6 e7
  rw [e6] at e7
  simp only [List.drop_left] at e7
  have e8 := cursor_MatchString (pre ++ ['<'] ++ c :: cs ++ ['>'] ++ body)
    ('<' :: '/' :: c :: cs ++ ['>']) post
  have e9 : (cursor (pre ++ '<' :: c :: (cs ++ '>' :: body))
        ('<' :: '/' :: c :: (cs ++ '>' :: post))).Slice
      (pre ++ '<' :: c :: (cs ++ ['>'])).length (pre ++ '<' :: c :: (cs ++ '>' :: body)).length
      = body :=
    cursor_Slice_eq _ _ body _ _ (pre ++ '<' :: c :: (cs ++ ['>']))
      ('<' :: '/' :: c :: (cs ++ '>' :: post)) (by simp) rfl (by simp; omega)
  simp only [List.cons_append, List.append_assoc, List.nil_append] at e1 e2 e5 e7 e8
  have hl1 : "</".toList = ['<', '/'] := rfl
  have hl2 : ">".toList = ['>'] := rfl
  simp only [parsingOpenTag, cursor_Match_cons, List.cons_append, List.append_assoc,
    List.nil_append, e1, e2, NewHtmlParser, hn, skipToTagEnd_at_gt, e5, hl1, hl2, e7, e8,
    cursor_Line, cursor_Column, cursor_Position, e9, Bool.not_true, Bool.false_eq_true,
    if_false, if_true, reduceCtorEq, rawNode]

/-- The loop body at `<name>body</name>` for `style` and `script`: the node is
attached and is not made the current node. -/
theorem step_raw (pre name body post : Str) (stk : List Str) (roots cur : List HtmlTag)
    (hn : name = "style".toList ∨ name = "script".toList)
    (hb : ¬ ('<' :: '/' :: name ++ ['>']) <:+: body) :
    step NewHtmlParser
        ⟨cursor pre ('<' :: (name ++ '>' :: (body ++ '<' :: '/' :: (name ++ '>' :: post)))),
          stk, roots, cur⟩
      = .next ⟨cursor (pre ++ '<' :: (name ++ '>' :: (body ++ '<' :: '/' :: (name ++ ['>']))))
            post, stk, (attach (rawNode name body (lineCol pre)) cur roots).2,
          (attach (rawNode name body (lineCol pre)) cur roots).1⟩ := by
  have hlt : isWhitespace '<' = false := by simp [isWhitespace]
  have e1 := cursor_SkipWhitespace_none pre '<'
    (name ++ '>' :: (body ++ '<' :: '/' :: (name ++ '>' :: post))) hlt
  have e2 := comment_test_false pre
    ('<' :: (name ++ '>' :: (body ++ '<' :: '/' :: (name ++ '>' :: post))))
    (by rcases hn with rfl | rfl <;> simp [List.isPrefixOf])
  have e3 := doctype_test_false pre
    ('<' :: (name ++ '>' :: (body ++ '<' :: '/' :: (name ++ '>' :: post))))
    (by rcases hn with rfl | rfl <;> simp [List.isPrefixOf])
  have e4 := parsingOpenTag_raw pre name body post hn hb
  have e5 : (cursor pre ('<' :: (name ++ '>' :: (body ++ '<' :: '/' :: (name ++ '>' :: post))))).PeekNext
      ≠ '/' := by
    rcases hn with rfl | rfl <;> simp
  simp only [step, e1, cursor_EOF, List.isEmpty_cons, Bool.false_eq_true, if_false,
    cursor_Current_cons, if_true, e2, e3, e5, e4, rawNode]

/-- The loop body at `</`, after any white space, with an empty stack, for any
scanner: the superfluous closing tag error. -/
theorem step_superfluous (parser : DefaultHtmlParser) (st : ParseState) (r : Str)
    (hstk : st.closeStack = []) (hrest : st.scanner.SkipWhitespace.rest = '<' :: '/' :: r) :
    step parser st = .fail (superfluousMsg st.scanner.SkipWhitespace.Location) := by
  have e0 := EOF_of_rest_cons _ _ _ hrest
  have e1 := Current_of_rest_cons _ _ _ hrest
  have e2 := literal_test_fails st.scanner.SkipWhitespace "<!--".toList
    (by rw [hrest]; simp [List.isPrefixOf])
  have e3 := literal_test_fails st.scanner.SkipWhitespace "<!DOCTYPE".toList
    (by rw [hrest]; simp [List.isPrefixOf])
  have e4 := PeekNext_of_rest_cons _ _ _ _ hrest
  have l4 : "<!--".toList.length = 4 := rfl
  have l9 : "<!DOCTYPE".toList.length = 9 := rfl
  rw [l4] at e2
  rw [l9] at e3
  simp only [step, e0, e1, e2, e3, e4, hstk, Bool.false_eq_true, if_false, if_true,
    List.isEmpty_nil]

/-- The loop at `</`, after any white space, with an empty stack. -/
theorem parseLoop_superfluous (parser : DefaultHtmlParser) (fuel : Nat) (st : ParseState)
    (r : Str) (hstk : st.closeStack = [])
    (hrest : st.scanner.SkipWhitespace.rest = '<' :: '/' :: r) :
    parseLoop parser (fuel + 1) st
      = .error (superfluousMsg st.scanner.SkipWhitespace.Location) := by
  have he : st.scanner.EOF = false := by
    by_contra hc
    have h1 := EOF_SkipWhitespace st.scanner (by simpa using hc)
    rw [EOF_of_rest_cons _ _ _ hrest] at h1
    exact absurd h1 (by simp)
  exact parseLoop_fail parser fuel st _ he (step_superfluous parser st r hstk hrest)

/-- The loop leaves off where only white space is ahead. -/
theorem parseLoop_at_end (parser : DefaultHtmlParser) (fuel : Nat) (st : ParseState)
    (h : st.scanner.SkipWhitespace.EOF = true) : parseLoop parser (fuel + 1) st = finish st := by
  by_cases he : st.scanner.EOF = true
  · exact parseLoop_eof parser fuel st he
  · have hs : step parser st = .stop { st with scanner := st.scanner.SkipWhitespace } := by
      simp only [step, h, if_true]
    rw [parseLoop_stop parser fuel st _ (by simpa using he) hs]
    rfl

/-! ## Line and column -/

theorem lineCol_append (pre a : Str) (h : ∀ c ∈ a, c ≠ '\n') :
    lineCol (pre ++ a) = ((lineCol pre).1, (lineCol pre).2 + a.length) := by
  induction a generalizing pre with
  | nil => simp
  | cons c cs ih =>
    have hc : c ≠ '\n' := h c (List.mem_cons_self c cs)
    have := ih (pre ++ [c]) (fun d hd => h d (List.mem_cons_of_mem c hd))
    rw [List.append_assoc] at this
    rw [List.singleton_append] at this
    rw [this]
    simp [lineCol, List.foldl_append, bump, hc]
    omega

theorem nameRune_ne_newline {c : Char} (h : nameRune c = true) : c ≠ '\n' := by
  intro hc
  subst hc
  simp [nameRune, isWhitespace] at h

end HtmlParser


namespace HtmlParser

/-! The scanner is used through its lemmas only. -/

attribute [local irreducible] Scanner.cursor Scanner.rest Scanner.EOF Scanner.Current
  Scanner.PeekNext Scanner.Position Scanner.Len Scanner.Line Scanner.Column Scanner.advance
  Scanner.Take Scanner.Match Scanner.MatchString Scanner.ConsumeWhile Scanner.ConsumeUntil
  Scanner.ConsumeUntilString Scanner.SkipWhitespace Scanner.Slice Scanner.SliceFrom
  Scanner.Location

open Scanner

/-- The location `1:k` after `k - 1` runes, none of them a newline. -/
theorem cursor_Location_oneLine (pre r : Str) (h : ∀ c ∈ pre, c ≠ '\n') :
    (cursor pre r).Location = '1' :: ':' :: fmtInt (pre.length + 1) := by
  have := lineCol_append [] pre h
  simp only [List.nil_append] at this
  rw [cursor_Location, this]
  have h1 : Nat.toDigits 10 1 = ['1'] := by decide
  simp [lineCol, fmtInt, Nat.add_comm, h1]

theorem PlainName.closing {n : Str} (h : PlainName n) : ∀ r ∈ n, closingNameRune r = true :=
  fun r hr => nameRune_closing (h.2.1 r hr)

theorem PlainName.no_newline {n : Str} (h : PlainName n) : ∀ r ∈ n, r ≠ '\n' :=
  fun r hr => nameRune_ne_newline (h.2.1 r hr)

theorem ParseHtml_mismatch (a b : Str) (ha : PlainName a) (hb : PlainName b) (hab : a ≠ b) :
    ParseHtml NewHtmlParser
        ("<".toList ++ a ++ "><".toList ++ b ++ "></".toList ++ a ++ ">".toList)
      = .error (mismatchMsg a b ("1:".toList ++ fmtInt (2 * a.length + b.length + 8))) := by
  have hin : "<".toList ++ a ++ "><".toList ++ b ++ "></".toList ++ a ++ ">".toList
      = '<' :: (a ++ '>' :: '<' :: (b ++ '>' :: '<' :: '/' :: (a ++ '>' :: []))) := by simp
  have r1 := Reaches.one (by simp) (step_open_plain [] a
    ('<' :: (b ++ '>' :: '<' :: '/' :: (a ++ '>' :: []))) [] [] [] ha)
  have r2 := r1.trans (Reaches.one (by simp) (step_open_plain _ b _ _ _ _ hb))
  rw [hin, ParseHtml_of_reaches_fail r2 (by simp; omega) (by simp)
    (step_close_mismatch NewHtmlParser _ a [] b _ _ _ ha.1 ha.closing hab.symm)]
  rw [cursor_Location_oneLine]
  · congr 2
    simp
    congr 1
    omega
  · intro c hc
    simp only [List.nil_append, List.mem_append, List.mem_cons, List.mem_singleton,
      List.not_mem_nil, or_false] at hc
    rcases hc with ((rfl | hc | rfl) | rfl | hc | rfl) | rfl | rfl | hc | rfl
    all_goals first
      | exact ha.no_newline c hc
      | exact hb.no_newline c hc
      | decide

theorem ParseHtml_unclosed (a b : Str) (ha : PlainName a) (hb : PlainName b) :
    ParseHtml NewHtmlParser ("<".toList ++ a ++ "><".toList ++ b ++ ">".toList)
      = .error (unclosedMsg b) := by
  have hin : "<".toList ++ a ++ "><".toList ++ b ++ ">".toList
      = '<' :: (a ++ '>' :: '<' :: (b ++ '>' :: [])) := by simp
  have r1 := Reaches.one (by simp) (step_open_plain [] a ('<' :: (b ++ '>' :: [])) [] [] [] ha)
  have r2 := r1.trans (Reaches.one (by simp) (step_open_plain _ b _ _ _ _ hb))
  rw [hin, ParseHtml_of_reaches r2 (by simp; omega) (by simp)]
  rfl

theorem ParseHtml_superfluous_alone (n : Str) :
    ParseHtml NewHtmlParser ("</".toList ++ n ++ ">".toList)
      = .error (superfluousMsg "1:1".toList) := by
  have hin : "</".toList ++ n ++ ">".toList = '<' :: '/' :: (n ++ '>' :: []) := by simp
  rw [hin, ParseHtml_of_reaches_fail (Reaches.zero _ _) (by simp) (by simp)
    (step_close_empty NewHtmlParser [] _ [] []), cursor_Location_oneLine _ _ (by simp)]
  rfl

theorem ParseHtml_superfluous_after (n : Str) (hn : PlainName n) :
    ParseHtml NewHtmlParser ("<".toList ++ n ++ "></".toList ++ n ++ "></".toList ++ n ++ ">".toList)
      = .error (superfluousMsg ("1:".toList ++ fmtInt (2 * n.length + 6))) := by
  have hin : "<".toList ++ n ++ "></".toList ++ n ++ "></".toList ++ n ++ ">".toList
      = '<' :: (n ++ '>' :: '<' :: '/' :: (n ++ '>' :: '<' :: '/' :: (n ++ '>' :: []))) := by
    simp
  have r1 := Reaches.one (by simp) (step_open_plain [] n
    ('<' :: '/' :: (n ++ '>' :: '<' :: '/' :: (n ++ '>' :: []))) [] [] [] hn)
  have r2 := r1.trans (Reaches.one (by simp)
    (step_close_match NewHtmlParser _ n _ _ _ _ _ hn.1 hn.closing))
  rw [hin, ParseHtml_of_reaches_fail r2 (by simp; omega) (by simp)
    (step_close_empty NewHtmlParser _ _ _ _)]
  rw [cursor_Location_oneLine]
  · congr 2
    simp
    congr 1
    omega
  · intro c hc
    simp only [List.nil_append, List.mem_append, List.mem_cons, List.mem_singleton,
      List.not_mem_nil, or_false] at hc
    rcases hc with (rfl | hc | rfl) | rfl | rfl | hc | rfl
    all_goals first
      | exact hn.no_newline c hc
      | decide

theorem TrimSpace_x : TrimSpace ['x'] = ['x'] := by decide

theorem ParseHtml_raw (name body : Str) (hn : name = "style".toList ∨ name = "script".toList)
    (hb : ¬ ("</".toList ++ name ++ ">".toList) <:+: body) :
    ParseHtml NewHtmlParser ("<".toList ++ name ++ ">".toList ++ body ++ "</".toList ++ name ++ ">".toList)
      = .ok [{ Name := name, Attributes := [], Children := [], InnerHtml := body,
               InnerContent := [], IsSelfClosing := true, Pos := { Line := 1, Column := 1 },
               htmlStart := 0 }] := by
  have hin : "<".toList ++ name ++ ">".toList ++ body ++ "</".toList ++ name ++ ">".toList
      = '<' :: (name ++ '>' :: (body ++ '<' :: '/' :: (name ++ '>' :: []))) := by simp
  have hb1 : ¬ ('<' :: '/' :: name ++ ['>']) <:+: body := by simpa using hb
  have hrun := Reaches.one (by simp) (step_raw [] name body [] [] [] [] hn hb1)
  rw [hin, ParseHtml_of_reaches hrun (by simp) (by simp)]
  simp [finish, ParseState.rootsView, unwind, attach, rawNode, lineCol]

theorem ParseHtml_doctype_comment (c : Str) (h1 : ¬ "-->".toList <:+: c) (h2 : ¬ ">".toList <+: c)
    (h3 : ¬ "->".toList <+: c) :
    ParseHtml NewHtmlParser ("<!DOCTYPE html><!--".toList ++ c ++ "--><p>x</p>".toList)
      = .ok [{ Name := "p".toList, Attributes := [], Children := [], InnerHtml := "x".toList,
               InnerContent := "x".toList, IsSelfClosing := false,
               Pos := { Line := (lineCol ("<!DOCTYPE html><!--".toList ++ c ++ "-->".toList)).1,
                        Column := (lineCol ("<!DOCTYPE html><!--".toList ++ c ++ "-->".toList)).2 },
               htmlStart := c.length + 25 }] := by
  have hin : "<!DOCTYPE html><!--".toList ++ c ++ "--><p>x</p>".toList
      = "<!DOCTYPE".toList ++ (" html".toList ++ '>' :: '<' :: '!' :: '-' :: '-' ::
          (c ++ '-' :: '-' :: '>' :: '<' :: ("p".toList ++ '>' :: 'x' :: ([] ++ '<' :: '/' ::
            ("p".toList ++ '>' :: [])))) ) := by simp
  have hc : ¬ ['-', '-', '>'] <:+: '<' :: '!' :: '-' :: '-' :: c := by
    intro hinf
    rcases List.infix_cons_iff.mp hinf with hp | hinf
    · simp at hp
    rcases List.infix_cons_iff.mp hinf with hp | hinf
    · simp at hp
    rcases List.infix_cons_iff.mp hinf with hp | hinf
    · exact h2 (by simpa using hp)
    rcases List.infix_cons_iff.mp hinf with hp | hinf
    · exact h3 (by simpa using hp)
    exact h1 hinf
  have hp : PlainName "p".toList := by
    simp [PlainName, nameRune, isWhitespace, List.isPrefixOf]
  have r1 := Reaches.one (by simp) (step_doctype NewHtmlParser [] " html".toList
    ('<' :: '!' :: '-' :: '-' :: (c ++ '-' :: '-' :: '>' :: '<' :: ("p".toList ++ '>' :: 'x' ::
      ([] ++ '<' :: '/' :: ("p".toList ++ '>' :: []))))) [] [] [] (by simp))
  have r2 := r1.trans (Reaches.one (by simp) (step_comment NewHtmlParser _ c _ [] [] [] hc))
  have r3 := r2.trans (Reaches.one (by simp) (step_open_plain _ "p".toList _ [] [] [] hp))
  have r4 := r3.trans (Reaches.one (by simp)
    (step_text NewHtmlParser _ 'x' [] _ _ _ _ (by simp [isWhitespace]) (by simp)))
  have r5 := r4.trans (Reaches.one (by simp)
    (step_close_match NewHtmlParser _ "p".toList [] _ _ _ _ (by simp)
      (by simp [closingNameRune])))
  rw [hin, ParseHtml_of_reaches r5 (by simp) (by simp)]
  clear r1 r2 r3 r4 r5
  simp only [finish, ParseState.rootsView, unwind, attach, TrimSpace_x, appendContent, openNode,
    ne_eq, reduceCtorEq, not_false_eq_true, if_true, List.nil_append, backfill]
  rw [if_pos (by constructor <;> simp), cursor_Slice_eq _ _ ['x'] _ _
    ("<!DOCTYPE html><!--".toList ++ c ++ "--><p>".toList) "</p>".toList (by simp) (by simp)
    (by simp),
    TrimSpace_x]
  simp

end HtmlParser


namespace HtmlParser

/-! The scanner is used through its lemmas only. -/

attribute [local irreducible] Scanner.cursor Scanner.rest Scanner.EOF Scanner.Current
  Scanner.PeekNext Scanner.Position Scanner.Len Scanner.Line Scanner.Column Scanner.advance
  Scanner.Take Scanner.Match Scanner.MatchString Scanner.ConsumeWhile Scanner.ConsumeUntil
  Scanner.ConsumeUntilString Scanner.SkipWhitespace Scanner.Slice Scanner.SliceFrom
  Scanner.Location

open Scanner

/-! ## What an iteration does to the tree -/

/-- An iteration of the loop that goes on to the next one either leaves the stack
and the tree as they are (comment, doctype, text that trims to nothing), or closes
the current node, or attaches a self-closing node, or pushes a node, or appends text
to the current node. -/
theorem step_next_cases (parser : DefaultHtmlParser) (st st1 : ParseState)
    (h : step parser st = .next st1) :
    (st1.closeStack = st.closeStack ∧ st1.roots = st.roots ∧ st1.current = st.current)
    ∨ (∃ e stk c ps sc pos, st.closeStack = e :: stk ∧ st.current = c :: ps
        ∧ st1.closeStack = stk
        ∧ st1.roots = (attach (backfill c sc pos) ps st.roots).2
        ∧ st1.current = (attach (backfill c sc pos) ps st.roots).1)
    ∨ (∃ tag s s1, parsingOpenTag parser s = .ok (tag, s1) ∧ tag.IsSelfClosing = true
        ∧ st1.closeStack = st.closeStack
        ∧ st1.roots = (attach tag st.current st.roots).2
        ∧ st1.current = (attach tag st.current st.roots).1)
    ∨ (∃ tag s s1, parsingOpenTag parser s = .ok (tag, s1) ∧ tag.IsSelfClosing = false
        ∧ st1.closeStack = tag.Name :: st.closeStack
        ∧ st1.roots = st.roots ∧ st1.current = tag :: st.current)
    ∨ (∃ x : Str, (∀ ch ∈ x, ch ≠ '<') ∧ TrimSpace x ≠ []
        ∧ st1.closeStack = st.closeStack ∧ st1.roots = st.roots
        ∧ st1.current = appendContent st.current (TrimSpace x)) := by
  unfold step at h
  simp only at h
  split at h
  · cases h
  split at h
  · split at h
    · split at h
      · cases h
      · cases h
        exact Or.inl ⟨rfl, rfl, rfl⟩
    split at h
    · split at h
      · cases h
      · cases h
        exact Or.inl ⟨rfl, rfl, rfl⟩
    split at h
    · split at h
      · cases h
      · split at h
        · cases h
        · cases h
        · cases h
        · split at h
          · cases h
          · split at h
            · cases h
            · split at h
              · cases h
              · rename_i hstk _ _ c ps hcur
                cases h
                exact Or.inr (Or.inl ⟨_, _, c, ps, _, _, hstk, hcur, rfl, rfl, rfl⟩)
    · split at h
      · cases h
      · cases h
      · cases h
      · rename_i tag sc1 hopen
        split at h
        · rename_i hsc
          cases h
          exact Or.inr (Or.inr (Or.inl ⟨tag, _, sc1, hopen, hsc, rfl, rfl, rfl⟩))
        · rename_i hsc
          cases h
          exact Or.inr (Or.inr (Or.inr (Or.inl
            ⟨tag, _, sc1, hopen, by simpa using hsc, rfl, rfl, rfl⟩)))
  · cases h
    by_cases hx : TrimSpace ((st.scanner.SkipWhitespace.ConsumeUntil (isRune '<')).SliceFrom
        st.scanner.SkipWhitespace.Position) = []
    · left
      simp [hx]
    · right; right; right; right
      refine ⟨_, ?_, hx, rfl, rfl, by simp [hx]⟩
      rw [SliceFrom_ConsumeUntil]
      intro ch hch
      have := List.mem_takeWhile_imp hch
      simpa [isRune] using this

/-! ## The invariant of the loop -/

/-- With no handler registered, `parsingOpenTag` returns a node without children. -/
theorem parsingOpenTag_children (s s1 : Scanner) (tag : HtmlTag)
    (h : parsingOpenTag NewHtmlParser s = .ok (tag, s1)) : tag.Children = [] := by
  unfold parsingOpenTag at h
  simp only [NewHtmlParser] at h
  repeat' split at h
  all_goals first
    | (cases h; rfl)
    | cases h

theorem HtmlTag.nodesOfList_append (xs ys : List HtmlTag) :
    HtmlTag.nodesOfList (xs ++ ys) = HtmlTag.nodesOfList xs ++ HtmlTag.nodesOfList ys := by
  induction xs with
  | nil => simp [HtmlTag.nodesOfList]
  | cons x xs ih => simp [HtmlTag.nodesOfList, ih]

theorem HtmlTag.nodes_eq (t : HtmlTag) : t.nodes = t :: HtmlTag.nodesOfList t.Children := by
  cases t
  simp [HtmlTag.nodes]

theorem HtmlTag.mem_nodesOfList {ts : List HtmlTag} {n : HtmlTag}
    (h : n ∈ HtmlTag.nodesOfList ts) : ∃ t ∈ ts, n ∈ t.nodes := by
  induction ts with
  | nil => simp [HtmlTag.nodesOfList] at h
  | cons x xs ih =>
    simp only [HtmlTag.nodesOfList, List.mem_append] at h
    rcases h with h | h
    · exact ⟨x, List.mem_cons_self x xs, h⟩
    · obtain ⟨t, ht, hn⟩ := ih h
      exact ⟨t, List.mem_cons_of_mem x ht, hn⟩

/-- A node that satisfies `W` and whose children are all good is good. -/
theorem AllNodes.intro {W : HtmlTag → Prop} {t : HtmlTag} (hw : W t)
    (hc : ∀ ch ∈ t.Children, AllNodes W ch) : AllNodes W t := by
  intro n hn
  rw [HtmlTag.nodes_eq] at hn
  rcases List.mem_cons.mp hn with rfl | hn
  · exact hw
  · obtain ⟨ch, hch, hn1⟩ := HtmlTag.mem_nodesOfList hn
    exact hc ch hch n hn1

theorem OpenNode.closed {W : HtmlTag → Prop} {c : HtmlTag} (h : OpenNode W c) : AllNodes W c :=
  AllNodes.intro h.2.1 h.2.2

theorem OpenNode.backfill {W : HtmlTag → Prop} (hW : NodeLaw W) {c : HtmlTag}
    (h : OpenNode W c) (sc : Scanner) (pos : Nat) : OpenNode W (backfill c sc pos) := by
  unfold HtmlParser.backfill
  split
  · exact ⟨h.1, hW.markup c _ h.2.1, h.2.2⟩
  · exact h

theorem OpenNode.addChild {W : HtmlTag → Prop} (hW : NodeLaw W) {c ch : HtmlTag}
    (h : OpenNode W c) (hch : AllNodes W ch) :
    OpenNode W { c with Children := c.Children ++ [ch] } := by
  refine ⟨h.1, hW.child c ch h.1 h.2.1, ?_⟩
  intro x hx
  rcases List.mem_append.mp hx with hx | hx
  · exact h.2.2 x hx
  · rw [List.mem_singleton.mp hx]
    exact hch

/-- Attaching a good node keeps the invariant. -/
theorem Inv.attach {W : HtmlTag → Prop} (hW : NodeLaw W) {tag : HtmlTag}
    {current roots : List HtmlTag} (htag : AllNodes W tag)
    (hr : ∀ r ∈ roots, AllNodes W r) (hc : ∀ c ∈ current, OpenNode W c) :
    (∀ r ∈ (attach tag current roots).2, AllNodes W r)
      ∧ (∀ c ∈ (attach tag current roots).1, OpenNode W c)
      ∧ (attach tag current roots).1.map (fun c => c.Name) = current.map (fun c => c.Name) := by
  cases current with
  | nil =>
    refine ⟨?_, by simp [HtmlParser.attach], by simp [HtmlParser.attach]⟩
    intro r hr1
    simp only [HtmlParser.attach, List.mem_append, List.mem_singleton] at hr1
    rcases hr1 with hr1 | rfl
    · exact hr r hr1
    · exact htag
  | cons c ps =>
    refine ⟨by simpa [HtmlParser.attach] using hr, ?_, by simp [HtmlParser.attach]⟩
    intro x hx
    simp only [HtmlParser.attach, List.mem_cons] at hx
    rcases hx with rfl | hx
    · exact (hc c (List.mem_cons_self c ps)).addChild hW htag
    · exact hc x (List.mem_cons_of_mem c hx)

/-- An iteration of the loop keeps the invariant. -/
theorem Inv.step {W : HtmlTag → Prop} (hW : NodeLaw W) {st st1 : ParseState} (hinv : Inv W st)
    (h : step NewHtmlParser st = .next st1) : Inv W st1 := by
  obtain ⟨hr, hc, hs⟩ := hinv
  rcases step_next_cases NewHtmlParser st st1 h with
    ⟨e1, e2, e3⟩ | ⟨e, stk, c, ps, sc, pos, hstk, hcur, e1, e2, e3⟩
    | ⟨tag, s, s1, hopen, hsc, e1, e2, e3⟩ | ⟨tag, s, s1, hopen, hsc, e1, e2, e3⟩
    | ⟨x, hx, hne, e1, e2, e3⟩
  · exact ⟨e2 ▸ hr, e3 ▸ hc, by rw [e1, e3, hs]⟩
  · have hopenc : OpenNode W c := hc c (by rw [hcur]; exact List.mem_cons_self c ps)
    have hps : ∀ p ∈ ps, OpenNode W p := fun p hp =>
      hc p (by rw [hcur]; exact List.mem_cons_of_mem c hp)
    have := Inv.attach hW (hopenc.backfill hW sc pos).closed hr hps
    refine ⟨e2 ▸ this.1, e3 ▸ this.2.1, ?_⟩
    rw [e1, e3, this.2.2]
    rw [hstk, hcur] at hs
    simpa using (List.cons.inj hs).2
  · have hgood : AllNodes W tag :=
      AllNodes.intro (hW.opened s tag s1 hopen)
        (by rw [parsingOpenTag_children s s1 tag hopen]; simp)
    have := Inv.attach hW hgood hr hc
    exact ⟨e2 ▸ this.1, e3 ▸ this.2.1, by rw [e1, e3, this.2.2, hs]⟩
  · refine ⟨e2 ▸ hr, ?_, by rw [e1, e3, hs]; rfl⟩
    rw [e3]
    intro x hx
    rcases List.mem_cons.mp hx with rfl | hx
    · exact ⟨hsc, hW.opened s x s1 hopen,
        by rw [parsingOpenTag_children s s1 x hopen]; simp⟩
    · exact hc x hx
  · refine ⟨e2 ▸ hr, ?_, ?_⟩
    · rw [e3]
      cases hcur : st.current with
      | nil => simp [appendContent]
      | cons c ps =>
        rw [hcur] at hc
        intro y hy
        simp only [appendContent, List.mem_cons] at hy
        rcases hy with rfl | hy
        · have hoc := hc c (List.mem_cons_self c ps)
          exact ⟨hoc.1, hW.text c x hoc.1 hoc.2.1 hx hne, hoc.2.2⟩
        · exact hc y (List.mem_cons_of_mem c hy)
    · rw [e1, e3, hs]
      cases st.current <;> simp [appendContent]

/-- The result of the loop, started in a state that satisfies the invariant,
consists of good nodes. -/
theorem Inv.parseLoop {W : HtmlTag → Prop} (hW : NodeLaw W) (fuel : Nat) :
    ∀ (st : ParseState) (roots : List HtmlTag), Inv W st →
      parseLoop NewHtmlParser fuel st = .ok roots → ∀ r ∈ roots, AllNodes W r := by
  have hfin : ∀ (st : ParseState) (roots : List HtmlTag), Inv W st →
      finish st = .ok roots → ∀ r ∈ roots, AllNodes W r := by
    intro st roots hinv hf
    obtain ⟨hr, hc, hs⟩ := hinv
    unfold finish at hf
    split at hf
    · cases hf
    · rename_i hstk
      have hcur : st.current = [] := by
        rw [hstk] at hs
        exact List.map_eq_nil_iff.mp hs.symm
      simp only [ParseState.rootsView, hcur, unwind, Outcome.ok.injEq] at hf
      rw [← hf]
      exact hr
  induction fuel with
  | zero =>
    intro st roots _ h
    simp [HtmlParser.parseLoop] at h
  | succ k ih =>
    intro st roots hinv h
    unfold HtmlParser.parseLoop at h
    split at h
    · exact hfin st roots hinv h
    · split at h
      · rename_i st1 hst
        exact ih st1 roots (hinv.step hW hst) h
      · rename_i st1 hst
        have hsame : Inv W st1 := by
          unfold HtmlParser.step at hst
          simp only at hst
          split at hst
          · cases hst
            exact hinv
          all_goals (repeat' split at hst) <;> cases hst
        exact hfin st1 roots hsame h
      · cases h
      · cases h
      · cases h

/-- Every node that `ParseHtml` returns, with no handler registered, satisfies a
property that the parser establishes and keeps. -/
theorem ParseHtml_allNodes {W : HtmlTag → Prop} (hW : NodeLaw W) (html : Str)
    (roots : List HtmlTag) (h : ParseHtml NewHtmlParser html = .ok roots) :
    ∀ r ∈ roots, AllNodes W r :=
  Inv.parseLoop hW _ _ roots ⟨by simp [initState], by simp [initState], rfl⟩ h

/-- The property of C7 is one the parser establishes and keeps: a node comes
without children from `parsingOpenTag`, and children, text and inner markup are
only added to nodes that are not self-closing. -/
theorem selfClosing_nodeLaw :
    NodeLaw (fun n => n.IsSelfClosing = true → n.Children = []) where
  opened := fun s tag s1 h _ => parsingOpenTag_children s s1 tag h
  child := fun c _ hc _ h => by simp [hc] at h
  text := fun c _ hc _ _ _ h => by simp [hc] at h
  markup := fun _ _ hw h => hw h

end HtmlParser


namespace HtmlParser

/-! ## Clones -/

theorem mapSet_append_new (m : List (Str × HtmlAttribute)) (k : Str) (v : HtmlAttribute)
    (h : k ∉ m.map Prod.fst) : mapSet m k v = m ++ [(k, v)] := by
  induction m with
  | nil => rfl
  | cons kv rest ih =>
    obtain ⟨k1, v1⟩ := kv
    simp only [List.map_cons, List.mem_cons, not_or] at h
    have hne : k1 ≠ k := fun e => h.1 e.symm
    simp [mapSet, hne, ih h.2]

theorem foldl_mapSet_nodup (acc attrs : List (Str × HtmlAttribute))
    (h : ((acc ++ attrs).map Prod.fst).Nodup) :
    attrs.foldl (fun m kv => mapSet m kv.1 kv.2) acc = acc ++ attrs := by
  induction attrs generalizing acc with
  | nil => simp
  | cons kv rest ih =>
    have hk : kv.1 ∉ acc.map Prod.fst := by
      simp only [List.map_append, List.map_cons] at h
      have := (List.nodup_append.mp h).2.2
      intro hm
      exact this hm (List.mem_cons_self _ _)
    have h2 : ((acc ++ [kv] ++ rest).map Prod.fst).Nodup := by
      simpa using h
    rw [List.foldl_cons, mapSet_append_new acc kv.1 kv.2 hk]
    simpa using ih (acc ++ [kv]) h2

/-- The copy of a map in which no key occurs twice is the map. -/
theorem copyAttributes_nodup (attrs : List (Str × HtmlAttribute))
    (h : (attrs.map Prod.fst).Nodup) : copyAttributes attrs = attrs := by
  simpa [copyAttributes] using foldl_mapSet_nodup [] attrs (by simpa using h)

theorem HtmlTag.nodes_self (t : HtmlTag) : t ∈ t.nodes := by
  cases t
  simp [HtmlTag.nodes]

theorem HtmlTag.nodesOfList_mem (ts : List HtmlTag) (t n : HtmlTag) (ht : t ∈ ts)
    (hn : n ∈ t.nodes) : n ∈ HtmlTag.nodesOfList ts := by
  induction ts with
  | nil => cases ht
  | cons x xs ih =>
    simp only [HtmlTag.nodesOfList, List.mem_append]
    rcases List.mem_cons.mp ht with rfl | h
    · exact Or.inl hn
    · exact Or.inr (ih h)

theorem HtmlTag.nodes_child (t c n : HtmlTag) (hc : c ∈ t.Children) (hn : n ∈ c.nodes) :
    n ∈ t.nodes := by
  cases t
  simp only [HtmlTag.nodes, List.mem_cons]
  exact Or.inr (HtmlTag.nodesOfList_mem _ c n hc hn)

theorem HtmlTag.KeysUnique.child {t c : HtmlTag} (h : t.KeysUnique) (hc : c ∈ t.Children) :
    c.KeysUnique :=
  fun n hn => h n (HtmlTag.nodes_child t c n hc hn)

theorem HtmlTag.KeysUnique.self {t : HtmlTag} (h : t.KeysUnique) :
    (t.Attributes.map Prod.fst).Nodup :=
  h t t.nodes_self

/-- `clone` from layer `cur` down to layer `tgt` gives a copy cut at depth
`tgt - cur`. -/
theorem clone_copyToDepth (n : Nat) :
    ∀ (t : HtmlTag) (cur tgt : Int), cur ≤ tgt → (tgt - cur).toNat = n → t.KeysUnique →
      CopyToDepth t n (t.clone cur tgt) := by
  induction n with
  | zero =>
    intro t cur tgt hle hn hk
    have hattr := hk.self
    obtain ⟨name, attrs, children, ih, ic, sc, pos, hs⟩ := t
    have hcur : ¬ cur < tgt := by omega
    simp only [CopyToDepth, HtmlTag.clone, hcur, and_false, if_false, and_true, true_and]
    split
    · exact copyAttributes_nodup attrs hattr
    · rename_i h0
      have : attrs = [] := by
        cases attrs with
        | nil => rfl
        | cons a as => simp at h0
      exact this.symm
  | succ k ihk =>
    intro t cur tgt hle hn hk
    have hattr := hk.self
    have hch : ∀ c ∈ t.Children, c.KeysUnique := fun c hc => hk.child hc
    obtain ⟨name, attrs, children, ih, ic, sc, pos, hs⟩ := t
    have hcur : cur < tgt := by omega
    have hlist : ∀ ts : List HtmlTag, (∀ c ∈ ts, c.KeysUnique) →
        CopiesToDepth ts k (HtmlTag.cloneChildren (cur + 1) tgt ts) := by
      intro ts
      induction ts with
      | nil => intro _; simp [CopiesToDepth, HtmlTag.cloneChildren]
      | cons x xs ihx =>
        intro hx
        simp only [CopiesToDepth, HtmlTag.cloneChildren]
        exact ⟨_, _, rfl, ihk x (cur + 1) tgt (by omega) (by omega)
          (hx x (List.mem_cons_self x xs)),
          ihx (fun c hc => hx c (List.mem_cons_of_mem x hc))⟩
    simp only [CopyToDepth, HtmlTag.clone, hcur, and_true, true_and]
    refine ⟨?_, ?_⟩
    · split
      · exact copyAttributes_nodup attrs hattr
      · rename_i h0
        have : attrs = [] := by
          cases attrs with
          | nil => rfl
          | cons a as => simp at h0
        exact this.symm
    · split
      · exact hlist children hch
      · rename_i h0
        have : children = [] := by
          cases children with
          | nil => rfl
          | cons a as => simp at h0
        subst this
        simp [CopiesToDepth]

/-- `CloneDown` with a depth of at least 1 returns a copy cut at that depth. -/
theorem CloneDown_copy (t : HtmlTag) (maxDepth : Int) (h : 1 ≤ maxDepth) (hk : t.KeysUnique) :
    ∃ c, t.CloneDown maxDepth = .ok c ∧ CopyToDepth t maxDepth.toNat c := by
  refine ⟨t.clone 0 maxDepth, ?_, ?_⟩
  · have : ¬ maxDepth < 1 := by omega
    simp [HtmlTag.CloneDown, this]
  · exact clone_copyToDepth maxDepth.toNat t 0 maxDepth (by omega) (by simp) hk

/-- `CloneDown` fails exactly when the depth is less than 1. -/
theorem CloneDown_error_iff (t : HtmlTag) (maxDepth : Int) :
    (∃ msg, t.CloneDown maxDepth = .error msg) ↔ maxDepth < 1 := by
  by_cases h : maxDepth < 1
  · simp [HtmlTag.CloneDown, h]
  · simp [HtmlTag.CloneDown, h]

end HtmlParser


namespace HtmlParser

/-! The scanner is used through its lemmas only. -/

attribute [local irreducible] Scanner.cursor Scanner.rest Scanner.EOF Scanner.Current
  Scanner.PeekNext Scanner.Position Scanner.Len Scanner.Line Scanner.Column Scanner.advance
  Scanner.Take Scanner.Match Scanner.MatchString Scanner.ConsumeWhile Scanner.ConsumeUntil
  Scanner.ConsumeUntilString Scanner.SkipWhitespace Scanner.Slice Scanner.SliceFrom
  Scanner.Location

open Scanner

/-! ## Trimmed texts -/

theorem dropWhile_eq_self_of_head {p : Char → Bool} (c : Char) (s : Str) (h : p c = false) :
    (c :: s).dropWhile p = c :: s := by
  simp [List.dropWhile, h]

/-- The first rune left by `dropWhile` does not satisfy the predicate. -/
theorem head_dropWhile {p : Char → Bool} (s : Str) (c : Char) (r : Str)
    (h : s.dropWhile p = c :: r) : p c = false := by
  induction s with
  | nil => simp at h
  | cons x xs ih =>
    by_cases hx : p x = true
    · rw [List.dropWhile_cons_of_pos hx] at h
      exact ih h
    · rw [List.dropWhile_cons_of_neg hx] at h
      cases h
      simpa using hx

/-- A text is trimmed iff it is empty or neither its first nor its last rune is
white space. -/
theorem trimmed_iff (s : Str) :
    Trimmed s ↔ s = [] ∨ ∃ c r, s = c :: r ∧ isSpace c = false
      ∧ isSpace ((c :: r).getLast (by simp)) = false := by
  constructor
  · intro h
    cases s with
    | nil => exact Or.inl rfl
    | cons c r =>
      right
      refine ⟨c, r, rfl, ?_, ?_⟩
      · by_contra hc
        have hc1 : isSpace c = true := by simpa using hc
        have hlen := congrArg List.length h
        simp only [Trimmed, TrimSpace, List.length_reverse, List.dropWhile_cons_of_pos hc1] at hlen
        have h1 := (List.dropWhile_sublist isSpace (l := (r.dropWhile isSpace).reverse)).length_le
        have h2 := (List.dropWhile_sublist isSpace (l := r)).length_le
        simp only [List.length_reverse, List.length_cons] at h1 hlen
        omega
      · by_contra hc
        have hc1 : isSpace ((c :: r).getLast (by simp)) = true := by simpa using hc
        have hlen := congrArg List.length h
        unfold Trimmed TrimSpace at h
        have hd : ((c :: r).dropWhile isSpace).reverse
            = (c :: r).getLast (by simp) :: ((c :: r).dropLast).reverse ∨
            ((c :: r).dropWhile isSpace).length < (c :: r).length := by
          by_cases hcc : isSpace c = true
          · right
            rw [List.dropWhile_cons_of_pos hcc]
            have h2 := (List.dropWhile_sublist isSpace (l := r)).length_le
            simp only [List.length_cons]
            omega
          · left
            rw [List.dropWhile_cons_of_neg hcc]
            conv_lhs => rw [← List.dropLast_append_getLast (l := c :: r) (by simp)]
            simp
        rcases hd with hd | hd
        · simp only [Trimmed, TrimSpace, hd, List.dropWhile_cons_of_pos hc1,
            List.length_reverse] at hlen
          have h1 := (List.dropWhile_sublist isSpace (l := ((c :: r).dropLast).reverse)).length_le
          simp only [List.length_reverse, List.length_dropLast, List.length_cons] at h1 hlen
          omega
        · simp only [Trimmed, TrimSpace, List.length_reverse] at hlen
          have h1 := (List.dropWhile_sublist isSpace
            (l := ((c :: r).dropWhile isSpace).reverse)).length_le
          simp only [List.length_reverse] at h1
          omega
  · rintro (rfl | ⟨c, r, rfl, hc, hl⟩)
    · rfl
    · unfold Trimmed TrimSpace
      rw [List.dropWhile_cons_of_neg (by simp [hc])]
      have : (c :: r).reverse = (c :: r).getLast (by simp) :: ((c :: r).dropLast).reverse := by
        conv_lhs => rw [← List.dropLast_append_getLast (l := c :: r) (by simp)]
        simp
      rw [this, List.dropWhile_cons_of_neg (by simp [hl]), ← this, List.reverse_reverse]

theorem trimmed_nil : Trimmed [] := rfl

theorem mem_TrimSpace {x : Str} {ch : Char} (h : ch ∈ TrimSpace x) : ch ∈ x := by
  unfold TrimSpace at h
  rw [List.mem_reverse] at h
  have h1 := (List.dropWhile_sublist isSpace).subset h
  rw [List.mem_reverse] at h1
  exact (List.dropWhile_sublist isSpace).subset h1

/-- What `strings.TrimSpace` returns is trimmed. -/
theorem trimmed_TrimSpace (x : Str) : Trimmed (TrimSpace x) := by
  rw [trimmed_iff]
  cases hz : ((x.dropWhile isSpace).reverse.dropWhile isSpace) with
  | nil => left; simp [TrimSpace, hz]
  | cons d z1 =>
    right
    have hd : isSpace d = false := head_dropWhile _ d z1 hz
    have hsuf : (d :: z1) <:+ (x.dropWhile isSpace).reverse := by
      rw [← hz]
      exact List.dropWhile_suffix isSpace
    have hpre : (d :: z1).reverse <+: x.dropWhile isSpace := by
      have := List.reverse_prefix.mpr hsuf
      rwa [List.reverse_reverse] at this
    cases hy : x.dropWhile isSpace with
    | nil =>
      rw [hy] at hpre
      have := hpre.length_le
      simp at this
    | cons e y1 =>
      have he : isSpace e = false := head_dropWhile _ e y1 hy
      rw [hy] at hpre
      have hT : TrimSpace x = (d :: z1).reverse := by simp [TrimSpace, hz]
      cases hr : (d :: z1).reverse with
      | nil => simp at hr
      | cons f r1 =>
        rw [hr] at hpre
        have hfe : f = e := (List.cons_prefix_cons.mp hpre).1
        refine ⟨f, r1, by rw [hT, hr], by rw [hfe]; exact he, ?_⟩
        have hlast : (f :: r1).getLast (by simp) = d := by
          have : (f :: r1) = z1.reverse ++ [d] := by rw [← hr]; simp
          simp [this]
        rw [hlast]
        exact hd

/-- Trimmed texts put together, the second of them not empty, are trimmed. -/
theorem Trimmed.append {a b : Str} (ha : Trimmed a) (hb : Trimmed b) (hne : b ≠ []) :
    Trimmed (a ++ b) := by
  rw [trimmed_iff] at ha hb ⊢
  rcases hb with rfl | ⟨c, r, rfl, hc, hl⟩
  · exact absurd rfl hne
  rcases ha with rfl | ⟨c0, r0, rfl, hc0, -⟩
  · right
    exact ⟨c, r, rfl, hc, hl⟩
  · right
    refine ⟨c0, r0 ++ c :: r, rfl, hc0, ?_⟩
    have : (c0 :: (r0 ++ c :: r)).getLast (by simp) = (c :: r).getLast (by simp) := by
      simp [List.getLast_cons, List.getLast_append]
    rw [this]
    exact hl

theorem isWhitespace_isSpace {c : Char} (h : isWhitespace c = true) : isSpace c = true := by
  simp only [isWhitespace, Bool.or_eq_true, decide_eq_true_eq] at h
  rcases h with ((rfl | rfl) | rfl) | rfl <;> decide

/-- A trimmed text that is not empty starts with a rune that is not white space. -/
theorem Trimmed.head_not_ws {c : Char} {r : Str} (h : Trimmed (c :: r)) :
    isWhitespace c = false := by
  rw [trimmed_iff] at h
  rcases h with h | ⟨c1, r1, h1, hc, -⟩
  · cases h
  · cases h1
    by_contra hw
    have := isWhitespace_isSpace (by simpa using hw)
    rw [hc] at this
    cases this

/-! ## What the parser builds is well formed -/

/-- An attribute that `parseAttribute` returns is well formed. -/
theorem parseAttribute_ok (s s1 : Scanner) (attr : HtmlAttribute)
    (h : parseAttribute s = .ok (attr, s1)) : AttrOK attr := by
  unfold parseAttribute at h
  simp only at h
  split at h
  · cases h
  rename_i hne
  split at h
  · split at h
    · split at h
      · cases h
      · cases h
        exact ⟨hne, ConsumeWhile_fst_all _ _, trimmed_TrimSpace _, by simp⟩
    · cases h
      exact ⟨hne, ConsumeWhile_fst_all _ _, trimmed_TrimSpace _, by simp⟩
  · cases h
    exact ⟨hne, ConsumeWhile_fst_all _ _, trimmed_nil, by simp⟩

theorem mapSet_keys_mem (m : List (Str × HtmlAttribute)) (key : Str) (value : HtmlAttribute)
    (k : Str) (h : k ∈ (mapSet m key value).map Prod.fst) : k = key ∨ k ∈ m.map Prod.fst := by
  induction m with
  | nil =>
    simp [mapSet] at h
    exact Or.inl h
  | cons kv rest ih =>
    obtain ⟨k1, v1⟩ := kv
    by_cases hk : k1 = key
    · simp only [mapSet, hk, if_true, List.map_cons, List.mem_cons] at h ⊢
      rcases h with h | h
      · exact Or.inl h
      · exact Or.inr (Or.inr h)
    · simp only [mapSet, hk, if_false, List.map_cons, List.mem_cons] at h ⊢
      rcases h with h | h
      · exact Or.inr (Or.inl h)
      · rcases ih h with h | h
        · exact Or.inl h
        · exact Or.inr (Or.inr h)

theorem mapSet_mem (m : List (Str × HtmlAttribute)) (key : Str) (value : HtmlAttribute)
    (kv : Str × HtmlAttribute) (h : kv ∈ mapSet m key value) : kv = (key, value) ∨ kv ∈ m := by
  induction m with
  | nil =>
    simp [mapSet] at h
    exact Or.inl h
  | cons kv1 rest ih =>
    obtain ⟨k1, v1⟩ := kv1
    by_cases hk : k1 = key
    · simp only [mapSet, hk, if_true, List.mem_cons] at h ⊢
      rcases h with h | h
      · exact Or.inl h
      · exact Or.inr (Or.inr h)
    · simp only [mapSet, hk, if_false, List.mem_cons] at h ⊢
      rcases h with h | h
      · exact Or.inr (Or.inl h)
      · rcases ih h with h | h
        · exact Or.inl h
        · exact Or.inr (Or.inr h)

theorem mapSet_nodup (m : List (Str × HtmlAttribute)) (key : Str) (value : HtmlAttribute)
    (h : (m.map Prod.fst).Nodup) : ((mapSet m key value).map Prod.fst).Nodup := by
  induction m with
  | nil => simp [mapSet]
  | cons kv rest ih =>
    obtain ⟨k1, v1⟩ := kv
    simp only [List.map_cons, List.nodup_cons] at h
    by_cases hk : k1 = key
    · simp only [mapSet, hk, if_true, List.map_cons, List.nodup_cons]
      exact ⟨hk ▸ h.1, h.2⟩
    · simp only [mapSet, hk, if_false, List.map_cons, List.nodup_cons]
      refine ⟨?_, ih h.2⟩
      intro hm
      rcases mapSet_keys_mem rest key value k1 hm with h1 | h1
      · exact hk h1
      · exact h.1 h1

/-- Storing a well-formed attribute under its name keeps a map well formed. -/
theorem AttrsOK.mapSet {m : List (Str × HtmlAttribute)} (hm : AttrsOK m) {a : HtmlAttribute}
    (ha : AttrOK a) : AttrsOK (mapSet m a.Name a) := by
  refine ⟨mapSet_nodup m a.Name a hm.1, ?_⟩
  intro kv hkv
  rcases mapSet_mem m a.Name a kv hkv with rfl | h
  · exact ⟨rfl, ha⟩
  · exact hm.2 kv h

/-- The attribute loop keeps the map well formed. -/
theorem attributeLoop_ok (fuel : Nat) :
    ∀ (s s1 : Scanner) (acc res : List (Str × HtmlAttribute)), AttrsOK acc →
      attributeLoop fuel s acc = .ok (res, s1) → AttrsOK res := by
  induction fuel with
  | zero =>
    intro s s1 acc res _ h
    simp [attributeLoop] at h
  | succ k ih =>
    intro s s1 acc res hacc h
    unfold attributeLoop at h
    split at h
    · split at h
      · rename_i attr s2 hattr
        exact ih _ s1 _ res (hacc.mapSet (parseAttribute_ok s s2 attr hattr)) h
      · cases h
      · cases h
      · cases h
    · cases h
      exact hacc

theorem attrsOK_nil : AttrsOK [] := ⟨by simp, by simp⟩

/-- With no handler registered, a node that `parsingOpenTag` returns is well
formed. -/
theorem parsingOpenTag_wellFormed (s s1 : Scanner) (tag : HtmlTag)
    (h : parsingOpenTag NewHtmlParser s = .ok (tag, s1)) : WellFormed tag := by
  unfold parsingOpenTag at h
  simp only [NewHtmlParser] at h
  split at h
  · cases h
  split at h
  · cases h
  rename_i hne
  split at h
  · split at h
    · cases h
    · cases h
      exact ⟨hne, ConsumeWhile_fst_all _ _, attrsOK_nil, by simp, trimmed_nil, by simp⟩
  · split at h
    · cases h
    · cases h
    · cases h
    · rename_i attrs s5 hloop
      have hattrs := attributeLoop_ok _ _ _ _ _ attrsOK_nil hloop
      repeat' split at h
      all_goals first
        | (cases h
           exact ⟨hne, ConsumeWhile_fst_all _ _, hattrs, by simp, trimmed_nil, by simp⟩)
        | cases h

/-- Well-formedness is a property the parser establishes and keeps. -/
theorem wellFormed_nodeLaw : NodeLaw WellFormed where
  opened := fun s tag s1 h => parsingOpenTag_wellFormed s s1 tag h
  child := fun c _ hc hw => ⟨hw.1, hw.2.1, hw.2.2.1, hw.2.2.2.1, hw.2.2.2.2.1,
    fun h => by simp [hc] at h⟩
  text := fun c x hc hw hx hne => ⟨hw.1, hw.2.1, hw.2.2.1,
    fun ch hch => by
      rcases List.mem_append.mp hch with h | h
      · exact hw.2.2.2.1 ch h
      · exact hx ch (mem_TrimSpace h),
    hw.2.2.2.2.1.append (trimmed_TrimSpace x) hne,
    fun h => by simp [hc] at h⟩
  markup := fun _ _ hw => hw

end HtmlParser


namespace HtmlParser

/-! The scanner is used through its lemmas only. -/

attribute [local irreducible] Scanner.cursor Scanner.rest Scanner.EOF Scanner.Current
  Scanner.PeekNext Scanner.Position Scanner.Len Scanner.Line Scanner.Column Scanner.advance
  Scanner.Take Scanner.Match Scanner.MatchString Scanner.ConsumeWhile Scanner.ConsumeUntil
  Scanner.ConsumeUntilString Scanner.SkipWhitespace Scanner.Slice Scanner.SliceFrom
  Scanner.Location

open Scanner

/-! ## Reading a rendered attribute -/

theorem attrNameRune_not_ws {c : Char} (h : attrNameRune c = true) : isWhitespace c = false := by
  simp [attrNameRune] at h
  simpa using h.2

theorem attrNameRune_of_ws {c : Char} (h : isWhitespace c = true) : attrNameRune c = false := by
  simp [attrNameRune, h]

/-- `parseAttribute` on a rendered attribute that is followed by white space `sep`
and a rune `y` at which the attribute loop goes on or stops: the attribute is read
back, and the scanner is left at `y` after the next `SkipWhitespace`. -/
theorem parseAttribute_rendered (pre : Str) (a : HtmlAttribute) (sep : Str) (y : Char)
    (r : Str) (ha : AttrOK a) (hq : '"' ∉ a.Value) (hsep : ∀ c ∈ sep, isWhitespace c = true)
    (hy : isWhitespace y = false) (hy2 : y ≠ '=')
    (hstop : sep ≠ [] ∨ attrNameRune y = false) :
    ∃ s1, parseAttribute (cursor pre (attrBody a ++ (sep ++ y :: r))) = .ok (a, s1)
      ∧ s1.SkipWhitespace = cursor (pre ++ (attrBody a ++ sep)) (y :: r) := by
  obtain ⟨name, value, hasValue⟩ := a
  obtain ⟨hne, hall, htrim, hval⟩ := ha
  simp only at hne hall htrim hval hq
  obtain ⟨c, cs, rfl⟩ := List.exists_cons_of_ne_nil hne
  have hc : isWhitespace c = false := attrNameRune_not_ws (hall c (List.mem_cons_self c cs))
  cases hasValue with
  | false =>
    have hv : value = [] := hval rfl
    subst hv
    -- the rune at which the name ends
    obtain ⟨x, xs, hx, hxstop⟩ : ∃ x xs, sep ++ y :: r = x :: xs ∧ attrNameRune x = false := by
      cases sep with
      | nil =>
        rcases hstop with h | h
        · exact absurd rfl h
        · exact ⟨y, r, rfl, h⟩
      | cons w ws =>
        exact ⟨w, ws ++ y :: r, rfl, attrNameRune_of_ws (hsep w (List.mem_cons_self w ws))⟩
    have e1 := cursor_SkipWhitespace_none pre c (cs ++ (sep ++ y :: r)) hc
    have e2 := cursor_ConsumeWhile_stop pre (c :: cs) x xs attrNameRune hall hxstop
    rw [← hx] at e2
    have e3 := cursor_SkipWhitespace_stop (pre ++ c :: cs) sep y r hsep hy
    have e4 := cursor_SkipWhitespace_none (pre ++ c :: cs ++ sep) y r hy
    simp only [List.cons_append, List.append_assoc] at e1 e2 e3 e4
    refine ⟨cursor (pre ++ c :: (cs ++ sep)) (y :: r), ?_, ?_⟩
    · simp only [parseAttribute, attrBody, List.cons_append, e1, e2, e3, cursor_Current_cons, hy2,
        reduceCtorEq, if_false, Bool.false_eq_true]
    · simpa [attrBody] using e4
  | true =>
    have heq : attrNameRune '=' = false := by simp [attrNameRune]
    have hweq : isWhitespace '=' = false := by simp [isWhitespace]
    have hwq : isWhitespace '"' = false := by simp [isWhitespace]
    have e1 := cursor_SkipWhitespace_none pre c
      (cs ++ '=' :: '"' :: (value ++ '"' :: (sep ++ y :: r))) hc
    have e2 := cursor_ConsumeWhile_stop pre (c :: cs) '='
      ('"' :: (value ++ '"' :: (sep ++ y :: r))) attrNameRune hall heq
    have e3 := cursor_SkipWhitespace_none (pre ++ c :: cs) '='
      ('"' :: (value ++ '"' :: (sep ++ y :: r))) hweq
    have e4 := cursor_Take_cons (pre ++ c :: cs) '=' ('"' :: (value ++ '"' :: (sep ++ y :: r)))
    have e5 := cursor_SkipWhitespace_none (pre ++ c :: cs ++ ['=']) '"'
      (value ++ '"' :: (sep ++ y :: r)) hwq
    have e6 := cursor_Take_cons (pre ++ c :: cs ++ ['=']) '"' (value ++ '"' :: (sep ++ y :: r))
    have e7 := cursor_ConsumeUntil_stop (pre ++ c :: cs ++ ['='] ++ ['"']) value '"'
      (sep ++ y :: r) (isRune '"')
      (by
        intro ch hch
        have : ch ≠ '"' := fun e => hq (e ▸ hch)
        simpa [isRune] using this)
      (by simp [isRune])
    have e8 := cursor_SliceFrom (pre ++ c :: cs ++ ['='] ++ ['"']) value ('"' :: (sep ++ y :: r))
    have e9 := cursor_Match_cons (pre ++ c :: cs ++ ['='] ++ ['"'] ++ value) '"' (sep ++ y :: r)
    have e10 := cursor_SkipWhitespace_stop (pre ++ c :: cs ++ ['='] ++ ['"'] ++ value ++ ['"'])
      sep y r hsep hy
    simp only [List.cons_append, List.append_assoc, List.nil_append, List.length_append,
      List.length_cons, List.length_nil] at e1 e2 e3 e4 e5 e6 e7 e8 e9 e10
    refine ⟨cursor (pre ++ c :: (cs ++ '=' :: '"' :: (value ++ ['"']))) (sep ++ y :: r), ?_, ?_⟩
    · simp only [parseAttribute, attrBody, if_true, List.cons_append, List.append_assoc,
        List.nil_append, e1, e2, e3, cursor_Current_cons, e4, e5, true_or, e6, cursor_Position,
        e7, List.length_append, List.length_cons, List.length_nil, e8, e9, Bool.not_true,
        Bool.false_eq_true, if_false, reduceCtorEq]
      rw [show TrimSpace value = value from htrim]
    · simpa [attrBody] using e10

/-! ## Reading rendered attributes in the attribute loop -/

theorem attrBody_cons {a : HtmlAttribute} (ha : AttrOK a) :
    ∃ c body, attrBody a = c :: body ∧ attrNameRune c = true := by
  obtain ⟨c, cs, hcs⟩ := List.exists_cons_of_ne_nil ha.1
  have hc : attrNameRune c = true := ha.2.1 c (by rw [hcs]; exact List.mem_cons_self c cs)
  unfold attrBody
  split
  · exact ⟨c, cs ++ '=' :: '"' :: (a.Value ++ ['"']), by rw [hcs]; rfl, hc⟩
  · exact ⟨c, cs, hcs, hc⟩

theorem loopText_append (as : List HtmlAttribute) (tail : Str) :
    loopText as tail = loopText as [] ++ tail := by
  induction as with
  | nil => rfl
  | cons a rest ih =>
    cases rest with
    | nil => simp [loopText]
    | cons b rest1 =>
      simp only [loopText, List.append_assoc, List.cons_append]
      rw [ih]

theorem attrNameRune_ne {c : Char} (h : attrNameRune c = true) :
    c ≠ '=' ∧ c ≠ '>' ∧ c ≠ '/' := by
  simp [attrNameRune] at h
  exact ⟨h.1.1.1, h.1.1.2, h.1.2⟩

/-- The attribute loop on rendered attributes, from the name of the first one on,
followed by the `>` or `/` that ends the tag: the attributes are stored in their
order, and the scanner is left at the end of the tag. -/
theorem attributeLoop_rendered (as : List HtmlAttribute) :
    ∀ (pre : Str) (acc : List (Str × HtmlAttribute)) (x : Char) (tl : Str) (fuel : Nat),
      (∀ a ∈ as, AttrOK a ∧ '"' ∉ a.Value) → (x = '>' ∨ x = '/') → as.length < fuel →
      attributeLoop fuel (cursor pre (loopText as (x :: tl))) acc
        = .ok (as.foldl (fun m a => mapSet m a.Name a) acc,
            cursor (pre ++ loopText as []) (x :: tl)) := by
  induction as with
  | nil =>
    intro pre acc x tl fuel _ hx hfuel
    obtain ⟨k, rfl⟩ : ∃ k, fuel = k + 1 := ⟨fuel - 1, by simp at hfuel; omega⟩
    rcases hx with rfl | rfl <;> simp [loopText, attributeLoop]
  | cons a rest ih =>
    intro pre acc x tl fuel has hx hfuel
    obtain ⟨k, rfl⟩ : ∃ k, fuel = k + 1 := ⟨fuel - 1, by simp at hfuel; omega⟩
    have ha := has a (List.mem_cons_self a rest)
    have hrest : ∀ b ∈ rest, AttrOK b ∧ '"' ∉ b.Value :=
      fun b hb => has b (List.mem_cons_of_mem a hb)
    have hxws : isWhitespace x = false := by
      rcases hx with rfl | rfl <;> simp [isWhitespace]
    have hxeq : x ≠ '=' := by
      rcases hx with rfl | rfl <;> simp
    have hxstop : attrNameRune x = false := by
      rcases hx with rfl | rfl <;> simp [attrNameRune]
    obtain ⟨c, body, hbody, hc⟩ := attrBody_cons ha.1
    obtain ⟨hc1, hc2, hc3⟩ := attrNameRune_ne hc
    -- the loop goes on at the name of the attribute
    have hhead : ∀ t : Str, attributeLoop (k + 1) (cursor pre (attrBody a ++ t)) acc
        = match parseAttribute (cursor pre (attrBody a ++ t)) with
          | .ok (attr, s1) => attributeLoop k s1.SkipWhitespace (mapSet acc attr.Name attr)
          | .error msg => .error msg
          | .nilDeref => .nilDeref
          | .outOfFuel => .outOfFuel := by
      intro t
      rw [attributeLoop]
      simp only [hbody, List.cons_append, cursor_EOF, List.isEmpty_cons, cursor_Current_cons,
        ne_eq, hc2, hc3, not_false_eq_true, and_self, if_true]
    cases rest with
    | nil =>
      obtain ⟨s1, hp, hs1⟩ := parseAttribute_rendered pre a [] x tl ha.1 ha.2 (by simp) hxws hxeq
        (Or.inr hxstop)
      simp only [List.nil_append, List.append_nil] at hp hs1
      simp only [loopText, List.append_nil]
      rw [hhead, hp]
      simp only [hs1]
      have := ih (pre ++ attrBody a) (mapSet acc a.Name a) x tl k (by simp) hx
        (by simp at hfuel ⊢; omega)
      simpa [loopText] using this
    | cons b rest1 =>
      have hb := hrest b (List.mem_cons_self b rest1)
      obtain ⟨d, bodyb, hbodyb, hd⟩ := attrBody_cons hb.1
      obtain ⟨hd1, -, -⟩ := attrNameRune_ne hd
      -- the text that follows starts with the name of the next attribute
      obtain ⟨r, hr⟩ : ∃ r, loopText (b :: rest1) (x :: tl) = d :: r := by
        cases rest1 with
        | nil => exact ⟨bodyb ++ x :: tl, by simp [loopText, hbodyb]⟩
        | cons e rest2 =>
          exact ⟨bodyb ++ ' ' :: loopText (e :: rest2) (x :: tl), by simp [loopText, hbodyb]⟩
      obtain ⟨s1, hp, hs1⟩ := parseAttribute_rendered pre a [' '] d r ha.1 ha.2
        (by simp [isWhitespace]) (attrNameRune_not_ws hd) hd1 (Or.inl (by simp))
      simp only [List.singleton_append] at hp hs1
      have hfold : loopText (a :: b :: rest1) (x :: tl) = attrBody a ++ ' ' :: d :: r := by
        simp [loopText, hr]
      rw [hfold, hhead, hp]
      simp only [hs1]
      have := ih (pre ++ (attrBody a ++ [' '])) (mapSet acc a.Name a) x tl k hrest hx
        (by simp at hfuel ⊢; omega)
      rw [hr] at this
      rw [this]
      simp [loopText, List.foldl_cons]

/-! ## Reading a rendered opening tag -/

theorem renderAttr_eq (a : HtmlAttribute) : renderAttr a = ' ' :: attrBody a := by
  unfold renderAttr attrBody
  split <;> simp

/-- The rendered attributes, each led in by a blank. -/
theorem attrsText_append (as : List HtmlAttribute) (t : Str) :
    (as.map renderAttr).flatten ++ t
      = match as with
        | [] => t
        | a :: rest => ' ' :: loopText (a :: rest) t := by
  induction as with
  | nil => rfl
  | cons a rest ih =>
    cases rest with
    | nil => simp [renderAttr_eq, loopText]
    | cons b rest1 =>
      simp only [List.map_cons, List.flatten_cons, List.append_assoc] at ih ⊢
      rw [ih]
      simp [renderAttr_eq, loopText]

theorem loopText_length (as : List HtmlAttribute) (t : Str) (has : ∀ a ∈ as, AttrOK a) :
    as.length ≤ (loopText as t).length := by
  induction as with
  | nil => simp
  | cons a rest ih =>
    obtain ⟨c, body, hbody, -⟩ := attrBody_cons (has a (List.mem_cons_self a rest))
    have := ih (fun b hb => has b (List.mem_cons_of_mem a hb))
    cases rest with
    | nil => simp [loopText, hbody]
    | cons b rest1 =>
      simp only [loopText, hbody, List.length_cons, List.length_append] at this ⊢
      omega

/-- `parsingOpenTag` on a rendered opening tag, up to the end of the attribute
loop. -/
theorem parsingOpenTag_rendered (pre name : Str) (as : List HtmlAttribute) (x : Char)
    (tl : Str) (hname : PlainName name) (has : ∀ a ∈ as, AttrOK a ∧ '"' ∉ a.Value)
    (hx : x = '>' ∨ x = '/') :
    parsingOpenTag NewHtmlParser
        (cursor pre ('<' :: (name ++ ((as.map renderAttr).flatten ++ x :: tl))))
      = finishOpenTag name (lineCol pre) (as.foldl (fun m a => mapSet m a.Name a) [])
          (cursor (pre ++ '<' :: (name ++ (as.map renderAttr).flatten)) (x :: tl)) := by
  obtain ⟨c, cs, rfl, hc⟩ := hname.cons
  obtain ⟨hne, hall, hstyle, hscript, -, -⟩ := hname
  have hxws : isWhitespace x = false := by
    rcases hx with rfl | rfl <;> simp [isWhitespace]
  have hxstop : nameRune x = false := by
    rcases hx with rfl | rfl <;> simp [nameRune]
  cases as with
  | nil =>
    have e1 := cursor_SkipWhitespace_none (pre ++ ['<']) c (cs ++ x :: tl) (nameRune_not_ws hc)
    have e2 := cursor_ConsumeWhile_stop (pre ++ ['<']) (c :: cs) x tl nameRune hall hxstop
    have e3 := cursor_SkipWhitespace_none (pre ++ ['<'] ++ c :: cs) x tl hxws
    have e4 := attributeLoop_rendered [] (pre ++ ['<'] ++ c :: cs) [] x tl
      ((cursor (pre ++ ['<'] ++ c :: cs) (x :: tl)).Len + 1) (by simp) hx (by simp)
    simp only [List.cons_append, List.append_assoc, List.nil_append, loopText,
      List.append_nil, List.foldl_nil] at e1 e2 e3 e4
    simp only [parsingOpenTag, cursor_Match_cons, List.cons_append, List.append_assoc,
      List.nil_append, List.map_nil, List.flatten_nil, List.append_nil, e1, e2, e3,
      NewHtmlParser, hstyle, hscript, e4, cursor_Line, cursor_Column, Bool.not_true,
      Bool.false_eq_true, if_false, or_self, reduceCtorEq, List.foldl_nil, finishOpenTag]
  | cons a rest =>
    have hsp : nameRune ' ' = false := by simp [nameRune, isWhitespace]
    have ha := (has a (List.mem_cons_self a rest)).1
    obtain ⟨d, body, hbody, hd⟩ := attrBody_cons ha
    obtain ⟨r, hr⟩ : ∃ r, loopText (a :: rest) (x :: tl) = d :: r := by
      cases rest with
      | nil => exact ⟨body ++ x :: tl, by simp [loopText, hbody]⟩
      | cons e rest2 =>
        exact ⟨body ++ ' ' :: loopText (e :: rest2) (x :: tl), by simp [loopText, hbody]⟩
    have htext := attrsText_append (a :: rest) (x :: tl)
    simp only at htext
    have htext0 := attrsText_append (a :: rest) []
    simp only [List.append_nil] at htext0
    have e1 := cursor_SkipWhitespace_none (pre ++ ['<']) c (cs ++ ' ' :: d :: r)
      (nameRune_not_ws hc)
    have e2 := cursor_ConsumeWhile_stop (pre ++ ['<']) (c :: cs) ' ' (d :: r) nameRune hall hsp
    have e3 := cursor_SkipWhitespace_stop (pre ++ ['<'] ++ c :: cs) [' '] d r
      (by simp [isWhitespace]) (attrNameRune_not_ws hd)
    have hlen := loopText_length (a :: rest) (x :: tl) (fun b hb => (has b hb).1)
    have e4 := attributeLoop_rendered (a :: rest) (pre ++ ['<'] ++ c :: cs ++ [' ']) [] x tl
      ((cursor (pre ++ ['<'] ++ c :: cs ++ [' ']) (d :: r)).Len + 1) has hx
      (by
        rw [hr] at hlen
        simp only [cursor_Len]
        omega)
    rw [hr] at e4
    simp only [List.cons_append, List.append_assoc, List.nil_append, List.singleton_append]
      at e1 e2 e3 e4
    rw [htext, hr, htext0]
    simp only [parsingOpenTag, cursor_Match_cons, List.cons_append, List.append_assoc,
      List.nil_append, e1, e2, e3, NewHtmlParser, hstyle, hscript, e4, cursor_Line,
      cursor_Column, Bool.not_true, Bool.false_eq_true, if_false, or_self, reduceCtorEq,
      finishOpenTag]

theorem finishOpenTag_open (name : Str) (lc : Nat × Nat) (attrs : List (Str × HtmlAttribute))
    (p post : Str) :
    finishOpenTag name lc attrs (cursor p ('>' :: post))
      = .ok ({ Name := name, Attributes := attrs, Children := [], InnerHtml := [],
               InnerContent := [], IsSelfClosing := false,
               Pos := { Line := lc.1, Column := lc.2 }, htmlStart := p.length + 1 },
          cursor (p ++ ['>']) post) := by
  simp [finishOpenTag, cursor_Match_cons]

theorem finishOpenTag_selfClosing (name : Str) (lc : Nat × Nat)
    (attrs : List (Str × HtmlAttribute)) (p post : Str) :
    finishOpenTag name lc attrs (cursor p ('/' :: '>' :: post))
      = .ok ({ Name := name, Attributes := attrs, Children := [], InnerHtml := [],
               InnerContent := [], IsSelfClosing := true,
               Pos := { Line := lc.1, Column := lc.2 }, htmlStart := p.length + 2 },
          cursor (p ++ ['/', '>']) post) := by
  have e1 := cursor_Take_cons p '/' ('>' :: post)
  have e2 := cursor_Match_cons (p ++ ['/']) '>' post
  simp only [List.append_assoc, List.singleton_append] at e2
  simp [finishOpenTag, e1, e2]

/-- The loop body at a rendered opening tag, up to the end of the attribute loop:
it goes on with what `finishOpenTag` returns. -/
theorem step_rendered (pre name : Str) (as : List HtmlAttribute) (x : Char) (tl : Str)
    (stk : List Str) (roots cur : List HtmlTag) (hname : PlainName name)
    (has : ∀ a ∈ as, AttrOK a ∧ '"' ∉ a.Value) (hx : x = '>' ∨ x = '/') (tag : HtmlTag)
    (s1 : Scanner)
    (hfin : finishOpenTag name (lineCol pre) (as.foldl (fun m a => mapSet m a.Name a) [])
      (cursor (pre ++ '<' :: (name ++ (as.map renderAttr).flatten)) (x :: tl)) = .ok (tag, s1)) :
    step NewHtmlParser
        ⟨cursor pre ('<' :: (name ++ ((as.map renderAttr).flatten ++ x :: tl))), stk, roots, cur⟩
      = if tag.IsSelfClosing then
          .next ⟨s1, stk, (attach tag cur roots).2, (attach tag cur roots).1⟩
        else
          .next ⟨s1, tag.Name :: stk, roots, tag :: cur⟩ := by
  have hlt : isWhitespace '<' = false := by simp [isWhitespace]
  -- the rune after the name
  obtain ⟨y, r, hy, hy1, hy2⟩ : ∃ y r, (as.map renderAttr).flatten ++ x :: tl = y :: r
      ∧ y ∉ "!--".toList ∧ y ∉ "!DOCTYPE".toList := by
    cases as with
    | nil =>
      refine ⟨x, tl, rfl, ?_, ?_⟩ <;> rcases hx with rfl | rfl <;> simp
    | cons a rest =>
      refine ⟨' ', loopText (a :: rest) (x :: tl), attrsText_append (a :: rest) (x :: tl), ?_, ?_⟩
        <;> simp
  have e1 := cursor_SkipWhitespace_none pre '<'
    (name ++ ((as.map renderAttr).flatten ++ x :: tl)) hlt
  have e2 := comment_test_false pre ('<' :: (name ++ ((as.map renderAttr).flatten ++ x :: tl)))
    (by rw [hy]; exact hname.not_comment y r hy1)
  have e3 := doctype_test_false pre ('<' :: (name ++ ((as.map renderAttr).flatten ++ x :: tl)))
    (by rw [hy]; exact hname.not_doctype y r hy2)
  have e4 := parsingOpenTag_rendered pre name as x tl hname has hx
  rw [hfin] at e4
  obtain ⟨c, cs, rfl, hc⟩ := hname.cons
  have e5 : (cursor pre ('<' :: (c :: cs ++ ((as.map renderAttr).flatten ++ x :: tl)))).PeekNext
      ≠ '/' := by
    simpa using nameRune_ne_slash hc
  simp only [step, e1, cursor_EOF, List.isEmpty_cons, Bool.false_eq_true, if_false,
    cursor_Current_cons, if_true, e2, e3, e5, e4]

end HtmlParser


namespace HtmlParser

/-! ## The order of the attributes -/

theorem strLe_total (a b : Str) (h : strLe a b = false) : strLe b a = true := by
  induction a generalizing b with
  | nil => simp [strLe] at h
  | cons x xs ih =>
    cases b with
    | nil => simp [strLe]
    | cons y ys =>
      simp only [strLe] at h ⊢
      by_cases h1 : x.toNat < y.toNat
      · simp [h1] at h
      · by_cases h2 : y.toNat < x.toNat
        · simp [h2]
        · simp only [h1, h2, if_false] at h ⊢
          exact ih ys h

theorem insertKey_perm (k : Str) (l : List Str) : (insertKey k l).Perm (k :: l) := by
  induction l with
  | nil => simp [insertKey]
  | cons x xs ih =>
    simp only [insertKey]
    split
    · exact List.Perm.refl _
    · exact (List.Perm.cons x ih).trans (List.Perm.swap k x xs)

theorem sortStrings_perm (l : List Str) : (sortStrings l).Perm l := by
  induction l with
  | nil => simp [sortStrings]
  | cons k ks ih =>
    simp only [sortStrings]
    exact (insertKey_perm k _).trans (List.Perm.cons k ih)

theorem insertKey_ascending (k : Str) (l : List Str) (h : Ascending l) :
    Ascending (insertKey k l) := by
  induction l with
  | nil => simp [insertKey, Ascending]
  | cons x xs ih =>
    simp only [insertKey]
    split
    · rename_i hkx
      exact ⟨hkx, h⟩
    · rename_i hkx
      have hxk : strLe x k = true := strLe_total k x (by simpa using hkx)
      cases xs with
      | nil => simp [insertKey, Ascending, hxk]
      | cons y ys =>
        have h2 : Ascending (y :: ys) := h.2
        have := ih h2
        simp only [insertKey] at this ⊢
        split
        · rename_i hky
          exact ⟨hxk, hky, h2⟩
        · rename_i hky
          simp only [hky, if_false] at this
          exact ⟨h.1, this⟩

theorem sortStrings_ascending (l : List Str) : Ascending (sortStrings l) := by
  induction l with
  | nil => simp [sortStrings, Ascending]
  | cons k ks ih => exact insertKey_ascending k _ ih

/-- `sort.Strings` leaves an ascending list as it is. -/
theorem sortStrings_of_ascending (l : List Str) (h : Ascending l) : sortStrings l = l := by
  induction l with
  | nil => rfl
  | cons x xs ih =>
    cases xs with
    | nil => simp [sortStrings, insertKey]
    | cons y ys =>
      rw [sortStrings, ih h.2]
      simp [insertKey, h.1]

theorem sortStrings_idem (l : List Str) : sortStrings (sortStrings l) = sortStrings l :=
  sortStrings_of_ascending _ (sortStrings_ascending l)

/-! ## The attributes of a rendered tag, read back -/

theorem mapGet_mem (m : List (Str × HtmlAttribute)) (k : Str) (h : k ∈ m.map Prod.fst) :
    (k, mapGet m k) ∈ m := by
  induction m with
  | nil => simp at h
  | cons kv rest ih =>
    obtain ⟨k1, v1⟩ := kv
    by_cases hk : k1 = k
    · subst hk
      simp [mapGet]
    · simp only [List.map_cons, List.mem_cons] at h
      rcases h with h | h
      · exact absurd h.symm hk
      · simp only [mapGet, hk, if_false, List.mem_cons]
        exact Or.inr (ih h)

theorem mapGet_map (ks : List Str) (f : Str → HtmlAttribute) (k : Str) (h : k ∈ ks) :
    mapGet (ks.map (fun k => (k, f k))) k = f k := by
  induction ks with
  | nil => simp at h
  | cons x xs ih =>
    by_cases hx : x = k
    · subst hx
      simp [mapGet]
    · simp only [List.map_cons, mapGet, hx, if_false]
      rcases List.mem_cons.mp h with h | h
      · exact absurd h.symm hx
      · exact ih h

theorem renderAttrs_eq (attrs : List (Str × HtmlAttribute)) :
    renderAttrs attrs = ((sortedAttrs attrs).map renderAttr).flatten := by
  simp [renderAttrs, sortedAttrs, List.map_map, Function.comp_def]

theorem mem_sortedAttrs {attrs : List (Str × HtmlAttribute)} {a : HtmlAttribute}
    (h : a ∈ sortedAttrs attrs) : ∃ k, (k, a) ∈ attrs := by
  simp only [sortedAttrs, List.mem_map] at h
  obtain ⟨k, hk, rfl⟩ := h
  exact ⟨k, mapGet_mem attrs k ((sortStrings_perm _).subset hk)⟩

theorem sortedAttrs_names (attrs : List (Str × HtmlAttribute)) (h : AttrsOK attrs) :
    (sortedAttrs attrs).map (fun a => a.Name) = sortStrings (attrs.map Prod.fst) := by
  simp only [sortedAttrs, List.map_map]
  conv_rhs => rw [← List.map_id (sortStrings (attrs.map Prod.fst))]
  apply List.map_congr_left
  intro k hk
  exact (h.2 _ (mapGet_mem attrs k ((sortStrings_perm _).subset hk))).1

theorem normAttrs_eq (attrs : List (Str × HtmlAttribute)) (h : AttrsOK attrs) :
    normAttrs attrs = (sortStrings (attrs.map Prod.fst)).map (fun k => (k, mapGet attrs k)) := by
  simp only [normAttrs, sortedAttrs, List.map_map]
  apply List.map_congr_left
  intro k hk
  simp only [Function.comp_apply, Prod.mk.injEq, and_true]
  exact (h.2 _ (mapGet_mem attrs k ((sortStrings_perm _).subset hk))).1

/-- The attribute loop, reading the attributes in the order in which `renderTag`
writes them, builds the map `normAttrs`. -/
theorem foldl_sortedAttrs (attrs : List (Str × HtmlAttribute)) (h : AttrsOK attrs) :
    (sortedAttrs attrs).foldl (fun m a => mapSet m a.Name a) [] = normAttrs attrs := by
  have hnodup : ((normAttrs attrs).map Prod.fst).Nodup := by
    have : (normAttrs attrs).map Prod.fst = sortStrings (attrs.map Prod.fst) := by
      rw [normAttrs_eq attrs h]
      simp [List.map_map, Function.comp_def]
    rw [this]
    exact (sortStrings_perm _).nodup_iff.mpr h.1
  have := foldl_mapSet_nodup [] (normAttrs attrs) (by simpa using hnodup)
  rw [List.nil_append] at this
  rw [← this, normAttrs, List.foldl_map]

/-- The map read back renders as the map that was rendered. -/
theorem renderAttrs_normAttrs (attrs : List (Str × HtmlAttribute)) (h : AttrsOK attrs) :
    renderAttrs (normAttrs attrs) = renderAttrs attrs := by
  have hkeys : (normAttrs attrs).map Prod.fst = sortStrings (attrs.map Prod.fst) := by
    rw [normAttrs_eq attrs h]
    simp [List.map_map, Function.comp_def]
  unfold renderAttrs
  rw [hkeys, sortStrings_idem]
  congr 1
  apply List.map_congr_left
  intro k hk
  rw [normAttrs_eq attrs h, mapGet_map _ (mapGet attrs) k hk]

end HtmlParser


namespace HtmlParser

/-! The scanner is used through its lemmas only. -/

attribute [local irreducible] Scanner.cursor Scanner.rest Scanner.EOF Scanner.Current
  Scanner.PeekNext Scanner.Position Scanner.Len Scanner.Line Scanner.Column Scanner.advance
  Scanner.Take Scanner.Match Scanner.MatchString Scanner.ConsumeWhile Scanner.ConsumeUntil
  Scanner.ConsumeUntilString Scanner.SkipWhitespace Scanner.Slice Scanner.SliceFrom
  Scanner.Location

open Scanner

/-! ## Reading a rendered tree -/

theorem renderTag_eq (t : HtmlTag) :
    renderTag t
      = if t.IsSelfClosing = true then
          '<' :: (t.Name ++ (renderAttrs t.Attributes ++ ['/', '>']))
        else
          '<' :: (t.Name ++ (renderAttrs t.Attributes ++ '>' :: (t.InnerContent
            ++ (renderTags t.Children ++ '<' :: '/' :: (t.Name ++ ['>']))))) := by
  cases t
  simp only [renderTag]
  split <;> simp

theorem renderTag_backfill (c : HtmlTag) (sc : Scanner) (pos : Nat) :
    renderTag (backfill c sc pos) = renderTag c := by
  unfold backfill
  split
  · rw [renderTag_eq, renderTag_eq]
  · rfl

theorem renderTags_cons (t : HtmlTag) (ts : List HtmlTag) :
    renderTags (t :: ts) = renderTag t ++ renderTags ts := by
  simp [renderTags]

theorem renderTags_append (xs ys : List HtmlTag) :
    renderTags (xs ++ ys) = renderTags xs ++ renderTags ys := by
  induction xs with
  | nil => simp [renderTags]
  | cons x xs ih => simp [renderTags, ih]

theorem attachAll_nil (cur roots : List HtmlTag) : attachAll [] cur roots = (cur, roots) := rfl

theorem attachAll_cons (t : HtmlTag) (ts cur roots : List HtmlTag) :
    attachAll (t :: ts) cur roots = attachAll ts (attach t cur roots).1 (attach t cur roots).2 :=
  rfl

theorem attachAll_cur (ts : List HtmlTag) (c : HtmlTag) (ps roots : List HtmlTag) :
    attachAll ts (c :: ps) roots = ({ c with Children := c.Children ++ ts } :: ps, roots) := by
  induction ts generalizing c with
  | nil =>
    cases c
    simp [attachAll]
  | cons t ts ih =>
    rw [attachAll_cons]
    simp only [attach]
    rw [ih]
    simp

theorem attachAll_roots (ts roots : List HtmlTag) :
    attachAll ts [] roots = ([], roots ++ ts) := by
  induction ts generalizing roots with
  | nil => simp [attachAll]
  | cons t ts ih =>
    rw [attachAll_cons]
    simp only [attach]
    rw [ih]
    simp

theorem Reaches.congr {parser : DefaultHtmlParser} {k m : Nat} {a b a1 b1 : ParseState}
    (h : Reaches parser k a b) (hk : k = m) (ha : a = a1) (hb : b = b1) :
    Reaches parser m a1 b1 := by
  subst hk ha hb
  exact h

theorem Renderable.plainName {n : HtmlTag} (h : Renderable n) : PlainName n.Name :=
  ⟨h.1.1, h.1.2.1, h.2.1, h.2.2.1, h.2.2.2.1, h.2.2.2.2.1⟩

theorem Renderable.attrs {n : HtmlTag} (h : Renderable n) :
    ∀ a ∈ sortedAttrs n.Attributes, AttrOK a ∧ '"' ∉ a.Value := by
  intro a ha
  obtain ⟨k, hk⟩ := mem_sortedAttrs ha
  exact ⟨(h.1.2.2.1.2 _ hk).2, h.2.2.2.2.2 _ hk⟩

/-- A sequence of rendered nodes is read back, given that each of them is. -/
theorem reaches_renderTags (ts : List HtmlTag)
    (hts : ∀ t ∈ ts, ∀ (pre post : Str) (stk : List Str) (roots cur : List HtmlTag),
      ∃ k t1, k ≤ (renderTag t).length ∧ renderTag t1 = renderTag t
        ∧ Reaches NewHtmlParser k ⟨cursor pre (renderTag t ++ post), stk, roots, cur⟩
            ⟨cursor (pre ++ renderTag t) post, stk, (attach t1 cur roots).2,
              (attach t1 cur roots).1⟩) :
    ∀ (pre post : Str) (stk : List Str) (roots cur : List HtmlTag),
      ∃ k ts1, k ≤ (renderTags ts).length ∧ renderTags ts1 = renderTags ts
        ∧ Reaches NewHtmlParser k ⟨cursor pre (renderTags ts ++ post), stk, roots, cur⟩
            ⟨cursor (pre ++ renderTags ts) post, stk, (attachAll ts1 cur roots).2,
              (attachAll ts1 cur roots).1⟩ := by
  induction ts with
  | nil =>
    intro pre post stk roots cur
    refine ⟨0, [], by simp, rfl, ?_⟩
    exact (Reaches.zero NewHtmlParser ⟨cursor pre post, stk, roots, cur⟩).congr rfl
      (by simp [renderTags]) (by simp [renderTags, attachAll])
  | cons t ts ih =>
    intro pre post stk roots cur
    obtain ⟨k1, t1, hk1, hr1, h1⟩ := hts t (List.mem_cons_self t ts) pre
      (renderTags ts ++ post) stk roots cur
    obtain ⟨k2, ts1, hk2, hr2, h2⟩ := ih (fun x hx => hts x (List.mem_cons_of_mem t hx))
      (pre ++ renderTag t) post stk (attach t1 cur roots).2 (attach t1 cur roots).1
    refine ⟨k1 + k2, t1 :: ts1, ?_, ?_, ?_⟩
    · rw [renderTags_cons, List.length_append]
      omega
    · rw [renderTags_cons, renderTags_cons, hr1, hr2]
    · exact (h1.trans h2).congr rfl (by simp [renderTags_cons])
        (by simp [renderTags_cons, attachAll_cons])

/-- The node read back for the opening tag of `t`. -/
theorem renderTag_opened (t : HtmlTag) (ht : Renderable t) (sc : Bool) (lc : Nat × Nat)
    (start : Nat) (content : Str) (children : List HtmlTag) (ih : Str)
    (hsc : t.IsSelfClosing = sc) (hcontent : content = t.InnerContent)
    (hchildren : renderTags children = renderTags t.Children) :
    renderTag { Name := t.Name,
                Attributes := (sortedAttrs t.Attributes).foldl (fun m a => mapSet m a.Name a) [],
                Children := children, InnerHtml := ih, InnerContent := content,
                IsSelfClosing := sc, Pos := { Line := lc.1, Column := lc.2 },
                htmlStart := start }
      = renderTag t := by
  rw [renderTag_eq, renderTag_eq t]
  simp only [foldl_sortedAttrs _ ht.1.2.2.1, renderAttrs_normAttrs _ ht.1.2.2.1, hsc, hcontent,
    hchildren]

/-- A rendered self-closing node is read back in one iteration. -/
theorem reaches_renderTag_selfClosing (t : HtmlTag) (ht : Renderable t)
    (hsc : t.IsSelfClosing = true) (pre post : Str) (stk : List Str)
    (roots cur : List HtmlTag) :
    ∃ k t1, k ≤ (renderTag t).length ∧ renderTag t1 = renderTag t
      ∧ Reaches NewHtmlParser k ⟨cursor pre (renderTag t ++ post), stk, roots, cur⟩
          ⟨cursor (pre ++ renderTag t) post, stk, (attach t1 cur roots).2,
            (attach t1 cur roots).1⟩ := by
  have htext : renderTag t = '<' :: (t.Name
      ++ (((sortedAttrs t.Attributes).map renderAttr).flatten ++ ['/', '>'])) := by
    rw [renderTag_eq, if_pos hsc, renderAttrs_eq]
  have hfin := finishOpenTag_selfClosing t.Name (lineCol pre)
    ((sortedAttrs t.Attributes).foldl (fun m a => mapSet m a.Name a) [])
    (pre ++ '<' :: (t.Name ++ ((sortedAttrs t.Attributes).map renderAttr).flatten)) post
  have hstep := step_rendered pre t.Name (sortedAttrs t.Attributes) '/' ('>' :: post) stk roots
    cur ht.plainName ht.attrs (Or.inr rfl) _ _ hfin
  simp only [if_true] at hstep
  refine ⟨1, _, ?_, renderTag_opened t ht true (lineCol pre)
    ((pre ++ '<' :: (t.Name ++ ((sortedAttrs t.Attributes).map renderAttr).flatten)).length + 2)
    [] [] [] hsc ?_ ?_, ?_⟩
  · rw [htext]
    simp
  · rw [(ht.1.2.2.2.2.2 hsc).2]
  · rw [(ht.1.2.2.2.2.2 hsc).1]
  · exact (Reaches.one (by simp) hstep).congr rfl (by simp [htext]) (by simp [htext])

/-- A rendered node sequence followed by a closing tag starts with `<`. -/
theorem renderTags_head (ts : List HtmlTag) (rest : Str) :
    ∃ w, renderTags ts ++ '<' :: rest = '<' :: w := by
  cases ts with
  | nil => exact ⟨rest, by simp [renderTags]⟩
  | cons t ts =>
    rw [renderTags_cons, renderTag_eq]
    split
    · exact ⟨_, by simp only [List.cons_append]; rfl⟩
    · exact ⟨_, by simp only [List.cons_append]; rfl⟩

/-- The text content of a rendered node is read back into the open node. -/
theorem reaches_content (pre content w : Str) (stk : List Str) (roots : List HtmlTag)
    (c : HtmlTag) (cur : List HtmlTag) (htrim : Trimmed content)
    (hlt : ∀ ch ∈ content, ch ≠ '<') :
    ∃ k, k ≤ content.length
      ∧ Reaches NewHtmlParser k ⟨cursor pre (content ++ '<' :: w), stk, roots, c :: cur⟩
          ⟨cursor (pre ++ content) ('<' :: w), stk, roots,
            { c with InnerContent := c.InnerContent ++ content } :: cur⟩ := by
  cases content with
  | nil =>
    refine ⟨0, Nat.le_refl _, ?_⟩
    refine (Reaches.zero NewHtmlParser ⟨cursor pre ('<' :: w), stk, roots, c :: cur⟩).congr rfl
      (by simp) ?_
    cases c
    simp
  | cons x xs =>
    refine ⟨1, by simp, ?_⟩
    have hstep := step_text NewHtmlParser pre x xs w stk roots (c :: cur) htrim.head_not_ws hlt
    have htr : TrimSpace (x :: xs) = x :: xs := htrim
    rw [htr] at hstep
    refine (Reaches.one (by simp) hstep).congr rfl (by simp) ?_
    simp [appendContent]

/-- A rendered node with a closing tag is read back, given that its children are. -/
theorem reaches_renderTag_open (t : HtmlTag) (ht : Renderable t)
    (hsc : t.IsSelfClosing = false)
    (hch : ∀ (pre post : Str) (stk : List Str) (roots cur : List HtmlTag),
      ∃ k ts1, k ≤ (renderTags t.Children).length ∧ renderTags ts1 = renderTags t.Children
        ∧ Reaches NewHtmlParser k ⟨cursor pre (renderTags t.Children ++ post), stk, roots, cur⟩
            ⟨cursor (pre ++ renderTags t.Children) post, stk,
              (attachAll ts1 cur roots).2, (attachAll ts1 cur roots).1⟩)
    (pre post : Str) (stk : List Str) (roots cur : List HtmlTag) :
    ∃ k t1, k ≤ (renderTag t).length ∧ renderTag t1 = renderTag t
      ∧ Reaches NewHtmlParser k ⟨cursor pre (renderTag t ++ post), stk, roots, cur⟩
          ⟨cursor (pre ++ renderTag t) post, stk, (attach t1 cur roots).2,
            (attach t1 cur roots).1⟩ := by
  have htext : renderTag t = '<' :: (t.Name
      ++ (((sortedAttrs t.Attributes).map renderAttr).flatten ++ '>' :: (t.InnerContent
        ++ (renderTags t.Children ++ '<' :: '/' :: (t.Name ++ ['>']))))) := by
    rw [renderTag_eq, if_neg (by simp [hsc]), renderAttrs_eq]
  -- the opening tag
  have hfin := finishOpenTag_open t.Name (lineCol pre)
    ((sortedAttrs t.Attributes).foldl (fun m a => mapSet m a.Name a) [])
    (pre ++ '<' :: (t.Name ++ ((sortedAttrs t.Attributes).map renderAttr).flatten))
    (t.InnerContent ++ (renderTags t.Children ++ '<' :: '/' :: (t.Name ++ '>' :: post)))
  have hstep := step_rendered pre t.Name (sortedAttrs t.Attributes) '>'
    (t.InnerContent ++ (renderTags t.Children ++ '<' :: '/' :: (t.Name ++ '>' :: post)))
    stk roots cur ht.plainName ht.attrs (Or.inl rfl) _ _ hfin
  simp only [Bool.false_eq_true, if_false] at hstep
  have r1 := Reaches.one (by simp) hstep
  -- the text content
  obtain ⟨w, hw⟩ := renderTags_head t.Children ('/' :: (t.Name ++ '>' :: post))
  obtain ⟨k2, hk2, r2⟩ := reaches_content
    (pre ++ '<' :: (t.Name ++ ((sortedAttrs t.Attributes).map renderAttr).flatten) ++ ['>'])
    t.InnerContent w (t.Name :: stk) roots
    { Name := t.Name,
      Attributes := (sortedAttrs t.Attributes).foldl (fun m a => mapSet m a.Name a) [],
      Children := [], InnerHtml := [], InnerContent := [], IsSelfClosing := false,
      Pos := { Line := (lineCol pre).1, Column := (lineCol pre).2 },
      htmlStart := (pre ++ '<' :: (t.Name
        ++ ((sortedAttrs t.Attributes).map renderAttr).flatten)).length + 1 }
    cur ht.1.2.2.2.2.1 ht.1.2.2.2.1
  rw [← hw] at r2
  -- the children
  obtain ⟨k3, ts1, hk3, hts1, r3⟩ := hch
    (pre ++ '<' :: (t.Name ++ ((sortedAttrs t.Attributes).map renderAttr).flatten) ++ ['>']
      ++ t.InnerContent)
    ('<' :: '/' :: (t.Name ++ '>' :: post)) (t.Name :: stk) roots
    ({ Name := t.Name,
       Attributes := (sortedAttrs t.Attributes).foldl (fun m a => mapSet m a.Name a) [],
       Children := [], InnerHtml := [], InnerContent := [] ++ t.InnerContent,
       IsSelfClosing := false,
       Pos := { Line := (lineCol pre).1, Column := (lineCol pre).2 },
       htmlStart := (pre ++ '<' :: (t.Name
         ++ ((sortedAttrs t.Attributes).map renderAttr).flatten)).length + 1 } :: cur)
  rw [attachAll_cur] at r3
  -- the closing tag
  have hclose := step_close_match NewHtmlParser
    (pre ++ '<' :: (t.Name ++ ((sortedAttrs t.Attributes).map renderAttr).flatten) ++ ['>']
      ++ t.InnerContent ++ renderTags t.Children)
    t.Name post stk roots
    { Name := t.Name,
      Attributes := (sortedAttrs t.Attributes).foldl (fun m a => mapSet m a.Name a) [],
      Children := [] ++ ts1, InnerHtml := [], InnerContent := [] ++ t.InnerContent,
      IsSelfClosing := false,
      Pos := { Line := (lineCol pre).1, Column := (lineCol pre).2 },
      htmlStart := (pre ++ '<' :: (t.Name
        ++ ((sortedAttrs t.Attributes).map renderAttr).flatten)).length + 1 }
    cur ht.1.1 ht.plainName.closing
  have r4 := Reaches.one (by simp) hclose
  have r := ((r1.trans r2).trans r3).trans r4
  have hinit : '<' :: (t.Name ++ (((sortedAttrs t.Attributes).map renderAttr).flatten
      ++ '>' :: (t.InnerContent
        ++ (renderTags t.Children ++ '<' :: '/' :: (t.Name ++ '>' :: post)))))
      = renderTag t ++ post := by simp [htext]
  have hpre : pre ++ '<' :: (t.Name ++ ((sortedAttrs t.Attributes).map renderAttr).flatten)
      ++ ['>'] ++ t.InnerContent ++ renderTags t.Children ++ '<' :: '/' :: (t.Name ++ ['>'])
      = pre ++ renderTag t := by simp [htext]
  rw [hinit, hpre] at r
  refine ⟨1 + k2 + k3 + 1, _, ?_, ?_, r⟩
  · rw [htext]
    simp only [List.length_cons, List.length_append, List.length_nil]
    omega
  · rw [renderTag_backfill]
    exact renderTag_opened t ht false (lineCol pre) _ _ _ _ hsc (by simp) (by simpa using hts1)

theorem HtmlTag.sizeOf_child (t c : HtmlTag) (hc : c ∈ t.Children) : sizeOf c < sizeOf t := by
  cases t
  have := List.sizeOf_lt_of_mem hc
  simp only [HtmlTag.mk.sizeOf_spec]
  simp only at this
  omega

/-- A rendered tree of renderable nodes is read back as a tree with the same
rendering, in at most as many iterations as the rendering has runes. -/
theorem reaches_renderTag (t : HtmlTag) (ht : AllNodes Renderable t) :
    ∀ (pre post : Str) (stk : List Str) (roots cur : List HtmlTag),
      ∃ k t1, k ≤ (renderTag t).length ∧ renderTag t1 = renderTag t
        ∧ Reaches NewHtmlParser k ⟨cursor pre (renderTag t ++ post), stk, roots, cur⟩
            ⟨cursor (pre ++ renderTag t) post, stk, (attach t1 cur roots).2,
              (attach t1 cur roots).1⟩ := by
  suffices hall : ∀ (n : Nat) (t : HtmlTag), sizeOf t ≤ n → AllNodes Renderable t →
      ∀ (pre post : Str) (stk : List Str) (roots cur : List HtmlTag),
        ∃ k t1, k ≤ (renderTag t).length ∧ renderTag t1 = renderTag t
          ∧ Reaches NewHtmlParser k ⟨cursor pre (renderTag t ++ post), stk, roots, cur⟩
              ⟨cursor (pre ++ renderTag t) post, stk, (attach t1 cur roots).2,
                (attach t1 cur roots).1⟩ from hall (sizeOf t) t (Nat.le_refl _) ht
  intro n
  induction n with
  | zero =>
    intro t hsz
    cases t
    simp only [HtmlTag.mk.sizeOf_spec] at hsz
    omega
  | succ n ih =>
    intro t hsz ht pre post stk roots cur
    by_cases hsc : t.IsSelfClosing = true
    · exact reaches_renderTag_selfClosing t (ht t t.nodes_self) hsc pre post stk roots cur
    · exact reaches_renderTag_open t (ht t t.nodes_self) (by simpa using hsc)
        (reaches_renderTags t.Children (fun c hc =>
          ih c (by have := HtmlTag.sizeOf_child t c hc; omega)
            (fun n hn => ht n (HtmlTag.nodes_child t c n hc hn))))
        pre post stk roots cur

/-- The rendering of a sequence of trees of renderable nodes parses, to trees with
the same rendering. -/
theorem ParseHtml_RenderHtml (ts : List HtmlTag) (h : ∀ t ∈ ts, AllNodes Renderable t) :
    ∃ ts1, ParseHtml NewHtmlParser (RenderHtml ts) = .ok ts1
      ∧ RenderHtml ts1 = RenderHtml ts := by
  obtain ⟨k, ts1, hk, heq, r⟩ :=
    reaches_renderTags ts (fun t ht => reaches_renderTag t (h t ht)) [] [] [] [] []
  simp only [List.append_nil, List.nil_append, attachAll_roots] at r
  refine ⟨ts1, ?_, heq⟩
  rw [RenderHtml, ParseHtml_of_reaches r hk (by simp)]
  simp [finish, ParseState.rootsView, unwind]

/-- The trees `ParseHtml` returns are of renderable nodes when none is a raw-text
node, none has a name that starts a comment or a DOCTYPE, and no attribute value has
a double quote. -/
theorem ParseHtml_roundTrip (m : Str) (t : List HtmlTag)
    (h : ParseHtml NewHtmlParser m = .ok t) (hrt : ∀ r ∈ t, AllNodes RoundTripNode r) :
    ∃ t1, ParseHtml NewHtmlParser (RenderHtml t) = .ok t1 ∧ RenderHtml t1 = RenderHtml t :=
  ParseHtml_RenderHtml t (fun r hr n hn =>
    ⟨ParseHtml_allNodes wellFormed_nodeLaw m t h r hr n hn, hrt r hr n hn⟩)

end HtmlParser


namespace HtmlParser

open Scanner

/-! ## The scanner only moves forward -/

theorem Scanner.MovedBy.refl {s : Scanner} (h : s.pos ≤ s.src.length) : MovedBy 0 s s :=
  ⟨rfl, by omega, h, id⟩

theorem Scanner.MovedBy.weaken {d e : Nat} {s s1 : Scanner} (h : MovedBy d s s1) (he : e ≤ d) :
    MovedBy e s s1 :=
  ⟨h.1, by have := h.2.1; omega, h.2.2.1, h.2.2.2⟩

theorem Scanner.MovedBy.andThen {d e : Nat} {s s1 s2 : Scanner} (h : MovedBy d s s1)
    (h1 : MovedBy e s1 s2) : MovedBy (d + e) s s2 :=
  ⟨h1.1.trans h.1, by have := h.2.1; have := h1.2.1; omega, h1.2.2.1,
    fun hc => h1.2.2.2 (h.2.2.2 hc)⟩

theorem Scanner.rest_length (s : Scanner) : s.rest.length = s.src.length - s.pos := by
  simp [Scanner.rest]

theorem lineCol_foldl (a b : Str) : lineCol (a ++ b) = b.foldl bump (lineCol a) := by
  simp [lineCol, List.foldl_append]

/-- Moving over runes found at the cursor keeps the line and column in step with the
offset. -/
theorem Scanner.Canon.moved {s : Scanner} (h : s.Canon) (run : Str) (hrun : run <+: s.rest) :
    (s.advance run).Canon := by
  have htake : s.src.take (s.pos + run.length) = s.src.take s.pos ++ run := by
    rw [List.take_add]
    congr 1
    exact (List.prefix_iff_eq_take.mp hrun).symm
  unfold Scanner.Canon Scanner.atOffset at h ⊢
  have hl : s.line = (lineCol (s.src.take s.pos)).1 := congrArg Scanner.line h
  have hc : s.column = (lineCol (s.src.take s.pos)).2 := congrArg Scanner.column h
  simp only [Scanner.advance, htake, lineCol_foldl, hl, hc]

theorem Scanner.MovedBy.advance {d : Nat} {s0 s : Scanner} (h : MovedBy d s0 s) (run : Str)
    (hrun : run <+: s.rest) : MovedBy (d + run.length) s0 (s.advance run) := by
  have hlen := hrun.length_le
  rw [Scanner.rest_length] at hlen
  obtain ⟨h1, h2, h3, h4⟩ := h
  exact ⟨h1, by simp only [Scanner.advance]; omega, by simp only [Scanner.advance]; omega,
    fun hc => (h4 hc).moved run hrun⟩

theorem takeWhile_length_le (p : Char → Bool) (l : Str) :
    (l.takeWhile p).length ≤ l.length :=
  (List.takeWhile_prefix p).length_le

theorem beforeLit_initial (lit : Str) (text : Str) : beforeLit lit text <+: text := by
  induction text with
  | nil => simp [beforeLit]
  | cons c cs ih =>
    simp only [beforeLit]
    split
    · exact List.nil_prefix
    · exact List.cons_prefix_cons.mpr ⟨rfl, ih⟩

theorem beforeLit_length_le (lit : Str) (text : Str) :
    (beforeLit lit text).length ≤ text.length :=
  (beforeLit_initial lit text).length_le

theorem Scanner.MovedBy.SkipWhitespace {d : Nat} {s0 s : Scanner} (h : MovedBy d s0 s) :
    MovedBy d s0 s.SkipWhitespace :=
  (h.advance _ (List.takeWhile_prefix _)).weaken (by omega)

theorem Scanner.MovedBy.ConsumeWhile {d : Nat} {s0 s : Scanner} (h : MovedBy d s0 s)
    (p : Char → Bool) : MovedBy (d + (s.ConsumeWhile p).1.length) s0 (s.ConsumeWhile p).2 :=
  h.advance _ (List.takeWhile_prefix _)

theorem Scanner.MovedBy.ConsumeUntil {d : Nat} {s0 s : Scanner} (h : MovedBy d s0 s)
    (p : Char → Bool) : MovedBy d s0 (s.ConsumeUntil p) :=
  (h.advance _ (List.takeWhile_prefix _)).weaken (by omega)

theorem Scanner.MovedBy.ConsumeUntilString {d : Nat} {s0 s : Scanner} (h : MovedBy d s0 s)
    (lit : Str) : MovedBy d s0 (s.ConsumeUntilString lit) :=
  (h.advance _ (beforeLit_initial _ _)).weaken (by omega)

theorem Scanner.MovedBy.Take {d : Nat} {s0 s : Scanner} (h : MovedBy d s0 s) :
    MovedBy d s0 s.Take :=
  (h.advance _ (List.take_prefix _ _)).weaken (by omega)

theorem Scanner.MovedBy.Take_of_not_EOF {d : Nat} {s0 s : Scanner} (h : MovedBy d s0 s)
    (he : s.EOF = false) : MovedBy (d + 1) s0 s.Take := by
  have hlen : (s.rest.take 1).length = 1 := by
    cases hr : s.rest with
    | nil => simp [Scanner.EOF, hr] at he
    | cons c cs => simp
  have := h.advance (s.rest.take 1) (List.take_prefix _ _)
  rw [hlen] at this
  exact this

theorem Scanner.MovedBy.Match {d : Nat} {s0 s : Scanner} (h : MovedBy d s0 s) (ch : Char) :
    MovedBy (d + if (s.Match ch).1 = true then 1 else 0) s0 (s.Match ch).2 := by
  unfold Scanner.Match
  cases hr : s.rest with
  | nil => simpa using h
  | cons c cs =>
    by_cases hc : c = ch
    · have := h.advance [c] (by rw [hr]; exact ⟨cs, rfl⟩)
      simpa [hc] using this
    · simpa [hc] using h

theorem Scanner.MovedBy.Match_snd {d : Nat} {s0 s : Scanner} (h : MovedBy d s0 s) (ch : Char) :
    MovedBy d s0 (s.Match ch).2 :=
  (h.Match ch).weaken (by omega)

theorem Scanner.MovedBy.MatchString {d : Nat} {s0 s : Scanner} (h : MovedBy d s0 s)
    (lit : Str) :
    MovedBy (d + if (s.MatchString lit).1 = true then lit.length else 0) s0
      (s.MatchString lit).2 := by
  unfold Scanner.MatchString
  by_cases hp : lit.isPrefixOf s.rest = true
  · simpa [hp] using h.advance lit (List.isPrefixOf_iff_prefix.mp hp)
  · simpa [hp] using h

theorem Scanner.MovedBy.MatchString_snd {d : Nat} {s0 s : Scanner} (h : MovedBy d s0 s)
    (lit : Str) : MovedBy d s0 (s.MatchString lit).2 :=
  (h.MatchString lit).weaken (by omega)

theorem Scanner.Len_eq (s : Scanner) : s.Len = s.src.length := rfl

theorem Scanner.Position_eq (s : Scanner) : s.Position = s.pos := rfl

theorem Scanner.rest_eq (s : Scanner) : s.rest = s.src.drop s.pos := rfl

theorem Scanner.Slice_eq (s : Scanner) (a b : Nat) :
    s.Slice a b = (s.src.drop a).take (b - a) := rfl

theorem Scanner.EOF_iff (s : Scanner) : s.EOF = true ↔ s.src.length ≤ s.pos := by
  simp [Scanner.EOF, Scanner.rest]

theorem Scanner.EOF_false_iff (s : Scanner) : s.EOF = false ↔ s.pos < s.src.length := by
  rw [← Bool.not_eq_true, Scanner.EOF_iff]
  omega

/-- A `Match` that succeeds has moved over the rune it looked for. -/
theorem Scanner.Match_true {s : Scanner} {ch : Char} (h : (s.Match ch).1 = true) :
    (s.Match ch).2.src = s.src ∧ (s.Match ch).2.pos = s.pos + 1
      ∧ (s.src.drop s.pos).head? = some ch := by
  unfold Scanner.Match at h ⊢
  cases hr : s.rest with
  | nil => simp [hr] at h
  | cons c cs =>
    by_cases hc : c = ch
    · rw [Scanner.rest_eq] at hr
      simp [hc, hr, Scanner.advance]
    · simp [hr, hc] at h

/-- The runes at the cursor when `Current` and `PeekNext` are not the sentinel. -/
theorem Scanner.rest_of_Current_PeekNext {s : Scanner} {c1 c2 : Char} (he : s.EOF = false)
    (h1 : s.Current = c1) (h2 : s.PeekNext = c2) (hc2 : c2 ≠ eofRune) :
    ∃ tl, s.rest = c1 :: c2 :: tl := by
  unfold Scanner.EOF at he
  unfold Scanner.Current at h1
  unfold Scanner.PeekNext at h2
  cases hr : s.rest with
  | nil => simp [hr] at he
  | cons a r =>
    cases r with
    | nil =>
      simp [hr] at h2
      exact absurd h2.symm hc2
    | cons b r1 =>
      simp [hr] at h1 h2
      exact ⟨r1, by rw [h1, h2]⟩

/-- A `ConsumeUntil` at a rune that does not stop it consumes that rune. -/
theorem Scanner.MovedBy.ConsumeUntil_of_Current {d : Nat} {s0 s : Scanner} (h : MovedBy d s0 s)
    (p : Char → Bool) (he : s.EOF = false) (hp : p s.Current = false) :
    MovedBy (d + 1) s0 (s.ConsumeUntil p) := by
  have hlen : 1 ≤ (s.rest.takeWhile (fun r => !p r)).length := by
    cases hr : s.rest with
    | nil => simp [Scanner.EOF, hr] at he
    | cons c cs =>
      have hc : p c = false := by simpa [Scanner.Current, hr] using hp
      simp [List.takeWhile_cons, hc]
  exact (h.advance _ (List.takeWhile_prefix _)).weaken (by omega)

/-- A `MatchString` that succeeds has moved over the literal. -/
theorem Scanner.MovedBy.MatchString_of_true {d : Nat} {s0 s : Scanner} (h : MovedBy d s0 s)
    {lit : Str} (hm : (s.MatchString lit).1 = true) :
    MovedBy (d + lit.length) s0 (s.MatchString lit).2 := by
  have := h.MatchString lit
  rw [if_pos hm] at this
  exact this

theorem Scanner.Match_of_rest_cons {s : Scanner} {c : Char} {r : Str} (h : s.rest = c :: r) :
    s.Match c = (true, s.advance [c]) := by
  simp [Scanner.Match, h]

theorem Scanner.rest_advance_cons {s : Scanner} {c : Char} {r : Str} (h : s.rest = c :: r) :
    (s.advance [c]).rest = r := by
  rw [rest_advance, h]
  rfl

end HtmlParser


namespace HtmlParser

/-! The scanner is used through its lemmas only. -/

attribute [local irreducible] Scanner.cursor Scanner.rest Scanner.EOF Scanner.Current
  Scanner.PeekNext Scanner.Position Scanner.Len Scanner.Line Scanner.Column Scanner.advance
  Scanner.Take Scanner.Match Scanner.MatchString Scanner.ConsumeWhile Scanner.ConsumeUntil
  Scanner.ConsumeUntilString Scanner.SkipWhitespace Scanner.Slice Scanner.SliceFrom
  Scanner.Location

open Scanner

/-! ## Every loop of the parser moves the scanner forward -/

theorem length_pos_of_ne_nil {l : Str} (h : ¬ l = []) : 1 ≤ l.length := by
  cases l with
  | nil => exact absurd rfl h
  | cons c cs => simp

/-- `parseAttribute` consumes at least one rune when it returns an attribute. -/
theorem parseAttribute_moved {d : Nat} {s0 s s1 : Scanner} {attr : HtmlAttribute}
    (hm : MovedBy d s0 s) (h : parseAttribute s = .ok (attr, s1)) : MovedBy (d + 1) s0 s1 := by
  have m1 := hm.SkipWhitespace
  have m2 := m1.ConsumeWhile attrNameRune
  have m3 := m2.SkipWhitespace
  have m4 := m3.Take.SkipWhitespace
  have m6 := m4.ConsumeWhile unquotedRune
  unfold parseAttribute at h
  simp only at h
  split at h
  · cases h
  rename_i hne
  have hlen := length_pos_of_ne_nil hne
  split at h
  · split at h
    · split at h
      · cases h
      · cases h
        refine Scanner.MovedBy.weaken ((m4.Take.ConsumeUntil _).Match_snd _) ?_
        omega
    · cases h
      exact m6.weaken (by omega)
  · cases h
    exact m3.weaken (by omega)

/-- `parseAttribute` returns an attribute or an error. -/
theorem parseAttribute_returns (s : Scanner) :
    parseAttribute s ≠ .outOfFuel ∧ parseAttribute s ≠ .nilDeref := by
  unfold parseAttribute
  simp only
  repeat' split
  all_goals exact ⟨by simp, by simp⟩

/-- The attribute loop leaves the scanner at or after the place where it found it. -/
theorem attributeLoop_moved {d : Nat} {s0 : Scanner} (fuel : Nat) :
    ∀ (s s1 : Scanner) (acc res : List (Str × HtmlAttribute)), MovedBy d s0 s →
      attributeLoop fuel s acc = .ok (res, s1) → MovedBy d s0 s1 := by
  induction fuel with
  | zero =>
    intro s s1 acc res _ h
    simp [attributeLoop] at h
  | succ k ih =>
    intro s s1 acc res hm h
    unfold attributeLoop at h
    split at h
    · split at h
      · rename_i attr s2 hattr
        exact ih _ s1 _ res ((parseAttribute_moved hm hattr).SkipWhitespace.weaken (by omega)) h
      · cases h
      · cases h
      · cases h
    · cases h
      exact hm

/-- The attribute loop ends within as many iterations as there are runes ahead, and
one more for the test that ends it. -/
theorem attributeLoop_returns (fuel : Nat) :
    ∀ (s : Scanner) (acc : List (Str × HtmlAttribute)), s.pos ≤ s.src.length →
      s.src.length - s.pos < fuel →
      attributeLoop fuel s acc ≠ .outOfFuel ∧ attributeLoop fuel s acc ≠ .nilDeref := by
  induction fuel with
  | zero =>
    intro s acc _ h
    omega
  | succ k ih =>
    intro s acc hwf hfuel
    unfold attributeLoop
    split
    · split
      · rename_i attr s2 hattr
        have hm := (parseAttribute_moved (Scanner.MovedBy.refl hwf) hattr).SkipWhitespace
        have h1 : s2.SkipWhitespace.src.length = s.src.length := by rw [hm.1]
        have h2 := hm.2.1
        have h3 := hm.2.2.1
        exact ih _ _ h3 (by omega)
      · exact ⟨by simp, by simp⟩
      · rename_i hnil
        exact absurd hnil (parseAttribute_returns s).2
      · rename_i hout
        exact absurd hout (parseAttribute_returns s).1
    · exact ⟨by simp, by simp⟩

theorem skipToTagEnd_moved {d : Nat} {s0 : Scanner} (fuel : Nat) :
    ∀ s : Scanner, MovedBy d s0 s → MovedBy d s0 (skipToTagEnd fuel s) := by
  induction fuel with
  | zero =>
    intro s hm
    simpa [skipToTagEnd] using hm
  | succ k ih =>
    intro s hm
    unfold skipToTagEnd
    split
    · exact ih _ hm.Take
    · exact hm

/-- The loop over the rest of a `style` or `script` tag ends, within as many
iterations as there are runes ahead, at a `>` or at the end of input. -/
theorem skipToTagEnd_done (fuel : Nat) :
    ∀ s : Scanner, s.pos ≤ s.src.length → s.src.length - s.pos ≤ fuel →
      ¬ ((skipToTagEnd fuel s).Current ≠ '>' ∧ (skipToTagEnd fuel s).EOF = false) := by
  induction fuel with
  | zero =>
    intro s hwf hfuel
    have he : s.EOF = true := (Scanner.EOF_iff s).mpr (by omega)
    simp [skipToTagEnd, he]
  | succ k ih =>
    intro s hwf hfuel
    unfold skipToTagEnd
    split
    · rename_i hc
      have hm := (Scanner.MovedBy.refl hwf).Take_of_not_EOF hc.2
      have h1 : s.Take.src.length = s.src.length := by rw [hm.1]
      have h2 := hm.2.1
      exact ih _ hm.2.2.1 (by omega)
    · rename_i hc
      exact hc

/-- The name that `parseClosingTag` returns at `</`: the runes after the white
space that follows, up to the next `>` or white space. -/
theorem parseClosingTag_name_eq {s s1 : Scanner} {name tl : Str}
    (hr : s.rest = '<' :: '/' :: tl) (h : parseClosingTag s = .ok (name, s1)) :
    name = (tl.dropWhile isWhitespace).takeWhile closingNameRune := by
  have e1 := Scanner.Match_of_rest_cons hr
  have r1 := Scanner.rest_advance_cons hr
  have e2 := Scanner.Match_of_rest_cons r1
  have r2 := Scanner.rest_advance_cons r1
  unfold parseClosingTag at h
  simp only [e1, e2, if_true, Bool.and_self, Bool.not_true, Bool.false_eq_true, if_false] at h
  split at h
  · cases h
  split at h
  · cases h
  · cases h
    rw [ConsumeWhile_fst, rest_SkipWhitespace, r2]

end HtmlParser


namespace HtmlParser

/-! The scanner is used through its lemmas only. -/

attribute [local irreducible] Scanner.cursor Scanner.rest Scanner.EOF Scanner.Current
  Scanner.PeekNext Scanner.Position Scanner.Len Scanner.Line Scanner.Column Scanner.advance
  Scanner.Take Scanner.Match Scanner.MatchString Scanner.ConsumeWhile Scanner.ConsumeUntil
  Scanner.ConsumeUntilString Scanner.SkipWhitespace Scanner.Slice Scanner.SliceFrom
  Scanner.Location

open Scanner

/-! ## Tags move the scanner forward -/

theorem Scanner.MovedBy.Match_of_true {d : Nat} {s0 s : Scanner} (h : MovedBy d s0 s)
    {ch : Char} (hm : (s.Match ch).1 = true) : MovedBy (d + 1) s0 (s.Match ch).2 := by
  have := h.Match ch
  rw [if_pos hm] at this
  exact this

/-- With no handler registered, `parsingOpenTag` consumes at least the `<` when it
returns a node. -/
theorem parsingOpenTag_moved {d : Nat} {s0 s s1 : Scanner} {tag : HtmlTag}
    (hm : MovedBy d s0 s) (h : parsingOpenTag NewHtmlParser s = .ok (tag, s1)) :
    MovedBy (d + 1) s0 s1 := by
  unfold parsingOpenTag at h
  simp only [NewHtmlParser] at h
  split at h
  · cases h
  rename_i hm1
  have m1 := hm.Match_of_true (by simpa using hm1)
  have m3 := (m1.SkipWhitespace.ConsumeWhile nameRune).weaken (Nat.le_add_right _ _)
  split at h
  · cases h
  split at h
  · split at h
    · cases h
    · cases h
      exact (((skipToTagEnd_moved _ _ m3).Match_snd _).ConsumeUntilString _).MatchString_snd _
  · split at h
    · cases h
    · cases h
    · cases h
    · rename_i attrs s5 hloop
      have m5 := attributeLoop_moved _ _ _ _ _ m3.SkipWhitespace hloop
      repeat' split at h
      all_goals first
        | (cases h
           exact m5.Take.Match_snd _)
        | (cases h
           exact m5.Match_snd _)
        | cases h

/-- With no handler registered, a node that `parsingOpenTag` returns and that is not
self-closing has no inner markup yet, and its `htmlStart` is the offset at which the
scanner is left, just after the `>` of the tag. -/
theorem parsingOpenTag_open {s s1 : Scanner} {tag : HtmlTag}
    (h : parsingOpenTag NewHtmlParser s = .ok (tag, s1)) (hsc : tag.IsSelfClosing = false) :
    tag.htmlStart = s1.pos ∧ tag.InnerHtml = [] ∧ 0 < s1.pos
      ∧ (s1.src.drop (s1.pos - 1)).head? = some '>' := by
  unfold parsingOpenTag at h
  simp only [NewHtmlParser] at h
  split at h
  · cases h
  split at h
  · cases h
  split at h
  · split at h
    · cases h
    · cases h
      simp at hsc
  · split at h
    · cases h
    · cases h
    · cases h
    · rename_i attrs s5 hloop
      repeat' split at h
      all_goals first
        | (rename_i hmatch
           cases h
           simp only [Bool.not_eq_true, Bool.not_eq_false'] at hmatch
           obtain ⟨h1, h2, h3⟩ := Scanner.Match_true hmatch
           refine ⟨Scanner.Position_eq _, rfl, by omega, ?_⟩
           rw [h1, h2]
           simpa using h3)
        | cases h

/-- With no handler registered, `parsingOpenTag` returns a node or an error. -/
theorem parsingOpenTag_returns (s : Scanner) (hwf : s.pos ≤ s.src.length) :
    parsingOpenTag NewHtmlParser s ≠ .outOfFuel ∧ parsingOpenTag NewHtmlParser s ≠ .nilDeref := by
  have m3 := ((Scanner.MovedBy.refl hwf).Match_snd '<').SkipWhitespace.ConsumeWhile nameRune
    |>.SkipWhitespace
  have hloop := attributeLoop_returns
    (((s.Match '<').2.SkipWhitespace.ConsumeWhile nameRune).2.SkipWhitespace.Len + 1)
    ((s.Match '<').2.SkipWhitespace.ConsumeWhile nameRune).2.SkipWhitespace [] m3.2.2.1
    (by rw [Scanner.Len_eq]; omega)
  unfold parsingOpenTag
  simp only [NewHtmlParser]
  split
  · exact ⟨by simp, by simp⟩
  split
  · exact ⟨by simp, by simp⟩
  split
  · split
    · exact ⟨by simp, by simp⟩
    · exact ⟨by simp, by simp⟩
  · split
    · exact ⟨by simp, by simp⟩
    · rename_i hnil
      exact absurd hnil hloop.2
    · rename_i hout
      exact absurd hout hloop.1
    · repeat' split
      all_goals exact ⟨by simp, by simp⟩

/-- `parseClosingTag` consumes at least the `</` when it returns a name. -/
theorem parseClosingTag_moved {d : Nat} {s0 s s1 : Scanner} {name : Str}
    (hm : MovedBy d s0 s) (h : parseClosingTag s = .ok (name, s1)) :
    MovedBy (d + 2) s0 s1 := by
  unfold parseClosingTag at h
  simp only at h
  by_cases hm1 : (s.Match '<').1 = true
  · simp only [hm1, if_true, Bool.true_and] at h
    have m1 := hm.Match_of_true hm1
    split at h
    · cases h
    rename_i hm2
    have m2 := m1.Match_of_true (by simpa using hm2)
    split at h
    · cases h
    split at h
    · cases h
    · cases h
      exact ((m2.SkipWhitespace.ConsumeWhile _).weaken (Nat.le_add_right _ _)).SkipWhitespace.Match_snd _
  · simp [hm1] at h

/-- `parseClosingTag` returns a name or an error. -/
theorem parseClosingTag_returns (s : Scanner) :
    parseClosingTag s ≠ .outOfFuel ∧ parseClosingTag s ≠ .nilDeref := by
  unfold parseClosingTag
  simp only
  repeat' split
  all_goals exact ⟨by simp, by simp⟩

end HtmlParser


namespace HtmlParser

/-! The scanner is used through its lemmas only. -/

attribute [local irreducible] Scanner.cursor Scanner.rest Scanner.EOF Scanner.Current
  Scanner.PeekNext Scanner.Position Scanner.Len Scanner.Line Scanner.Column Scanner.advance
  Scanner.Take Scanner.Match Scanner.MatchString Scanner.ConsumeWhile Scanner.ConsumeUntil
  Scanner.ConsumeUntilString Scanner.SkipWhitespace Scanner.Slice Scanner.SliceFrom
  Scanner.Location

open Scanner

/-! ## Every iteration of the loop of `ParseHtml` moves the scanner forward -/

/-- With no handler registered, an iteration that goes on to the next one has
consumed at least one rune. -/
theorem step_moved {st st1 : ParseState} (hwf : st.scanner.pos ≤ st.scanner.src.length)
    (h : step NewHtmlParser st = .next st1) : MovedBy 1 st.scanner st1.scanner := by
  have m0 := (Scanner.MovedBy.refl hwf).SkipWhitespace
  unfold step at h
  simp only at h
  split at h
  · cases h
  rename_i heof
  split at h
  · split at h
    · split at h
      · cases h
      · rename_i hm
        cases h
        exact ((m0.ConsumeUntilString _).MatchString_of_true (by simpa using hm)).weaken
          (by simp)
    split at h
    · split at h
      · cases h
      · rename_i hm
        cases h
        exact ((m0.ConsumeUntil _).Match_of_true (by simpa using hm)).weaken (by omega)
    split at h
    · split at h
      · cases h
      · split at h
        · cases h
        · cases h
        · cases h
        · rename_i name sc1 hclose
          have m1 := parseClosingTag_moved m0 hclose
          split at h
          · cases h
          · split at h
            · cases h
            · split at h
              · cases h
              · cases h
                exact m1.weaken (by omega)
    · split at h
      · cases h
      · cases h
      · cases h
      · rename_i tag sc1 hopen
        have m1 := parsingOpenTag_moved m0 hopen
        split at h
        · cases h
          exact m1.weaken (by omega)
        · cases h
          exact m1.weaken (by omega)
  · rename_i hcur
    cases h
    exact (m0.ConsumeUntil_of_Current (isRune '<') (by simpa using heof)
      (by simpa [isRune] using hcur)).weaken (by omega)

/-- With no handler registered, an iteration never runs out of the iterations
that the model grants to the inner loops, and it follows a nil `current` only
when the stack has a name for which `current` has no node. -/
theorem step_returns {st : ParseState} (hwf : st.scanner.pos ≤ st.scanner.src.length) :
    step NewHtmlParser st ≠ .outOfFuel
      ∧ (st.closeStack.length = st.current.length → step NewHtmlParser st ≠ .nilDeref) := by
  have m0 := (Scanner.MovedBy.refl hwf).SkipWhitespace
  have hopen := parsingOpenTag_returns st.scanner.SkipWhitespace m0.2.2.1
  have hclose := parseClosingTag_returns st.scanner.SkipWhitespace
  unfold step
  simp only
  split
  · exact ⟨by simp, by simp⟩
  split
  · split
    · split
      · exact ⟨by simp, by simp⟩
      · exact ⟨by simp, by simp⟩
    split
    · split
      · exact ⟨by simp, by simp⟩
      · exact ⟨by simp, by simp⟩
    split
    · split
      · exact ⟨by simp, by simp⟩
      · split
        · exact ⟨by simp, by simp⟩
        · rename_i hnil
          exact absurd hnil hclose.2
        · rename_i hout
          exact absurd hout hclose.1
        · split
          · exact ⟨by simp, by simp⟩
          · split
            · exact ⟨by simp, by simp⟩
            · split
              · refine ⟨by simp, fun hlen => ?_⟩
                simp_all
              · exact ⟨by simp, by simp⟩
    · split
      · exact ⟨by simp, by simp⟩
      · rename_i hnil
        exact absurd hnil hopen.2
      · rename_i hout
        exact absurd hout hopen.1
      · split
        · exact ⟨by simp, by simp⟩
        · exact ⟨by simp, by simp⟩
  · exact ⟨by simp, by simp⟩

/-- The loop of `ParseHtml` ends within as many iterations as there are runes ahead,
and one more for the test that ends it: with that many, the result does not depend on
how many the model grants, and it is not the lack of them. -/
theorem parseLoop_fuel (fuel : Nat) :
    ∀ (fuel1 : Nat) (st : ParseState), st.scanner.pos ≤ st.scanner.src.length →
      st.scanner.src.length - st.scanner.pos < fuel →
      st.scanner.src.length - st.scanner.pos < fuel1 →
      parseLoop NewHtmlParser fuel st = parseLoop NewHtmlParser fuel1 st
        ∧ parseLoop NewHtmlParser fuel st ≠ .outOfFuel := by
  induction fuel with
  | zero =>
    intro fuel1 st _ h
    omega
  | succ k ih =>
    intro fuel1 st hwf hfuel hfuel1
    obtain ⟨k1, rfl⟩ : ∃ k1, fuel1 = k1 + 1 := ⟨fuel1 - 1, by omega⟩
    unfold parseLoop
    split
    · refine ⟨rfl, ?_⟩
      unfold finish
      split <;> simp
    · split
      · rename_i st1 hstep
        have hm := step_moved hwf hstep
        have h1 : st1.scanner.src.length = st.scanner.src.length := by rw [hm.1]
        have h2 := hm.2.1
        have h3 := hm.2.2.1
        exact ih k1 st1 h3 (by omega) (by omega)
      · refine ⟨rfl, ?_⟩
        unfold finish
        split <;> simp
      · exact ⟨rfl, by simp⟩
      · exact ⟨rfl, by simp⟩
      · rename_i hout
        exact absurd hout (step_returns hwf).1

/-- With no handler registered, `ParseHtml` returns nodes or an error, whatever the
input, and more iterations than the input has runes do not change what it returns. -/
theorem ParseHtml_terminates (html : Str) :
    ParseHtml NewHtmlParser html ≠ .outOfFuel
      ∧ ∀ fuel, html.length < fuel →
          parseLoop NewHtmlParser fuel (initState html) = ParseHtml NewHtmlParser html := by
  have hwf : (initState html).scanner.pos ≤ (initState html).scanner.src.length := by
    simp [initState, Scanner.New]
  have hlen : (initState html).scanner.src.length - (initState html).scanner.pos = html.length := by
    simp [initState, Scanner.New]
  refine ⟨(parseLoop_fuel (html.length + 1) (html.length + 1) _ hwf (by omega) (by omega)).2,
    fun fuel hfuel => ?_⟩
  exact (parseLoop_fuel fuel (html.length + 1) _ hwf (by omega) (by omega)).1

end HtmlParser


namespace HtmlParser

/-! The scanner is used through its lemmas only. -/

attribute [local irreducible] Scanner.cursor Scanner.rest Scanner.EOF Scanner.Current
  Scanner.PeekNext Scanner.Position Scanner.Len Scanner.Line Scanner.Column Scanner.advance
  Scanner.Take Scanner.Match Scanner.MatchString Scanner.ConsumeWhile Scanner.ConsumeUntil
  Scanner.ConsumeUntilString Scanner.SkipWhitespace Scanner.Slice Scanner.SliceFrom
  Scanner.Location

open Scanner

/-! ## The back-fill of the inner markup -/

theorem OpenAt.mono {src : Str} {pos pos1 : Nat} {c : HtmlTag} (h : OpenAt src pos c)
    (hp : pos ≤ pos1) : OpenAt src pos1 c :=
  ⟨h.1, h.2.1, Nat.le_trans h.2.2.1 hp, h.2.2.2.1, h.2.2.2.2.1, h.2.2.2.2.2⟩

/-- The node that a closing tag at offset `e` leaves is back-filled. -/
theorem backfill_backFilled {src : Str} {c : HtmlTag} {sc1 : Scanner} {pos e : Nat}
    (hopen : OpenAt src pos c) (hsrc : sc1.src = src) (hpe : pos ≤ e)
    (hclose : ClosesAt src c.Name e) : AllNodes (BackFilled src) (backfill c sc1 e) := by
  obtain ⟨hsc, h0, hle, hgt, hin, hch⟩ := hopen
  unfold backfill
  split
  · refine AllNodes.intro (fun _ => ⟨e, h0, by simp only; omega, hgt, hclose, ?_⟩) hch
    simp only [Scanner.Slice_eq, hsrc]
  · rename_i hcond
    have he : c.htmlStart = e := by omega
    refine AllNodes.intro (fun _ => ⟨e, h0, by omega, hgt, hclose, ?_⟩) hch
    rw [hin, he]
    simp [TrimSpace]

/-- Attaching a back-filled node keeps the parts of the invariant on the tree. -/
theorem attach_fill {src : Str} {pos : Nat} {tag : HtmlTag} {cur roots : List HtmlTag}
    (htag : AllNodes (BackFilled src) tag) (hr : ∀ r ∈ roots, AllNodes (BackFilled src) r)
    (hc : ∀ c ∈ cur, OpenAt src pos c) :
    (∀ r ∈ (attach tag cur roots).2, AllNodes (BackFilled src) r)
      ∧ (∀ c ∈ (attach tag cur roots).1, OpenAt src pos c)
      ∧ (attach tag cur roots).1.map (fun c => c.Name) = cur.map (fun c => c.Name) := by
  cases cur with
  | nil =>
    refine ⟨?_, by simp [attach], by simp [attach]⟩
    intro r hr1
    simp only [attach, List.mem_append, List.mem_singleton] at hr1
    rcases hr1 with h | rfl
    · exact hr r h
    · exact htag
  | cons c ps =>
    refine ⟨by simpa [attach] using hr, ?_, by simp [attach]⟩
    intro x hx
    simp only [attach, List.mem_cons] at hx
    rcases hx with rfl | hx
    · obtain ⟨h1, h2, h3, h4, h5, h6⟩ := hc c (List.mem_cons_self c ps)
      refine ⟨h1, h2, h3, h4, h5, ?_⟩
      intro ch hch
      simp only [List.mem_append, List.mem_singleton] at hch
      rcases hch with h | rfl
      · exact h6 ch h
      · exact htag
    · exact hc x (List.mem_cons_of_mem c hx)

theorem appendContent_fill {src : Str} {pos : Nat} {cur : List HtmlTag} (x : Str)
    (hc : ∀ c ∈ cur, OpenAt src pos c) :
    (∀ c ∈ appendContent cur x, OpenAt src pos c)
      ∧ (appendContent cur x).map (fun c => c.Name) = cur.map (fun c => c.Name) := by
  cases cur with
  | nil => simp [appendContent]
  | cons c ps =>
    refine ⟨?_, by simp [appendContent]⟩
    intro y hy
    simp only [appendContent, List.mem_cons] at hy
    rcases hy with rfl | hy
    · exact hc c (List.mem_cons_self c ps)
    · exact hc y (List.mem_cons_of_mem c hy)

/-- A node that `parsingOpenTag` returns is back-filled when it is self-closing, and
open at the offset where the scanner is left when it is not. -/
theorem parsingOpenTag_fill {s s1 : Scanner} {tag : HtmlTag}
    (h : parsingOpenTag NewHtmlParser s = .ok (tag, s1)) :
    (tag.IsSelfClosing = true → AllNodes (BackFilled s1.src) tag)
      ∧ (tag.IsSelfClosing = false → OpenAt s1.src s1.pos tag) := by
  have hch := parsingOpenTag_children s s1 tag h
  constructor
  · intro hsc
    refine AllNodes.intro (fun hn => ?_) (by simp [hch])
    rw [hsc] at hn
    cases hn
  · intro hsc
    obtain ⟨h1, h2, h3, h4⟩ := parsingOpenTag_open h hsc
    exact ⟨hsc, by omega, by omega, by rw [h1]; exact h4, h2, by simp [hch]⟩

/-- The invariant of the back-fill holds from one iteration to the next. -/
theorem FillInv.iterate {src : Str} {st st1 : ParseState} (hinv : FillInv src st)
    (h : step NewHtmlParser st = .next st1) : FillInv src st1 := by
  obtain ⟨hsrc, hwf, hr, hc, hs⟩ := hinv
  have hwf0 : st.scanner.pos ≤ st.scanner.src.length := by rw [hsrc]; exact hwf
  have hm := step_moved hwf0 h
  have hsrc1 : st1.scanner.src = src := hm.1.trans hsrc
  have hpos : st.scanner.pos ≤ st1.scanner.pos := by have := hm.2.1; omega
  have hwf1 : st1.scanner.pos ≤ src.length := by rw [← hsrc1]; exact hm.2.2.1
  have hc1 : ∀ c ∈ st.current, OpenAt src st1.scanner.pos c := fun c hcm => (hc c hcm).mono hpos
  have m0 := (Scanner.MovedBy.refl hwf0).SkipWhitespace
  unfold HtmlParser.step at h
  simp only at h
  split at h
  · cases h
  rename_i heof
  split at h
  · rename_i hcur
    split at h
    · split at h
      · cases h
      · cases h
        exact ⟨hsrc1, hwf1, hr, hc1, hs⟩
    split at h
    · split at h
      · cases h
      · cases h
        exact ⟨hsrc1, hwf1, hr, hc1, hs⟩
    split at h
    · rename_i hpeek
      split at h
      · cases h
      · split at h
        · cases h
        · cases h
        · cases h
        · rename_i name sc1 hclose
          have m1 := parseClosingTag_moved m0 hclose
          split at h
          · cases h
          · rename_i expected stack hstk
            split at h
            · cases h
            · rename_i hexp
              split at h
              · cases h
              · rename_i c ps hcurr
                cases h
                obtain ⟨tl, htl⟩ := Scanner.rest_of_Current_PeekNext (by simpa using heof) hcur
                  hpeek (by decide)
                have hname := parseClosingTag_name_eq htl hclose
                have hcn : c.Name = name := by
                  rw [hstk, hcurr] at hs
                  simp only [List.map_cons, List.cons.injEq] at hs
                  rw [← hs.1]
                  simpa using hexp
                have hcl : ClosesAt src c.Name st.scanner.SkipWhitespace.pos := by
                  refine ⟨tl, ?_, by rw [hcn, hname]⟩
                  rw [← htl, Scanner.rest_eq, m0.1, hsrc]
                have hfill := @backfill_backFilled _ _ sc1 _ _
                  (hc c (by rw [hcurr]; exact List.mem_cons_self c ps)) (m1.1.trans hsrc)
                  m0.2.1 hcl
                have hps : ∀ p ∈ ps, OpenAt src sc1.pos p := fun p hp =>
                  hc1 p (by rw [hcurr]; exact List.mem_cons_of_mem c hp)
                rw [Scanner.Position_eq]
                obtain ⟨a1, a2, a3⟩ := attach_fill hfill hr hps
                refine ⟨hsrc1, hwf1, a1, a2, ?_⟩
                rw [a3]
                rw [hstk, hcurr] at hs
                simp only [List.map_cons, List.cons.injEq] at hs
                exact hs.2
    · split at h
      · cases h
      · cases h
      · cases h
      · rename_i tag sc1 hopen
        have hfill := parsingOpenTag_fill hopen
        split at h
        · rename_i hsc
          cases h
          have htag := hfill.1 hsc
          rw [hsrc1] at htag
          obtain ⟨a1, a2, a3⟩ := attach_fill htag hr hc1
          exact ⟨hsrc1, hwf1, a1, a2, by rw [a3]; exact hs⟩
        · rename_i hsc
          cases h
          have htag := hfill.2 (by simpa using hsc)
          rw [hsrc1] at htag
          refine ⟨hsrc1, hwf1, hr, ?_, by simp [hs]⟩
          intro x hx
          rcases List.mem_cons.mp hx with rfl | hx
          · exact htag
          · exact hc1 x hx
  · cases h
    split
    · obtain ⟨a1, a2⟩ := appendContent_fill
        (TrimSpace ((st.scanner.SkipWhitespace.ConsumeUntil (isRune '<')).SliceFrom
          st.scanner.SkipWhitespace.Position)) hc1
      exact ⟨hsrc1, hwf1, hr, a1, by rw [a2]; exact hs⟩
    · exact ⟨hsrc1, hwf1, hr, hc1, hs⟩

theorem FillInv.initial (html : Str) : FillInv html (initState html) :=
  ⟨rfl, by simp [initState, Scanner.New], by simp [initState], by simp [initState], rfl⟩

/-- An iteration that ends the loop leaves the tree and the stack as they are. -/
theorem step_stop {parser : DefaultHtmlParser} {st st1 : ParseState}
    (h : step parser st = .stop st1) :
    st1.closeStack = st.closeStack ∧ st1.roots = st.roots ∧ st1.current = st.current := by
  unfold HtmlParser.step at h
  simp only at h
  repeat' split at h
  all_goals first
    | (cases h
       exact ⟨rfl, rfl, rfl⟩)
    | cases h

theorem finish_ok {st : ParseState} {roots : List HtmlTag}
    (hs : st.closeStack = st.current.map (fun c => c.Name)) (h : finish st = .ok roots) :
    st.current = [] ∧ roots = st.roots := by
  unfold finish at h
  split at h
  · cases h
  · rename_i hstk
    have hcur : st.current = [] := by
      rw [hstk] at hs
      exact List.map_eq_nil_iff.mp hs.symm
    cases h
    exact ⟨hcur, by simp [ParseState.rootsView, unwind, hcur]⟩

/-- The nodes that the loop of `ParseHtml` returns are back-filled. -/
theorem FillInv.loop {src : Str} (fuel : Nat) :
    ∀ (st : ParseState) (roots : List HtmlTag), FillInv src st →
      parseLoop NewHtmlParser fuel st = .ok roots → ∀ r ∈ roots, AllNodes (BackFilled src) r := by
  induction fuel with
  | zero =>
    intro st roots _ h
    simp [HtmlParser.parseLoop] at h
  | succ k ih =>
    intro st roots hinv h
    unfold HtmlParser.parseLoop at h
    split at h
    · obtain ⟨-, hr⟩ := finish_ok hinv.2.2.2.2 h
      rw [hr]
      exact hinv.2.2.1
    · split at h
      · rename_i st1 hstep
        exact ih st1 roots (hinv.iterate hstep) h
      · rename_i st1 hstep
        obtain ⟨e1, e2, e3⟩ := step_stop hstep
        obtain ⟨-, hr⟩ := finish_ok (by rw [e1, e3]; exact hinv.2.2.2.2) h
        rw [hr, e2]
        exact hinv.2.2.1
      · cases h
      · cases h
      · cases h

theorem ParseHtml_backFilled (html : Str) (roots : List HtmlTag)
    (h : ParseHtml NewHtmlParser html = .ok roots) :
    ∀ r ∈ roots, AllNodes (BackFilled html) r :=
  FillInv.loop _ _ roots (FillInv.initial html) h

/-! ## The stack and the chain of `current` -/

/-- The invariant holds at the head of the loop after any number of iterations. -/
theorem loopState_fillInv (html : Str) :
    ∀ (k : Nat) (st : ParseState), loopState NewHtmlParser html k = some st →
      FillInv html st := by
  intro k
  induction k with
  | zero =>
    intro st h
    simp only [loopState, Option.some.injEq] at h
    rw [← h]
    exact FillInv.initial html
  | succ k ih =>
    intro st h
    unfold loopState at h
    split at h
    · cases h
    · rename_i st0 hst0
      split at h
      · cases h
      · split at h
        · rename_i st1 hstep
          cases h
          exact (ih st0 hst0).iterate hstep
        · cases h

/-- The loop of `ParseHtml` never follows a nil `current`. -/
theorem parseLoop_not_nilDeref {src : Str} (fuel : Nat) :
    ∀ st : ParseState, FillInv src st → parseLoop NewHtmlParser fuel st ≠ .nilDeref := by
  induction fuel with
  | zero =>
    intro st _
    simp [HtmlParser.parseLoop]
  | succ k ih =>
    intro st hinv
    have hfin : ∀ s : ParseState, finish s ≠ .nilDeref := by
      intro s
      unfold finish
      split <;> simp
    unfold HtmlParser.parseLoop
    split
    · exact hfin st
    · split
      · rename_i st1 hstep
        exact ih st1 (hinv.iterate hstep)
      · exact hfin _
      · simp
      · rename_i hnil
        have hwf0 : st.scanner.pos ≤ st.scanner.src.length := by
          rw [hinv.1]
          exact hinv.2.1
        refine absurd hnil ((step_returns hwf0).2 ?_)
        rw [hinv.2.2.2.2]
        simp
      · simp

end HtmlParser


namespace HtmlParser

/-! ## CloneUp -/

/-- The loop of `CloneUp` that has `n` levels to go ends at the node `min n p` levels
up, where `p` is the number of ancestors, when there are enough ancestors or the
depth limit is ignored. -/
theorem cloneUpLoop_ok (maxDepth : Int) (ignore : Bool) :
    ∀ (parents : List HtmlTag) (root : HtmlTag) (depth : Int) (n : Nat),
      maxDepth = depth + n → (n ≤ parents.length ∨ ignore = true) →
      ∃ a, (root :: parents)[min n parents.length]? = some a
        ∧ cloneUpLoop maxDepth ignore root parents depth
            = .ok (a, depth + (min n parents.length : Nat)) := by
  intro parents
  induction parents with
  | nil =>
    intro root depth n hn hcase
    refine ⟨root, by simp, ?_⟩
    unfold cloneUpLoop
    by_cases hlt : depth < maxDepth
    · have hig : ignore = true := by
        rcases hcase with h | h
        · simp at h
          omega
        · exact h
      simp [hlt, hig]
    · simp [hlt]
  | cons p ps ih =>
    intro root depth n hn hcase
    unfold cloneUpLoop
    by_cases hlt : depth < maxDepth
    · obtain ⟨m, rfl⟩ : ∃ m, n = m + 1 := ⟨n - 1, by omega⟩
      obtain ⟨a, ha, hloop⟩ := ih p (depth + 1) m (by push_cast at hn; omega)
        (by rcases hcase with h | h
            · left; simp at h; omega
            · right; exact h)
      refine ⟨a, ?_, ?_⟩
      · simpa [Nat.add_min_add_right] using ha
      · rw [if_pos hlt, hloop]
        simp only [List.length_cons, Nat.add_min_add_right]
        push_cast
        congr 2
        omega
    · have hn0 : n = 0 := by omega
      subst hn0
      refine ⟨root, by simp, ?_⟩
      simp [hlt]

/-- The loop of `CloneUp` fails when the ancestors run out before the depth is
reached and the depth limit is not ignored. -/
theorem cloneUpLoop_error (maxDepth : Int) :
    ∀ (parents : List HtmlTag) (root : HtmlTag) (depth : Int) (n : Nat),
      maxDepth = depth + n → parents.length < n →
      cloneUpLoop maxDepth false root parents depth
        = .error ("Html tags clone up error: maxDepth ".toList ++ fmtIntZ maxDepth
            ++ " exceeds available parents".toList) := by
  intro parents
  induction parents with
  | nil =>
    intro root depth n hn hlen
    unfold cloneUpLoop
    have hlt : depth < maxDepth := by simp at hlen; omega
    simp [hlt]
  | cons p ps ih =>
    intro root depth n hn hlen
    unfold cloneUpLoop
    have hlt : depth < maxDepth := by omega
    obtain ⟨m, rfl⟩ : ∃ m, n = m + 1 := ⟨n - 1, by omega⟩
    rw [if_pos hlt]
    exact ih p (depth + 1) m (by push_cast at hn; omega) (by simpa using hlen)

/-- `CloneUp` with a depth that is not negative. -/
theorem CloneUp_spec (t : HtmlTag) (parents : List HtmlTag) (k : Nat) (ignore : Bool) :
    (parents.length < k → ignore = false →
      t.CloneUp parents k ignore
        = .error ("Html tags clone up error: maxDepth ".toList ++ fmtIntZ k
            ++ " exceeds available parents".toList))
    ∧ (¬ (parents.length < k ∧ ignore = false) →
        (min k parents.length = 0 → t.CloneUp parents k ignore = .ok (t.clone 0 0))
        ∧ (1 ≤ min k parents.length →
            ∃ a, parents[min k parents.length - 1]? = some a
              ∧ t.CloneUp parents k ignore = .ok (a.clone 0 (min k parents.length : Nat))
              ∧ t.CloneUp parents k ignore = a.CloneDown (min k parents.length : Nat))) := by
  have hk0 : ¬ ((k : Int) < 0) := by omega
  constructor
  · intro hlen hig
    subst hig
    unfold HtmlTag.CloneUp
    rw [if_neg hk0, cloneUpLoop_error k parents t 0 k (by simp) hlen]
  · intro hcase
    have hcase1 : k ≤ parents.length ∨ ignore = true := by
      by_cases h : parents.length < k
      · right
        cases ignore with
        | true => rfl
        | false => exact absurd ⟨h, rfl⟩ hcase
      · left
        omega
    obtain ⟨a, ha, hloop⟩ := cloneUpLoop_ok k ignore parents t 0 k (by simp) hcase1
    constructor
    · intro hd
      unfold HtmlTag.CloneUp
      rw [if_neg hk0, hloop]
      simp [hd]
    · intro hd
      obtain ⟨d, hdd⟩ : ∃ d, min k parents.length = d + 1 := ⟨min k parents.length - 1, by omega⟩
      rw [hdd] at ha hloop ⊢
      refine ⟨a, by simpa using ha, ?_, ?_⟩
      · unfold HtmlTag.CloneUp
        rw [if_neg hk0, hloop]
        have : ¬ ((0 : Int) + ((d + 1 : Nat) : Int) = 0) := by omega
        simp only [this, if_false]
        simp
      · unfold HtmlTag.CloneUp HtmlTag.CloneDown
        rw [if_neg hk0, hloop]
        have h1 : ¬ ((0 : Int) + ((d + 1 : Nat) : Int) = 0) := by omega
        have h2 : ¬ (((d + 1 : Nat) : Int) < 1) := by omega
        simp only [h1, h2, if_false]
        simp

/-! ## The levels of a copy -/

theorem CopyToDepth.children {o c : HtmlTag} {k : Nat} (h : CopyToDepth o (k + 1) c) :
    CopiesToDepth o.Children k c.Children := by
  obtain ⟨name, attrs, children, ih, ic, sc, pos, hs⟩ := o
  simp only [CopyToDepth] at h
  exact h.2.2.2.2.2

theorem CopiesToDepth.mem {n : Nat} :
    ∀ {os cs : List HtmlTag}, CopiesToDepth os n cs → ∀ x ∈ os,
      ∃ y ∈ cs, CopyToDepth x n y := by
  intro os
  induction os with
  | nil => intro cs _ x hx; cases hx
  | cons o os ih =>
    intro cs h x hx
    simp only [CopiesToDepth] at h
    obtain ⟨c, cs1, rfl, h1, h2⟩ := h
    rcases List.mem_cons.mp hx with rfl | hx1
    · exact ⟨c, List.mem_cons_self _ _, h1⟩
    · obtain ⟨y, hy, hxy⟩ := ih h2 x hx1
      exact ⟨y, List.mem_cons_of_mem _ hy, hxy⟩

/-- A copy cut at depth `n` has, at each depth `d ≤ n`, a copy of every node that
the original has at that depth, cut at depth `n - d`. -/
theorem CopyToDepth.atLevel {o c : HtmlTag} {n : Nat} (h : CopyToDepth o n c) :
    ∀ d, d ≤ n → ∀ x ∈ o.level d, ∃ y ∈ c.level d, CopyToDepth x (n - d) y := by
  intro d
  induction d with
  | zero =>
    intro _ x hx
    simp only [HtmlTag.level, List.mem_singleton] at hx
    subst hx
    exact ⟨c, by simp [HtmlTag.level], h⟩
  | succ d ih =>
    intro hd x hx
    simp only [HtmlTag.level, List.mem_flatMap] at hx
    obtain ⟨x1, hx1, hxc⟩ := hx
    obtain ⟨y1, hy1, hc1⟩ := ih (by omega) x1 hx1
    obtain ⟨m, hm⟩ : ∃ m, n - d = m + 1 := ⟨n - d - 1, by omega⟩
    rw [hm] at hc1
    obtain ⟨y, hy, hxy⟩ := hc1.children.mem x hxc
    have e : n - (d + 1) = m := by omega
    rw [e]
    exact ⟨y, by simp only [HtmlTag.level, List.mem_flatMap]; exact ⟨y1, hy1, hy⟩, hxy⟩

/-- A node is at depth `d` of its `d`-th ancestor. -/
theorem AncestorChain.inLevel :
    ∀ (parents : List HtmlTag) (t a : HtmlTag) (d : Nat), AncestorChain t parents →
      parents[d]? = some a → t ∈ a.level (d + 1) := by
  intro parents
  induction parents with
  | nil => intro t a d _ h; simp at h
  | cons p ps ih =>
    intro t a d hc h
    simp only [AncestorChain] at hc
    cases d with
    | zero =>
      simp only [List.getElem?_cons_zero, Option.some.injEq] at h
      subst h
      simp only [HtmlTag.level, List.flatMap_cons, List.flatMap_nil, List.append_nil]
      exact hc.1
    | succ d =>
      simp only [List.getElem?_cons_succ] at h
      have := ih p a d hc.2 h
      rw [HtmlTag.level, List.mem_flatMap]
      exact ⟨p, this, hc.1⟩

end HtmlParser


namespace HtmlParser

/-! ## RemoveChild -/

/-- The loop of `RemoveChild` from the entry after `before`, none of which is the
child: nothing changes when the child is not among the entries left, and else the
parent of the child is cleared and the first entry that is the child is removed. -/
theorem removeLoop_spec (h : Heap) (t child : Nat) :
    ∀ (after before : List (Option Nat)), some child ∉ before →
      removeLoop h t child before after
        = if some child ∈ after then
            ((h.set child { h child with Parent := none }).set t
              { (h.set child { h child with Parent := none }) t with
                Children := (before ++ after).erase (some child) })
          else h := by
  intro after
  induction after with
  | nil =>
    intro before _
    simp [removeLoop]
  | cons c cs ih =>
    intro before hb
    unfold removeLoop
    by_cases hc : c = some child
    · subst hc
      have he : (before ++ some child :: cs).erase (some child) = before ++ cs := by
        rw [List.erase_append_right _ hb]
        simp
      simp [he]
    · have hb1 : some child ∉ before ++ [c] := by
        simp only [List.mem_append, List.mem_singleton, not_or]
        exact ⟨hb, fun h => hc h.symm⟩
      rw [if_neg hc, ih (before ++ [c]) hb1]
      have hmem : some child ∈ c :: cs ↔ some child ∈ cs := by
        simp only [List.mem_cons, or_iff_right_iff_imp]
        intro h
        exact absurd h.symm hc
      simp only [hmem, List.append_assoc, List.singleton_append]

/-- `RemoveChild` on a parent and a child that are not nil. -/
theorem RemoveChild_spec (h : Heap) (t child : Nat) :
    RemoveChild h (some t) (some child)
      = if some child ∈ (h t).Children then
          ((h.set child { h child with Parent := none }).set t
            { (h.set child { h child with Parent := none }) t with
              Children := (h t).Children.erase (some child) })
        else h := by
  unfold RemoveChild
  simp only
  by_cases hlen : (h t).Children.length = 0
  · have hnil : (h t).Children = [] := List.length_eq_zero.mp hlen
    simp [hnil]
  · rw [if_neg hlen, removeLoop_spec h t child _ [] (by simp)]
    simp

end HtmlParser


namespace HtmlParser

/-! ## The order of the attributes in the rendering -/

theorem char_eq_of_toNat {a b : Char} (h1 : ¬ a.toNat < b.toNat) (h2 : ¬ b.toNat < a.toNat) :
    a = b := by
  have h : a.toNat = b.toNat := by omega
  apply Char.ext
  apply UInt32.ext
  exact h

theorem strLe_antisymm : ∀ (a b : Str), strLe a b = true → strLe b a = true → a = b := by
  intro a
  induction a with
  | nil =>
    intro b _ hba
    cases b with
    | nil => rfl
    | cons y ys => simp [strLe] at hba
  | cons x xs ih =>
    intro b hab hba
    cases b with
    | nil => simp [strLe] at hab
    | cons y ys =>
      simp only [strLe] at hab hba
      by_cases h1 : x.toNat < y.toNat
      · have h2 : ¬ y.toNat < x.toNat := by omega
        simp [h1, h2] at hba
      · by_cases h2 : y.toNat < x.toNat
        · simp [h1, h2] at hab
        · simp only [h1, h2, if_false] at hab hba
          rw [char_eq_of_toNat h1 h2, ih ys hab hba]

theorem strLe_trans : ∀ (a b c : Str), strLe a b = true → strLe b c = true →
    strLe a c = true := by
  intro a
  induction a with
  | nil =>
    intro b c _ _
    simp [strLe]
  | cons x xs ih =>
    intro b c hab hbc
    cases b with
    | nil => simp [strLe] at hab
    | cons y ys =>
      cases c with
      | nil => simp [strLe] at hbc
      | cons z zs =>
        simp only [strLe] at hab hbc ⊢
        by_cases h1 : x.toNat < y.toNat
        · by_cases h2 : y.toNat < z.toNat
          · have : x.toNat < z.toNat := by omega
            simp [this]
          · by_cases h3 : z.toNat < y.toNat
            · simp [h2, h3] at hbc
            · have : x.toNat < z.toNat := by omega
              simp [this]
        · by_cases h1' : y.toNat < x.toNat
          · simp [h1, h1'] at hab
          · simp only [h1, h1', if_false] at hab
            by_cases h2 : y.toNat < z.toNat
            · have : x.toNat < z.toNat := by omega
              simp [this]
            · by_cases h3 : z.toNat < y.toNat
              · simp [h2, h3] at hbc
              · simp only [h2, h3, if_false] at hbc
                have e1 : ¬ x.toNat < z.toNat := by omega
                have e2 : ¬ z.toNat < x.toNat := by omega
                simp only [e1, e2, if_false]
                exact ih ys zs hab hbc

/-- An ascending list is sorted: each key is at most every later one. -/
theorem Ascending.pairwise : ∀ {l : List Str}, Ascending l →
    l.Pairwise (fun a b => strLe a b = true) := by
  intro l
  induction l with
  | nil => intro _; exact List.Pairwise.nil
  | cons a rest ih =>
    intro h
    cases rest with
    | nil => exact List.pairwise_singleton _ _
    | cons b rest1 =>
      obtain ⟨hab, hrest⟩ := h
      have hp := ih hrest
      refine List.Pairwise.cons ?_ hp
      intro c hc
      rcases List.mem_cons.mp hc with rfl | hc
      · exact hab
      · exact strLe_trans a b c hab ((List.pairwise_cons.mp hp).1 c hc)

/-- Two ascending lists with the same entries are the same list. -/
theorem ascending_unique {l1 l2 : List Str} (hp : l1.Perm l2) (h1 : Ascending l1)
    (h2 : Ascending l2) : l1 = l2 := by
  haveI : IsAntisymm Str (fun a b => strLe a b = true) := ⟨fun a b => strLe_antisymm a b⟩
  exact List.eq_of_perm_of_sorted hp h1.pairwise h2.pairwise

/-- `sort.Strings` gives the same list whatever the order of the entries. -/
theorem sortStrings_of_perm {l1 l2 : List Str} (hp : l1.Perm l2) :
    sortStrings l1 = sortStrings l2 :=
  ascending_unique (((sortStrings_perm l1).trans hp).trans (sortStrings_perm l2).symm)
    (sortStrings_ascending l1) (sortStrings_ascending l2)

theorem mapGet_of_mem : ∀ (m : List (Str × HtmlAttribute)) (k : Str) (v : HtmlAttribute),
    (m.map Prod.fst).Nodup → (k, v) ∈ m → mapGet m k = v := by
  intro m
  induction m with
  | nil => intro k v _ h; cases h
  | cons kv rest ih =>
    intro k v hnd h
    obtain ⟨k0, v0⟩ := kv
    simp only [List.map_cons, List.nodup_cons] at hnd
    simp only [mapGet]
    rcases List.mem_cons.mp h with heq | hmem
    · cases heq
      simp
    · have hne : k0 ≠ k := by
        intro he
        subst he
        exact hnd.1 (List.mem_map.mpr ⟨(k0, v), hmem, rfl⟩)
      rw [if_neg hne]
      exact ih k v hnd.2 hmem

theorem mapGet_of_not_mem : ∀ (m : List (Str × HtmlAttribute)) (k : Str),
    k ∉ m.map Prod.fst → mapGet m k = ⟨[], [], false⟩ := by
  intro m
  induction m with
  | nil => intro k _; rfl
  | cons kv rest ih =>
    intro k h
    obtain ⟨k0, v0⟩ := kv
    simp only [List.map_cons, List.mem_cons, not_or] at h
    simp only [mapGet]
    rw [if_neg (fun he => h.1 he.symm)]
    exact ih k h.2

/-- The value of a key does not depend on the order of the entries of a map. -/
theorem mapGet_perm {m1 m2 : List (Str × HtmlAttribute)} (hp : m1.Perm m2)
    (hnd : (m2.map Prod.fst).Nodup) (k : Str) : mapGet m1 k = mapGet m2 k := by
  by_cases hk : k ∈ m1.map Prod.fst
  · have h1 := mapGet_mem m1 k hk
    exact (mapGet_of_mem m2 k _ hnd (hp.subset h1)).symm
  · have hk2 : k ∉ m2.map Prod.fst := fun h => hk ((hp.map Prod.fst).symm.subset h)
    rw [mapGet_of_not_mem m1 k hk, mapGet_of_not_mem m2 k hk2]

/-- The attributes are written in the same order whatever the order in which they
were put in the map. -/
theorem sortedAttrs_perm {m1 m2 : List (Str × HtmlAttribute)} (hp : m1.Perm m2)
    (hnd : (m2.map Prod.fst).Nodup) : sortedAttrs m1 = sortedAttrs m2 := by
  unfold sortedAttrs
  rw [sortStrings_of_perm (hp.map Prod.fst)]
  exact List.map_congr_left (fun k _ => mapGet_perm hp hnd k)

/-- The attributes written are the attributes of the map. -/
theorem sortedAttrs_values (m : List (Str × HtmlAttribute)) (hnd : (m.map Prod.fst).Nodup) :
    (sortedAttrs m).Perm (m.map Prod.snd) := by
  unfold sortedAttrs
  have h1 : ((sortStrings (m.map Prod.fst)).map (mapGet m)).Perm ((m.map Prod.fst).map (mapGet m)) :=
    (sortStrings_perm _).map _
  have h2 : (m.map Prod.fst).map (mapGet m) = m.map Prod.snd := by
    rw [List.map_map]
    exact List.map_congr_left (fun kv hkv => mapGet_of_mem m kv.1 kv.2 hnd hkv)
  rw [h2] at h1
  exact h1

/-- The names of the attributes written are the keys of the map in ascending order,
when each attribute is held under its name. -/
theorem sortedAttrs_names_of_keys (m : List (Str × HtmlAttribute))
    (hname : ∀ kv ∈ m, kv.2.Name = kv.1) :
    (sortedAttrs m).map (fun a => a.Name) = sortStrings (m.map Prod.fst) := by
  unfold sortedAttrs
  rw [List.map_map]
  have : ∀ k ∈ sortStrings (m.map Prod.fst), ((fun a => a.Name) ∘ mapGet m) k = k := by
    intro k hk
    have hk1 : k ∈ m.map Prod.fst := (sortStrings_perm _).subset hk
    exact hname _ (mapGet_mem m k hk1)
  rw [List.map_congr_left this]
  simp

theorem renderTags_eq_flatten (ts : List HtmlTag) :
    renderTags ts = (ts.map renderTag).flatten := by
  induction ts with
  | nil => simp [renderTags]
  | cons t ts ih => simp [renderTags_cons, ih]

/-- What `renderTag` writes for a node. -/
theorem renderTag_format (t : HtmlTag) :
    renderTag t = "<".toList ++ t.Name ++ ((sortedAttrs t.Attributes).map renderAttr).flatten
      ++ (if t.IsSelfClosing = true then "/>".toList
          else ">".toList ++ t.InnerContent ++ (t.Children.map renderTag).flatten
            ++ "</".toList ++ t.Name ++ ">".toList) := by
  rw [renderTag_eq, renderAttrs_eq, renderTags_eq_flatten]
  split <;> simp

end HtmlParser


namespace HtmlParser

/-! The scanner is used through its lemmas only. -/

attribute [local irreducible] Scanner.cursor Scanner.rest Scanner.EOF Scanner.Current
  Scanner.PeekNext Scanner.Position Scanner.Len Scanner.Line Scanner.Column Scanner.advance
  Scanner.Take Scanner.Match Scanner.MatchString Scanner.ConsumeWhile Scanner.ConsumeUntil
  Scanner.ConsumeUntilString Scanner.SkipWhitespace Scanner.Slice Scanner.SliceFrom
  Scanner.Location

open Scanner

/-! ## Runs of the loop, whatever the number of iterations granted -/

/-- A run of the loop from the start gives the result of `ParseHtml`. -/
theorem ParseHtml_of_reaches_any {html : Str} {k : Nat} {st : ParseState}
    (h : Reaches NewHtmlParser k ⟨cursor [] html, [], [], []⟩ st) :
    ParseHtml NewHtmlParser html = parseLoop NewHtmlParser (html.length + 2) st := by
  rw [← (ParseHtml_terminates html).2 (html.length + 2 + k) (by omega), initState_eq]
  exact h (html.length + 2)

/-- White space ahead is skipped at the head of an iteration. -/
theorem cursor_SkipWhitespace_ws (pre ws r : Str) (hws : ∀ c ∈ ws, isWhitespace c = true) :
    (cursor pre (ws ++ r)).SkipWhitespace = (cursor (pre ++ ws) r).SkipWhitespace := by
  rw [cursor_SkipWhitespace, cursor_SkipWhitespace, List.takeWhile_append_of_pos hws,
    List.dropWhile_append_of_pos hws, List.append_assoc]

theorem step_skip_ws (parser : DefaultHtmlParser) (pre ws r : Str) (stk : List Str)
    (roots cur : List HtmlTag) (hws : ∀ c ∈ ws, isWhitespace c = true) :
    step parser ⟨cursor pre (ws ++ r), stk, roots, cur⟩
      = step parser ⟨cursor (pre ++ ws) r, stk, roots, cur⟩ := by
  unfold HtmlParser.step
  simp only [cursor_SkipWhitespace_ws pre ws r hws]

/-- White space before a rune makes no difference to the loop. -/
theorem parseLoop_skip_ws (parser : DefaultHtmlParser) (pre ws : Str) (x : Char) (r : Str)
    (stk : List Str) (roots cur : List HtmlTag) (hws : ∀ c ∈ ws, isWhitespace c = true)
    (fuel : Nat) :
    parseLoop parser fuel ⟨cursor pre (ws ++ x :: r), stk, roots, cur⟩
      = parseLoop parser fuel ⟨cursor (pre ++ ws) (x :: r), stk, roots, cur⟩ := by
  cases fuel with
  | zero => rfl
  | succ k =>
    unfold HtmlParser.parseLoop
    rw [step_skip_ws parser pre ws (x :: r) stk roots cur hws]
    simp

/-- The loop body at text that runs to the end of input. -/
theorem step_text_end (parser : DefaultHtmlParser) (pre : Str) (c : Char) (t : Str)
    (stk : List Str) (roots cur : List HtmlTag) (hc : isWhitespace c = false)
    (ht : ∀ x ∈ c :: t, x ≠ '<') :
    step parser ⟨cursor pre (c :: t), stk, roots, cur⟩
      = .next ⟨cursor (pre ++ c :: t) [], stk, roots,
          if TrimSpace (c :: t) ≠ [] then appendContent cur (TrimSpace (c :: t)) else cur⟩ := by
  have e1 := cursor_SkipWhitespace_none pre c t hc
  have hc1 : c ≠ '<' := ht c (List.mem_cons_self c t)
  have e2 := cursor_ConsumeUntil_end pre (c :: t) (isRune '<')
    (by intro x hx; simpa [isRune] using ht x hx)
  have e3 := cursor_SliceFrom pre (c :: t) []
  simp only [HtmlParser.step, e1, cursor_EOF, List.isEmpty_cons, Bool.false_eq_true, if_false,
    cursor_Current_cons, hc1, e2, cursor_Position, e3]

/-- Text without `<` that runs to the end of input ends the loop: the stack and the
roots stay as they are, and `current` stays nil when it is nil. -/
theorem parseLoop_trailing_text (parser : DefaultHtmlParser) (pre t : Str) (stk : List Str)
    (roots cur : List HtmlTag) (ht : ∀ x ∈ t, x ≠ '<') (fuel : Nat) :
    ∃ s1 cur1, parseLoop parser (fuel + 2) ⟨cursor pre t, stk, roots, cur⟩
        = finish ⟨s1, stk, roots, cur1⟩ ∧ (cur = [] → cur1 = []) := by
  have hsplit := List.takeWhile_append_dropWhile isWhitespace t
  have hws : ∀ c ∈ t.takeWhile isWhitespace, isWhitespace c = true :=
    fun c hc => List.mem_takeWhile_imp hc
  cases hr : t.dropWhile isWhitespace with
  | nil =>
    refine ⟨_, cur, parseLoop_at_end parser (fuel + 1) _ ?_, fun h => h⟩
    simp [cursor_SkipWhitespace, hr]
  | cons x r =>
    have hx : isWhitespace x = false := head_dropWhile t x r hr
    have hxr : ∀ y ∈ x :: r, y ≠ '<' := by
      intro y hy
      exact ht y (by rw [← hsplit, hr]; exact List.mem_append_right _ hy)
    have ht1 : t = t.takeWhile isWhitespace ++ x :: r := by rw [← hr, hsplit]
    refine ⟨cursor (pre ++ t.takeWhile isWhitespace ++ x :: r) [],
      if TrimSpace (x :: r) ≠ [] then appendContent cur (TrimSpace (x :: r)) else cur, ?_, ?_⟩
    · have h1 := parseLoop_skip_ws parser pre (t.takeWhile isWhitespace) x r stk roots cur hws
        (fuel + 2)
      rw [← ht1] at h1
      rw [h1, parseLoop_next parser (fuel + 1) _ _ (by simp)
          (step_text_end parser _ x r stk roots cur hx hxr),
        parseLoop_eof parser fuel _ (by simp)]
    · intro hcur
      subst hcur
      simp [appendContent]

/-- `ParseHtml` on `<n>text` for a plain tag name and text without `<`: the unclosed
tag error. -/
theorem ParseHtml_plain_text (n text : Str) (hn : PlainName n) (ht : ∀ x ∈ text, x ≠ '<') :
    ParseHtml NewHtmlParser ("<".toList ++ n ++ ">".toList ++ text) = .error (unclosedMsg n) := by
  have hin : "<".toList ++ n ++ ">".toList ++ text = '<' :: (n ++ '>' :: text) := by simp
  have r1 := Reaches.one (by simp) (step_open_plain [] n text [] [] [] hn)
  obtain ⟨s1, cur1, h1, -⟩ := parseLoop_trailing_text NewHtmlParser ([] ++ '<' :: (n ++ ['>']))
    text [n] [] [openNode n (lineCol []) (([] : Str).length + (n.length + 2))] ht
    (('<' :: (n ++ '>' :: text)).length)
  rw [hin, ParseHtml_of_reaches_any r1, h1]
  rfl

/-! ## A raw-text tag that is not closed -/

/-- A literal that does not occur is looked for up to the end of the text. -/
theorem beforeLit_absent (lit : Str) : ∀ body : Str, ¬ lit <:+: body →
    Scanner.beforeLit lit body = body := by
  intro body
  induction body with
  | nil => intro _; rfl
  | cons c b ih =>
    intro h
    have hnot : lit.isPrefixOf (c :: b) = false := by
      by_contra hc
      exact h (List.isPrefixOf_iff_prefix.mp (by simpa using hc)).isInfix
    simp only [Scanner.beforeLit, hnot, Bool.false_eq_true, if_false]
    rw [ih (fun hb => h (List.infix_cons hb))]

/-- `parsingOpenTag` on `<name>body` at the end of input for `style` and `script`,
when the body does not contain `</name>`. -/
theorem parsingOpenTag_raw_eof (pre name body : Str)
    (hn : name = "style".toList ∨ name = "script".toList)
    (hb : ¬ ('<' :: '/' :: name ++ ['>']) <:+: body) :
    parsingOpenTag NewHtmlParser (cursor pre ('<' :: (name ++ '>' :: body)))
      = .ok (rawNode name body (lineCol pre), cursor (pre ++ '<' :: (name ++ '>' :: body)) []) := by
  have hne : ∃ c cs, name = c :: cs ∧ isWhitespace c = false := by
    rcases hn with rfl | rfl
    · exact ⟨'s', "tyle".toList, rfl, by simp [isWhitespace]⟩
    · exact ⟨'s', "cript".toList, rfl, by simp [isWhitespace]⟩
  have hall : ∀ r ∈ name, nameRune r = true := by
    rcases hn with rfl | rfl <;> simp [nameRune, isWhitespace]
  obtain ⟨c, cs, rfl, hc⟩ := hne
  have hgt : nameRune '>' = false := by simp [nameRune]
  have e1 := cursor_SkipWhitespace_none (pre ++ ['<']) c (cs ++ '>' :: body) hc
  have e2 := cursor_ConsumeWhile_stop (pre ++ ['<']) (c :: cs) '>' body nameRune hall hgt
  have e5 := cursor_Match_cons (pre ++ ['<'] ++ c :: cs) '>' body
  have e6 := beforeLit_absent ('<' :: '/' :: c :: cs ++ ['>']) body hb
  have e7 := cursor_ConsumeUntilString (pre ++ ['<'] ++ c :: cs ++ ['>']) body
    ('<' :: '/' :: c :: cs ++ ['>'])
  rw [e6] at e7
  simp only [List.drop_length] at e7
  have e8 := cursor_MatchString_not (pre ++ ['<'] ++ c :: cs ++ ['>'] ++ body)
    ('<' :: '/' :: c :: cs ++ ['>']) [] (by simp [List.isPrefixOf])
  have e9 : (cursor (pre ++ '<' :: c :: (cs ++ '>' :: body)) []).Slice
      (pre ++ '<' :: c :: (cs ++ ['>'])).length (pre ++ '<' :: c :: (cs ++ '>' :: body)).length
      = body :=
    cursor_Slice_eq _ _ body _ _ (pre ++ '<' :: c :: (cs ++ ['>'])) [] (by simp) rfl
      (by simp; omega)
  simp only [List.cons_append, List.append_assoc, List.nil_append] at e1 e2 e5 e7 e8
  have hl1 : "</".toList = ['<', '/'] := rfl
  have hl2 : ">".toList = ['>'] := rfl
  simp only [parsingOpenTag, cursor_Match_cons, List.cons_append, List.append_assoc,
    List.nil_append, e1, e2, NewHtmlParser, hn, skipToTagEnd_at_gt, e5, hl1, hl2, e7, e8,
    cursor_Line, cursor_Column, cursor_Position, e9, Bool.not_true, Bool.false_eq_true,
    if_false, if_true, reduceCtorEq, rawNode]

/-- The loop body at `<name>body` at the end of input for `style` and `script`. -/
theorem step_raw_eof (pre name body : Str) (stk : List Str) (roots cur : List HtmlTag)
    (hn : name = "style".toList ∨ name = "script".toList)
    (hb : ¬ ('<' :: '/' :: name ++ ['>']) <:+: body) :
    step NewHtmlParser ⟨cursor pre ('<' :: (name ++ '>' :: body)), stk, roots, cur⟩
      = .next ⟨cursor (pre ++ '<' :: (name ++ '>' :: body)) [], stk,
          (attach (rawNode name body (lineCol pre)) cur roots).2,
          (attach (rawNode name body (lineCol pre)) cur roots).1⟩ := by
  have hlt : isWhitespace '<' = false := by simp [isWhitespace]
  have e1 := cursor_SkipWhitespace_none pre '<' (name ++ '>' :: body) hlt
  have e2 := comment_test_false pre ('<' :: (name ++ '>' :: body))
    (by rcases hn with rfl | rfl <;> simp [List.isPrefixOf])
  have e3 := doctype_test_false pre ('<' :: (name ++ '>' :: body))
    (by rcases hn with rfl | rfl <;> simp [List.isPrefixOf])
  have e4 := parsingOpenTag_raw_eof pre name body hn hb
  have e5 : (cursor pre ('<' :: (name ++ '>' :: body))).PeekNext ≠ '/' := by
    rcases hn with rfl | rfl <;> simp
  simp only [HtmlParser.step, e1, cursor_EOF, List.isEmpty_cons, Bool.false_eq_true, if_false,
    cursor_Current_cons, if_true, e2, e3, e5, e4, rawNode]

/-- `ParseHtml` on `<name>body` for `style` and `script`, when the body does not
contain `</name>`: no error, and one node with the body as its inner markup. -/
theorem ParseHtml_raw_eof (name body : Str)
    (hn : name = "style".toList ∨ name = "script".toList)
    (hb : ¬ ("</".toList ++ name ++ ">".toList) <:+: body) :
    ParseHtml NewHtmlParser ("<".toList ++ name ++ ">".toList ++ body)
      = .ok [{ Name := name, Attributes := [], Children := [], InnerHtml := body,
               InnerContent := [], IsSelfClosing := true, Pos := { Line := 1, Column := 1 },
               htmlStart := 0 }] := by
  have hin : "<".toList ++ name ++ ">".toList ++ body = '<' :: (name ++ '>' :: body) := by simp
  have hb1 : ¬ ('<' :: '/' :: name ++ ['>']) <:+: body := by simpa using hb
  have hrun := Reaches.one (by simp) (step_raw_eof [] name body [] [] [] hn hb1)
  rw [hin, ParseHtml_of_reaches hrun (by simp) (by simp)]
  simp [finish, ParseState.rootsView, unwind, attach, rawNode, lineCol]

end HtmlParser


namespace HtmlParser

/-! ## The statements of the contracts, put together -/

/-- The format of `renderTag` and `RenderHtml`. -/
theorem serializer_format (t : HtmlTag) (hmap : (t.Attributes.map Prod.fst).Nodup)
    (hname : ∀ kv ∈ t.Attributes, kv.2.Name = kv.1) :
    (∃ as : List HtmlAttribute, as.Perm (t.Attributes.map Prod.snd)
      ∧ Ascending (as.map (fun a => a.Name))
      ∧ renderTag t = "<".toList ++ t.Name ++ (as.map renderAttr).flatten
          ++ (if t.IsSelfClosing = true then "/>".toList
              else ">".toList ++ t.InnerContent ++ (t.Children.map renderTag).flatten
                ++ "</".toList ++ t.Name ++ ">".toList))
    ∧ (∀ a : HtmlAttribute, renderAttr a
        = if a.IsValueExist = true then
            " ".toList ++ a.Name ++ "=\"".toList ++ a.Value ++ "\"".toList
          else " ".toList ++ a.Name)
    ∧ (∀ attrs1 : List (Str × HtmlAttribute), attrs1.Perm t.Attributes →
        renderTag { t with Attributes := attrs1 } = renderTag t)
    ∧ (∀ ts : List HtmlTag, RenderHtml ts = (ts.map renderTag).flatten) := by
  refine ⟨⟨sortedAttrs t.Attributes, sortedAttrs_values _ hmap, ?_, renderTag_format t⟩,
    fun a => rfl, ?_, fun ts => renderTags_eq_flatten ts⟩
  · rw [sortedAttrs_names_of_keys _ hname]
    exact sortStrings_ascending _
  · intro attrs1 hp
    rw [renderTag_format, renderTag_format t]
    simp only [sortedAttrs_perm hp hmap]

/-- The contract of `CloneUp` for a depth that is not negative. -/
theorem CloneUp_contract (t : HtmlTag) (parents : List HtmlTag) (k : Nat) (ignore : Bool)
    (hk : t.KeysUnique) (hp : ∀ a ∈ parents, a.KeysUnique) :
    ((∃ msg, t.CloneUp parents k ignore = .error msg) ↔ (parents.length < k ∧ ignore = false))
    ∧ (parents.length < k ∧ ignore = false →
        t.CloneUp parents k ignore
          = .error ("Html tags clone up error: maxDepth ".toList ++ fmtIntZ k
              ++ " exceeds available parents".toList))
    ∧ (¬ (parents.length < k ∧ ignore = false) →
        (min k parents.length = 0 →
          ∃ c, t.CloneUp parents k ignore = .ok c ∧ CopyToDepth t 0 c)
        ∧ (1 ≤ min k parents.length →
            ∃ a c, parents[min k parents.length - 1]? = some a
              ∧ a.CloneDown (min k parents.length : Nat) = .ok c
              ∧ t.CloneUp parents k ignore = .ok c
              ∧ CopyToDepth a (min k parents.length) c
              ∧ (AncestorChain t parents →
                  ∃ tc ∈ c.level (min k parents.length), CopyToDepth t 0 tc))) := by
  obtain ⟨herr, hok⟩ := CloneUp_spec t parents k ignore
  have hok1 : ¬ (parents.length < k ∧ ignore = false) →
      ∃ c, t.CloneUp parents k ignore = .ok c := by
    intro hcase
    by_cases hd : min k parents.length = 0
    · exact ⟨_, (hok hcase).1 hd⟩
    · obtain ⟨a, -, h1, -⟩ := (hok hcase).2 (by omega)
      exact ⟨_, h1⟩
  refine ⟨⟨?_, fun h => ⟨_, herr h.1 h.2⟩⟩, fun h => herr h.1 h.2, fun hcase => ⟨?_, ?_⟩⟩
  · rintro ⟨msg, hmsg⟩
    by_contra hcase
    obtain ⟨c, hc⟩ := hok1 hcase
    rw [hc] at hmsg
    cases hmsg
  · intro hd
    exact ⟨_, (hok hcase).1 hd, clone_copyToDepth 0 t 0 0 (Int.le_refl 0) (by simp) hk⟩
  · intro hd
    obtain ⟨a, ha, h1, h2⟩ := (hok hcase).2 hd
    have hka : a.KeysUnique := hp a (List.getElem?_mem ha)
    have hcopy : CopyToDepth a (min k parents.length)
        (a.clone 0 (min k parents.length : Nat)) :=
      clone_copyToDepth _ a 0 _ (by omega) (by omega) hka
    refine ⟨a, _, ha, by rw [← h2, h1], h1, hcopy, fun hchain => ?_⟩
    obtain ⟨d, hdd⟩ : ∃ d, min k parents.length = d + 1 :=
      ⟨min k parents.length - 1, by omega⟩
    rw [hdd] at ha hcopy ⊢
    have hin := AncestorChain.inLevel parents t a d hchain (by simpa using ha)
    obtain ⟨y, hy, hty⟩ := hcopy.atLevel (d + 1) (Nat.le_refl _) t hin
    rw [Nat.sub_self] at hty
    exact ⟨y, hy, hty⟩

/-- The contract of `RemoveChild` for a parent and a child that are not nil. -/
theorem RemoveChild_contract (h : Heap) (t child : Nat) :
    (some child ∈ (h t).Children →
      (RemoveChild h (some t) (some child) t).Children = (h t).Children.erase (some child)
      ∧ (RemoveChild h (some t) (some child) t).Children.length + 1 = (h t).Children.length
      ∧ (RemoveChild h (some t) (some child) child).Parent = none
      ∧ (∀ x, x ≠ child → (RemoveChild h (some t) (some child) x).Parent = (h x).Parent)
      ∧ (∀ x, x ≠ t → (RemoveChild h (some t) (some child) x).Children = (h x).Children))
    ∧ (some child ∉ (h t).Children → RemoveChild h (some t) (some child) = h)
    ∧ (RemoveChild h (some t) (some child) t).Name = (h t).Name
    ∧ (RemoveChild h (some t) (some child) t).Attributes = (h t).Attributes
    ∧ (RemoveChild h (some t) (some child) t).InnerContent = (h t).InnerContent
    ∧ (RemoveChild h (some t) (some child) t).InnerHtml = (h t).InnerHtml := by
  rw [RemoveChild_spec]
  by_cases hmem : some child ∈ (h t).Children
  · simp only [hmem, if_true, not_true_eq_false, false_implies, true_and, forall_true_left]
    refine ⟨⟨by simp [Heap.set], ?_, ?_, ?_, ?_⟩, ?_, ?_, ?_, ?_⟩
    · simp only [Heap.set, if_true]
      rw [List.length_erase_of_mem hmem]
      have := List.length_pos_of_mem hmem
      omega
    · by_cases hct : child = t
      · simp [Heap.set, hct]
      · simp [Heap.set, hct]
    · intro x hx
      by_cases hxt : x = t
      · subst hxt
        simp [Heap.set, hx, Ne.symm hx]
      · simp [Heap.set, hx, hxt]
    · intro x hx
      by_cases hxc : x = child
      · subst hxc
        simp [Heap.set, hx]
      · simp [Heap.set, hx, hxc]
    all_goals
      by_cases hct : t = child
      · simp [Heap.set, hct]
      · simp [Heap.set, hct]
  · simp [hmem]

/-- The stack and the chain of `current` at the head of the loop. -/
theorem stack_consistency (html : Str) (k : Nat) (st : ParseState)
    (h : loopState NewHtmlParser html k = some st) :
    (st.closeStack = [] ↔ st.current = [])
    ∧ st.closeStack.reverse = st.current.reverse.map (fun c => c.Name)
    ∧ st.closeStack.head? = st.current.head?.map (fun c => c.Name)
    ∧ step NewHtmlParser st ≠ .nilDeref
    ∧ ParseHtml NewHtmlParser html ≠ .nilDeref := by
  have hinv := loopState_fillInv html k st h
  have hs := hinv.2.2.2.2
  have hwf : st.scanner.pos ≤ st.scanner.src.length := by
    rw [hinv.1]
    exact hinv.2.1
  refine ⟨?_, ?_, ?_, (step_returns hwf).2 (by rw [hs]; simp),
    parseLoop_not_nilDeref _ _ (FillInv.initial html)⟩
  · rw [hs]
    exact List.map_eq_nil_iff
  · rw [hs, List.map_reverse]
  · rw [hs]
    cases st.current <;> simp

/-- Termination by progress. -/
theorem termination_by_progress (html : Str) :
    ((∃ roots, ParseHtml NewHtmlParser html = .ok roots)
      ∨ ∃ msg, ParseHtml NewHtmlParser html = .error msg)
    ∧ (∀ fuel, html.length < fuel →
        parseLoop NewHtmlParser fuel (initState html) = ParseHtml NewHtmlParser html)
    ∧ (∀ st st1 : ParseState, st.scanner.pos ≤ st.scanner.src.length →
        step NewHtmlParser st = .next st1 →
        st.scanner.pos < st1.scanner.pos ∧ st1.scanner.pos ≤ st1.scanner.src.length
          ∧ st1.scanner.src = st.scanner.src)
    ∧ (∀ (s s1 : Scanner) (attr : HtmlAttribute), s.pos ≤ s.src.length →
        parseAttribute s = .ok (attr, s1) → s.pos < s1.pos ∧ s1.pos ≤ s1.src.length)
    ∧ (∀ s : Scanner, s.pos ≤ s.src.length → s.EOF = false →
        s.pos < s.Take.pos ∧ s.Take.pos ≤ s.Take.src.length)
    ∧ (∀ (s : Scanner) (attrs : List (Str × HtmlAttribute)), s.pos ≤ s.src.length →
        attributeLoop (s.Len + 1) s attrs ≠ .outOfFuel)
    ∧ (∀ s : Scanner, s.pos ≤ s.src.length →
        ¬ ((skipToTagEnd s.Len s).Current ≠ '>' ∧ (skipToTagEnd s.Len s).EOF = false)) := by
  refine ⟨?_, (ParseHtml_terminates html).2, ?_, ?_, ?_, ?_, ?_⟩
  · have h1 := (ParseHtml_terminates html).1
    have h2 : ParseHtml NewHtmlParser html ≠ .nilDeref :=
      parseLoop_not_nilDeref _ _ (FillInv.initial html)
    cases hres : ParseHtml NewHtmlParser html with
    | ok roots => exact Or.inl ⟨roots, rfl⟩
    | error msg => exact Or.inr ⟨msg, rfl⟩
    | nilDeref => exact absurd hres h2
    | outOfFuel => exact absurd hres h1
  · intro st st1 hwf hstep
    have hm := step_moved hwf hstep
    exact ⟨by have := hm.2.1; omega, hm.2.2.1, hm.1⟩
  · intro s s1 attr hwf hattr
    have hm := parseAttribute_moved (Scanner.MovedBy.refl hwf) hattr
    exact ⟨by have := hm.2.1; omega, hm.2.2.1⟩
  · intro s hwf he
    have hm := (Scanner.MovedBy.refl hwf).Take_of_not_EOF he
    exact ⟨by have := hm.2.1; omega, hm.2.2.1⟩
  · intro s attrs hwf
    exact (attributeLoop_returns _ s attrs hwf (by rw [Scanner.Len_eq]; omega)).1
  · intro s hwf
    exact skipToTagEnd_done _ s hwf (by rw [Scanner.Len_eq]; omega)

end HtmlParser


namespace HtmlParser

/-! The scanner is used through its lemmas only. -/

attribute [local irreducible] Scanner.cursor Scanner.rest Scanner.EOF Scanner.Current
  Scanner.PeekNext Scanner.Position Scanner.Len Scanner.Line Scanner.Column Scanner.advance
  Scanner.Take Scanner.Match Scanner.MatchString Scanner.ConsumeWhile Scanner.ConsumeUntil
  Scanner.ConsumeUntilString Scanner.SkipWhitespace Scanner.Slice Scanner.SliceFrom
  Scanner.Location

open Scanner

/-! ## Which text the loop takes for a doctype declaration -/

/-- The test `Position()+k <= Len() && Slice(Position(), Position()+k) == lit` of a
literal of `k ≥ 1` runes holds when the text ahead starts with the literal. -/
theorem literal_test_holds (s : Scanner) (lit : Str) (hne : lit ≠ []) (h : lit <+: s.rest) :
    s.Position + lit.length ≤ s.Len ∧ s.Slice s.Position (s.Position + lit.length) = lit := by
  have hl := h.length_le
  rw [Scanner.rest_length] at hl
  have hpos : 0 < lit.length := List.length_pos.mpr hne
  refine ⟨by rw [Scanner.Position_eq, Scanner.Len_eq]; omega, ?_⟩
  rw [Slice_Position]
  exact (List.prefix_iff_eq_take.mp h).symm

/-- The loop body at the literal `<!DOCTYPE`, after any white space, for any parser
and any state: the text up to and including the next `>` is consumed, the tree and the
stack stay as they are; or the error that the declaration is not closed. -/
theorem step_at_doctype (parser : DefaultHtmlParser) (st : ParseState) (tl : Str)
    (hrest : st.scanner.SkipWhitespace.rest = "<!DOCTYPE".toList ++ tl) :
    step parser st
      = if ((st.scanner.SkipWhitespace.ConsumeUntil (isRune '>')).Match '>').1 = true then
          .next { st with scanner :=
            ((st.scanner.SkipWhitespace.ConsumeUntil (isRune '>')).Match '>').2 }
        else
          .fail ("Html parsing error: unclosed DOCTYPE at ".toList
            ++ ((st.scanner.SkipWhitespace.ConsumeUntil (isRune '>')).Match '>').2.Location) := by
  have hrest1 : st.scanner.SkipWhitespace.rest = '<' :: ("!DOCTYPE".toList ++ tl) := hrest
  have e0 := EOF_of_rest_cons _ _ _ hrest1
  have e1 := Current_of_rest_cons _ _ _ hrest1
  have e2 := literal_test_fails st.scanner.SkipWhitespace "<!--".toList
    (by rw [hrest]; simp [List.isPrefixOf])
  have e3 := literal_test_holds st.scanner.SkipWhitespace "<!DOCTYPE".toList (by simp)
    (by rw [hrest]; exact List.prefix_append _ _)
  have l4 : "<!--".toList.length = 4 := rfl
  have l9 : "<!DOCTYPE".toList.length = 9 := rfl
  rw [l4] at e2
  rw [l9] at e3
  simp only [step, e0, e1, e2, e3, Bool.false_eq_true, if_false, if_true, and_self]
  cases ((st.scanner.SkipWhitespace.ConsumeUntil (isRune '>')).Match '>').1 <;> simp

/-- The loop body at a `<` that starts neither `<!--` nor the literal `<!DOCTYPE` nor
`</`, after any white space, for any parser and any state: the text is read by
`parsingOpenTag` as an opening tag, and the node it returns is attached, and becomes
the node `current` points to when it is not self-closing. -/
theorem step_at_tag (parser : DefaultHtmlParser) (st : ParseState) (tl : Str)
    (hrest : st.scanner.SkipWhitespace.rest = '<' :: tl)
    (hc : ¬ "!--".toList <+: tl) (hd : ¬ "!DOCTYPE".toList <+: tl)
    (hs : tl.head? ≠ some '/') :
    step parser st
      = match parsingOpenTag parser st.scanner.SkipWhitespace with
        | .error msg => .fail msg
        | .nilDeref => .nilDeref
        | .outOfFuel => .outOfFuel
        | .ok (tag, sc1) =>
          if tag.IsSelfClosing then
            .next { scanner := sc1, closeStack := st.closeStack,
                    roots := (attach tag st.current st.roots).2,
                    current := (attach tag st.current st.roots).1 }
          else
            .next { scanner := sc1, closeStack := tag.Name :: st.closeStack,
                    roots := st.roots, current := tag :: st.current } := by
  have e0 := EOF_of_rest_cons _ _ _ hrest
  have e1 := Current_of_rest_cons _ _ _ hrest
  have e2 := literal_test_fails st.scanner.SkipWhitespace "<!--".toList
    (by
      rw [hrest]
      cases hp : "<!--".toList.isPrefixOf ('<' :: tl) with
      | false => rfl
      | true =>
        have h1 := List.isPrefixOf_iff_prefix.mp hp
        exact absurd ((List.cons_prefix_cons.mp h1).2) hc)
  have e3 := literal_test_fails st.scanner.SkipWhitespace "<!DOCTYPE".toList
    (by
      rw [hrest]
      cases hp : "<!DOCTYPE".toList.isPrefixOf ('<' :: tl) with
      | false => rfl
      | true =>
        have h1 := List.isPrefixOf_iff_prefix.mp hp
        exact absurd ((List.cons_prefix_cons.mp h1).2) hd)
  have e4 : st.scanner.SkipWhitespace.PeekNext ≠ '/' := by
    cases tl with
    | nil =>
      have : st.scanner.SkipWhitespace.PeekNext = eofRune := by
        unfold Scanner.PeekNext
        rw [hrest]
        rfl
      rw [this]
      decide
    | cons d r =>
      rw [PeekNext_of_rest_cons _ _ _ _ hrest]
      intro hd1
      exact hs (by rw [hd1]; rfl)
  have l4 : "<!--".toList.length = 4 := rfl
  have l9 : "<!DOCTYPE".toList.length = 9 := rfl
  rw [l4] at e2
  rw [l9] at e3
  simp only [step, e0, e1, e2, e3, e4, Bool.false_eq_true, if_false, if_true]

/-- Doctype recognition is case-sensitive: the general facts. -/
theorem doctype_case_sensitive :
    (∀ (parser : DefaultHtmlParser) (st : ParseState) (tl : Str),
      st.scanner.SkipWhitespace.rest = "<!DOCTYPE".toList ++ tl →
      step parser st
        = if ((st.scanner.SkipWhitespace.ConsumeUntil (isRune '>')).Match '>').1 = true then
            .next { st with scanner :=
              ((st.scanner.SkipWhitespace.ConsumeUntil (isRune '>')).Match '>').2 }
          else
            .fail ("Html parsing error: unclosed DOCTYPE at ".toList
              ++ ((st.scanner.SkipWhitespace.ConsumeUntil (isRune '>')).Match '>').2.Location))
    ∧ (∀ (parser : DefaultHtmlParser) (st : ParseState) (tl : Str),
      st.scanner.SkipWhitespace.rest = '<' :: tl →
      ¬ "!--".toList <+: tl → ¬ "!DOCTYPE".toList <+: tl → tl.head? ≠ some '/' →
      step parser st
        = match parsingOpenTag parser st.scanner.SkipWhitespace with
          | .error msg => .fail msg
          | .nilDeref => .nilDeref
          | .outOfFuel => .outOfFuel
          | .ok (tag, sc1) =>
            if tag.IsSelfClosing then
              .next { scanner := sc1, closeStack := st.closeStack,
                      roots := (attach tag st.current st.roots).2,
                      current := (attach tag st.current st.roots).1 }
            else
              .next { scanner := sc1, closeStack := tag.Name :: st.closeStack,
                      roots := st.roots, current := tag :: st.current })
    ∧ (∀ (parser : DefaultHtmlParser) (st : ParseState) (tl : Str),
      st.scanner.SkipWhitespace.rest = "<!doctype".toList ++ tl →
      step parser st
        = match parsingOpenTag parser st.scanner.SkipWhitespace with
          | .error msg => .fail msg
          | .nilDeref => .nilDeref
          | .outOfFuel => .outOfFuel
          | .ok (tag, sc1) =>
            if tag.IsSelfClosing then
              .next { scanner := sc1, closeStack := st.closeStack,
                      roots := (attach tag st.current st.roots).2,
                      current := (attach tag st.current st.roots).1 }
            else
              .next { scanner := sc1, closeStack := tag.Name :: st.closeStack,
                      roots := st.roots, current := tag :: st.current }) := by
  refine ⟨step_at_doctype, step_at_tag, fun parser st tl hrest => ?_⟩
  refine step_at_tag parser st ("!doctype".toList ++ tl) hrest ?_ ?_ ?_
  · intro h
    have h1 := List.prefix_iff_eq_take.mp h
    simp at h1
  · intro h
    have h1 := List.prefix_iff_eq_take.mp h
    simp at h1
  · simp

end HtmlParser


namespace HtmlParser

/-! The scanner is used through its lemmas only. -/

attribute [local irreducible] Scanner.cursor Scanner.rest Scanner.EOF Scanner.Current
  Scanner.PeekNext Scanner.Position Scanner.Len Scanner.Line Scanner.Column Scanner.advance
  Scanner.Take Scanner.Match Scanner.MatchString Scanner.ConsumeWhile Scanner.ConsumeUntil
  Scanner.ConsumeUntilString Scanner.SkipWhitespace Scanner.Slice Scanner.SliceFrom
  Scanner.Location

open Scanner

/-! ## Text runs -/

theorem TrimSpace_ws_append (ws s : Str) (hws : ∀ c ∈ ws, isWhitespace c = true) :
    TrimSpace (ws ++ s) = TrimSpace s := by
  unfold TrimSpace
  rw [List.dropWhile_append_of_pos (fun c hc => isWhitespace_isSpace (hws c hc))]

theorem TrimSpace_ws (ws : Str) (hws : ∀ c ∈ ws, isWhitespace c = true) : TrimSpace ws = [] := by
  have := TrimSpace_ws_append ws [] hws
  rw [List.append_nil] at this
  rw [this]
  rfl

/-- Appending a text that may be empty to the inner text of the current node. -/
theorem addText_cons (c : HtmlTag) (ps : List HtmlTag) (x : Str) :
    (if x ≠ [] then appendContent (c :: ps) x else c :: ps)
      = { c with InnerContent := c.InnerContent ++ x } :: ps := by
  by_cases hx : x = []
  · subst hx
    cases c
    simp
  · simp [hx, appendContent]

/-- The loop at a text run that a tag follows: the run is trimmed and appended to
the inner text of the current node when it does not trim to nothing, and is dropped
when `current` is nil. -/
theorem reaches_run (pre t w : Str) (stk : List Str) (roots cur : List HtmlTag)
    (ht : ∀ x ∈ t, x ≠ '<') :
    ∃ k, Reaches NewHtmlParser k ⟨cursor pre (t ++ '<' :: w), stk, roots, cur⟩
      ⟨cursor (pre ++ t) ('<' :: w), stk, roots,
        if TrimSpace t ≠ [] then appendContent cur (TrimSpace t) else cur⟩ := by
  have hsplit := List.takeWhile_append_dropWhile isWhitespace t
  have hws : ∀ c ∈ t.takeWhile isWhitespace, isWhitespace c = true :=
    fun c hc => List.mem_takeWhile_imp hc
  cases hr : t.dropWhile isWhitespace with
  | nil =>
    have ht1 : t = t.takeWhile isWhitespace := by
      rw [hr, List.append_nil] at hsplit
      exact hsplit.symm
    have htrim : TrimSpace t = [] := by
      rw [ht1]
      exact TrimSpace_ws _ hws
    refine ⟨0, fun fuel => ?_⟩
    have h1 := parseLoop_skip_ws NewHtmlParser pre (t.takeWhile isWhitespace) '<' w stk roots cur
      hws fuel
    rw [← ht1] at h1
    simp only [htrim, ne_eq, not_true_eq_false, if_false, Nat.add_zero]
    exact h1
  | cons x r =>
    have hx : isWhitespace x = false := head_dropWhile t x r hr
    have hxr : ∀ y ∈ x :: r, y ≠ '<' := by
      intro y hy
      exact ht y (by rw [← hsplit, hr]; exact List.mem_append_right _ hy)
    have ht1 : t = t.takeWhile isWhitespace ++ x :: r := by rw [← hr, hsplit]
    have htrim : TrimSpace t = TrimSpace (x :: r) := by
      rw [ht1]
      exact TrimSpace_ws_append _ _ hws
    refine ⟨1, fun fuel => ?_⟩
    have h1 := parseLoop_skip_ws NewHtmlParser pre (t.takeWhile isWhitespace) x (r ++ '<' :: w)
      stk roots cur hws (fuel + 1)
    have h2 := parseLoop_next NewHtmlParser fuel _ _ (by simp)
      (step_text NewHtmlParser (pre ++ t.takeWhile isWhitespace) x r w stk roots cur hx hxr)
    rw [htrim]
    have e1 : t ++ '<' :: w = t.takeWhile isWhitespace ++ x :: (r ++ '<' :: w) := by
      conv_lhs => rw [ht1]
      simp
    have e2 : pre ++ t = pre ++ t.takeWhile isWhitespace ++ x :: r := by
      conv_lhs => rw [ht1]
      simp
    rw [e1, e2, h1]
    exact h2

/-! ## Documents of elements and text -/

theorem Elem.source_cons (e : Elem) (es : List Elem) :
    Elem.source (e :: es) = Elem.markup e ++ (e.tail ++ Elem.source es) := by
  cases e
  simp [Elem.source, Elem.tail]

theorem Elem.markup_eq (e : Elem) :
    Elem.markup e = '<' :: (e.name ++ '>' :: (e.lead
      ++ (Elem.source e.kids ++ '<' :: '/' :: (e.name ++ ['>'])))) := by
  cases e
  simp [Elem.markup, Elem.name, Elem.lead, Elem.kids]

/-- The markup of elements followed by a tag starts with `<`. -/
theorem Elem.source_head (es : List Elem) (rest : Str) :
    ∃ w, Elem.source es ++ '<' :: rest = '<' :: w := by
  cases es with
  | nil => exact ⟨rest, by simp [Elem.source]⟩
  | cons e es =>
    rw [Elem.source_cons, Elem.markup_eq]
    exact ⟨_, by simp only [List.cons_append]; rfl⟩

theorem Elem.elems_self (e : Elem) : e ∈ e.elems := by
  cases e
  simp [Elem.elems]

theorem Elem.elemsOfList_mem (es : List Elem) (e x : Elem) (he : e ∈ es) (hx : x ∈ e.elems) :
    x ∈ Elem.elemsOfList es := by
  induction es with
  | nil => cases he
  | cons y ys ih =>
    simp only [Elem.elemsOfList, List.mem_append]
    rcases List.mem_cons.mp he with rfl | h
    · exact Or.inl hx
    · exact Or.inr (ih h)

theorem Elem.elems_kid (e k x : Elem) (hk : k ∈ e.kids) (hx : x ∈ k.elems) : x ∈ e.elems := by
  cases e
  simp only [Elem.elems, List.mem_cons]
  exact Or.inr (Elem.elemsOfList_mem _ k x hk hx)

theorem Elem.sizeOf_kid (e k : Elem) (hk : k ∈ e.kids) : sizeOf k < sizeOf e := by
  cases e
  have := List.sizeOf_lt_of_mem hk
  simp only [Elem.mk.sizeOf_spec]
  simp only [Elem.kids] at this
  omega

theorem Elem.readAs_iff (e : Elem) (n : HtmlTag) :
    Elem.ReadAs e n ↔ n.Name = e.name ∧ n.IsSelfClosing = false
      ∧ n.InnerContent = e.innerText ∧ Elem.ReadAsList e.kids n.Children := by
  cases e
  simp [Elem.ReadAs, Elem.name, Elem.kids]

/-- The child elements of an element, each with the text run that follows it, are
read back as children of the current node, and the text runs as its inner text. -/
theorem reaches_kids (ks : List Elem)
    (hks : ∀ k ∈ ks, (∀ x ∈ k.tail, x ≠ '<')
      ∧ ∀ (pre post : Str) (stk : List Str) (roots cur : List HtmlTag),
          ∃ j n, Elem.ReadAs k n
            ∧ Reaches NewHtmlParser j ⟨cursor pre (Elem.markup k ++ post), stk, roots, cur⟩
                ⟨cursor (pre ++ Elem.markup k) post, stk, (attach n cur roots).2,
                  (attach n cur roots).1⟩) :
    ∀ (pre w : Str) (stk : List Str) (roots : List HtmlTag) (c : HtmlTag) (ps : List HtmlTag),
      ∃ j ns, Elem.ReadAsList ks ns
        ∧ Reaches NewHtmlParser j ⟨cursor pre (Elem.source ks ++ '<' :: w), stk, roots, c :: ps⟩
            ⟨cursor (pre ++ Elem.source ks) ('<' :: w), stk, roots,
              { c with Children := c.Children ++ ns,
                       InnerContent := c.InnerContent
                         ++ (ks.map (fun k => TrimSpace k.tail)).flatten } :: ps⟩ := by
  induction ks with
  | nil =>
    intro pre w stk roots c ps
    refine ⟨0, [], by simp [Elem.ReadAsList], ?_⟩
    refine (Reaches.zero NewHtmlParser ⟨cursor pre ('<' :: w), stk, roots, c :: ps⟩).congr rfl
      (by simp [Elem.source]) ?_
    cases c
    simp [Elem.source]
  | cons k ks ih =>
    intro pre w stk roots c ps
    obtain ⟨htail, hk⟩ := hks k (List.mem_cons_self k ks)
    obtain ⟨w1, hw1⟩ := Elem.source_head ks w
    obtain ⟨j1, n, hn, r1⟩ := hk pre (k.tail ++ '<' :: w1) stk roots (c :: ps)
    obtain ⟨j2, r2⟩ := reaches_run (pre ++ Elem.markup k) k.tail w1 stk roots
      ({ c with Children := c.Children ++ [n] } :: ps) htail
    rw [addText_cons] at r2
    obtain ⟨j3, ns, hns, r3⟩ := ih (fun x hx => hks x (List.mem_cons_of_mem k hx))
      (pre ++ Elem.markup k ++ k.tail) w stk roots
      { c with Children := c.Children ++ [n],
               InnerContent := c.InnerContent ++ TrimSpace k.tail } ps
    rw [hw1] at r3
    have r := (r1.trans r2).trans r3
    refine ⟨j1 + j2 + j3, n :: ns, ⟨n, ns, rfl, hn, hns⟩, r.congr rfl ?_ ?_⟩
    · rw [Elem.source_cons, ← hw1]
      simp
    · rw [Elem.source_cons]
      simp

theorem backfill_fields (c : HtmlTag) (sc : Scanner) (pos : Nat) :
    (backfill c sc pos).Name = c.Name ∧ (backfill c sc pos).IsSelfClosing = c.IsSelfClosing
      ∧ (backfill c sc pos).InnerContent = c.InnerContent
      ∧ (backfill c sc pos).Children = c.Children := by
  unfold backfill
  split <;> exact ⟨rfl, rfl, rfl, rfl⟩

/-- An element with a plain name and text runs without `<` is read back, given that
its child elements are. -/
theorem reaches_elem (e : Elem) (hname : PlainName e.name) (hlead : ∀ x ∈ e.lead, x ≠ '<')
    (hkids : ∀ (pre w : Str) (stk : List Str) (roots : List HtmlTag) (c : HtmlTag)
      (ps : List HtmlTag),
      ∃ j ns, Elem.ReadAsList e.kids ns
        ∧ Reaches NewHtmlParser j
            ⟨cursor pre (Elem.source e.kids ++ '<' :: w), stk, roots, c :: ps⟩
            ⟨cursor (pre ++ Elem.source e.kids) ('<' :: w), stk, roots,
              { c with Children := c.Children ++ ns,
                       InnerContent := c.InnerContent
                         ++ (e.kids.map (fun k => TrimSpace k.tail)).flatten } :: ps⟩)
    (pre post : Str) (stk : List Str) (roots cur : List HtmlTag) :
    ∃ j n, Elem.ReadAs e n
      ∧ Reaches NewHtmlParser j ⟨cursor pre (Elem.markup e ++ post), stk, roots, cur⟩
          ⟨cursor (pre ++ Elem.markup e) post, stk, (attach n cur roots).2,
            (attach n cur roots).1⟩ := by
  obtain ⟨w1, hw1⟩ := Elem.source_head e.kids ('/' :: (e.name ++ '>' :: post))
  -- the opening tag
  have r1 := Reaches.one (by simp) (step_open_plain pre e.name
    (e.lead ++ (Elem.source e.kids ++ '<' :: '/' :: (e.name ++ '>' :: post))) stk roots cur hname)
  -- the text run after it
  obtain ⟨j2, r2⟩ := reaches_run (pre ++ '<' :: (e.name ++ ['>'])) e.lead w1 (e.name :: stk) roots
    (openNode e.name (lineCol pre) (pre.length + (e.name.length + 2)) :: cur) hlead
  rw [addText_cons, ← hw1] at r2
  -- the children
  obtain ⟨j3, ns, hns, r3⟩ := hkids (pre ++ '<' :: (e.name ++ ['>']) ++ e.lead)
    ('/' :: (e.name ++ '>' :: post)) (e.name :: stk) roots
    { openNode e.name (lineCol pre) (pre.length + (e.name.length + 2)) with
      InnerContent := (openNode e.name (lineCol pre) (pre.length + (e.name.length + 2))).InnerContent
        ++ TrimSpace e.lead } cur
  -- the closing tag
  have r4 := Reaches.one (by simp) (step_close_match NewHtmlParser
    (pre ++ '<' :: (e.name ++ ['>']) ++ e.lead ++ Elem.source e.kids) e.name post stk roots
    { openNode e.name (lineCol pre) (pre.length + (e.name.length + 2)) with
      Children := (openNode e.name (lineCol pre) (pre.length + (e.name.length + 2))).Children ++ ns
      InnerContent := (openNode e.name (lineCol pre) (pre.length + (e.name.length + 2))).InnerContent
        ++ TrimSpace e.lead ++ (e.kids.map (fun k => TrimSpace k.tail)).flatten }
    cur hname.1 hname.closing)
  have r := ((r1.trans r2).trans r3).trans r4
  have hinit : '<' :: (e.name ++ '>' :: (e.lead
      ++ (Elem.source e.kids ++ '<' :: '/' :: (e.name ++ '>' :: post))))
      = Elem.markup e ++ post := by simp [Elem.markup_eq]
  have hpre : pre ++ '<' :: (e.name ++ ['>']) ++ e.lead ++ Elem.source e.kids
      ++ '<' :: '/' :: (e.name ++ ['>']) = pre ++ Elem.markup e := by simp [Elem.markup_eq]
  rw [hinit, hpre] at r
  refine ⟨_, _, ?_, r⟩
  rw [Elem.readAs_iff]
  obtain ⟨h1, h2, h3, h4⟩ := backfill_fields
    { openNode e.name (lineCol pre) (pre.length + (e.name.length + 2)) with
      Children := (openNode e.name (lineCol pre) (pre.length + (e.name.length + 2))).Children ++ ns
      InnerContent := (openNode e.name (lineCol pre) (pre.length + (e.name.length + 2))).InnerContent
        ++ TrimSpace e.lead ++ (e.kids.map (fun k => TrimSpace k.tail)).flatten }
    (cursor (pre ++ Elem.markup e) post)
    (pre ++ '<' :: (e.name ++ ['>']) ++ e.lead ++ Elem.source e.kids).length
  refine ⟨by rw [h1]; rfl, by rw [h2]; rfl, ?_, ?_⟩
  · rw [h3]
    simp [openNode, Elem.innerText]
  · rw [h4]
    simpa [openNode] using hns

/-- An element made of plain tag names and of text runs without `<` is read back. -/
theorem reaches_plain (e : Elem) (he : e.Plain) :
    ∀ (pre post : Str) (stk : List Str) (roots cur : List HtmlTag),
      ∃ j n, Elem.ReadAs e n
        ∧ Reaches NewHtmlParser j ⟨cursor pre (Elem.markup e ++ post), stk, roots, cur⟩
            ⟨cursor (pre ++ Elem.markup e) post, stk, (attach n cur roots).2,
              (attach n cur roots).1⟩ := by
  suffices hall : ∀ (m : Nat) (e : Elem), sizeOf e ≤ m → e.Plain →
      ∀ (pre post : Str) (stk : List Str) (roots cur : List HtmlTag),
        ∃ j n, Elem.ReadAs e n
          ∧ Reaches NewHtmlParser j ⟨cursor pre (Elem.markup e ++ post), stk, roots, cur⟩
              ⟨cursor (pre ++ Elem.markup e) post, stk, (attach n cur roots).2,
                (attach n cur roots).1⟩ from hall (sizeOf e) e (Nat.le_refl _) he
  intro m
  induction m with
  | zero =>
    intro e hsz
    cases e
    simp only [Elem.mk.sizeOf_spec] at hsz
    omega
  | succ m ih =>
    intro e hsz he pre post stk roots cur
    have hself := he e e.elems_self
    refine reaches_elem e hself.1 (fun x hx h => hself.2.1 (h ▸ hx))
      (reaches_kids e.kids (fun k hk => ⟨?_, ?_⟩)) pre post stk roots cur
    · intro x hx h
      exact (he k (Elem.elems_kid e k k hk k.elems_self)).2.2 (h ▸ hx)
    · exact ih k (by have := Elem.sizeOf_kid e k hk; omega)
        (fun x hx => he x (Elem.elems_kid e k x hk hx))

/-- The loop of `ParseHtml` at a text run and a sequence of elements, with an empty
stack: the elements are read back as roots, and the text runs between them are
dropped. -/
theorem parseLoop_document (es : List Elem) (hes : ∀ e ∈ es, e.Plain) :
    ∀ (pre t : Str) (roots : List HtmlTag), (∀ x ∈ t, x ≠ '<') →
      ∃ ns K, Elem.ReadAsList es ns
        ∧ ∀ fuel, parseLoop NewHtmlParser (fuel + K)
            ⟨cursor pre (t ++ Elem.source es), [], roots, []⟩ = .ok (roots ++ ns) := by
  induction es with
  | nil =>
    intro pre t roots ht
    refine ⟨[], 2, by simp [Elem.ReadAsList], fun fuel => ?_⟩
    obtain ⟨s1, cur1, h1, h2⟩ := parseLoop_trailing_text NewHtmlParser pre t [] roots [] ht fuel
    rw [h2 rfl] at h1
    simp only [Elem.source, List.append_nil]
    rw [h1]
    rfl
  | cons e es ih =>
    intro pre t roots ht
    obtain ⟨w, hw⟩ : ∃ w, Elem.markup e ++ (e.tail ++ Elem.source es) = '<' :: w :=
      ⟨_, by rw [Elem.markup_eq]; rfl⟩
    obtain ⟨j1, r1⟩ := reaches_run pre t w [] roots [] ht
    have hcur : (if TrimSpace t ≠ [] then appendContent [] (TrimSpace t) else [])
        = ([] : List HtmlTag) := by
      split <;> rfl
    rw [hcur, ← hw] at r1
    obtain ⟨j2, n, hn, r2⟩ := reaches_plain e (hes e (List.mem_cons_self e es)) (pre ++ t)
      (e.tail ++ Elem.source es) [] roots []
    have htail : ∀ x ∈ e.tail, x ≠ '<' := fun x hx h =>
      (hes e (List.mem_cons_self e es) e e.elems_self).2.2 (h ▸ hx)
    obtain ⟨ns, K, hns, hK⟩ := ih (fun x hx => hes x (List.mem_cons_of_mem e hx))
      (pre ++ t ++ Elem.markup e) e.tail (roots ++ [n]) htail
    refine ⟨n :: ns, K + (j1 + j2), ⟨n, ns, rfl, hn, hns⟩, fun fuel => ?_⟩
    have r := r1.trans r2
    rw [Elem.source_cons, ← Nat.add_assoc, r (fuel + K)]
    simp only [attach]
    rw [hK fuel]
    simp

/-- `ParseHtml` on a document of elements and text: the elements at the top are read
back as the roots. -/
theorem ParseHtml_document (lead : Str) (es : List Elem) (hlead : ∀ x ∈ lead, x ≠ '<')
    (hes : ∀ e ∈ es, e.Plain) :
    ∃ roots, ParseHtml NewHtmlParser (lead ++ Elem.source es) = .ok roots
      ∧ Elem.ReadAsList es roots := by
  obtain ⟨ns, K, hns, hK⟩ := parseLoop_document es hes [] lead [] hlead
  refine ⟨ns, ?_, hns⟩
  rw [← (ParseHtml_terminates (lead ++ Elem.source es)).2
    ((lead ++ Elem.source es).length + 1 + K) (by omega), initState_eq, hK]
  simp

/-! ## What an iteration does to the inner text -/

/-- With no handler registered, `parsingOpenTag` returns a node without inner text. -/
theorem parsingOpenTag_innerContent (s s1 : Scanner) (tag : HtmlTag)
    (h : parsingOpenTag NewHtmlParser s = .ok (tag, s1)) : tag.InnerContent = [] := by
  unfold parsingOpenTag at h
  simp only [NewHtmlParser] at h
  repeat' split at h
  all_goals first
    | (cases h; rfl)
    | cases h

/-- With no handler registered, an iteration of the loop that goes on to the next one
either leaves the tree as it is; or appends a text run without `<`, trimmed and not
empty, to the inner text of the node `current` points to (to nothing when `current`
is nil); or closes that node, with its inner text and children as they are; or
attaches or opens a node that has no inner text and no children. -/
theorem step_inner_text (st st1 : ParseState) (h : step NewHtmlParser st = .next st1) :
    (st1.roots = st.roots ∧ st1.current = st.current)
    ∨ (∃ x : Str, (∀ ch ∈ x, ch ≠ '<') ∧ TrimSpace x ≠ [] ∧ st1.roots = st.roots
        ∧ st1.current = appendContent st.current (TrimSpace x))
    ∨ (∃ c ps c1, st.current = c :: ps ∧ c1.Name = c.Name ∧ c1.InnerContent = c.InnerContent
        ∧ c1.Children = c.Children
        ∧ st1.roots = (attach c1 ps st.roots).2 ∧ st1.current = (attach c1 ps st.roots).1)
    ∨ (∃ tag, tag.InnerContent = [] ∧ tag.Children = []
        ∧ ((st1.roots = (attach tag st.current st.roots).2
            ∧ st1.current = (attach tag st.current st.roots).1)
          ∨ (st1.roots = st.roots ∧ st1.current = tag :: st.current))) := by
  rcases step_next_cases NewHtmlParser st st1 h with
    ⟨-, e2, e3⟩ | ⟨e, stk, c, ps, sc, pos, -, hcur, -, e2, e3⟩
    | ⟨tag, s, s1, hopen, -, -, e2, e3⟩ | ⟨tag, s, s1, hopen, -, -, e2, e3⟩
    | ⟨x, hx, hne, -, e2, e3⟩
  · exact Or.inl ⟨e2, e3⟩
  · obtain ⟨h1, -, h3, h4⟩ := backfill_fields c sc pos
    exact Or.inr (Or.inr (Or.inl ⟨c, ps, _, hcur, h1, h3, h4, e2, e3⟩))
  · exact Or.inr (Or.inr (Or.inr ⟨tag, parsingOpenTag_innerContent s s1 tag hopen,
      parsingOpenTag_children s s1 tag hopen, Or.inl ⟨e2, e3⟩⟩))
  · exact Or.inr (Or.inr (Or.inr ⟨tag, parsingOpenTag_innerContent s s1 tag hopen,
      parsingOpenTag_children s s1 tag hopen, Or.inr ⟨e2, e3⟩⟩))
  · exact Or.inr (Or.inl ⟨x, hx, hne, e2, e3⟩)

/-- The inner text of the nodes of a document of elements and text, and what an
iteration of the loop does to the inner text on any input. -/
theorem inner_text_accumulation (lead : Str) (es : List Elem)
    (hlead : ∀ x ∈ lead, x ≠ '<') (hes : ∀ e ∈ es, e.Plain) :
    (∃ roots, ParseHtml NewHtmlParser (lead ++ Elem.source es) = .ok roots
      ∧ Elem.ReadAsList es roots)
    ∧ ∀ st st1 : ParseState, step NewHtmlParser st = .next st1 →
        (st1.roots = st.roots ∧ st1.current = st.current)
        ∨ (∃ x : Str, (∀ ch ∈ x, ch ≠ '<') ∧ TrimSpace x ≠ [] ∧ st1.roots = st.roots
            ∧ st1.current = appendContent st.current (TrimSpace x))
        ∨ (∃ c ps c1, st.current = c :: ps ∧ c1.Name = c.Name
            ∧ c1.InnerContent = c.InnerContent ∧ c1.Children = c.Children
            ∧ st1.roots = (attach c1 ps st.roots).2 ∧ st1.current = (attach c1 ps st.roots).1)
        ∨ (∃ tag, tag.InnerContent = [] ∧ tag.Children = []
            ∧ ((st1.roots = (attach tag st.current st.roots).2
                ∧ st1.current = (attach tag st.current st.roots).1)
              ∨ (st1.roots = st.roots ∧ st1.current = tag :: st.current))) :=
  ⟨ParseHtml_document lead es hlead hes, step_inner_text⟩

end HtmlParser


namespace HtmlParser

/-! ## Pieces of an input -/

theorem Item.sourceList_append (a b : List Item) :
    Item.sourceList (a ++ b) = Item.sourceList a ++ Item.sourceList b := by
  induction a with
  | nil => simp [Item.sourceList]
  | cons x xs ih => simp [Item.sourceList, ih]

theorem Item.sourceList_single (it : Item) : Item.sourceList [it] = Item.source it := by
  simp [Item.sourceList]

theorem Item.directText_append (a b : List Item) :
    Item.directText (a ++ b) = Item.directText a ++ Item.directText b := by
  induction a with
  | nil => simp [Item.directText]
  | cons x xs ih => cases x <;> simp [Item.directText, ih]

/-- Pieces that follow pieces. -/
theorem Item.readAsList_append (html : Str) (a : List Item) :
    ∀ (o : Nat) (b : List Item) (ns1 ns2 : List HtmlTag), Item.ReadAsList html o a ns1 →
      Item.ReadAsList html (o + (Item.sourceList a).length) b ns2 →
      Item.ReadAsList html o (a ++ b) (ns1 ++ ns2) := by
  induction a with
  | nil =>
    intro o b ns1 ns2 h1 h2
    simp only [Item.ReadAsList] at h1
    subst h1
    simpa [Item.sourceList] using h2
  | cons x xs ih =>
    intro o b ns1 ns2 h1 h2
    have e : o + (Item.source x).length + (Item.sourceList xs).length
        = o + (Item.sourceList (x :: xs)).length := by
      simp only [Item.sourceList, List.length_append]
      omega
    rw [← e] at h2
    cases x with
    | text t =>
      simp only [List.cons_append, Item.ReadAsList] at h1 ⊢
      exact ⟨h1.1, ih _ b ns1 ns2 h1.2 h2⟩
    | markup m =>
      simp only [List.cons_append, Item.ReadAsList] at h1 ⊢
      exact ⟨h1.1, ih _ b ns1 ns2 h1.2 h2⟩
    | leaf m =>
      simp only [List.cons_append, Item.ReadAsList] at h1 ⊢
      obtain ⟨n, ns, rfl, hn, hrest⟩ := h1
      exact ⟨n, ns ++ ns2, rfl, hn, ih _ b ns ns2 hrest h2⟩
    | elem o1 c cl =>
      simp only [List.cons_append, Item.ReadAsList] at h1 ⊢
      obtain ⟨n, ns, rfl, hn, hrest⟩ := h1
      exact ⟨n, ns ++ ns2, rfl, hn, ih _ b ns ns2 hrest h2⟩

/-- A piece that makes a node, on its own. -/
theorem Item.readAsList_node (html : Str) (o : Nat) (it : Item) (n : HtmlTag)
    (hit : Item.ReadAs html o it n) : Item.ReadAsList html o [it] [n] := by
  cases it with
  | text t => simp [Item.ReadAs] at hit
  | markup m => simp [Item.ReadAs] at hit
  | leaf m =>
    simp only [Item.ReadAsList]
    exact ⟨n, [], rfl, hit, rfl⟩
  | elem o1 c cl =>
    simp only [Item.ReadAsList]
    exact ⟨n, [], rfl, hit, rfl⟩

theorem Item.directText_node (html : Str) (o : Nat) (it : Item) (n : HtmlTag)
    (hit : Item.ReadAs html o it n) : Item.directText [it] = [] := by
  cases it with
  | text t => simp [Item.ReadAs] at hit
  | markup m => simp [Item.ReadAs] at hit
  | leaf m => simp [Item.directText]
  | elem o1 c cl => simp [Item.directText]

/-! ## The pieces read so far -/

theorem ghostSource_nil (top : List Item) : ghostSource top [] = Item.sourceList top := by
  simp [ghostSource]

theorem ghostSource_cons (f : Str × List Item) (fs : List (Str × List Item))
    (top : List Item) :
    ghostSource top (f :: fs) = ghostSource top fs ++ (f.1 ++ Item.sourceList f.2) := by
  simp [ghostSource]

theorem ghostSource_push (it : Item) (top : List Item) (frames : List (Str × List Item)) :
    ghostSource (pushItem it top frames).1 (pushItem it top frames).2
      = ghostSource top frames ++ Item.source it := by
  cases frames with
  | nil => simp [pushItem, ghostSource, Item.sourceList_append, Item.sourceList_single]
  | cons f fs =>
    simp [pushItem, ghostSource, Item.sourceList_append, Item.sourceList_single]

theorem ghostSource_open (o : Str) (top : List Item) (frames : List (Str × List Item)) :
    ghostSource top ((o, []) :: frames) = ghostSource top frames ++ o := by
  simp [ghostSource, Item.sourceList]

theorem ghostSource_close (f : Str × List Item) (fs : List (Str × List Item)) (top : List Item)
    (closing : Str) :
    ghostSource (pushItem (.elem f.1 f.2 closing) top fs).1
        (pushItem (.elem f.1 f.2 closing) top fs).2
      = ghostSource top (f :: fs) ++ closing := by
  rw [ghostSource_push]
  simp [ghostSource, Item.source]

/-- What follows a prefix of the first `b` runes is at the offset where the prefix
ends. -/
theorem prefix_drop_of_take (html p q : Str) (b : Nat) (h : html.take b = p ++ q) :
    q <+: html.drop p.length := by
  have e := List.take_append_drop b html
  rw [h, List.append_assoc] at e
  have e1 := congrArg (List.drop p.length) e
  rw [List.drop_left] at e1
  rw [← e1]
  exact List.prefix_append _ _

/-! ## The pieces and the tree -/

/-- Adding a piece to the content of the innermost open element keeps the chain. -/
theorem FramesOk.push {html : Str} {top : List Item} {f : Str × List Item}
    {fs : List (Str × List Item)} {c : HtmlTag} {ps : List HtmlTag} (it : Item)
    (newkids : List HtmlTag) (c1 : HtmlTag)
    (h3 : FramesOk html top (f :: fs) (c :: ps))
    (hit : Item.ReadAsList html (ghostSource top (f :: fs)).length [it] newkids)
    (hc1 : c1 = { c with InnerContent := c.InnerContent ++ Item.directText [it],
                         Children := c.Children ++ newkids }) :
    FramesOk html top ((f.1, f.2 ++ [it]) :: fs) (c1 :: ps) := by
  simp only [FramesOk] at h3
  obtain ⟨c0, ps0, n0, kids, heq, hts, hopen, hsc, hrd, hc, hrest⟩ := h3
  cases heq
  rw [ghostSource_cons, List.length_append, List.length_append, ← Nat.add_assoc] at hit
  simp only [FramesOk]
  refine ⟨c1, ps, n0, kids ++ newkids, rfl, hts, hopen, hsc,
    Item.readAsList_append html f.2 _ [it] kids newkids hrd hit, ?_, hrest⟩
  rw [hc1, hc, Item.directText_append]

/-- A text run is read: it is added to the pieces, and, trimmed, to the inner text
of the node `current` points to. -/
theorem ghost_text (html : Str) (t : Str) (top : List Item)
    (frames : List (Str × List Item)) (roots cur : List HtmlTag)
    (ht : TextRunAt html (ghostSource top frames).length t)
    (h2 : Item.ReadAsList html 0 top roots) (h3 : FramesOk html top frames cur) :
    Item.ReadAsList html 0 (pushItem (.text t) top frames).1 roots
      ∧ FramesOk html (pushItem (.text t) top frames).1 (pushItem (.text t) top frames).2
          (if TrimSpace t ≠ [] then appendContent cur (TrimSpace t) else cur) := by
  have hit : Item.ReadAsList html (ghostSource top frames).length [.text t] [] := by
    simp only [Item.ReadAsList]
    exact ⟨ht, trivial⟩
  cases frames with
  | nil =>
    simp only [FramesOk] at h3
    subst h3
    rw [ghostSource_nil] at hit
    refine ⟨?_, ?_⟩
    · have := Item.readAsList_append html top 0 [.text t] roots [] h2 (by simpa using hit)
      simpa [pushItem] using this
    · simp only [pushItem, FramesOk]
      split <;> rfl
  | cons f fs =>
    have h3c := h3
    simp only [FramesOk] at h3
    obtain ⟨c, ps, n0, kids, rfl, -⟩ := h3
    refine ⟨h2, ?_⟩
    rw [addText_cons]
    simp only [pushItem]
    exact FramesOk.push (.text t) [] _ h3c hit (by simp [Item.directText])

/-- A comment or a doctype declaration is read: it is added to the pieces, and the
tree stays as it is. -/
theorem ghost_markup (html : Str) (m : Str) (top : List Item)
    (frames : List (Str × List Item)) (roots cur : List HtmlTag)
    (hm : DeclAt html (ghostSource top frames).length m)
    (h2 : Item.ReadAsList html 0 top roots) (h3 : FramesOk html top frames cur) :
    Item.ReadAsList html 0 (pushItem (.markup m) top frames).1 roots
      ∧ FramesOk html (pushItem (.markup m) top frames).1 (pushItem (.markup m) top frames).2
          cur := by
  have hit : Item.ReadAsList html (ghostSource top frames).length [.markup m] [] := by
    simp only [Item.ReadAsList]
    exact ⟨hm, trivial⟩
  cases frames with
  | nil =>
    simp only [FramesOk] at h3
    subst h3
    rw [ghostSource_nil] at hit
    refine ⟨?_, by simp [pushItem, FramesOk]⟩
    have := Item.readAsList_append html top 0 [.markup m] roots [] h2 (by simpa using hit)
    simpa [pushItem] using this
  | cons f fs =>
    have h3c := h3
    simp only [FramesOk] at h3
    obtain ⟨c, ps, n0, kids, rfl, -⟩ := h3
    refine ⟨h2, ?_⟩
    simp only [pushItem]
    exact FramesOk.push (.markup m) [] c h3c hit (by cases c; simp [Item.directText])

/-- A piece that makes a node is read: the node is attached. -/
theorem ghost_node (html : Str) (it : Item) (n : HtmlTag) (top : List Item)
    (frames : List (Str × List Item)) (roots cur : List HtmlTag)
    (hn : Item.ReadAs html (ghostSource top frames).length it n)
    (h2 : Item.ReadAsList html 0 top roots) (h3 : FramesOk html top frames cur) :
    Item.ReadAsList html 0 (pushItem it top frames).1 (attach n cur roots).2
      ∧ FramesOk html (pushItem it top frames).1 (pushItem it top frames).2
          (attach n cur roots).1 := by
  have hit := Item.readAsList_node html _ it n hn
  have hdt := Item.directText_node html _ it n hn
  cases frames with
  | nil =>
    simp only [FramesOk] at h3
    subst h3
    rw [ghostSource_nil] at hit
    refine ⟨?_, by simp [pushItem, attach, FramesOk]⟩
    have := Item.readAsList_append html top 0 [it] roots [n] h2 (by simpa using hit)
    simpa [pushItem, attach] using this
  | cons f fs =>
    have h3c := h3
    simp only [FramesOk] at h3
    obtain ⟨c, ps, n0, kids, rfl, -⟩ := h3
    refine ⟨h2, ?_⟩
    simp only [pushItem, attach]
    exact FramesOk.push it [n] _ h3c hit (by cases c; simp [hdt])

/-- An opening tag is read: its node is the new head of the chain of `current`. -/
theorem ghost_open (html : Str) (o : Str) (tag : HtmlTag) (top : List Item)
    (frames : List (Str × List Item)) (cur : List HtmlTag)
    (hts : TagStartAt html (ghostSource top frames).length)
    (hopen : parsingOpenTag NewHtmlParser (Scanner.atOffset html (ghostSource top frames).length)
      = .ok (tag, Scanner.atOffset html ((ghostSource top frames).length + o.length)))
    (hsc : tag.IsSelfClosing = false) (htxt : tag.InnerContent = []) (hch : tag.Children = [])
    (h3 : FramesOk html top frames cur) :
    FramesOk html top ((o, []) :: frames) (tag :: cur) := by
  simp only [FramesOk]
  refine ⟨tag, cur, tag, [], rfl, hts, hopen, hsc, by simp [Item.ReadAsList], ?_, h3⟩
  cases tag
  simp only [Item.directText] at htxt hch ⊢
  simp_all

/-- A closing tag is read: the element is complete, and the node that leaves the
chain of `current` is the element read back. -/
theorem ghost_close (html : Str) (top : List Item) (f : Str × List Item)
    (fs : List (Str × List Item)) (c c1 : HtmlTag) (ps : List HtmlTag) (closing : Str)
    (h3 : FramesOk html top (f :: fs) (c :: ps))
    (hpre : (f.1 ++ Item.sourceList f.2 ++ closing) <+: html.drop (ghostSource top fs).length)
    (hclose : parseClosingTag (Scanner.atOffset html (ghostSource top (f :: fs)).length)
      = .ok (c.Name, Scanner.atOffset html ((ghostSource top (f :: fs)).length + closing.length)))
    (hc1 : c1 = { c with InnerHtml := TrimSpace (Item.sourceList f.2) }) :
    Item.ReadAs html (ghostSource top fs).length (.elem f.1 f.2 closing) c1
      ∧ FramesOk html top fs ps := by
  simp only [FramesOk] at h3
  obtain ⟨c0, ps0, n0, kids, heq, hts, hopen, hsc, hrd, hc, hrest⟩ := h3
  cases heq
  refine ⟨?_, hrest⟩
  simp only [Item.ReadAs]
  rw [ghostSource_cons, List.length_append, List.length_append, ← Nat.add_assoc] at hclose
  refine ⟨hts, hpre, n0, kids, hopen, hsc, hrd, ?_, ?_⟩
  · rw [hc] at hclose
    exact hclose
  · rw [hc1, hc]

end HtmlParser


namespace HtmlParser

open Scanner

/-! ## What the scanner has moved over -/

theorem take_between (src : Str) (a b : Nat) (h : a ≤ b) :
    src.take b = src.take a ++ between src a b := by
  obtain ⟨k, rfl⟩ : ∃ k, b = a + k := ⟨b - a, by omega⟩
  simp [between, List.take_add]

theorem between_split (src : Str) (a m b : Nat) (h1 : a ≤ m) (h2 : m ≤ b) :
    between src a b = between src a m ++ between src m b := by
  have e1 := take_between src a b (by omega)
  have e2 := take_between src a m h1
  have e3 := take_between src m b h2
  rw [e3, e2, List.append_assoc] at e1
  exact (List.append_cancel_left e1).symm

theorem between_head (src : Str) (a b : Nat) (c : Char) (h : (src.drop a).head? = some c)
    (hab : a < b) : (between src a b).head? = some c := by
  unfold between
  cases hd : src.drop a with
  | nil => simp [hd] at h
  | cons x xs =>
    obtain ⟨k, hk⟩ : ∃ k, b - a = k + 1 := ⟨b - a - 1, by omega⟩
    rw [hd] at h
    simpa [hk] using h

theorem between_head2 (src : Str) (a b : Nat) (c1 c2 : Char) (tl : Str)
    (h : src.drop a = c1 :: c2 :: tl) (hab : a + 2 ≤ b) : [c1, c2] <+: between src a b := by
  unfold between
  obtain ⟨k, hk⟩ : ∃ k, b - a = k + 2 := ⟨b - a - 2, by omega⟩
  rw [h, hk]
  exact ⟨tl.take k, by simp⟩

theorem between_nonempty (src : Str) (a b : Nat) (hab : a < b) (hb : b ≤ src.length) :
    between src a b ≠ [] := by
  unfold between
  intro h
  have := congrArg List.length h
  simp at this
  omega

/-- What an `advance` over a run found at the cursor moves over. -/
theorem Scanner.between_advance (s : Scanner) (run : Str) (h : run <+: s.rest) :
    between s.src s.pos (s.advance run).pos = run := by
  unfold between
  have : (s.advance run).pos - s.pos = run.length := by simp [Scanner.advance]
  rw [this]
  exact (List.prefix_iff_eq_take.mp h).symm

theorem Scanner.between_SkipWhitespace (s : Scanner) :
    between s.src s.pos s.SkipWhitespace.pos = s.rest.takeWhile isWhitespace :=
  Scanner.between_advance s _ (List.takeWhile_prefix _)

theorem Scanner.between_ConsumeUntil (s : Scanner) (p : Char → Bool) :
    between s.src s.pos (s.ConsumeUntil p).pos = s.rest.takeWhile (fun r => !p r) :=
  Scanner.between_advance s _ (List.takeWhile_prefix _)

/-- The rune at the cursor, when the input has not ended. -/
theorem Scanner.head_of_Current {s : Scanner} (he : s.EOF = false) :
    (s.src.drop s.pos).head? = some s.Current := by
  unfold Scanner.EOF at he
  unfold Scanner.Current
  rw [← Scanner.rest_eq]
  cases hr : s.rest with
  | nil => simp [hr] at he
  | cons c cs => simp

/-- After `ConsumeUntil` the scanner is at a rune that satisfies the predicate, or at
the end of the input. -/
theorem Scanner.head_ConsumeUntil (s : Scanner) (p : Char → Bool) (c : Char)
    (h : (s.src.drop (s.ConsumeUntil p).pos).head? = some c) : p c = true := by
  have e : (s.ConsumeUntil p).rest = s.rest.dropWhile (fun r => !p r) :=
    Scanner.rest_advance_takeWhile s _
  have e1 : (s.ConsumeUntil p).src = s.src := rfl
  rw [Scanner.rest_eq, e1] at e
  rw [e] at h
  cases hd : s.rest.dropWhile (fun r => !p r) with
  | nil => simp [hd] at h
  | cons x xs =>
    rw [hd] at h
    simp only [List.head?_cons, Option.some.injEq] at h
    subst h
    have := List.head_dropWhile_not (fun r => !p r) s.rest (by simp [hd])
    simpa [hd] using this

/-- After `SkipWhitespace` at the end of the input, what was left is white space. -/
theorem Scanner.rest_ws_of_EOF (s : Scanner) (h : s.SkipWhitespace.EOF = true) :
    ∀ c ∈ s.src.drop s.pos, isWhitespace c = true := by
  have e : s.SkipWhitespace.rest = s.rest.dropWhile isWhitespace := Scanner.rest_SkipWhitespace s
  have h1 : s.rest.dropWhile isWhitespace = [] := by
    simpa [Scanner.EOF, e] using h
  rw [← Scanner.rest_eq]
  intro c hc
  have h2 := List.takeWhile_append_dropWhile isWhitespace s.rest
  rw [h1, List.append_nil] at h2
  rw [← h2] at hc
  exact List.mem_takeWhile_imp hc

theorem between_length (src : Str) (a b : Nat) (hab : a ≤ b) (hb : b ≤ src.length) :
    (between src a b).length = b - a := by
  unfold between
  rw [List.length_take, List.length_drop]
  omega

/-- The last of the runes at the offsets `a ≤ i < b` is the rune at `b - 1`. -/
theorem between_getLast (src : Str) (a b : Nat) (c : Char)
    (h : (src.drop (b - 1)).head? = some c) (hab : a < b) (hb : b ≤ src.length) :
    (between src a b).getLast? = some c := by
  have hl := between_length src a b (by omega) hb
  rw [List.getLast?_eq_getElem?, hl]
  unfold between
  rw [List.getElem?_take_of_lt (by omega), List.getElem?_drop]
  rw [List.head?_drop] at h
  have e2 : a + (b - a - 1) = b - 1 := by omega
  rw [e2]
  exact h

/-- The runes after a prefix `p` of the first `b` runes. -/
theorem between_of_take (html p q : Str) (b : Nat) (h : html.take b = p ++ q) :
    between html p.length b = q := by
  unfold between
  rw [← List.drop_take, h, List.drop_left]

theorem between_prefix (src : Str) (a b : Nat) : between src a b <+: src.drop a :=
  List.take_prefix _ _

/-- The runes at the cursor when the input has not ended. -/
theorem Scanner.drop_of_Current {s : Scanner} (he : s.EOF = false) :
    ∃ tl, s.src.drop s.pos = s.Current :: tl := by
  unfold Scanner.EOF at he
  unfold Scanner.Current
  rw [← Scanner.rest_eq]
  cases hr : s.rest with
  | nil => simp [hr] at he
  | cons c cs => exact ⟨cs, rfl⟩

theorem Scanner.head_of_PeekNext {s : Scanner} {c : Char} {tl : Str}
    (h : s.src.drop s.pos = c :: tl) (hp : s.PeekNext ≠ '/') : tl.head? ≠ some '/' := by
  unfold Scanner.PeekNext at hp
  rw [Scanner.rest_eq, h] at hp
  cases tl with
  | nil => simp
  | cons d r =>
    simp only [List.drop_succ_cons, List.drop_zero, List.headD_cons] at hp
    simpa using hp

/-- The text of a comment: what `ConsumeUntilString` and `MatchString` move over. -/
theorem Scanner.between_literal (s : Scanner) (lit : Str)
    (hm : ((s.ConsumeUntilString lit).MatchString lit).1 = true) :
    between s.src s.pos ((s.ConsumeUntilString lit).MatchString lit).2.pos
      = Scanner.beforeLit lit s.rest ++ lit := by
  have hr : (s.ConsumeUntilString lit).rest = s.rest.drop (Scanner.beforeLit lit s.rest).length :=
    Scanner.rest_advance s _
  unfold Scanner.MatchString at hm ⊢
  by_cases hp : lit.isPrefixOf (s.ConsumeUntilString lit).rest = true
  · simp only [hp, if_true]
    have hpre := List.isPrefixOf_iff_prefix.mp hp
    rw [hr] at hpre
    obtain ⟨x, hx⟩ := hpre
    have hb := beforeLit_initial lit s.rest
    have e : s.rest = Scanner.beforeLit lit s.rest ++ (lit ++ x) := by
      conv_lhs => rw [← List.take_append_drop (Scanner.beforeLit lit s.rest).length s.rest]
      rw [← hx, ← List.prefix_iff_eq_take.mp hb]
    unfold between
    have hpos : (Scanner.advance (s.ConsumeUntilString lit) lit).pos - s.pos
        = (Scanner.beforeLit lit s.rest ++ lit).length := by
      simp [Scanner.advance, Scanner.ConsumeUntilString]
      omega
    rw [hpos, ← Scanner.rest_eq]
    have key := List.take_left (Scanner.beforeLit lit s.rest ++ lit) x
    rw [List.append_assoc, ← e] at key
    exact key
  · simp [hp] at hm

/-- The text of a doctype declaration: what `ConsumeUntil` and `Match` move over. -/
theorem Scanner.between_until (s : Scanner) (p : Char → Bool) (ch : Char)
    (hm : ((s.ConsumeUntil p).Match ch).1 = true) :
    between s.src s.pos ((s.ConsumeUntil p).Match ch).2.pos
      = s.rest.takeWhile (fun r => !p r) ++ [ch] := by
  have hr : (s.ConsumeUntil p).rest = s.rest.dropWhile (fun r => !p r) :=
    Scanner.rest_advance_takeWhile s _
  unfold Scanner.Match at hm ⊢
  cases hd : (s.ConsumeUntil p).rest with
  | nil => simp [hd] at hm
  | cons c cs =>
    by_cases hc : c = ch
    · subst hc
      simp only [hd, if_true]
      rw [hr] at hd
      have e : s.rest = s.rest.takeWhile (fun r => !p r) ++ (c :: cs) := by
        conv_lhs => rw [← List.takeWhile_append_dropWhile (fun r => !p r) s.rest]
        rw [hd]
      unfold between
      have hpos : (Scanner.advance (s.ConsumeUntil p) [c]).pos - s.pos
          = (s.rest.takeWhile (fun r => !p r) ++ [c]).length := by
        simp [Scanner.advance, Scanner.ConsumeUntil]
        omega
      rw [hpos, ← Scanner.rest_eq]
      have key := List.take_left (s.rest.takeWhile (fun r => !p r) ++ [c]) cs
      have e2 : (s.rest.takeWhile (fun r => !p r) ++ [c]) ++ cs
          = s.rest.takeWhile (fun r => !p r) ++ c :: cs := by simp
      rw [e2, ← e] at key
      exact key
    · simp [hd, hc] at hm

/-- A run of runes that satisfy a predicate, followed by one that does not or by
nothing, is what `takeWhile` gives. -/
theorem takeWhile_run (p : Char → Bool) (a b : Str) (ha : ∀ c ∈ a, p c = true)
    (hb : ∀ c, b.head? = some c → p c = false) : (a ++ b).takeWhile p = a := by
  rw [List.takeWhile_append_of_pos ha]
  cases b with
  | nil => simp
  | cons x xs =>
    have := hb x rfl
    simp [List.takeWhile_cons, this]

end HtmlParser


namespace HtmlParser

/-! The scanner is used through its lemmas only. -/

attribute [local irreducible] Scanner.cursor Scanner.rest Scanner.EOF Scanner.Current
  Scanner.PeekNext Scanner.Position Scanner.Len Scanner.Line Scanner.Column Scanner.advance
  Scanner.Take Scanner.Match Scanner.MatchString Scanner.ConsumeWhile Scanner.ConsumeUntil
  Scanner.ConsumeUntilString Scanner.SkipWhitespace Scanner.Slice Scanner.SliceFrom
  Scanner.Location

open Scanner

/-! ## What an iteration reads, and what it does to the tree -/

/-- The test of a literal at the cursor holds only when the text ahead starts with
the literal. -/
theorem prefix_of_literal_test (s : Scanner) (lit : Str)
    (h : s.Position + lit.length ≤ s.Len ∧ s.Slice s.Position (s.Position + lit.length) = lit) :
    lit <+: s.src.drop s.pos := by
  rw [← Scanner.rest_eq]
  cases hp : lit.isPrefixOf s.rest with
  | true => exact List.isPrefixOf_iff_prefix.mp hp
  | false => exact absurd h (literal_test_fails s lit hp)

/-- A `<` at which none of the tests for a comment, a doctype declaration and a
closing tag holds starts a tag. -/
theorem tagStart_of_tests (s : Scanner) (he : s.EOF = false) (hcur : s.Current = '<')
    (h4 : ¬ (s.Position + 4 ≤ s.Len ∧ s.Slice s.Position (s.Position + 4) = "<!--".toList))
    (h9 : ¬ (s.Position + 9 ≤ s.Len
      ∧ s.Slice s.Position (s.Position + 9) = "<!DOCTYPE".toList))
    (hp : s.PeekNext ≠ '/') : TagStartAt s.src s.pos := by
  obtain ⟨tl, htl⟩ := Scanner.drop_of_Current he
  rw [hcur] at htl
  refine ⟨tl, htl, ?_, ?_, Scanner.head_of_PeekNext htl hp⟩
  · intro hpre
    apply h4
    have := literal_test_holds s "<!--".toList (by simp)
      (by rw [Scanner.rest_eq, htl]; exact List.cons_prefix_cons.mpr ⟨rfl, hpre⟩)
    exact this
  · intro hpre
    apply h9
    have := literal_test_holds s "<!DOCTYPE".toList (by simp)
      (by rw [Scanner.rest_eq, htl]; exact List.cons_prefix_cons.mpr ⟨rfl, hpre⟩)
    exact this

/-- With no handler registered, an iteration of the loop that goes on to the next one
moves over white space and then over: a comment or a doctype declaration, and the tree
stays as it is; or a closing tag, read by `parseClosingTag`, and the node `current`
points to is back-filled and closed; or a tag, read by `parsingOpenTag`, whose node is
self-closing and is attached; or an opening tag, read by `parsingOpenTag`, whose node
is not self-closing and becomes the node `current` points to; or the text up to the
next `<` or the end of the input, which is trimmed and, when not empty, appended to the
inner text of the node `current` points to. -/
theorem step_pieces {st st1 : ParseState} (hwf : st.scanner.pos ≤ st.scanner.src.length)
    (h : step NewHtmlParser st = .next st1) :
    ((st.scanner.src.drop st.scanner.SkipWhitespace.pos).head? = some '<'
      ∧ ((DeclAt st.scanner.src st.scanner.SkipWhitespace.pos
            (between st.scanner.src st.scanner.SkipWhitespace.pos st1.scanner.pos)
          ∧ st1.roots = st.roots ∧ st1.current = st.current)
        ∨ (∃ c ps name, st.current = c :: ps ∧ st.closeStack.head? = some name
            ∧ parseClosingTag st.scanner.SkipWhitespace = .ok (name, st1.scanner)
            ∧ st1.roots
              = (attach (backfill c st1.scanner st.scanner.SkipWhitespace.pos) ps st.roots).2
            ∧ st1.current
              = (attach (backfill c st1.scanner st.scanner.SkipWhitespace.pos) ps st.roots).1)
        ∨ (TagStartAt st.scanner.src st.scanner.SkipWhitespace.pos
            ∧ ∃ tag, parsingOpenTag NewHtmlParser st.scanner.SkipWhitespace
                = .ok (tag, st1.scanner)
              ∧ tag.IsSelfClosing = true
              ∧ st1.roots = (attach tag st.current st.roots).2
              ∧ st1.current = (attach tag st.current st.roots).1)
        ∨ (TagStartAt st.scanner.src st.scanner.SkipWhitespace.pos
            ∧ ∃ tag, parsingOpenTag NewHtmlParser st.scanner.SkipWhitespace
                = .ok (tag, st1.scanner)
              ∧ tag.IsSelfClosing = false
              ∧ st1.roots = st.roots ∧ st1.current = tag :: st.current)))
    ∨ (between st.scanner.src st.scanner.SkipWhitespace.pos st1.scanner.pos
          = (st.scanner.src.drop st.scanner.SkipWhitespace.pos).takeWhile
              (fun r => !isRune '<' r)
        ∧ st.scanner.SkipWhitespace.pos < st1.scanner.pos
        ∧ st1.roots = st.roots
        ∧ st1.current
          = if TrimSpace (between st.scanner.src st.scanner.SkipWhitespace.pos
                st1.scanner.pos) ≠ [] then
              appendContent st.current
                (TrimSpace (between st.scanner.src st.scanner.SkipWhitespace.pos
                  st1.scanner.pos))
            else st.current) := by
  have m0 := (Scanner.MovedBy.refl hwf).SkipWhitespace
  have hsrc := m0.1
  have r0 := Scanner.MovedBy.refl m0.2.2.1
  unfold HtmlParser.step at h
  simp only at h
  split at h
  · cases h
  rename_i heof
  have heof1 : st.scanner.SkipWhitespace.EOF = false := by simpa using heof
  have hhd : st.scanner.SkipWhitespace.Current = '<' →
      (st.scanner.src.drop st.scanner.SkipWhitespace.pos).head? = some '<' := by
    intro hc
    have := Scanner.head_of_Current heof1
    rwa [hc, hsrc] at this
  split at h
  · rename_i hcur
    refine Or.inl ⟨hhd hcur, ?_⟩
    split at h
    · rename_i h4
      split at h
      · cases h
      · rename_i hm
        cases h
        have hm1 : ((st.scanner.SkipWhitespace.ConsumeUntilString "-->".toList).MatchString
            "-->".toList).1 = true := by simpa using hm
        have hb := Scanner.between_literal st.scanner.SkipWhitespace "-->".toList hm1
        have hp := prefix_of_literal_test st.scanner.SkipWhitespace "<!--".toList h4
        rw [hsrc] at hb hp
        rw [Scanner.rest_eq, hsrc] at hb
        refine Or.inl ⟨⟨?_, Or.inl ⟨hp, hb⟩⟩, rfl, rfl⟩
        exact between_prefix _ _ _
    rename_i h4
    split at h
    · rename_i h9
      split at h
      · cases h
      · rename_i hm
        cases h
        have hm1 : ((st.scanner.SkipWhitespace.ConsumeUntil (isRune '>')).Match '>').1
            = true := by simpa using hm
        have hb := Scanner.between_until st.scanner.SkipWhitespace (isRune '>') '>' hm1
        have hp := prefix_of_literal_test st.scanner.SkipWhitespace "<!DOCTYPE".toList h9
        rw [hsrc] at hb hp
        rw [Scanner.rest_eq, hsrc] at hb
        refine Or.inl ⟨⟨?_, Or.inr ⟨hp, hb⟩⟩, rfl, rfl⟩
        exact between_prefix _ _ _
    rename_i h9
    split at h
    · rename_i hpeek
      split at h
      · cases h
      · split at h
        · cases h
        · cases h
        · cases h
        · rename_i name sc1 hclose
          split at h
          · cases h
          · rename_i expected stack hstk
            split at h
            · cases h
            · rename_i hne
              split at h
              · cases h
              · rename_i c ps hcurr
                cases h
                have hname : expected = name := by simpa using hne
                refine Or.inr (Or.inl ⟨c, ps, name, hcurr, by rw [hstk, hname]; rfl, hclose,
                  ?_, ?_⟩)
                · rw [Scanner.Position_eq]
                · rw [Scanner.Position_eq]
    · rename_i hpeek
      have hts : TagStartAt st.scanner.src st.scanner.SkipWhitespace.pos := by
        have := tagStart_of_tests st.scanner.SkipWhitespace heof1 hcur h4 h9 hpeek
        rwa [hsrc] at this
      split at h
      · cases h
      · cases h
      · cases h
      · rename_i tag sc1 hopen
        split at h
        · rename_i hsc
          cases h
          exact Or.inr (Or.inr (Or.inl ⟨hts, tag, hopen, hsc, rfl, rfl⟩))
        · rename_i hsc
          cases h
          exact Or.inr (Or.inr (Or.inr ⟨hts, tag, hopen, by simpa using hsc, rfl, rfl⟩))
  · rename_i hcur
    cases h
    have hcur1 : isRune '<' st.scanner.SkipWhitespace.Current = false := by
      simpa [isRune] using hcur
    have m1 := r0.ConsumeUntil_of_Current (isRune '<') heof1 hcur1
    have h1 := m1.2.1
    have hb := Scanner.between_ConsumeUntil st.scanner.SkipWhitespace (isRune '<')
    rw [hsrc] at hb
    rw [Scanner.rest_eq, hsrc] at hb
    refine Or.inr ⟨hb, by
      show st.scanner.SkipWhitespace.pos
        < (st.scanner.SkipWhitespace.ConsumeUntil (isRune '<')).pos
      omega, rfl, ?_⟩
    have hs := SliceFrom_ConsumeUntil st.scanner.SkipWhitespace (isRune '<')
    rw [Scanner.rest_eq, hsrc] at hs
    show (if TrimSpace ((st.scanner.SkipWhitespace.ConsumeUntil (isRune '<')).SliceFrom
        st.scanner.SkipWhitespace.Position) ≠ [] then _ else _) = _
    rw [hs, ← hb]

end HtmlParser


namespace HtmlParser

/-! The scanner is used through its lemmas only. -/

attribute [local irreducible] Scanner.cursor Scanner.rest Scanner.EOF Scanner.Current
  Scanner.PeekNext Scanner.Position Scanner.Len Scanner.Line Scanner.Column Scanner.advance
  Scanner.Take Scanner.Match Scanner.MatchString Scanner.ConsumeWhile Scanner.ConsumeUntil
  Scanner.ConsumeUntilString Scanner.SkipWhitespace Scanner.Slice Scanner.SliceFrom
  Scanner.Location

open Scanner

/-! ## The inner text and the inner markup on every input -/

theorem between_append_drop (src : Str) (a b : Nat) (h : a ≤ b) :
    between src a b ++ src.drop b = src.drop a := by
  have e := List.take_append_drop (b - a) (src.drop a)
  rw [List.drop_drop] at e
  have e1 : a + (b - a) = b := by omega
  rw [e1] at e
  exact e

theorem Scanner.Canon.eq_atOffset {s : Scanner} {html : Str} (h : s.Canon) (hs : s.src = html) :
    s = Scanner.atOffset html s.pos := by
  unfold Scanner.Canon at h
  rw [hs] at h
  exact h

theorem isWhitespace_not_lt {c : Char} (h : isWhitespace c = true) :
    (!isRune '<' c) = true := by
  cases hc : isRune '<' c with
  | false => rfl
  | true =>
    have : c = '<' := by simpa [isRune] using hc
    rw [this] at h
    exact absurd h (by decide)

/-- White space before a tag or at the end of the input is a text run of its own, when
there is any. -/
theorem ghost_ws (html ws : Str) (top : List Item) (frames : List (Str × List Item))
    (roots cur : List HtmlTag) (hws : ∀ c ∈ ws, isWhitespace c = true)
    (hrun : ws ≠ [] → TextRunAt html (ghostSource top frames).length ws)
    (h2 : Item.ReadAsList html 0 top roots) (h3 : FramesOk html top frames cur) :
    ∃ top1 frames1, ghostSource top1 frames1 = ghostSource top frames ++ ws
      ∧ Item.ReadAsList html 0 top1 roots ∧ FramesOk html top1 frames1 cur := by
  by_cases hne : ws = []
  · exact ⟨top, frames, by simp [hne], h2, h3⟩
  · have g := ghost_text html ws top frames roots cur (hrun hne) h2 h3
    rw [TrimSpace_ws ws hws] at g
    simp only [ne_eq, not_true_eq_false, if_false] at g
    exact ⟨_, _, by rw [ghostSource_push]; rfl, g.1, g.2⟩

/-- An iteration that ends the loop has found white space up to the end of the
input. -/
theorem step_stop_eof {parser : DefaultHtmlParser} {st st1 : ParseState}
    (h : step parser st = .stop st1) : st.scanner.SkipWhitespace.EOF = true := by
  unfold HtmlParser.step at h
  simp only at h
  split at h
  · assumption
  · repeat' split at h
    all_goals cases h

/-- The invariant for the pieces holds before the loop. -/
theorem TextInv.textInitial (html : Str) : TextInv html (initState html) :=
  ⟨FillInv.initial html, rfl, [], [],
    by simp [initState, Scanner.New, ghostSource, Item.sourceList],
    by simp [Item.ReadAsList, initState], by simp [FramesOk, initState]⟩

/-- An iteration of the loop keeps the invariant for the pieces. -/
theorem TextInv.textIterate {html : Str} {st st1 : ParseState} (hinv : TextInv html st)
    (h : step NewHtmlParser st = .next st1) : TextInv html st1 := by
  obtain ⟨hfill, hcanon, top, frames, hsrc, hread, hframes⟩ := hinv
  have hs : st.scanner.src = html := hfill.1
  have hwf0 : st.scanner.pos ≤ st.scanner.src.length := by rw [hs]; exact hfill.2.1
  have hm := step_moved hwf0 h
  have m0 := (Scanner.MovedBy.refl hwf0).SkipWhitespace
  have hs1 : st1.scanner.src = html := hm.1.trans hs
  have hsw : st.scanner.SkipWhitespace.src = html := m0.1.trans hs
  have hst1 := (hm.2.2.2 hcanon).eq_atOffset hs1
  have hswc := (m0.2.2.2 hcanon).eq_atOffset hsw
  have hp1 : st1.scanner.pos ≤ html.length := by
    have := hm.2.2.1
    rwa [hs1] at this
  have hpo : st.scanner.pos ≤ st.scanner.SkipWhitespace.pos := by
    have := m0.2.1
    omega
  have hol : st.scanner.SkipWhitespace.pos ≤ html.length := by
    have := m0.2.2.1
    rwa [hsw] at this
  refine ⟨hfill.iterate h, hm.2.2.2 hcanon, ?_⟩
  have hlen : (ghostSource top frames).length = st.scanner.pos := by
    rw [← hsrc, List.length_take, Nat.min_eq_left hfill.2.1]
  have hwsb : between html st.scanner.pos st.scanner.SkipWhitespace.pos
      = (html.drop st.scanner.pos).takeWhile isWhitespace := by
    have := Scanner.between_SkipWhitespace st.scanner
    rwa [Scanner.rest_eq, hs] at this
  have hws : ∀ c ∈ between html st.scanner.pos st.scanner.SkipWhitespace.pos,
      isWhitespace c = true := by
    rw [hwsb]
    exact fun c hc => List.mem_takeWhile_imp hc
  have hdrop := between_append_drop html st.scanner.pos st.scanner.SkipWhitespace.pos hpo
  have htake_o : html.take st.scanner.SkipWhitespace.pos
      = ghostSource top frames
        ++ between html st.scanner.pos st.scanner.SkipWhitespace.pos := by
    rw [take_between html st.scanner.pos _ hpo, hsrc]
  have hsp := step_pieces hwf0 h
  rw [hs] at hsp
  rcases hsp with ⟨hd, hcases⟩ | ⟨hb, hlt, hr, hc⟩
  · -- white space, then a tag, a comment or a doctype declaration
    have hrun : between html st.scanner.pos st.scanner.SkipWhitespace.pos ≠ [] →
        TextRunAt html (ghostSource top frames).length
          (between html st.scanner.pos st.scanner.SkipWhitespace.pos) := by
      intro hne
      refine ⟨hne, ?_⟩
      rw [hlen]
      conv_rhs => rw [← hdrop]
      exact (takeWhile_run _ _ _ (fun c hc => isWhitespace_not_lt (hws c hc))
        (fun c hc => by
          rw [hd] at hc
          cases hc
          rfl)).symm
    obtain ⟨top1, frames1, hg, hr1, hf1⟩ :=
      ghost_ws html _ top frames st.roots st.current hws hrun hread hframes
    rw [← htake_o] at hg
    have hlen1 : (ghostSource top1 frames1).length = st.scanner.SkipWhitespace.pos := by
      rw [hg, List.length_take, Nat.min_eq_left hol]
    have hole : st.scanner.SkipWhitespace.pos ≤ st1.scanner.pos := by
      have := (step_moved hwf0 h).2.1
      rcases hcases with ⟨hdecl, -, -⟩ | ⟨c, ps, name, -, -, hclose, -, -⟩
        | ⟨-, tag, hopen, -, -, -⟩ | ⟨-, tag, hopen, -, -, -⟩
      · by_contra hcon
        have hz : between html st.scanner.SkipWhitespace.pos st1.scanner.pos = [] := by
          unfold between
          have : st1.scanner.pos - st.scanner.SkipWhitespace.pos = 0 := by omega
          rw [this]
          rfl
        rw [hz] at hdecl
        rcases hdecl.2 with ⟨-, h1⟩ | ⟨-, h1⟩
        · have := congrArg List.length h1
          simp at this
        · have := congrArg List.length h1
          simp at this
      · have := (parseClosingTag_moved (Scanner.MovedBy.refl m0.2.2.1) hclose).2.1
        omega
      · have := (parsingOpenTag_moved (Scanner.MovedBy.refl m0.2.2.1) hopen).2.1
        omega
      · have := (parsingOpenTag_moved (Scanner.MovedBy.refl m0.2.2.1) hopen).2.1
        omega
    have hbl : st.scanner.SkipWhitespace.pos
        + (between html st.scanner.SkipWhitespace.pos st1.scanner.pos).length
        = st1.scanner.pos := by
      rw [between_length html _ _ hole hp1]
      omega
    have htake1 : html.take st1.scanner.pos
        = ghostSource top1 frames1
          ++ between html st.scanner.SkipWhitespace.pos st1.scanner.pos := by
      rw [take_between html _ _ hole, hg]
    rcases hcases with ⟨hdecl, hr, hc⟩ | ⟨c, ps, name, hcur, hname, hclose, hr, hc⟩
      | ⟨hts, tag, hopen, hsc, hr, hc⟩ | ⟨hts, tag, hopen, hsc, hr, hc⟩
    · -- a comment or a doctype declaration
      have hdecl1 : DeclAt html (ghostSource top1 frames1).length
          (between html st.scanner.SkipWhitespace.pos st1.scanner.pos) := by
        rw [hlen1]
        exact hdecl
      have g := ghost_markup html _ top1 frames1 st.roots st.current hdecl1 hr1 hf1
      refine ⟨_, _, ?_, by rw [hr]; exact g.1, by rw [hc]; exact g.2⟩
      rw [htake1, ghostSource_push]
      rfl
    · -- a closing tag
      have hnm : name = c.Name := by
        have := hfill.2.2.2.2
        rw [hcur] at this
        rw [this] at hname
        simpa using hname.symm
      rw [hcur] at hf1
      cases frames1 with
      | nil => simp [FramesOk] at hf1
      | cons f fs =>
        have hf1c := hf1
        simp only [FramesOk] at hf1c
        obtain ⟨c0, ps0, n0, kids, heq, -, hopen0, hsc0, -, hc0, -⟩ := hf1c
        cases heq
        obtain ⟨o1, o2, o3, -⟩ := parsingOpenTag_open hopen0 hsc0
        have hstart : c.htmlStart = (ghostSource top1 fs).length + f.1.length := by
          rw [hc0]
          exact o1
        have hg2 := hg
        rw [ghostSource_cons, ← List.append_assoc] at hg2
        have hbt := between_of_take html _ _ _ hg2.symm
        rw [List.length_append, ← hstart] at hbt
        have e1 := congrArg List.length hg2
        rw [List.length_take, Nat.min_eq_left hol, List.length_append, List.length_append,
          ← hstart] at e1
        have hc1 : backfill c st1.scanner st.scanner.SkipWhitespace.pos
            = { c with InnerHtml := TrimSpace (Item.sourceList f.2) } := by
          unfold backfill
          split
          · rw [Scanner.Slice_eq, hs1]
            show _ = ({ c with InnerHtml := TrimSpace (Item.sourceList f.2) } : HtmlTag)
            rw [← hbt]
            rfl
          · rename_i hcond
            have h0 : 0 < c.htmlStart := by
              rw [hstart]
              have : 0 < (Scanner.atOffset html ((ghostSource top1 fs).length
                + f.1.length)).pos := o3
              exact this
            have hz : (Item.sourceList f.2).length = 0 := by omega
            have hin : c.InnerHtml = [] := by
              rw [hc0]
              exact o2
            rw [List.length_eq_zero.mp hz]
            cases c
            simp only at hin
            subst hin
            rfl
        have hpre : (f.1 ++ Item.sourceList f.2
            ++ between html st.scanner.SkipWhitespace.pos st1.scanner.pos)
            <+: html.drop (ghostSource top1 fs).length := by
          apply prefix_drop_of_take html _ _ st1.scanner.pos
          rw [htake1, ghostSource_cons]
          simp only [List.append_assoc]
        have hclose1 : parseClosingTag (Scanner.atOffset html (ghostSource top1 (f :: fs)).length)
            = .ok (c.Name, Scanner.atOffset html ((ghostSource top1 (f :: fs)).length
              + (between html st.scanner.SkipWhitespace.pos st1.scanner.pos).length)) := by
          rw [hlen1, hbl, ← hswc, ← hst1, ← hnm]
          exact hclose
        obtain ⟨hit, hfs⟩ := ghost_close html top1 f fs c _ ps _ hf1 hpre hclose1 hc1
        have g := ghost_node html _ _ top1 fs st.roots ps hit hr1 hfs
        refine ⟨_, _, ?_, by rw [hr]; exact g.1, by rw [hc]; exact g.2⟩
        rw [htake1, ghostSource_close]
    · -- a tag whose node is self-closing
      have hopen1 : parsingOpenTag NewHtmlParser
          (Scanner.atOffset html (ghostSource top1 frames1).length)
          = .ok (tag, Scanner.atOffset html ((ghostSource top1 frames1).length
            + (between html st.scanner.SkipWhitespace.pos st1.scanner.pos).length)) := by
        rw [hlen1, hbl, ← hswc, ← hst1]
        exact hopen
      have hn : Item.ReadAs html (ghostSource top1 frames1).length
          (.leaf (between html st.scanner.SkipWhitespace.pos st1.scanner.pos)) tag := by
        simp only [Item.ReadAs]
        rw [hlen1] at hopen1 ⊢
        exact ⟨hts, between_prefix _ _ _, hopen1, hsc⟩
      have g := ghost_node html _ tag top1 frames1 st.roots st.current hn hr1 hf1
      refine ⟨_, _, ?_, by rw [hr]; exact g.1, by rw [hc]; exact g.2⟩
      rw [htake1, ghostSource_push]
      rfl
    · -- an opening tag
      have hopen1 : parsingOpenTag NewHtmlParser
          (Scanner.atOffset html (ghostSource top1 frames1).length)
          = .ok (tag, Scanner.atOffset html ((ghostSource top1 frames1).length
            + (between html st.scanner.SkipWhitespace.pos st1.scanner.pos).length)) := by
        rw [hlen1, hbl, ← hswc, ← hst1]
        exact hopen
      have g := ghost_open html _ tag top1 frames1 st.current (by rw [hlen1]; exact hts)
        hopen1 hsc (parsingOpenTag_innerContent _ _ _ hopen)
        (parsingOpenTag_children _ _ _ hopen) hf1
      refine ⟨top1, _ :: frames1, ?_, by rw [hr]; exact hr1, by rw [hc]; exact g⟩
      rw [htake1, ghostSource_open]
  · -- a text run
    have hpo1 : st.scanner.pos ≤ st1.scanner.pos := by omega
    have hsplit := between_split html st.scanner.pos st.scanner.SkipWhitespace.pos
      st1.scanner.pos hpo (by omega)
    have hne : between html st.scanner.SkipWhitespace.pos st1.scanner.pos ≠ [] :=
      between_nonempty html _ _ hlt hp1
    have ht : TextRunAt html (ghostSource top frames).length
        (between html st.scanner.pos st1.scanner.pos) := by
      refine ⟨by rw [hsplit]; simp [hne], ?_⟩
      rw [hlen, hsplit, hb]
      conv_rhs => rw [← hdrop]
      rw [List.takeWhile_append_of_pos (fun c hc => isWhitespace_not_lt (hws c hc))]
    have g := ghost_text html _ top frames st.roots st.current ht hread hframes
    rw [hsplit, TrimSpace_ws_append _ _ hws, ← hsplit] at g
    refine ⟨_, _, ?_, by rw [hr]; exact g.1, by rw [hc]; exact g.2⟩
    rw [take_between html _ _ hpo1, hsrc, ghostSource_push]
    rfl

/-- When the loop of `ParseHtml` ends with nodes, the input is made of pieces, and
the nodes are these pieces read back. -/
theorem TextInv.textLoop {html : Str} (fuel : Nat) :
    ∀ (st : ParseState) (roots : List HtmlTag), TextInv html st →
      parseLoop NewHtmlParser fuel st = .ok roots →
      ∃ items : List Item, Item.sourceList items = html
        ∧ Item.ReadAsList html 0 items roots := by
  induction fuel with
  | zero =>
    intro st roots _ h
    simp [HtmlParser.parseLoop] at h
  | succ k ih =>
    intro st roots hinv h
    unfold HtmlParser.parseLoop at h
    have hfin : ∀ (ws : Str) (st1 : ParseState), html.drop st.scanner.pos = ws →
        (∀ c ∈ ws, isWhitespace c = true) →
        st1.closeStack = st.closeStack → st1.roots = st.roots → st1.current = st.current →
        finish st1 = .ok roots →
        ∃ items : List Item, Item.sourceList items = html
          ∧ Item.ReadAsList html 0 items roots := by
      intro ws st1 hhtml hws e1 e2 e3 hf
      obtain ⟨hfill, hcanon, top, frames, hsrc, hread, hframes⟩ := hinv
      obtain ⟨hcur, hr⟩ := finish_ok (by rw [e1, e3]; exact hfill.2.2.2.2) hf
      rw [e3] at hcur
      rw [e2] at hr
      have hlen : (ghostSource top frames).length = st.scanner.pos := by
        rw [← hsrc, List.length_take, Nat.min_eq_left hfill.2.1]
      have hrun : ws ≠ [] → TextRunAt html (ghostSource top frames).length ws := by
        intro hne
        refine ⟨hne, ?_⟩
        rw [hlen, hhtml]
        have := takeWhile_run (fun r => !isRune '<' r) ws []
          (fun c hc => isWhitespace_not_lt (hws c hc)) (fun c hc => by cases hc)
        rw [List.append_nil] at this
        exact this.symm
      obtain ⟨top1, frames1, hg, hr1, hf1⟩ :=
        ghost_ws html ws top frames st.roots st.current hws hrun hread hframes
      rw [hcur] at hf1
      cases frames1 with
      | cons f fs => simp [FramesOk] at hf1
      | nil =>
        refine ⟨top1, ?_, by rw [hr]; exact hr1⟩
        rw [← ghostSource_nil, hg, ← hsrc, ← hhtml]
        exact List.take_append_drop _ _
    split at h
    · rename_i heof
      have hlen : html.length ≤ st.scanner.pos := by
        have := (Scanner.EOF_iff st.scanner).mp heof
        rwa [hinv.1.1] at this
      exact hfin [] st (List.drop_eq_nil_of_le hlen) (by simp) rfl rfl rfl h
    · split at h
      · rename_i st1 hstep
        exact ih st1 roots (hinv.textIterate hstep) h
      · rename_i st1 hstep
        obtain ⟨e1, e2, e3⟩ := step_stop hstep
        have hws := Scanner.rest_ws_of_EOF st.scanner (step_stop_eof hstep)
        rw [hinv.1.1] at hws
        exact hfin (html.drop st.scanner.pos) st1 rfl hws e1 e2 e3 h
      · cases h
      · cases h
      · cases h

/-- When `ParseHtml` returns nodes, the input is made of pieces that follow one
another (text runs, comments and doctype declarations, tags that make a node on their
own, and elements with an opening tag, content and a closing tag), and the roots are
the pieces at the top that make a node, read back. -/
theorem ParseHtml_pieces (html : Str) (roots : List HtmlTag)
    (h : ParseHtml NewHtmlParser html = .ok roots) :
    ∃ items : List Item, Item.sourceList items = html
      ∧ Item.ReadAsList html 0 items roots :=
  TextInv.textLoop _ _ roots (TextInv.textInitial html) h

end HtmlParser


namespace HtmlParser

/-! The scanner is used through its lemmas only. -/

attribute [local irreducible] Scanner.cursor Scanner.rest Scanner.EOF Scanner.Current
  Scanner.PeekNext Scanner.Position Scanner.Len Scanner.Line Scanner.Column Scanner.advance
  Scanner.Take Scanner.Match Scanner.MatchString Scanner.ConsumeWhile Scanner.ConsumeUntil
  Scanner.ConsumeUntilString Scanner.SkipWhitespace Scanner.Slice Scanner.SliceFrom
  Scanner.Location

open Scanner

/-! ## The pieces of an input are determined by the input -/

/-- `parseClosingTag` returns a name only at `</`. -/
theorem parseClosingTag_at {s s1 : Scanner} {name : Str}
    (h : parseClosingTag s = .ok (name, s1)) : "</".toList <+: s.src.drop s.pos := by
  unfold parseClosingTag at h
  simp only at h
  by_cases hm1 : (s.Match '<').1 = true
  · simp only [hm1, if_true, Bool.true_and] at h
    obtain ⟨a1, a2, a3⟩ := Scanner.Match_true hm1
    split at h
    · cases h
    rename_i hm2
    have hm2' : ((s.Match '<').2.Match '/').1 = true := by simpa using hm2
    obtain ⟨b1, b2, b3⟩ := Scanner.Match_true hm2'
    rw [a1, a2] at b3
    cases hd : s.src.drop s.pos with
    | nil => simp [hd] at a3
    | cons c tl =>
      rw [hd] at a3
      simp only [List.head?_cons, Option.some.injEq] at a3
      subst a3
      have e : s.src.drop (s.pos + 1) = tl := by
        rw [← List.drop_drop, hd]
        rfl
      rw [e] at b3
      cases tl with
      | nil => simp at b3
      | cons c2 tl2 =>
        simp only [List.head?_cons, Option.some.injEq] at b3
        subst b3
        exact ⟨tl2, rfl⟩
  · simp [hm1] at h

end HtmlParser


namespace HtmlParser

/-! ## The pieces of an input are determined by the input: the proof -/

theorem prefix_eq_of_length {a b l : Str} (ha : a <+: l) (hb : b <+: l)
    (h : a.length = b.length) : a = b := by
  rw [List.prefix_iff_eq_take.mp ha, List.prefix_iff_eq_take.mp hb, h]

theorem TextRunAt.first {html : Str} {o : Nat} {t : Str} (h : TextRunAt html o t) :
    ∃ c tl, html.drop o = c :: tl ∧ c ≠ '<' := by
  obtain ⟨hne, ht⟩ := h
  cases hd : html.drop o with
  | nil => rw [hd] at ht; exact absurd ht hne
  | cons c tl =>
    refine ⟨c, tl, rfl, ?_⟩
    intro hc
    subst hc
    rw [hd] at ht
    simp [List.takeWhile_cons, isRune] at ht
    exact hne ht

theorem DeclAt.head {html : Str} {o : Nat} {m : Str} (h : DeclAt html o m) :
    (∃ tl, html.drop o = '<' :: '!' :: tl ∧ ("--".toList <+: tl ∨ "DOCTYPE".toList <+: tl))
      ∧ 0 < m.length := by
  obtain ⟨-, h1 | h1⟩ := h
  · obtain ⟨⟨x, hx⟩, hm⟩ := h1
    refine ⟨⟨"--".toList ++ x, hx.symm, Or.inl (List.prefix_append _ _)⟩, ?_⟩
    rw [hm]
    simp
  · obtain ⟨⟨x, hx⟩, hm⟩ := h1
    refine ⟨⟨"DOCTYPE".toList ++ x, hx.symm, Or.inr (List.prefix_append _ _)⟩, ?_⟩
    rw [hm]
    simp

/-- A comment or a doctype declaration at an offset is determined by the input. -/
theorem DeclAt.unique {html : Str} {o : Nat} {m m1 : Str} (h : DeclAt html o m)
    (h1 : DeclAt html o m1) : m = m1 := by
  obtain ⟨-, a | a⟩ := h <;> obtain ⟨-, b | b⟩ := h1
  · rw [a.2, b.2]
  · obtain ⟨x, hx⟩ := a.1
    obtain ⟨y, hy⟩ := b.1
    rw [← hx] at hy
    simp at hy
  · obtain ⟨x, hx⟩ := a.1
    obtain ⟨y, hy⟩ := b.1
    rw [← hx] at hy
    simp at hy
  · rw [a.2, b.2]

theorem Item.ReadAs.tagStart {html : Str} {o : Nat} {it : Item} {n : HtmlTag}
    (h : Item.ReadAs html o it n) : TagStartAt html o := by
  cases it with
  | text t => simp [Item.ReadAs] at h
  | markup m => simp [Item.ReadAs] at h
  | leaf m => simp only [Item.ReadAs] at h; exact h.1
  | elem o1 c cl => simp only [Item.ReadAs] at h; exact h.1

/-- Where a piece starts, the input has not ended and does not have `</`. -/
theorem Item.readAsList_cons_start {html : Str} {o : Nat} {x : Item} {xs : List Item}
    {ns : List HtmlTag} (h : Item.ReadAsList html o (x :: xs) ns) :
    o < html.length ∧ ¬ "</".toList <+: html.drop o := by
  have key : ∀ c tl, html.drop o = c :: tl → o < html.length := by
    intro c tl hd
    by_contra hcon
    rw [List.drop_eq_nil_of_le (by omega)] at hd
    cases hd
  cases x with
  | text t =>
    simp only [Item.ReadAsList] at h
    obtain ⟨c, tl, hd, hc⟩ := h.1.first
    refine ⟨key c tl hd, ?_⟩
    rintro ⟨y, hy⟩
    rw [hd] at hy
    simp at hy
    exact hc hy.1.symm
  | markup m =>
    simp only [Item.ReadAsList] at h
    obtain ⟨⟨tl, hd, -⟩, -⟩ := h.1.head
    refine ⟨key _ _ hd, ?_⟩
    rintro ⟨y, hy⟩
    rw [hd] at hy
    simp at hy
  | leaf m =>
    simp only [Item.ReadAsList] at h
    obtain ⟨n, ns1, -, hn, -⟩ := h
    obtain ⟨tl, hd, -, -, hs⟩ := hn.tagStart
    refine ⟨key _ _ hd, ?_⟩
    rintro ⟨y, hy⟩
    rw [hd] at hy
    simp only [String.toList, List.cons_append, List.cons.injEq, true_and] at hy
    rw [← hy] at hs
    simp at hs
  | elem o1 c cl =>
    simp only [Item.ReadAsList] at h
    obtain ⟨n, ns1, -, hn, -⟩ := h
    obtain ⟨tl, hd, -, -, hs⟩ := hn.tagStart
    refine ⟨key _ _ hd, ?_⟩
    rintro ⟨y, hy⟩
    rw [hd] at hy
    simp only [String.toList, List.cons_append, List.cons.injEq, true_and] at hy
    rw [← hy] at hs
    simp at hs

/-- A text run is not at a `<`, and a tag is neither a comment nor a doctype
declaration. -/
theorem TextRunAt.not_lt {html : Str} {o : Nat} {t : Str} (h : TextRunAt html o t)
    (h1 : ∃ tl, html.drop o = '<' :: tl) : False := by
  obtain ⟨c, tl, hd, hc⟩ := h.first
  obtain ⟨tl1, hd1⟩ := h1
  rw [hd] at hd1
  simp at hd1
  exact hc hd1.1

theorem DeclAt.not_tag {html : Str} {o : Nat} {m : Str} (h : DeclAt html o m)
    (h1 : TagStartAt html o) : False := by
  obtain ⟨⟨tl, hd, hk⟩, -⟩ := h.head
  obtain ⟨tl1, hd1, hc, hdt, -⟩ := h1
  rw [hd] at hd1
  simp only [List.cons.injEq, true_and] at hd1
  subst hd1
  rcases hk with ⟨x, hx⟩ | ⟨x, hx⟩
  · exact hc ⟨x, by rw [← hx]; rfl⟩
  · exact hdt ⟨x, by rw [← hx]; rfl⟩

/-- The pieces that follow one another from an offset up to the end of the input or
to a `</`, and the nodes they are read back as, are determined by the input. -/
theorem Item.readAsList_unique (html : Str) :
    ∀ (k o : Nat) (items items1 : List Item) (ns ns1 : List HtmlTag),
      html.length - o ≤ k →
      Item.ReadAsList html o items ns → Item.ReadAsList html o items1 ns1 →
      (html.length ≤ o + (Item.sourceList items).length
        ∨ "</".toList <+: html.drop (o + (Item.sourceList items).length)) →
      (html.length ≤ o + (Item.sourceList items1).length
        ∨ "</".toList <+: html.drop (o + (Item.sourceList items1).length)) →
      items = items1 ∧ ns = ns1 := by
  intro k
  induction k with
  | zero =>
    intro o items items1 ns ns1 hk h h1 _ _
    cases items with
    | cons x xs => have := (Item.readAsList_cons_start h).1; omega
    | nil =>
      cases items1 with
      | cons x xs => have := (Item.readAsList_cons_start h1).1; omega
      | nil =>
        simp only [Item.ReadAsList] at h h1
        exact ⟨rfl, by rw [h, h1]⟩
  | succ k ih =>
    intro o items items1 ns ns1 hk h h1 hstop hstop1
    have hnostop : ∀ (x : Item) (xs : List Item) (ms : List HtmlTag),
        Item.ReadAsList html o (x :: xs) ms →
        ¬ (html.length ≤ o + (Item.sourceList ([] : List Item)).length
          ∨ "</".toList <+: html.drop (o + (Item.sourceList ([] : List Item)).length)) := by
      intro x xs ms hx
      have := Item.readAsList_cons_start hx
      simp only [Item.sourceList, List.length_nil, Nat.add_zero]
      rintro (hle | hpre)
      · omega
      · exact this.2 hpre
    cases items with
    | nil =>
      cases items1 with
      | nil =>
        simp only [Item.ReadAsList] at h h1
        exact ⟨rfl, by rw [h, h1]⟩
      | cons x xs => exact absurd hstop (hnostop x xs ns1 h1)
    | cons x xs =>
      cases items1 with
      | nil => exact absurd hstop1 (hnostop x xs ns h)
      | cons y ys =>
        have holt := (Item.readAsList_cons_start h).1
        have e : ∀ (z : Item) (zs : List Item),
            o + (Item.sourceList (z :: zs)).length
              = o + (Item.source z).length + (Item.sourceList zs).length := by
          intro z zs
          simp only [Item.sourceList, List.length_append]
          omega
        rw [e] at hstop hstop1
        -- the rest of the pieces, once the first pieces are the same
        have tail : ∀ (ms ms1 : List HtmlTag), Item.source x = Item.source y →
            0 < (Item.source x).length →
            Item.ReadAsList html (o + (Item.source x).length) xs ms →
            Item.ReadAsList html (o + (Item.source y).length) ys ms1 →
            xs = ys ∧ ms = ms1 := by
          intro ms ms1 hxy hpos t1 t2
          rw [← hxy] at t2 hstop1
          exact ih _ xs ys ms ms1 (by omega) t1 t2 hstop hstop1
        cases x with
        | text t =>
          simp only [Item.ReadAsList] at h
          cases y with
          | text t1 =>
            simp only [Item.ReadAsList] at h1
            have ht : t = t1 := by rw [h.1.2, h1.1.2]
            subst ht
            obtain ⟨r1, r2⟩ := tail ns ns1 rfl (List.length_pos.mpr h.1.1) h.2 h1.2
            exact ⟨by rw [r1], r2⟩
          | markup m =>
            simp only [Item.ReadAsList] at h1
            obtain ⟨⟨tl, hd, -⟩, -⟩ := h1.1.head
            exact (h.1.not_lt ⟨_, hd⟩).elim
          | leaf m =>
            simp only [Item.ReadAsList] at h1
            obtain ⟨n, ms, -, hn, -⟩ := h1
            obtain ⟨tl, hd, -⟩ := hn.tagStart
            exact (h.1.not_lt ⟨_, hd⟩).elim
          | elem o1 c cl =>
            simp only [Item.ReadAsList] at h1
            obtain ⟨n, ms, -, hn, -⟩ := h1
            obtain ⟨tl, hd, -⟩ := hn.tagStart
            exact (h.1.not_lt ⟨_, hd⟩).elim
        | markup m =>
          simp only [Item.ReadAsList] at h
          cases y with
          | text t1 =>
            simp only [Item.ReadAsList] at h1
            obtain ⟨⟨tl, hd, -⟩, -⟩ := h.1.head
            exact (h1.1.not_lt ⟨_, hd⟩).elim
          | markup m1 =>
            simp only [Item.ReadAsList] at h1
            have hm : m = m1 := h.1.unique h1.1
            subst hm
            obtain ⟨r1, r2⟩ := tail ns ns1 rfl h.1.head.2 h.2 h1.2
            exact ⟨by rw [r1], r2⟩
          | leaf m1 =>
            simp only [Item.ReadAsList] at h1
            obtain ⟨n, ms, -, hn, -⟩ := h1
            exact (h.1.not_tag hn.tagStart).elim
          | elem o1 c cl =>
            simp only [Item.ReadAsList] at h1
            obtain ⟨n, ms, -, hn, -⟩ := h1
            exact (h.1.not_tag hn.tagStart).elim
        | leaf m =>
          simp only [Item.ReadAsList] at h
          obtain ⟨n, ms, rfl, hn, hrest⟩ := h
          have hts := hn.tagStart
          simp only [Item.ReadAs] at hn
          obtain ⟨-, hpre, hopen, hsc⟩ := hn
          have hmv := parsingOpenTag_moved
            (Scanner.MovedBy.refl (s := Scanner.atOffset html o) (Nat.le_of_lt holt)) hopen
          have hpos : 0 < m.length := by
            have := hmv.2.1
            simp only [Scanner.atOffset] at this
            omega
          cases y with
          | text t1 =>
            simp only [Item.ReadAsList] at h1
            obtain ⟨tl, hd, -⟩ := hts
            exact (h1.1.not_lt ⟨_, hd⟩).elim
          | markup m1 =>
            simp only [Item.ReadAsList] at h1
            exact (h1.1.not_tag hts).elim
          | leaf m1 =>
            simp only [Item.ReadAsList] at h1
            obtain ⟨n1, ms1, rfl, hn1, hrest1⟩ := h1
            simp only [Item.ReadAs] at hn1
            obtain ⟨-, hpre1, hopen1, -⟩ := hn1
            rw [hopen] at hopen1
            simp only [Outcome.ok.injEq, Prod.mk.injEq] at hopen1
            obtain ⟨hnn, hsc1⟩ := hopen1
            have hl : m.length = m1.length := by
              have := congrArg Scanner.pos hsc1
              simp only [Scanner.atOffset] at this
              omega
            have hm : m = m1 := prefix_eq_of_length hpre hpre1 hl
            subst hm
            subst hnn
            obtain ⟨r1, r2⟩ := tail ms ms1 rfl hpos hrest hrest1
            exact ⟨by rw [r1], by rw [r2]⟩
          | elem o1 c cl =>
            simp only [Item.ReadAsList] at h1
            obtain ⟨n1, ms1, -, hn1, -⟩ := h1
            simp only [Item.ReadAs] at hn1
            obtain ⟨-, -, n0, kids, hopen1, hsc1, -⟩ := hn1
            rw [hopen] at hopen1
            simp only [Outcome.ok.injEq, Prod.mk.injEq] at hopen1
            rw [hopen1.1, hsc1] at hsc
            cases hsc
        | elem op c cl =>
          simp only [Item.ReadAsList] at h
          obtain ⟨n, ms, rfl, hn, hrest⟩ := h
          have hts := hn.tagStart
          simp only [Item.ReadAs] at hn
          obtain ⟨-, hpre, n0, kids, hopen, hsc, hkids, hclose, hnode⟩ := hn
          have hmv := parsingOpenTag_moved
            (Scanner.MovedBy.refl (s := Scanner.atOffset html o) (Nat.le_of_lt holt)) hopen
          have hpos : 0 < op.length := by
            have := hmv.2.1
            simp only [Scanner.atOffset] at this
            omega
          cases y with
          | text t1 =>
            simp only [Item.ReadAsList] at h1
            obtain ⟨tl, hd, -⟩ := hts
            exact (h1.1.not_lt ⟨_, hd⟩).elim
          | markup m1 =>
            simp only [Item.ReadAsList] at h1
            exact (h1.1.not_tag hts).elim
          | leaf m1 =>
            simp only [Item.ReadAsList] at h1
            obtain ⟨n1, ms1, -, hn1, -⟩ := h1
            simp only [Item.ReadAs] at hn1
            obtain ⟨-, -, hopen1, hsc1⟩ := hn1
            rw [hopen] at hopen1
            simp only [Outcome.ok.injEq, Prod.mk.injEq] at hopen1
            rw [← hopen1.1, hsc] at hsc1
            cases hsc1
          | elem op1 c1 cl1 =>
            simp only [Item.ReadAsList] at h1
            obtain ⟨n1, ms1, rfl, hn1, hrest1⟩ := h1
            simp only [Item.ReadAs] at hn1
            obtain ⟨-, hpre1, n01, kids1, hopen1, -, hkids1, hclose1, hnode1⟩ := hn1
            rw [hopen] at hopen1
            simp only [Outcome.ok.injEq, Prod.mk.injEq] at hopen1
            obtain ⟨hnn, hs1⟩ := hopen1
            subst hnn
            have hl : op.length = op1.length := by
              have := congrArg Scanner.pos hs1
              simp only [Scanner.atOffset] at this
              omega
            have p1 : op <+: html.drop o := by
              have := hpre
              rw [List.append_assoc] at this
              exact (List.prefix_append _ _).trans this
            have p2 : op1 <+: html.drop o := by
              have := hpre1
              rw [List.append_assoc] at this
              exact (List.prefix_append _ _).trans this
            have hop : op = op1 := prefix_eq_of_length p1 p2 hl
            subst hop
            -- the content
            obtain ⟨hc, hk⟩ := ih (o + op.length) c c1 kids kids1 (by omega) hkids hkids1
              (Or.inr (parseClosingTag_at hclose)) (Or.inr (parseClosingTag_at hclose1))
            subst hc
            subst hk
            -- the closing tag
            rw [hclose] at hclose1
            simp only [Outcome.ok.injEq, Prod.mk.injEq, true_and] at hclose1
            have hl2 : cl.length = cl1.length := by
              have := congrArg Scanner.pos hclose1
              simp only [Scanner.atOffset] at this
              omega
            have hall : op ++ Item.sourceList c ++ cl = op ++ Item.sourceList c ++ cl1 :=
              prefix_eq_of_length hpre hpre1 (by simp [hl2])
            have hcl : cl = cl1 := List.append_cancel_left hall
            subst hcl
            obtain ⟨r1, r2⟩ := tail ms ms1 rfl
              (by simp only [Item.source, List.length_append]; omega) hrest hrest1
            exact ⟨by rw [r1], by rw [r2, hnode, hnode1]⟩

/-- The pieces of an input and the tree they are read back as are determined by the
input. -/
theorem pieces_unique (html : Str) (items items1 : List Item) (ns ns1 : List HtmlTag)
    (hs : Item.sourceList items = html) (hs1 : Item.sourceList items1 = html)
    (h : Item.ReadAsList html 0 items ns) (h1 : Item.ReadAsList html 0 items1 ns1) :
    items = items1 ∧ ns = ns1 :=
  Item.readAsList_unique html html.length 0 items items1 ns ns1 (by omega) h h1
    (Or.inl (by rw [hs]; omega)) (Or.inl (by rw [hs1]; omega))

end HtmlParser


namespace HtmlParser

/-! ## Every node is a piece read back -/

/-- A piece is not empty. -/
theorem Item.readAsList_cons_pos {html : Str} {o : Nat} {x : Item} {xs : List Item}
    {ns : List HtmlTag} (h : Item.ReadAsList html o (x :: xs) ns) :
    0 < (Item.source x).length := by
  have holt := (Item.readAsList_cons_start h).1
  cases x with
  | text t =>
    simp only [Item.ReadAsList] at h
    exact List.length_pos.mpr h.1.1
  | markup m =>
    simp only [Item.ReadAsList] at h
    exact h.1.head.2
  | leaf m =>
    simp only [Item.ReadAsList, Item.ReadAs] at h
    obtain ⟨n, ms, -, ⟨-, -, hopen, -⟩, -⟩ := h
    have hmv := parsingOpenTag_moved
      (Scanner.MovedBy.refl (s := Scanner.atOffset html o) (Nat.le_of_lt holt)) hopen
    have := hmv.2.1
    simp only [Scanner.atOffset] at this
    simp only [Item.source]
    omega
  | elem op c cl =>
    simp only [Item.ReadAsList, Item.ReadAs] at h
    obtain ⟨n, ms, -, ⟨-, -, n0, kids, hopen, -⟩, -⟩ := h
    have hmv := parsingOpenTag_moved
      (Scanner.MovedBy.refl (s := Scanner.atOffset html o) (Nat.le_of_lt holt)) hopen
    have := hmv.2.1
    simp only [Scanner.atOffset] at this
    simp only [Item.source, List.length_append]
    omega

/-- Every node of the nodes that pieces are read back as is a piece read back. -/
theorem Item.readAsList_nodes (html : Str) :
    ∀ (k o : Nat) (items : List Item) (ns : List HtmlTag),
      (Item.sourceList items).length ≤ k → Item.ReadAsList html o items ns →
      ∀ r ∈ ns, ∀ n ∈ r.nodes, ∃ o1 it, Item.ReadAs html o1 it n := by
  intro k
  induction k with
  | zero =>
    intro o items ns hk h r hr
    cases items with
    | nil =>
      simp only [Item.ReadAsList] at h
      subst h
      cases hr
    | cons x xs =>
      have := Item.readAsList_cons_pos h
      simp only [Item.sourceList, List.length_append] at hk
      omega
  | succ k ih =>
    intro o items ns hk h r hr n hn
    cases items with
    | nil =>
      simp only [Item.ReadAsList] at h
      subst h
      cases hr
    | cons x xs =>
      have hpos := Item.readAsList_cons_pos h
      have holt := (Item.readAsList_cons_start h).1
      have hxs : (Item.sourceList xs).length ≤ k := by
        simp only [Item.sourceList, List.length_append] at hk
        omega
      cases x with
      | text t =>
        simp only [Item.ReadAsList] at h
        exact ih _ xs ns hxs h.2 r hr n hn
      | markup m =>
        simp only [Item.ReadAsList] at h
        exact ih _ xs ns hxs h.2 r hr n hn
      | leaf m =>
        simp only [Item.ReadAsList] at h
        obtain ⟨nd, ms, rfl, hnd, hrest⟩ := h
        rcases List.mem_cons.mp hr with rfl | hr1
        · have hnd1 := hnd
          simp only [Item.ReadAs] at hnd1
          have hch := parsingOpenTag_children _ _ _ hnd1.2.2.1
          rw [HtmlTag.nodes_eq, hch] at hn
          simp only [HtmlTag.nodesOfList, List.mem_singleton] at hn
          subst hn
          exact ⟨o, _, hnd⟩
        · exact ih _ xs ms hxs hrest r hr1 n hn
      | elem op c cl =>
        simp only [Item.ReadAsList] at h
        obtain ⟨nd, ms, rfl, hnd, hrest⟩ := h
        rcases List.mem_cons.mp hr with rfl | hr1
        · have hnd1 := hnd
          simp only [Item.ReadAs] at hnd1
          obtain ⟨-, -, n0, kids, hopen, -, hkids, -, hnode⟩ := hnd1
          have hmv := parsingOpenTag_moved
            (Scanner.MovedBy.refl (s := Scanner.atOffset html o) (Nat.le_of_lt holt)) hopen
          have hop : 0 < op.length := by
            have := hmv.2.1
            simp only [Scanner.atOffset] at this
            omega
          rw [HtmlTag.nodes_eq] at hn
          rcases List.mem_cons.mp hn with rfl | hn1
          · exact ⟨o, _, hnd⟩
          · have hkc : r.Children = kids := by rw [hnode]
            rw [hkc] at hn1
            obtain ⟨t, ht, hnt⟩ := HtmlTag.mem_nodesOfList hn1
            have hc : (Item.sourceList c).length ≤ k := by
              simp only [Item.sourceList, Item.source, List.length_append] at hk
              simp only [Item.source, List.length_append] at hpos
              omega
            exact ih _ c kids hc hkids t ht n hnt
        · exact ih _ xs ms hxs hrest r hr1 n hn

/-- The inner markup on every input on which `ParseHtml` returns nodes. -/
theorem innerMarkup_pieces (html : Str) (roots : List HtmlTag)
    (h : ParseHtml NewHtmlParser html = .ok roots) :
    (∃ items : List Item, Item.sourceList items = html ∧ Item.ReadAsList html 0 items roots)
    ∧ (∀ (items : List Item) (roots1 : List HtmlTag), Item.sourceList items = html →
        Item.ReadAsList html 0 items roots1 → roots1 = roots)
    ∧ ∀ r ∈ roots, ∀ n ∈ r.nodes, n.IsSelfClosing = false →
        ∃ (o : Nat) (opening : Str) (content : List Item) (closing : Str),
          Item.ReadAs html o (.elem opening content closing) n
          ∧ n.htmlStart = o + opening.length
          ∧ "</".toList <+: closing
          ∧ n.InnerHtml = TrimSpace (Item.sourceList content) := by
  obtain ⟨items, hsrc, hread⟩ := ParseHtml_pieces html roots h
  refine ⟨⟨items, hsrc, hread⟩, fun items1 roots1 hs1 h1 =>
    (pieces_unique html items1 items roots1 roots hs1 hsrc h1 hread).2, ?_⟩
  intro r hr n hn hsc
  obtain ⟨o, it, hit⟩ := Item.readAsList_nodes html _ 0 items roots (Nat.le_refl _) hread r hr n hn
  cases it with
  | text t => simp [Item.ReadAs] at hit
  | markup m => simp [Item.ReadAs] at hit
  | leaf m =>
    simp only [Item.ReadAs] at hit
    rw [hit.2.2.2] at hsc
    cases hsc
  | elem op c cl =>
    refine ⟨o, op, c, cl, hit, ?_⟩
    simp only [Item.ReadAs] at hit
    obtain ⟨-, hpre, n0, kids, hopen, hsc0, -, hclose, hnode⟩ := hit
    obtain ⟨o1, -, -, -⟩ := parsingOpenTag_open hopen hsc0
    refine ⟨?_, ?_, ?_⟩
    · rw [hnode]
      exact o1
    · have hp := parseClosingTag_at hclose
      have hl : (op ++ Item.sourceList c).length = op.length + (Item.sourceList c).length :=
        List.length_append _ _
      have hcl : cl <+: html.drop (o + op.length + (Item.sourceList c).length) := by
        obtain ⟨x, hx⟩ := hpre
        refine ⟨x, ?_⟩
        have := congrArg (List.drop (op ++ Item.sourceList c).length) hx
        rw [List.append_assoc, List.drop_left, List.drop_drop, hl, ← Nat.add_assoc] at this
        exact this
      have hmv := @parseClosingTag_moved 0 (Scanner.atOffset html
          (o + op.length + (Item.sourceList c).length)) _ _ _
          ⟨rfl, Nat.le_refl _, ?_, id⟩ hclose
      · have h2 := hmv.2.1
        simp only [Scanner.atOffset] at h2
        have h3 : 2 ≤ cl.length := by omega
        obtain ⟨y, hy⟩ := hp
        simp only [Scanner.atOffset] at hy
        obtain ⟨x, hx⟩ := hcl
        rw [← hx] at hy
        cases cl with
        | nil => simp at h3
        | cons a cl1 =>
          cases cl1 with
          | nil => simp at h3
          | cons b cl2 =>
            simp only [String.toList, List.cons_append, List.nil_append, List.cons.injEq] at hy
            obtain ⟨ha, hb, -⟩ := hy
            subst ha
            subst hb
            exact ⟨cl2, rfl⟩
      · obtain ⟨y, hy⟩ := hp
        simp only [Scanner.atOffset] at hy ⊢
        by_contra hcon
        rw [List.drop_eq_nil_of_le (by omega)] at hy
        simp at hy
    · rw [hnode]

/-- The inner text on every input on which `ParseHtml` returns nodes. -/
theorem innerText_pieces (html : Str) (roots : List HtmlTag)
    (h : ParseHtml NewHtmlParser html = .ok roots) :
    (∃ items : List Item, Item.sourceList items = html ∧ Item.ReadAsList html 0 items roots)
    ∧ (∀ (items : List Item) (roots1 : List HtmlTag), Item.sourceList items = html →
        Item.ReadAsList html 0 items roots1 → roots1 = roots)
    ∧ ∀ r ∈ roots, ∀ n ∈ r.nodes,
        (n.IsSelfClosing = true ∧ n.InnerContent = []
          ∧ ∃ (o : Nat) (m : Str), Item.ReadAs html o (.leaf m) n)
        ∨ (n.IsSelfClosing = false
          ∧ ∃ (o : Nat) (opening : Str) (content : List Item) (closing : Str),
            Item.ReadAs html o (.elem opening content closing) n
            ∧ n.InnerContent = Item.directText content) := by
  obtain ⟨items, hsrc, hread⟩ := ParseHtml_pieces html roots h
  refine ⟨⟨items, hsrc, hread⟩, fun items1 roots1 hs1 h1 =>
    (pieces_unique html items1 items roots1 roots hs1 hsrc h1 hread).2, ?_⟩
  intro r hr n hn
  obtain ⟨o, it, hit⟩ := Item.readAsList_nodes html _ 0 items roots (Nat.le_refl _) hread r hr n hn
  cases it with
  | text t => simp [Item.ReadAs] at hit
  | markup m => simp [Item.ReadAs] at hit
  | leaf m =>
    have hit1 := hit
    simp only [Item.ReadAs] at hit1
    exact Or.inl ⟨hit1.2.2.2, parsingOpenTag_innerContent _ _ _ hit1.2.2.1, o, m, hit⟩
  | elem op c cl =>
    have hit1 := hit
    simp only [Item.ReadAs] at hit1
    obtain ⟨-, -, n0, kids, -, hsc0, -, -, hnode⟩ := hit1
    exact Or.inr ⟨by rw [hnode]; exact hsc0, o, op, c, cl, hit, by rw [hnode]⟩

end HtmlParser


namespace HtmlParser

open Scanner

/-! ## The claims -/

/-- C1, as stated, fails: the markup `<a x='"'></a>` has no comment, doctype, style
or script tag and parses to a node `a` whose attribute `x` has the value `"`; the
rendering of that tree, `<a x="""></a>`, parses too, but to a node with the
attributes `x=""` and `"`, rendered as `<a " x=""></a>`: `renderTag` writes the
double quote of the value as it is.  And `< !--x></!--x>` parses to a node named
`!--x`, whose rendering `<!--x></!--x>` begins a comment and does not parse. -/
theorem C1_round_trip_fails :
    ParseHtml NewHtmlParser "<a x='\"'></a>".toList
        = .ok [⟨"a".toList, [("x".toList, ⟨"x".toList, "\"".toList, true⟩)], [], [], [], false,
            ⟨1, 1, 0⟩, 9⟩]
    ∧ RenderHtml [⟨"a".toList, [("x".toList, ⟨"x".toList, "\"".toList, true⟩)], [], [], [],
        false, ⟨1, 1, 0⟩, 9⟩] = "<a x=\"\"\"></a>".toList
    ∧ ParseHtml NewHtmlParser "<a x=\"\"\"></a>".toList
        = .ok [⟨"a".toList, [("x".toList, ⟨"x".toList, [], true⟩),
            ("\"".toList, ⟨"\"".toList, [], false⟩)], [], [], [], false, ⟨1, 1, 0⟩, 9⟩]
    ∧ RenderHtml [⟨"a".toList, [("x".toList, ⟨"x".toList, [], true⟩),
        ("\"".toList, ⟨"\"".toList, [], false⟩)], [], [], [], false, ⟨1, 1, 0⟩, 9⟩]
        = "<a \" x=\"\"></a>".toList
    ∧ "<a \" x=\"\"></a>".toList ≠ "<a x=\"\"\"></a>".toList
    ∧ ParseHtml NewHtmlParser "< !--x></!--x>".toList
        = .ok [⟨"!--x".toList, [], [], [], [], false, ⟨1, 1, 0⟩, 7⟩]
    ∧ RenderHtml [⟨"!--x".toList, [], [], [], [], false, ⟨1, 1, 0⟩, 7⟩]
        = "<!--x></!--x>".toList
    ∧ ParseHtml NewHtmlParser "<!--x></!--x>".toList
        = .error "Html parsing error: unclosed comment at 1:14".toList :=
  ⟨rfl, rfl, rfl, rfl, by decide, rfl, rfl, rfl⟩

/-- C1, amended: for every markup text `m` on which `ParseHtml` succeeds with tree
`t`, if no node of `t` is named `style` or `script`, no node name starts with `!--`
or `!DOCTYPE`, and no attribute value of a node holds a double quote, then
`ParseHtml (RenderHtml t)` succeeds with some tree `t1`, and
`RenderHtml t1 = RenderHtml t`. -/
theorem C1_round_trip (m : Str) (t : List HtmlTag)
    (h : ParseHtml NewHtmlParser m = .ok t) (hrt : ∀ r ∈ t, AllNodes RoundTripNode r) :
    ∃ t1, ParseHtml NewHtmlParser (RenderHtml t) = .ok t1 ∧ RenderHtml t1 = RenderHtml t :=
  ParseHtml_roundTrip m t h hrt

/-- C1 at `<a y x=' 1 '>t<b/></a>`, which parses to a node `a` with the attributes
`y` and `x="1"`, the text `t` and the self-closing child `b`. -/
theorem C1_round_trip_witness :
    ParseHtml NewHtmlParser "<a y x=' 1 '>t<b/></a>".toList
        = .ok [⟨"a".toList, [("y".toList, ⟨"y".toList, [], false⟩),
            ("x".toList, ⟨"x".toList, "1".toList, true⟩)],
            [⟨"b".toList, [], [], [], [], true, ⟨1, 15, 0⟩, 18⟩], "t<b/>".toList, "t".toList,
            false, ⟨1, 1, 0⟩, 13⟩]
    ∧ (∀ r ∈ [(⟨"a".toList, [("y".toList, ⟨"y".toList, [], false⟩),
            ("x".toList, ⟨"x".toList, "1".toList, true⟩)],
            [⟨"b".toList, [], [], [], [], true, ⟨1, 15, 0⟩, 18⟩], "t<b/>".toList, "t".toList,
            false, ⟨1, 1, 0⟩, 13⟩ : HtmlTag)], AllNodes RoundTripNode r)
    ∧ ∃ t1, ParseHtml NewHtmlParser (RenderHtml [⟨"a".toList,
            [("y".toList, ⟨"y".toList, [], false⟩),
              ("x".toList, ⟨"x".toList, "1".toList, true⟩)],
            [⟨"b".toList, [], [], [], [], true, ⟨1, 15, 0⟩, 18⟩], "t<b/>".toList, "t".toList,
            false, ⟨1, 1, 0⟩, 13⟩]) = .ok t1
        ∧ RenderHtml t1 = RenderHtml [⟨"a".toList,
            [("y".toList, ⟨"y".toList, [], false⟩),
              ("x".toList, ⟨"x".toList, "1".toList, true⟩)],
            [⟨"b".toList, [], [], [], [], true, ⟨1, 15, 0⟩, 18⟩], "t<b/>".toList, "t".toList,
            false, ⟨1, 1, 0⟩, 13⟩] :=
  ⟨rfl, by decide, C1_round_trip "<a y x=' 1 '>t<b/></a>".toList _ rfl (by decide)⟩

/-- C2: for two distinct plain tag names `a` and `b`, `ParseHtml` applied to
`<a><b></a>` returns no nodes but the mismatched closing tag error that names `a` as
the closing tag found and `b` as the one expected, at line 1 and the column after the
input. -/
theorem C2_mismatched_closing_tag (a b : Str) (ha : PlainName a) (hb : PlainName b)
    (hab : a ≠ b) :
    ParseHtml NewHtmlParser
        ("<".toList ++ a ++ "><".toList ++ b ++ "></".toList ++ a ++ ">".toList)
      = .error ("Html parsing error: invalid closing tag '".toList ++ a ++ "', expected '".toList
          ++ b ++ "' at ".toList ++ ("1:".toList ++ fmtInt (2 * a.length + b.length + 8))) :=
  ParseHtml_mismatch a b ha hb hab

/-- C2 at `<div><span></div>`: expected `span`, found `div`. -/
theorem C2_mismatched_closing_tag_witness :
    PlainName "div".toList ∧ PlainName "span".toList ∧
    ParseHtml NewHtmlParser "<div><span></div>".toList
      = .error "Html parsing error: invalid closing tag 'div', expected 'span' at 1:18".toList :=
  ⟨by decide, by decide,
    C2_mismatched_closing_tag "div".toList "span".toList (by decide) (by decide) (by decide)⟩

/-- C3, as stated, fails: `ParseHtml` applied to `<input disabled>` returns no node
but the unclosed tag error, as `input` is never closed. -/
theorem C3_input_disabled_is_unclosed :
    ParseHtml NewHtmlParser "<input disabled>".toList
      = .error "Html parsing error: unclosed tag 'input'".toList := by
  rfl

/-- C3, amended: `parsingOpenTag` applied to `<input disabled>` yields a node named
`input` whose only attribute is `disabled`, with `IsValueExist = false` and an empty
value, and `ParseHtml` returns that node as the only root for `<input disabled/>`
and for `<input disabled></input>`. -/
theorem C3_attribute_boolean_form :
    (∃ s, parsingOpenTag NewHtmlParser (Scanner.New "<input disabled>".toList)
        = .ok ({ Name := "input".toList,
                 Attributes := [("disabled".toList, ⟨"disabled".toList, [], false⟩)],
                 Children := [], InnerHtml := [], InnerContent := [], IsSelfClosing := false,
                 Pos := { Line := 1, Column := 1 }, htmlStart := 16 }, s))
    ∧ ParseHtml NewHtmlParser "<input disabled/>".toList
        = .ok [{ Name := "input".toList,
                 Attributes := [("disabled".toList, ⟨"disabled".toList, [], false⟩)],
                 Children := [], InnerHtml := [], InnerContent := [], IsSelfClosing := true,
                 Pos := { Line := 1, Column := 1 }, htmlStart := 17 }]
    ∧ ParseHtml NewHtmlParser "<input disabled></input>".toList
        = .ok [{ Name := "input".toList,
                 Attributes := [("disabled".toList, ⟨"disabled".toList, [], false⟩)],
                 Children := [], InnerHtml := [], InnerContent := [], IsSelfClosing := false,
                 Pos := { Line := 1, Column := 1 }, htmlStart := 16 }] :=
  ⟨⟨_, rfl⟩, rfl, rfl⟩

/-- C4: for `name` one of `style` and `script` and a body that does not contain
`</name>`, `ParseHtml` applied to `<name>body</name>` returns exactly one root, named
`name`, self-closing, without children, whose inner markup is the body as it
stands. -/
theorem C4_raw_text_capture (name body : Str)
    (hn : name = "style".toList ∨ name = "script".toList)
    (hb : ¬ ("</".toList ++ name ++ ">".toList) <:+: body) :
    ParseHtml NewHtmlParser
        ("<".toList ++ name ++ ">".toList ++ body ++ "</".toList ++ name ++ ">".toList)
      = .ok [{ Name := name, Attributes := [], Children := [], InnerHtml := body,
               InnerContent := [], IsSelfClosing := true, Pos := { Line := 1, Column := 1 },
               htmlStart := 0 }] :=
  ParseHtml_raw name body hn hb

/-- C4 at `<script>a<b>c</script>`: the inner markup is `a<b>c`. -/
theorem C4_raw_text_capture_witness :
    ¬ "</script>".toList <:+: "a<b>c".toList ∧
    ParseHtml NewHtmlParser "<script>a<b>c</script>".toList
      = .ok [{ Name := "script".toList, Attributes := [], Children := [],
               InnerHtml := "a<b>c".toList, InnerContent := [], IsSelfClosing := true,
               Pos := { Line := 1, Column := 1 }, htmlStart := 0 }] :=
  ⟨by decide, C4_raw_text_capture "script".toList "a<b>c".toList (Or.inr rfl) (by decide)⟩

/-- C5, as stated, fails: the comment body `><b>` does not contain `-->`, yet the
comment ends at its first `>` already (the `-->` searched for from the `<` of `<!--`
is found in `<!-->`), `<b>` is read as a tag, and `ParseHtml` returns the unclosed
tag error. -/
theorem C5_comment_ends_early :
    ¬ "-->".toList <:+: "><b>".toList ∧
    ParseHtml NewHtmlParser ("<!DOCTYPE html><!--".toList ++ "><b>".toList ++ "--><p>x</p>".toList)
      = .error "Html parsing error: unclosed tag 'b'".toList :=
  ⟨by decide, rfl⟩

/-- C5, amended: for a comment body `c` that does not contain `-->` and does not
start with `>` or `->`, `ParseHtml` applied to `<!DOCTYPE html><!--c--><p>x</p>`
returns exactly one root, named `p`, with inner text `x` and no children (at the
line and column where `<p>` stands). -/
theorem C5_comment_doctype_pass_through (c : Str) (h1 : ¬ "-->".toList <:+: c)
    (h2 : ¬ ">".toList <+: c) (h3 : ¬ "->".toList <+: c) :
    ParseHtml NewHtmlParser ("<!DOCTYPE html><!--".toList ++ c ++ "--><p>x</p>".toList)
      = .ok [{ Name := "p".toList, Attributes := [], Children := [], InnerHtml := "x".toList,
               InnerContent := "x".toList, IsSelfClosing := false,
               Pos := { Line := (lineCol ("<!DOCTYPE html><!--".toList ++ c ++ "-->".toList)).1,
                        Column := (lineCol ("<!DOCTYPE html><!--".toList ++ c ++ "-->".toList)).2 },
               htmlStart := c.length + 25 }] :=
  ParseHtml_doctype_comment c h1 h2 h3

/-- C5 at the comment body ` note `: the single root `p` stands at line 1,
column 29. -/
theorem C5_comment_doctype_pass_through_witness :
    ParseHtml NewHtmlParser "<!DOCTYPE html><!-- note --><p>x</p>".toList
      = .ok [{ Name := "p".toList, Attributes := [], Children := [], InnerHtml := "x".toList,
               InnerContent := "x".toList, IsSelfClosing := false,
               Pos := { Line := 1, Column := 29 }, htmlStart := 31 }] :=
  C5_comment_doctype_pass_through " note ".toList (by decide) (by decide) (by decide)

/-- C6: for a tree `t` (whose attribute maps hold no key twice) and a depth
`maxDepth`, `CloneDown` returns, when `1 ≤ maxDepth`, a copy of `t` cut at that
depth: each copied node has the name, attributes, inner text, inner markup and
self-closing flag of its original, the nodes above level `maxDepth` keep their
children in order and the nodes at level `maxDepth` have none; and `CloneDown`
returns an error exactly when `maxDepth < 1`. -/
theorem C6_clone_down (t : HtmlTag) (maxDepth : Int) (hk : t.KeysUnique) :
    (1 ≤ maxDepth → ∃ c, t.CloneDown maxDepth = .ok c ∧ CopyToDepth t maxDepth.toNat c)
    ∧ ((∃ msg, t.CloneDown maxDepth = .error msg) ↔ maxDepth < 1) :=
  ⟨fun h => CloneDown_copy t maxDepth h hk, CloneDown_error_iff t maxDepth⟩

/-- C6 at the parse of `<a><b><c/></b></a>`: `CloneDown(a, 1)` is a copy of `a` with
the one child `b`, whose children are empty. -/
theorem C6_clone_down_witness :
    ∃ a b c : HtmlTag,
      ParseHtml NewHtmlParser "<a><b><c/></b></a>".toList
        = .ok [{ a with Children := [{ b with Children := [c] }] }]
      ∧ a.Name = "a".toList ∧ b.Name = "b".toList ∧ c.Name = "c".toList
      ∧ HtmlTag.CloneDown { a with Children := [{ b with Children := [c] }] } 1
        = .ok { a with Children := [{ b with Children := [] }] }
      ∧ ∃ copy, HtmlTag.CloneDown { a with Children := [{ b with Children := [c] }] } 1 = .ok copy
          ∧ CopyToDepth { a with Children := [{ b with Children := [c] }] } 1 copy :=
  ⟨{ Name := "a".toList, Attributes := [], Children := [],
     InnerHtml := "<b><c/></b>".toList, InnerContent := [], IsSelfClosing := false,
     Pos := { Line := 1, Column := 1 }, htmlStart := 3 },
   { Name := "b".toList, Attributes := [], Children := [],
     InnerHtml := "<c/>".toList, InnerContent := [], IsSelfClosing := false,
     Pos := { Line := 1, Column := 4 }, htmlStart := 6 },
   { Name := "c".toList, Attributes := [], Children := [],
     InnerHtml := [], InnerContent := [], IsSelfClosing := true,
     Pos := { Line := 1, Column := 7 }, htmlStart := 10 },
   rfl, rfl, rfl, rfl, rfl, (C6_clone_down _ 1 (by decide)).1 (by decide)⟩

/-- C7: in every tree that `ParseHtml`, with no handler registered, returns, a
self-closing node has no children.  The proof is by the invariant `Inv` of the loop:
the nodes on the chain of `current`, which are the nodes whose names are on the
stack, are not self-closing, and nodes are attached to those only. -/
theorem C7_self_closing_has_no_children (html : Str) (roots : List HtmlTag)
    (h : ParseHtml NewHtmlParser html = .ok roots) :
    ∀ t ∈ roots, ∀ n ∈ t.nodes, n.IsSelfClosing = true → n.Children = [] :=
  ParseHtml_allNodes selfClosing_nodeLaw html roots h

/-- C7 at `<a><b><c/></b></a>`. -/
theorem C7_self_closing_has_no_children_witness :
    ∃ roots, ParseHtml NewHtmlParser "<a><b><c/></b></a>".toList = .ok roots
      ∧ ∀ t ∈ roots, ∀ n ∈ t.nodes, n.IsSelfClosing = true → n.Children = [] :=
  ⟨_, rfl, C7_self_closing_has_no_children "<a><b><c/></b></a>".toList _ rfl⟩

/-- C8: the unclosed tag error of `ParseHtml` is the text `unclosed tag 'a'` with no
line and column, whereas the error for the tag left open in `<a` ends in `1:3`. -/
theorem C8_unclosed_tag_has_no_location :
    ParseHtml NewHtmlParser "<a>".toList = .error "Html parsing error: unclosed tag 'a'".toList
    ∧ ParseHtml NewHtmlParser "<a".toList = .error "expected '>' at 1:3".toList :=
  ⟨rfl, rfl⟩

/-- C9: where the loop of `ParseHtml` leaves off (only white space is ahead), the
function returns the unclosed tag error that names the top of the stack when the
stack is not empty, and the root sequence otherwise; and for plain tag names `a` and
`b`, `ParseHtml` applied to `<a><b>` returns the error that names `b`. -/
theorem C9_unclosed_tag_at_end :
    (∀ (parser : DefaultHtmlParser) (fuel : Nat) (st : ParseState),
        st.scanner.SkipWhitespace.EOF = true →
        parseLoop parser (fuel + 1) st
          = match st.closeStack with
            | unclosed :: _ =>
              .error ("Html parsing error: unclosed tag '".toList ++ unclosed ++ "'".toList)
            | [] => .ok st.rootsView)
    ∧ (∀ a b : Str, PlainName a → PlainName b →
        ParseHtml NewHtmlParser ("<".toList ++ a ++ "><".toList ++ b ++ ">".toList)
          = .error ("Html parsing error: unclosed tag '".toList ++ b ++ "'".toList)) :=
  ⟨fun parser fuel st h => by
      rw [parseLoop_at_end parser fuel st h]
      rfl,
    fun a b ha hb => ParseHtml_unclosed a b ha hb⟩

/-- C9 at `<div><span>`: the error names `span`; and at the end of `<br/>`, where
the stack is empty: the root sequence is returned. -/
theorem C9_unclosed_tag_at_end_witness :
    ParseHtml NewHtmlParser "<div><span>".toList
      = .error "Html parsing error: unclosed tag 'span'".toList
    ∧ parseLoop NewHtmlParser 5
        ⟨⟨"<br/>".toList, 5, 1, 6⟩, [], [⟨"br".toList, [], [], [], [], true, ⟨1, 1, 0⟩, 5⟩], []⟩
      = .ok [⟨"br".toList, [], [], [], [], true, ⟨1, 1, 0⟩, 5⟩] :=
  ⟨C9_unclosed_tag_at_end.2 "div".toList "span".toList (by decide) (by decide),
    C9_unclosed_tag_at_end.1 NewHtmlParser 4
      ⟨⟨"<br/>".toList, 5, 1, 6⟩, [],
        [⟨"br".toList, [], [], [], [], true, ⟨1, 1, 0⟩, 5⟩], []⟩ rfl⟩

/-- C10: at `</`, after any white space, with an empty stack, the loop of
`ParseHtml` returns no nodes but the superfluous closing tag error with the location
of the `<`; so do `ParseHtml` applied to `</n>`, at `1:1`, and, for a plain tag
name `n`, `ParseHtml` applied to `<n></n></n>`, at the second `</`. -/
theorem C10_superfluous_closing_tag :
    (∀ (parser : DefaultHtmlParser) (fuel : Nat) (st : ParseState) (r : Str),
        st.closeStack = [] → st.scanner.SkipWhitespace.rest = '<' :: '/' :: r →
        parseLoop parser (fuel + 1) st
          = .error ("Html parsing error: superfluous closing tag at ".toList
              ++ st.scanner.SkipWhitespace.Location))
    ∧ (∀ n : Str, ParseHtml NewHtmlParser ("</".toList ++ n ++ ">".toList)
          = .error "Html parsing error: superfluous closing tag at 1:1".toList)
    ∧ (∀ n : Str, PlainName n →
        ParseHtml NewHtmlParser
            ("<".toList ++ n ++ "></".toList ++ n ++ "></".toList ++ n ++ ">".toList)
          = .error ("Html parsing error: superfluous closing tag at 1:".toList
              ++ fmtInt (2 * n.length + 6))) :=
  ⟨fun parser fuel st r hstk hrest => parseLoop_superfluous parser fuel st r hstk hrest,
    fun n => ParseHtml_superfluous_alone n,
    fun n hn => by
      rw [ParseHtml_superfluous_after n hn]
      simp [superfluousMsg]⟩

/-- C10 at `</p>` and at `<p></p></p>`. -/
theorem C10_superfluous_closing_tag_witness :
    ParseHtml NewHtmlParser "</p>".toList
      = .error "Html parsing error: superfluous closing tag at 1:1".toList
    ∧ ParseHtml NewHtmlParser "<p></p></p>".toList
      = .error "Html parsing error: superfluous closing tag at 1:8".toList :=
  ⟨C10_superfluous_closing_tag.2.1 "p".toList,
    C10_superfluous_closing_tag.2.2 "p".toList (by decide)⟩

end HtmlParser


namespace HtmlParser

open Scanner

/-! ## The claims on errors, clones, the serializer and the loop -/

/-- C11: `ParseHtml` applied to `ab`, a newline and `<p` fails, and the error it
returns names line 2 (column 3, the end of input, where the `>` is missing). -/
theorem C11_error_location_line_2 :
    ParseHtml NewHtmlParser "ab\n<p".toList = .error "expected '>' at 2:3".toList :=
  rfl

/-- C12: for a node `t` whose attributes are a Go map (no key twice) that holds
each attribute under its name, `renderTag` writes `<name`, then the attributes of `t` in
ascending order of their names, each as ` name="value"` when `IsValueExist` is set
and as ` name` otherwise, then `/>` and nothing else when the node is self-closing,
and else `>`, the inner text, the rendering of each child in order, and `</name>`;
the rendering does not depend on the order in which the map holds the attributes;
and `RenderHtml` of a sequence is the concatenation of the renderings of its
nodes. -/
theorem C12_serializer_format (t : HtmlTag) (hmap : (t.Attributes.map Prod.fst).Nodup)
    (hname : ∀ kv ∈ t.Attributes, kv.2.Name = kv.1) :
    (∃ as : List HtmlAttribute, as.Perm (t.Attributes.map Prod.snd)
      ∧ Ascending (as.map (fun a => a.Name))
      ∧ renderTag t = "<".toList ++ t.Name ++ (as.map renderAttr).flatten
          ++ (if t.IsSelfClosing = true then "/>".toList
              else ">".toList ++ t.InnerContent ++ (t.Children.map renderTag).flatten
                ++ "</".toList ++ t.Name ++ ">".toList))
    ∧ (∀ a : HtmlAttribute, renderAttr a
        = if a.IsValueExist = true then
            " ".toList ++ a.Name ++ "=\"".toList ++ a.Value ++ "\"".toList
          else " ".toList ++ a.Name)
    ∧ (∀ attrs1 : List (Str × HtmlAttribute), attrs1.Perm t.Attributes →
        renderTag { t with Attributes := attrs1 } = renderTag t)
    ∧ (∀ ts : List HtmlTag, RenderHtml ts = (ts.map renderTag).flatten) :=
  serializer_format t hmap hname

/-- C12 at a node `p` with the attributes `b="1"` and `a`, put in the map in that
order, the inner text `x` and a self-closing child `br` that has inner markup: the
rendering is `<p a b="1">x<br/></p>`. -/
theorem C12_serializer_format_witness :
    RenderHtml [⟨"p".toList, [("b".toList, ⟨"b".toList, "1".toList, true⟩),
        ("a".toList, ⟨"a".toList, [], false⟩)],
        [⟨"br".toList, [], [], "m".toList, [], true, ⟨1, 1, 0⟩, 0⟩], "i".toList, "x".toList,
        false, ⟨1, 1, 0⟩, 0⟩]
      = "<p a b=\"1\">x<br/></p>".toList
    ∧ ∀ ts : List HtmlTag, RenderHtml ts = (ts.map renderTag).flatten :=
  ⟨rfl, (C12_serializer_format ⟨"p".toList, [("b".toList, ⟨"b".toList, "1".toList, true⟩),
        ("a".toList, ⟨"a".toList, [], false⟩)],
        [⟨"br".toList, [], [], "m".toList, [], true, ⟨1, 1, 0⟩, 0⟩], "i".toList, "x".toList,
        false, ⟨1, 1, 0⟩, 0⟩ (by decide) (by decide)).2.2.2⟩

/-- C13: for a node `t` with the chain of ancestors `parents`, `p` of them (the
attribute maps of `t` and of its ancestors hold no key twice), and a depth `k` that is
not negative, `CloneUp` fails, with the error that `maxDepth` exceeds the available
parents, exactly when `p < k` and the depth limit is not ignored; otherwise, with
`d = min k p`, it returns for `d = 0` a copy of `t` alone, without children, and for
`1 ≤ d` the tree that `CloneDown` with depth `d` returns on the `d`-th ancestor of
`t`, which is a copy of that ancestor cut at depth `d` (its nodes down to depth `d`,
with their names, attributes, inner text, inner markup and flags, and no node below),
so that, `t` being a child of its parent and so on up the chain, the copy has at depth
`d` a copy of `t` without children. -/
theorem C13_clone_up (t : HtmlTag) (parents : List HtmlTag) (k : Nat) (ignore : Bool)
    (hk : t.KeysUnique) (hp : ∀ a ∈ parents, a.KeysUnique) :
    ((∃ msg, t.CloneUp parents k ignore = .error msg) ↔ (parents.length < k ∧ ignore = false))
    ∧ (parents.length < k ∧ ignore = false →
        t.CloneUp parents k ignore
          = .error ("Html tags clone up error: maxDepth ".toList ++ fmtIntZ k
              ++ " exceeds available parents".toList))
    ∧ (¬ (parents.length < k ∧ ignore = false) →
        (min k parents.length = 0 →
          ∃ c, t.CloneUp parents k ignore = .ok c ∧ CopyToDepth t 0 c)
        ∧ (1 ≤ min k parents.length →
            ∃ a c, parents[min k parents.length - 1]? = some a
              ∧ a.CloneDown (min k parents.length : Nat) = .ok c
              ∧ t.CloneUp parents k ignore = .ok c
              ∧ CopyToDepth a (min k parents.length) c
              ∧ (AncestorChain t parents →
                  ∃ tc ∈ c.level (min k parents.length), CopyToDepth t 0 tc))) :=
  CloneUp_contract t parents k ignore hk hp

/-- C13 at the node `c` of `<a><b><c/></b></a>`, whose ancestors are `b` and `a`:
with depth 5 and the limit not ignored `CloneUp` fails; with depth 2 it returns the
copy of `a` with `b` and `c` in it, with depth 1 the copy of `b` with `c` in it, and
with depth 0 the copy of `c`; and with depth 1 on `b`, the copy of `a` with `b` in it
and without `c`. -/
theorem C13_clone_up_witness :
    ParseHtml NewHtmlParser "<a><b><c/></b></a>".toList = .ok [sampleRoot]
    ∧ sampleLeaf.KeysUnique
    ∧ (∀ a ∈ [sampleInner, sampleRoot], a.KeysUnique)
    ∧ AncestorChain sampleLeaf [sampleInner, sampleRoot]
    ∧ sampleLeaf.CloneUp [sampleInner, sampleRoot] 5 false
        = .error "Html tags clone up error: maxDepth 5 exceeds available parents".toList
    ∧ sampleLeaf.CloneUp [sampleInner, sampleRoot] 2 false = .ok sampleRoot
    ∧ sampleLeaf.CloneUp [sampleInner, sampleRoot] 1 false = .ok sampleInner
    ∧ sampleLeaf.CloneUp [sampleInner, sampleRoot] 0 false = .ok sampleLeaf
    ∧ sampleInner.CloneUp [sampleRoot] 1 false
        = .ok { sampleRoot with Children := [{ sampleInner with Children := [] }] } :=
  ⟨rfl, by decide, by decide, by simp [AncestorChain, sampleRoot, sampleInner],
    (C13_clone_up sampleLeaf [sampleInner, sampleRoot] 5 false (by decide) (by decide)).2.1
      ⟨by decide, rfl⟩,
    rfl, rfl, rfl, rfl⟩

/-- C14: for a parent `t` and a child `child` that are not nil, in any heap: when the
child is among the children of the parent, `RemoveChild` leaves the parent with its
children less the first entry that is the child (the others in their order, one
fewer), clears the `Parent` of the child, and leaves every other `Parent` and the
children of every other node as they are; when the child is not among them, the heap
stays as it is; and the name, the attributes, the inner text and the inner markup of
the parent stay as they are in both cases. -/
theorem C14_remove_child (h : Heap) (t child : Nat) :
    (some child ∈ (h t).Children →
      (RemoveChild h (some t) (some child) t).Children = (h t).Children.erase (some child)
      ∧ (RemoveChild h (some t) (some child) t).Children.length + 1 = (h t).Children.length
      ∧ (RemoveChild h (some t) (some child) child).Parent = none
      ∧ (∀ x, x ≠ child → (RemoveChild h (some t) (some child) x).Parent = (h x).Parent)
      ∧ (∀ x, x ≠ t → (RemoveChild h (some t) (some child) x).Children = (h x).Children))
    ∧ (some child ∉ (h t).Children → RemoveChild h (some t) (some child) = h)
    ∧ (RemoveChild h (some t) (some child) t).Name = (h t).Name
    ∧ (RemoveChild h (some t) (some child) t).Attributes = (h t).Attributes
    ∧ (RemoveChild h (some t) (some child) t).InnerContent = (h t).InnerContent
    ∧ (RemoveChild h (some t) (some child) t).InnerHtml = (h t).InnerHtml :=
  RemoveChild_contract h t child

/-- C15: for `name` one of `style` and `script` and a body that does not contain
`</name>`, `ParseHtml` applied to `<name>body`, with no closing tag before the end of
input, returns no error but one root, named `name`, self-closing, with the body as its
inner markup; whereas for a plain tag name `n` and a text without `<`, `ParseHtml`
applied to `<n>text` fails with the unclosed tag error for `n`. -/
theorem C15_raw_text_at_end_of_input (name body n text : Str)
    (hname : name = "style".toList ∨ name = "script".toList)
    (hbody : ¬ ("</".toList ++ name ++ ">".toList) <:+: body)
    (hn : PlainName n) (htext : ∀ x ∈ text, x ≠ '<') :
    ParseHtml NewHtmlParser ("<".toList ++ name ++ ">".toList ++ body)
      = .ok [{ Name := name, Attributes := [], Children := [], InnerHtml := body,
               InnerContent := [], IsSelfClosing := true, Pos := { Line := 1, Column := 1 },
               htmlStart := 0 }]
    ∧ ParseHtml NewHtmlParser ("<".toList ++ n ++ ">".toList ++ text)
      = .error ("Html parsing error: unclosed tag '".toList ++ n ++ "'".toList) :=
  ⟨ParseHtml_raw_eof name body hname hbody, ParseHtml_plain_text n text hn htext⟩

/-- C15 at `<style>a<b` and at `<p>abc`. -/
theorem C15_raw_text_at_end_of_input_witness :
    ¬ "</style>".toList <:+: "a<b".toList ∧ PlainName "p".toList
    ∧ ParseHtml NewHtmlParser "<style>a<b".toList
      = .ok [{ Name := "style".toList, Attributes := [], Children := [],
               InnerHtml := "a<b".toList, InnerContent := [], IsSelfClosing := true,
               Pos := { Line := 1, Column := 1 }, htmlStart := 0 }]
    ∧ ParseHtml NewHtmlParser "<p>abc".toList
      = .error "Html parsing error: unclosed tag 'p'".toList :=
  ⟨by decide, by decide,
    C15_raw_text_at_end_of_input "style".toList "a<b".toList "p".toList "abc".toList
      (Or.inl rfl) (by decide) (by decide) (by decide)⟩

/-- C16: at the head of the loop of `ParseHtml`, with no handler registered, after
any number of iterations: the stack is empty exactly when `current` is nil; the
stack, read from the bottom to the top, is the list of the names of the nodes from
the root down to the node `current` points to, so that its top is the name of that
node; the iteration that follows does not move up from a nil `current`; and
`ParseHtml` never does. -/
theorem C16_stack_consistency (html : Str) (k : Nat) (st : ParseState)
    (h : loopState NewHtmlParser html k = some st) :
    (st.closeStack = [] ↔ st.current = [])
    ∧ st.closeStack.reverse = st.current.reverse.map (fun c => c.Name)
    ∧ st.closeStack.head? = st.current.head?.map (fun c => c.Name)
    ∧ step NewHtmlParser st ≠ .nilDeref
    ∧ ParseHtml NewHtmlParser html ≠ .nilDeref :=
  stack_consistency html k st h

/-- C16 at `<a><b>x` after two iterations: the stack holds `b` above `a`, and
`current` is the node `b`, whose parent is the node `a`. -/
theorem C16_stack_consistency_witness :
    loopState NewHtmlParser "<a><b>x".toList 2
      = some ⟨⟨"<a><b>x".toList, 6, 1, 7⟩, ["b".toList, "a".toList], [],
          [⟨"b".toList, [], [], [], [], false, ⟨1, 4, 0⟩, 6⟩,
            ⟨"a".toList, [], [], [], [], false, ⟨1, 1, 0⟩, 3⟩]⟩
    ∧ ParseHtml NewHtmlParser "<a><b>x".toList ≠ .nilDeref :=
  ⟨rfl, (C16_stack_consistency "<a><b>x".toList 2
    ⟨⟨"<a><b>x".toList, 6, 1, 7⟩, ["b".toList, "a".toList], [],
      [⟨"b".toList, [], [], [], [], false, ⟨1, 4, 0⟩, 6⟩,
        ⟨"a".toList, [], [], [], [], false, ⟨1, 1, 0⟩, 3⟩]⟩ rfl).2.2.2.2⟩

/-- C17: for every input on which `ParseHtml`, with no handler registered, succeeds,
the input is a sequence of pieces that follow one another (`Item.ReadAsList`): text
runs, each all of the text up to the next `<`; comments and doctype declarations; tags
that `parsingOpenTag` reads and that make a self-closing node; and elements, made of
an opening tag that `parsingOpenTag` reads, pieces as content, and the closing tag
that `parseClosingTag` reads after the content and that names the node.  The result
is these pieces read back, and no other tree is a read-back of pieces of the input.
So every node of the result that is not self-closing is the node of an element, its
`htmlStart` is the offset just after its opening tag, and its inner markup is the
trimmed text of the content of the element, which is the text between its opening tag
and the `</` of its own closing tag (the empty text when nothing lies between
them). -/
theorem C17_inner_markup_backfill (html : Str) (roots : List HtmlTag)
    (h : ParseHtml NewHtmlParser html = .ok roots) :
    (∃ items : List Item, Item.sourceList items = html ∧ Item.ReadAsList html 0 items roots)
    ∧ (∀ (items : List Item) (roots1 : List HtmlTag), Item.sourceList items = html →
        Item.ReadAsList html 0 items roots1 → roots1 = roots)
    ∧ ∀ r ∈ roots, ∀ n ∈ r.nodes, n.IsSelfClosing = false →
        ∃ (o : Nat) (opening : Str) (content : List Item) (closing : Str),
          Item.ReadAs html o (.elem opening content closing) n
          ∧ n.htmlStart = o + opening.length
          ∧ "</".toList <+: closing
          ∧ n.InnerHtml = TrimSpace (Item.sourceList content) :=
  innerMarkup_pieces html roots h

/-- C17 at `<div> <p>x</p> </div>`: the inner markup of `div` is `<p>x</p>` and
that of `p` is `x`, and this tree is the only read-back of pieces of the input. -/
theorem C17_inner_markup_backfill_witness :
    ParseHtml NewHtmlParser "<div> <p>x</p> </div>".toList
      = .ok [⟨"div".toList, [],
          [⟨"p".toList, [], [], "x".toList, "x".toList, false, ⟨1, 7, 0⟩, 9⟩],
          "<p>x</p>".toList, [], false, ⟨1, 1, 0⟩, 5⟩]
    ∧ (∃ items : List Item, Item.sourceList items = "<div> <p>x</p> </div>".toList
        ∧ Item.ReadAsList "<div> <p>x</p> </div>".toList 0 items [⟨"div".toList, [],
          [⟨"p".toList, [], [], "x".toList, "x".toList, false, ⟨1, 7, 0⟩, 9⟩],
          "<p>x</p>".toList, [], false, ⟨1, 1, 0⟩, 5⟩])
    ∧ (∀ (items : List Item) (roots1 : List HtmlTag),
        Item.sourceList items = "<div> <p>x</p> </div>".toList →
        Item.ReadAsList "<div> <p>x</p> </div>".toList 0 items roots1 →
        roots1 = [⟨"div".toList, [],
          [⟨"p".toList, [], [], "x".toList, "x".toList, false, ⟨1, 7, 0⟩, 9⟩],
          "<p>x</p>".toList, [], false, ⟨1, 1, 0⟩, 5⟩]) :=
  ⟨rfl, (C17_inner_markup_backfill "<div> <p>x</p> </div>".toList [⟨"div".toList, [],
          [⟨"p".toList, [], [], "x".toList, "x".toList, false, ⟨1, 7, 0⟩, 9⟩],
          "<p>x</p>".toList, [], false, ⟨1, 1, 0⟩, 5⟩] rfl).1,
    (C17_inner_markup_backfill "<div> <p>x</p> </div>".toList [⟨"div".toList, [],
          [⟨"p".toList, [], [], "x".toList, "x".toList, false, ⟨1, 7, 0⟩, 9⟩],
          "<p>x</p>".toList, [], false, ⟨1, 1, 0⟩, 5⟩] rfl).2.1⟩

/-- C18: for every input on which `ParseHtml`, with no handler registered, succeeds,
the input is a sequence of pieces that follow one another (`Item.ReadAsList`): text
runs, each all of the text up to the next `<` or the end of the input; comments and
doctype declarations; tags that make a self-closing node on their own (a self-closing
tag, a `style` or `script` element with its body); and elements made of an opening
tag, pieces as content and a closing tag.  The roots are, in order, the pieces at the
top that make a node, read back, so that the text runs outside any element are
dropped, and no other tree is a read-back of pieces of the input.  Every node of the
result is a self-closing node without inner text, or the node of an element, whose
inner text is the text runs that lie directly in the content of the element, each
trimmed, in source order and with no separator (a run that trims to nothing adds
nothing). -/
theorem C18_inner_text_accumulation (html : Str) (roots : List HtmlTag)
    (h : ParseHtml NewHtmlParser html = .ok roots) :
    (∃ items : List Item, Item.sourceList items = html ∧ Item.ReadAsList html 0 items roots)
    ∧ (∀ (items : List Item) (roots1 : List HtmlTag), Item.sourceList items = html →
        Item.ReadAsList html 0 items roots1 → roots1 = roots)
    ∧ ∀ r ∈ roots, ∀ n ∈ r.nodes,
        (n.IsSelfClosing = true ∧ n.InnerContent = []
          ∧ ∃ (o : Nat) (m : Str), Item.ReadAs html o (.leaf m) n)
        ∨ (n.IsSelfClosing = false
          ∧ ∃ (o : Nat) (opening : Str) (content : List Item) (closing : Str),
            Item.ReadAs html o (.elem opening content closing) n
            ∧ n.InnerContent = Item.directText content) :=
  innerText_pieces html roots h

/-- C18 at `<p>a <b>x</b> c</p>`: the root `p` has the inner text `ac` and one child
`b` with the inner text `x`, and this tree is the only read-back of pieces of the
input. -/
theorem C18_inner_text_accumulation_witness :
    ParseHtml NewHtmlParser "<p>a <b>x</b> c</p>".toList
      = .ok [⟨"p".toList, [], [⟨"b".toList, [], [], "x".toList, "x".toList, false, ⟨1, 6, 0⟩, 8⟩],
          "a <b>x</b> c".toList, "ac".toList, false, ⟨1, 1, 0⟩, 3⟩]
    ∧ (∃ items : List Item, Item.sourceList items = "<p>a <b>x</b> c</p>".toList
        ∧ Item.ReadAsList "<p>a <b>x</b> c</p>".toList 0 items [⟨"p".toList, [], [⟨"b".toList, [], [], "x".toList, "x".toList, false, ⟨1, 6, 0⟩, 8⟩],
          "a <b>x</b> c".toList, "ac".toList, false, ⟨1, 1, 0⟩, 3⟩])
    ∧ (∀ (items : List Item) (roots1 : List HtmlTag),
        Item.sourceList items = "<p>a <b>x</b> c</p>".toList →
        Item.ReadAsList "<p>a <b>x</b> c</p>".toList 0 items roots1 →
        roots1 = [⟨"p".toList, [], [⟨"b".toList, [], [], "x".toList, "x".toList, false, ⟨1, 6, 0⟩, 8⟩],
          "a <b>x</b> c".toList, "ac".toList, false, ⟨1, 1, 0⟩, 3⟩]) :=
  ⟨rfl, (C18_inner_text_accumulation "<p>a <b>x</b> c</p>".toList [⟨"p".toList, [], [⟨"b".toList, [], [], "x".toList, "x".toList, false, ⟨1, 6, 0⟩, 8⟩],
          "a <b>x</b> c".toList, "ac".toList, false, ⟨1, 1, 0⟩, 3⟩] rfl).1,
    (C18_inner_text_accumulation "<p>a <b>x</b> c</p>".toList [⟨"p".toList, [], [⟨"b".toList, [], [], "x".toList, "x".toList, false, ⟨1, 6, 0⟩, 8⟩],
          "a <b>x</b> c".toList, "ac".toList, false, ⟨1, 1, 0⟩, 3⟩] rfl).2.1⟩

/-- C19: only the exact literal `<!DOCTYPE` is taken for a doctype declaration.  For
every parser and every state of the loop: when the text ahead (after white space)
starts with `<!DOCTYPE`, the iteration consumes it up to and including the next `>`
and leaves the tree and the stack as they are (or fails, the declaration being
unclosed); when it starts with a `<` that is followed neither by `!--` nor by the
literal `!DOCTYPE` nor by `/`, in particular when it starts with `<!doctype` in lower
case, the iteration reads it with `parsingOpenTag` as an opening tag and attaches the
node.  So `ParseHtml` applied to `<!doctype html><p>x</p>` does not return the root
`p` but the unclosed tag error for `!doctype`: `parsingOpenTag` reads
`<!doctype html>` as the opening tag of a node named `!doctype`, not self-closing, with
the attribute `html`, which is never closed; whereas `<!DOCTYPE html><p>x</p>` gives
the one root `p`. -/
theorem C19_doctype_is_case_sensitive :
    (∀ (parser : DefaultHtmlParser) (st : ParseState) (tl : Str),
      st.scanner.SkipWhitespace.rest = "<!DOCTYPE".toList ++ tl →
      step parser st
        = if ((st.scanner.SkipWhitespace.ConsumeUntil (isRune '>')).Match '>').1 = true then
            .next { st with scanner :=
              ((st.scanner.SkipWhitespace.ConsumeUntil (isRune '>')).Match '>').2 }
          else
            .fail ("Html parsing error: unclosed DOCTYPE at ".toList
              ++ ((st.scanner.SkipWhitespace.ConsumeUntil (isRune '>')).Match '>').2.Location))
    ∧ (∀ (parser : DefaultHtmlParser) (st : ParseState) (tl : Str),
      st.scanner.SkipWhitespace.rest = '<' :: tl →
      ¬ "!--".toList <+: tl → ¬ "!DOCTYPE".toList <+: tl → tl.head? ≠ some '/' →
      step parser st
        = match parsingOpenTag parser st.scanner.SkipWhitespace with
          | .error msg => .fail msg
          | .nilDeref => .nilDeref
          | .outOfFuel => .outOfFuel
          | .ok (tag, sc1) =>
            if tag.IsSelfClosing then
              .next { scanner := sc1, closeStack := st.closeStack,
                      roots := (attach tag st.current st.roots).2,
                      current := (attach tag st.current st.roots).1 }
            else
              .next { scanner := sc1, closeStack := tag.Name :: st.closeStack,
                      roots := st.roots, current := tag :: st.current })
    ∧ (∀ (parser : DefaultHtmlParser) (st : ParseState) (tl : Str),
      st.scanner.SkipWhitespace.rest = "<!doctype".toList ++ tl →
      step parser st
        = match parsingOpenTag parser st.scanner.SkipWhitespace with
          | .error msg => .fail msg
          | .nilDeref => .nilDeref
          | .outOfFuel => .outOfFuel
          | .ok (tag, sc1) =>
            if tag.IsSelfClosing then
              .next { scanner := sc1, closeStack := st.closeStack,
                      roots := (attach tag st.current st.roots).2,
                      current := (attach tag st.current st.roots).1 }
            else
              .next { scanner := sc1, closeStack := tag.Name :: st.closeStack,
                      roots := st.roots, current := tag :: st.current })
    ∧ ParseHtml NewHtmlParser "<!doctype html><p>x</p>".toList
      = .error "Html parsing error: unclosed tag '!doctype'".toList
    ∧ parsingOpenTag NewHtmlParser (Scanner.New "<!doctype html><p>x</p>".toList)
      = .ok (⟨"!doctype".toList, [("html".toList, ⟨"html".toList, [], false⟩)], [], [], [],
          false, ⟨1, 1, 0⟩, 15⟩, ⟨"<!doctype html><p>x</p>".toList, 15, 1, 16⟩)
    ∧ ParseHtml NewHtmlParser "<!DOCTYPE html><p>x</p>".toList
      = .ok [⟨"p".toList, [], [], "x".toList, "x".toList, false, ⟨1, 16, 0⟩, 18⟩] :=
  ⟨doctype_case_sensitive.1, doctype_case_sensitive.2.1, doctype_case_sensitive.2.2,
    rfl, rfl, rfl⟩

/-- C20: with no handler registered, `ParseHtml` returns nodes or an error on every
input: the loop ends within as many iterations as the input has runes (and one more
for the test that ends it), so that more iterations change nothing; every iteration
that goes on to the next one has moved the scanner forward by at least one rune,
within the input; so has every iteration of the attribute loop (a call of
`parseAttribute` that returns an attribute) and of the loop over the rest of a
`style` or `script` tag (a `Take` before the end of input); and these two loops end
within as many iterations as the buffer has runes. -/
theorem C20_termination_by_progress (html : Str) :
    ((∃ roots, ParseHtml NewHtmlParser html = .ok roots)
      ∨ ∃ msg, ParseHtml NewHtmlParser html = .error msg)
    ∧ (∀ fuel, html.length < fuel →
        parseLoop NewHtmlParser fuel (initState html) = ParseHtml NewHtmlParser html)
    ∧ (∀ st st1 : ParseState, st.scanner.pos ≤ st.scanner.src.length →
        step NewHtmlParser st = .next st1 →
        st.scanner.pos < st1.scanner.pos ∧ st1.scanner.pos ≤ st1.scanner.src.length
          ∧ st1.scanner.src = st.scanner.src)
    ∧ (∀ (s s1 : Scanner) (attr : HtmlAttribute), s.pos ≤ s.src.length →
        parseAttribute s = .ok (attr, s1) → s.pos < s1.pos ∧ s1.pos ≤ s1.src.length)
    ∧ (∀ s : Scanner, s.pos ≤ s.src.length → s.EOF = false →
        s.pos < s.Take.pos ∧ s.Take.pos ≤ s.Take.src.length)
    ∧ (∀ (s : Scanner) (attrs : List (Str × HtmlAttribute)), s.pos ≤ s.src.length →
        attributeLoop (s.Len + 1) s attrs ≠ .outOfFuel)
    ∧ (∀ s : Scanner, s.pos ≤ s.src.length →
        ¬ ((skipToTagEnd s.Len s).Current ≠ '>' ∧ (skipToTagEnd s.Len s).EOF = false)) :=
  termination_by_progress html

end HtmlParser
